import Mathlib

/-!
Verification development for the triangular-lattice spin model
(`hamiltonians/triangular_lattice_model.py`).

The Python source is shallowly embedded: product states are natural
numbers, the translation operators are exact integer arithmetic, the
Bloch-orbit construction is a fold over the state space mirroring the
sieve in `zero_momentum_states`, momentum-sector norms use exact real
and complex arithmetic in place of floating point, and the geometry
provider (which lives outside the repository) is modelled from the
specification.
-/

namespace Spinsys

/-! ## Bit-state codec (`translate_x`, `translate_y` and helpers) -/

/-- Embedding of `translate_x`.  The source computes, with numpy arrays
over `n = r*Nx` for `r < Ny`: `s = dec % 2^(n+Nx) // 2^n`,
`s = (s*2) % 2^Nx + s // 2^(Nx-1)`, and returns `sum_r 2^n * s_r`. -/
def translate_x (dec Nx Ny : ℕ) : ℕ :=
  ∑ r ∈ Finset.range Ny,
    2 ^ (r * Nx) *
      ((((dec % 2 ^ (r * Nx + Nx)) / 2 ^ (r * Nx)) * 2) % 2 ^ Nx
        + ((dec % 2 ^ (r * Nx + Nx)) / 2 ^ (r * Nx)) / 2 ^ (Nx - 1))

/-- Embedding of `translate_y`:
`tail = dec % 2^Nx; dec // 2^Nx + tail * 2^(Nx*(Ny-1))`. -/
def translate_y (dec Nx Ny : ℕ) : ℕ :=
  dec / 2 ^ Nx + (dec % 2 ^ Nx) * 2 ^ (Nx * (Ny - 1))

/-- One-step cyclic rotation of an `Nx`-bit row, as computed inside
`translate_x`: `(s*2) % 2^Nx + s // 2^(Nx-1)`. -/
def rot (Nx s : ℕ) : ℕ := (s * 2) % 2 ^ Nx + s / 2 ^ (Nx - 1)

/-- Row `r` (an `Nx`-bit word) of the product state `dec`. -/
def toRow (Nx dec r : ℕ) : ℕ := dec / 2 ^ (r * Nx) % 2 ^ Nx

/-- Reassemble a state from its rows. -/
def ofRows (Nx Ny : ℕ) (f : ℕ → ℕ) : ℕ :=
  ∑ r ∈ Finset.range Ny, 2 ^ (r * Nx) * f r

/-- Number of set bits of a natural number (the total magnetization of
the encoded product state). -/
def popcount : ℕ → ℕ
  | 0 => 0
  | n + 1 => popcount ((n + 1) / 2) + (n + 1) % 2
decreasing_by exact Nat.div_lt_self (Nat.succ_pos n) one_lt_two

/-- `translate_x` as a self-map of the state space (arguments fixed). -/
def tx (Nx Ny : ℕ) : ℕ → ℕ := fun dec => translate_x dec Nx Ny

/-- `translate_y` as a self-map of the state space (arguments fixed). -/
def ty (Nx Ny : ℕ) : ℕ → ℕ := fun dec => translate_y dec Nx Ny

/-- Embedding of the `BlochFunc` record.  `visits` records the sweep of
`find_T_invariant_set` in visit order: an entry `(dec, n, m)` says that
state `dec` was reached at translation offsets `(row n, col m)`.  The
`decs` dictionary of the source is recovered by `keys` (its key set, in
order of first visit) and `positions` (the position list of one key). -/
structure BlochFunc where
  lead : ℕ
  visits : List (ℕ × ℕ × ℕ)
deriving DecidableEq

/-- Whether `d` is a key of the orbit's `decs` dictionary. -/
def BlochFunc.hasDec (o : BlochFunc) (d : ℕ) : Bool :=
  o.visits.any fun v => v.1 == d

/-- The key set of the orbit's `decs` dictionary (each key once). -/
def BlochFunc.keys (o : BlochFunc) : List ℕ :=
  (o.visits.map fun v => v.1).dedup

/-- The `(row, col)` position list stored under key `d`. -/
def BlochFunc.positions (o : BlochFunc) (d : ℕ) : List (ℕ × ℕ) :=
  (o.visits.filter fun v => v.1 == d).map fun v => v.2

/-- State at the start of sweep row `n`: after each inner loop of
`find_T_invariant_set` the state has been x-translated `Nx` times, and
is then y-translated once. -/
def rowStart (Nx Ny dec : ℕ) : ℕ → ℕ
  | 0 => dec
  | n + 1 => ty Nx Ny ((tx Nx Ny)^[Nx] (rowStart Nx Ny dec n))

/-- Embedding of `find_T_invariant_set`: the `Ny × Nx` double-translation
sweep starting from the leading state `dec`. -/
def find_T_invariant_set (Nx Ny dec : ℕ) : BlochFunc where
  lead := dec
  visits := (List.range Ny).bind fun n =>
    (List.range Nx).map fun m => ((tx Nx Ny)^[m] (rowStart Nx Ny dec n), n, m)

/-- A state is claimed when some existing orbit already visited it (the
`sieve` array of the source, expressed through the orbits built so far). -/
def claimedB (os : List BlochFunc) (d : ℕ) : Bool :=
  os.any fun o => o.hasDec d

/-- One iteration of the sieve loop of `zero_momentum_states`: skip a
claimed state, otherwise append the orbit generated from it. -/
def zmsStep (Nx Ny : ℕ) (os : List BlochFunc) (dec : ℕ) : List BlochFunc :=
  if claimedB os dec then os else os ++ [find_T_invariant_set Nx Ny dec]

/-- The sieve loop of `zero_momentum_states` run over `dec = 0 .. T-1`. -/
def zmsAux (Nx Ny T : ℕ) : List BlochFunc :=
  (List.range T).foldl (zmsStep Nx Ny) []

/-- Ordering of orbits by leading state, used by `table.sort()`. -/
def leadLE (a b : BlochFunc) : Prop := a.lead ≤ b.lead

instance : DecidableRel leadLE := fun a b => Nat.decLe a.lead b.lead

instance : IsTotal BlochFunc leadLE := ⟨fun a b => Nat.le_total a.lead b.lead⟩

instance : IsTrans BlochFunc leadLE := ⟨fun _ _ _ => Nat.le_trans⟩

/-- Embedding of `zero_momentum_states`: the sieve loop over the full
state space followed by the final `table.sort()`, a stable sort by
leading state. -/
def zero_momentum_states (Nx Ny : ℕ) : List BlochFunc :=
  List.insertionSort leadLE (zmsAux Nx Ny (2 ^ (Nx * Ny)))

/-- Two states are related when some combination of x- and y-translations
maps one to the other. -/
def TransRel (Nx Ny a b : ℕ) : Prop :=
  ∃ m n, (tx Nx Ny)^[m] ((ty Nx Ny)^[n] a) = b

/-- Action of the translation offset `g = (n, m)` on a state: `m`
x-translations after `n` y-translations (the state visited at sweep
position `(n, m)`). -/
def act (Nx Ny : ℕ) (g : ℕ × ℕ) (a : ℕ) : ℕ :=
  (tx Nx Ny)^[g.2] ((ty Nx Ny)^[g.1] a)

/-- The sweep multiplicity of the orbit's lead: the number of positions
stored under the lead key, i.e. the order of the orbit's translation
stabilizer.  `Nx*Ny / orbitPeriod o` is the number of distinct states
in the orbit. -/
def orbitPeriod (o : BlochFunc) : ℕ := (o.positions o.lead).length

/-! ### Momentum-space definitions (exact real/complex arithmetic in
place of the floating point of the source) -/

/-- One factor of the phase array: `exp(2πi·k·m/M)`. -/
noncomputable def xchar (M : ℕ) (k : ℤ) (m : ℕ) : ℂ :=
  Complex.exp (2 * (Real.pi : ℂ) * Complex.I * (k : ℂ) * (m : ℂ) / (M : ℂ))

/-- The set of `(row, col)` offsets at which the sweep starting at
`lead` reaches `d` (the positions stored under key `d`, as a set). -/
def posSet (Nx Ny lead d : ℕ) : Finset (ℕ × ℕ) :=
  ((find_T_invariant_set Nx Ny lead).positions d).toFinset

open scoped Classical in
/-- Entry `(n, m)` of the phase array of `_phase_arr`:
`exp(2πi·ky·n/Ny) · exp(2πi·kx·m/Nx)` (the outer product of `yphase`
and `xphase`). -/
noncomputable def phaseAt (Nx Ny : ℕ) (kx ky : ℤ) (pos : ℕ × ℕ) : ℂ :=
  Complex.exp (2 * (Real.pi : ℂ) * Complex.I * (ky : ℂ) * (pos.1 : ℂ) / (Ny : ℂ)) *
    Complex.exp (2 * (Real.pi : ℂ) * Complex.I * (kx : ℂ) * (pos.2 : ℂ) / (Nx : ℂ))

/-- The summed phase of one key of an orbit's `decs` dictionary (one
entry of the `phases` list of `_norm_coeff`). -/
noncomputable def decPhase (Nx Ny : ℕ) (kx ky : ℤ) (o : BlochFunc) (d : ℕ) : ℂ :=
  ((o.positions d).map (phaseAt Nx Ny kx ky)).sum

/-- Embedding of `_norm_coeff`: the 2-norm of the vector of summed
phases over the orbit's keys. -/
noncomputable def _norm_coeff (Nx Ny : ℕ) (kx ky : ℤ) (o : BlochFunc) : ℝ :=
  Real.sqrt ((o.keys.map fun d => Complex.abs (decPhase Nx Ny kx ky o d) ^ 2).sum)

open scoped Classical in
/-- The retained orbits of `_gen_ind_dec_conv_dicts`
(`[s for s in states if s.norm > 1e-8]`), in basis-index order; the
reduced-basis index `i` denotes the `i`-th entry of this list. -/
noncomputable def nonzero_states (Nx Ny : ℕ) (kx ky : ℤ) : List BlochFunc :=
  (zero_momentum_states Nx Ny).filter fun o =>
    decide ((1e-8 : ℝ) < _norm_coeff Nx Ny kx ky o)

/-! ### Geometry provider.

The `SiteVector` base class (`constructors.PeriodicBCSiteVector`) lives
outside this repository; the definitions below are modelled from the
specification: sites are `(x, y)` coordinates on the periodic lattice,
wrapped modulo the lattice extents, with row-major lattice index
`x + Nx*y`; the directional hops produce new wrapped sites and a hop
landing on its starting site signals the `SameSite` condition,
suppressing the bond. -/

/-- Modelled from the spec: wrap integer coordinates onto the periodic
`Nx × Ny` lattice. -/
def wrapSite (Nx Ny : ℕ) (x y : ℤ) : ℕ × ℕ :=
  ((x % (Nx : ℤ)).toNat, (y % (Ny : ℤ)).toNat)

/-- Modelled from the spec: row-major lattice index of a wrapped site. -/
def lattice_index (Nx : ℕ) (s : ℕ × ℕ) : ℕ := s.1 + Nx * s.2

/-- Modelled from the spec: a coordinate hop, failing with `SameSite`
(`none`) when it returns to its origin. -/
def hopChecked (Nx Ny : ℕ) (s : ℕ × ℕ) (dx dy : ℤ) : Option (ℕ × ℕ) :=
  let t := wrapSite Nx Ny ((s.1 : ℤ) + dx) ((s.2 : ℤ) + dy)
  if t = s then none else some t

/-- Modelled from the spec: `a1_hop` (x-direction). -/
def a1_hop (Nx Ny : ℕ) (s : ℕ × ℕ) (stride : ℤ) : Option (ℕ × ℕ) :=
  hopChecked Nx Ny s stride 0

/-- Modelled from the spec: `a2_hop` (`xhop(-stride).yhop(stride)`). -/
def a2_hop (Nx Ny : ℕ) (s : ℕ × ℕ) (stride : ℤ) : Option (ℕ × ℕ) :=
  hopChecked Nx Ny s (-stride) stride

/-- Modelled from the spec: `a3_hop` (`yhop(-stride)`). -/
def a3_hop (Nx Ny : ℕ) (s : ℕ × ℕ) (stride : ℤ) : Option (ℕ × ℕ) :=
  hopChecked Nx Ny s 0 (-stride)

/-- Modelled from the spec: `b1_hop` (`xhop(stride).yhop(stride)`). -/
def b1_hop (Nx Ny : ℕ) (s : ℕ × ℕ) (stride : ℤ) : Option (ℕ × ℕ) :=
  hopChecked Nx Ny s stride stride

/-- Modelled from the spec: `b2_hop` (`xhop(-2*stride).yhop(stride)`). -/
def b2_hop (Nx Ny : ℕ) (s : ℕ × ℕ) (stride : ℤ) : Option (ℕ × ℕ) :=
  hopChecked Nx Ny s (-2 * stride) stride

/-- Modelled from the spec: `b3_hop` is `b1_hop(-stride).b2_hop(-stride)`
with the `SameSite` checks of both intermediate hops and of the final
result against the origin. -/
def b3_hop (Nx Ny : ℕ) (s : ℕ × ℕ) (stride : ℤ) : Option (ℕ × ℕ) :=
  (b1_hop Nx Ny s (-stride)).bind fun t =>
    (b2_hop Nx Ny t (-stride)).bind fun u =>
      if u = s then none else some u

/-- Modelled from the spec: the neighbor lattice indices of site `i` at
interaction range `l` (range 1: `a1,a2,a3` at stride 1; range 2:
`b1,b2,b3` at stride 1; range 3: `a1,a2,a3` at stride 2). -/
def neighborSites (Nx Ny i l : ℕ) : List ℕ :=
  let s : ℕ × ℕ := (i % Nx, i / Nx)
  let hops : List (Option (ℕ × ℕ)) :=
    if l = 1 then [a1_hop Nx Ny s 1, a2_hop Nx Ny s 1, a3_hop Nx Ny s 1]
    else if l = 2 then [b1_hop Nx Ny s 1, b2_hop Nx Ny s 1, b3_hop Nx Ny s 1]
    else [a1_hop Nx Ny s 2, a2_hop Nx Ny s 2, a3_hop Nx Ny s 2]
  (hops.filterMap id).map (lattice_index Nx)

/-- Embedding of `_generate_bonds` for one range: bonds from every
site, each pair sorted (for hash-stability) and de-duplicated. -/
def _generate_bonds (Nx Ny l : ℕ) : List (ℕ × ℕ) :=
  ((List.range (Nx * Ny)).bind fun i =>
    (neighborSites Nx Ny i l).map fun j => (min i j, max i j)).dedup

/-- Embedding of `_interacting_sites`: single-bit masks `2^i, 2^j` for
the two ends of each bond at range `l`. -/
def _interacting_sites (Nx Ny l : ℕ) : List (ℕ × ℕ) :=
  (_generate_bonds Nx Ny l).map fun b => (2 ^ b.1, 2 ^ b.2)

/-- Embedding of `_exchange_spin_flips`: `(updown, downup)`. -/
def _exchange_spin_flips (dec s1 s2 : ℕ) : Bool × Bool :=
  ((dec ||| s1 == dec) && !(dec ||| s2 == dec),
   (!(dec ||| s1 == dec)) && (dec ||| s2 == dec))

/-- Embedding of `_repeated_spins`: `(upup, downdown)`. -/
def _repeated_spins (dec s1 s2 : ℕ) : Bool × Bool :=
  ((dec ||| s1 == dec) && (dec ||| s2 == dec),
   (!(dec ||| s1 == dec)) && (!(dec ||| s2 == dec)))

open scoped Classical in
/-- Embedding of `_find_leading_state`: look up the orbit owning `dec`,
fail (`none`, for the `NotFoundError` raise) when its momentum-sector
norm is below the `1e-8` tolerance, and otherwise return the orbit with
the conjugated, normalized phase of `dec`. -/
noncomputable def _find_leading_state (Nx Ny : ℕ) (kx ky : ℤ) (dec : ℕ) :
    Option (BlochFunc × ℂ) :=
  ((zero_momentum_states Nx Ny).find? (fun o => o.hasDec dec)).bind fun o =>
    if _norm_coeff Nx Ny kx ky o < (1e-8 : ℝ) then none
    else
      some (o, (starRingEnd ℂ) (decPhase Nx Ny kx ky o dec) /
        (Complex.abs ((starRingEnd ℂ) (decPhase Nx Ny kx ky o dec)) : ℂ))

/-- The `ind_to_dec` dictionary of `_gen_ind_dec_conv_dicts`: the `i`-th
retained orbit (with a junk default outside the basis range). -/
noncomputable def ind_to_dec (Nx Ny : ℕ) (kx ky : ℤ) (i : ℕ) : BlochFunc :=
  (nonzero_states Nx Ny kx ky).getD i ⟨0, []⟩

/-- The `dec_to_ind` dictionary of `_gen_ind_dec_conv_dicts`: the basis
index of the retained orbit with the given leading state. -/
noncomputable def dec_to_ind (Nx Ny : ℕ) (kx ky : ℤ) (lead : ℕ) : ℕ :=
  (nonzero_states Nx Ny kx ky).findIdx (fun o => o.lead == lead)

/-- Embedding of `H_z_elements`: over all bonds at range `l`, count the
pairs pointing in the same direction in the leading state of basis
state `i`; the result is `0.25 * (same_dir - (num_bonds - same_dir))`. -/
noncomputable def H_z_elements (Nx Ny : ℕ) (kx ky : ℤ) (i l : ℕ) : ℝ :=
  let state := ind_to_dec Nx Ny kx ky i
  let pairs := _interacting_sites Nx Ny l
  let same_dir : ℤ := (pairs.map fun p =>
    (if (_repeated_spins state.lead p.1 p.2).1 then (1:ℤ) else 0) +
    (if (_repeated_spins state.lead p.1 p.2).2 then (1:ℤ) else 0)).sum
  let diff_dir : ℤ := (pairs.length : ℤ) - same_dir
  0.25 * ((same_dir : ℝ) - (diff_dir : ℝ))

/-- Embedding of `SiteVector.angle_with` on lattice indices `m`, `n`
(`from_index` coordinates `x = m % Nx`, `y = m / Nx`, modelled from the
spec): twice the angle of the bond direction with the horizontal.  The
source falls through (returning `None`) when both coordinate
differences vanish, which cannot happen for a hop-generated bond; that
dead branch is rendered as `0`. -/
noncomputable def angle_with (Nx Ny m n : ℕ) : ℝ :=
  let Δx : ℤ := ((n % Nx : ℕ) : ℤ) - ((m % Nx : ℕ) : ℤ)
  let Δy : ℤ := ((n / Nx : ℕ) : ℤ) - ((m / Nx : ℕ) : ℤ)
  if Δx = 0 then (if Δy ≠ 0 then -2 * Real.pi / 3 else 0)
  else if Δy = 0 then 0
  else 2 * Real.pi / 3

/-- Embedding of `_gamma`: `exp(i * angle)` for the bond whose ends are
the single-bit masks `s1 = 2^m`, `s2 = 2^n`. -/
noncomputable def _gamma (Nx Ny s1 s2 : ℕ) : ℂ :=
  Complex.exp (Complex.I * (angle_with Nx Ny (Nat.log2 s1) (Nat.log2 s2) : ℝ))

/-- Embedding of `_coeff`: ratio of the connected state's norm to the
original state's norm. -/
noncomputable def _coeff (Nx Ny : ℕ) (kx ky : ℤ) (orig cntd : BlochFunc) : ℝ :=
  _norm_coeff Nx Ny kx ky cntd / _norm_coeff Nx Ny kx ky orig

/-- The `j_element[j] += c` dictionary update (missing keys default
to `0`), with the dictionary rendered as a finitely-supported
function. -/
def addEntry (f : ℕ → ℂ) (j : ℕ) (c : ℂ) : ℕ → ℂ :=
  fun j2 => if j2 = j then f j2 + c else f j2

/-- One loop iteration of `H_pm_elements` over a bond pair `p`. -/
noncomputable def H_pm_step (Nx Ny : ℕ) (kx ky : ℤ) (orig : BlochFunc)
    (f : ℕ → ℂ) (p : ℕ × ℕ) : ℕ → ℂ :=
  let updown := (_exchange_spin_flips orig.lead p.1 p.2).1
  let downup := (_exchange_spin_flips orig.lead p.1 p.2).2
  if updown || downup then
    let new_dec := if updown then orig.lead - p.1 + p.2 else orig.lead + p.1 - p.2
    match _find_leading_state Nx Ny kx ky new_dec with
    | none => f
    | some (cntd, phase) =>
        addEntry f (dec_to_ind Nx Ny kx ky cntd.lead)
          (phase * (_coeff Nx Ny kx ky orig cntd : ℂ))
  else f

/-- Embedding of `H_pm_elements`: the `j_element` dictionary for row `i`
at interaction range `l`. -/
noncomputable def H_pm_elements (Nx Ny : ℕ) (kx ky : ℤ) (i l : ℕ) : ℕ → ℂ :=
  (_interacting_sites Nx Ny l).foldl
    (H_pm_step Nx Ny kx ky (ind_to_dec Nx Ny kx ky i)) (fun _ => 0)

/-- One loop iteration of `H_ppmm_elements` over a bond pair `p`. -/
noncomputable def H_ppmm_step (Nx Ny : ℕ) (kx ky : ℤ) (orig : BlochFunc)
    (f : ℕ → ℂ) (p : ℕ × ℕ) : ℕ → ℂ :=
  let upup := (_repeated_spins orig.lead p.1 p.2).1
  let downdown := (_repeated_spins orig.lead p.1 p.2).2
  if upup || downdown then
    let new_dec := if upup then orig.lead - p.1 - p.2 else orig.lead + p.1 + p.2
    let γ : ℂ := if upup then (starRingEnd ℂ) (_gamma Nx Ny p.1 p.2)
      else _gamma Nx Ny p.1 p.2
    match _find_leading_state Nx Ny kx ky new_dec with
    | none => f
    | some (cntd, phase) =>
        addEntry f (dec_to_ind Nx Ny kx ky cntd.lead)
          ((phase * (_coeff Nx Ny kx ky orig cntd : ℂ)) * γ)
  else f

/-- Embedding of `H_ppmm_elements`: the `j_element` dictionary for row
`i` at interaction range `l`. -/
noncomputable def H_ppmm_elements (Nx Ny : ℕ) (kx ky : ℤ) (i l : ℕ) : ℕ → ℂ :=
  (_interacting_sites Nx Ny l).foldl
    (H_ppmm_step Nx Ny kx ky (ind_to_dec Nx Ny kx ky i)) (fun _ => 0)

/-- One loop iteration of `H_pmz_elements` over an ordered site pair
`p` (the source visits each bond in both orders). -/
noncomputable def H_pmz_step (Nx Ny : ℕ) (kx ky : ℤ) (orig : BlochFunc)
    (f : ℕ → ℂ) (p : ℕ × ℕ) : ℕ → ℂ :=
  let z_contrib : ℝ := if (orig.lead ||| p.1 == orig.lead) then 0.5 else -0.5
  let s2set := (orig.lead ||| p.2 == orig.lead)
  let new_dec := if s2set then orig.lead - p.2 else orig.lead + p.2
  let γ : ℂ := if s2set then (starRingEnd ℂ) (_gamma Nx Ny p.1 p.2)
    else -(_gamma Nx Ny p.1 p.2)
  match _find_leading_state Nx Ny kx ky new_dec with
  | none => f
  | some (cntd, phase) =>
      addEntry f (dec_to_ind Nx Ny kx ky cntd.lead)
        ((z_contrib : ℂ) * γ * (phase * (_coeff Nx Ny kx ky orig cntd : ℂ)))

/-- Embedding of `H_pmz_elements`: the `j_element` dictionary for row
`i` at interaction range `l`, visiting each bond in both site orders. -/
noncomputable def H_pmz_elements (Nx Ny : ℕ) (kx ky : ℤ) (i l : ℕ) : ℕ → ℂ :=
  ((_interacting_sites Nx Ny l).bind fun p => [(p.1, p.2), (p.2, p.1)]).foldl
    (H_pmz_step Nx Ny kx ky (ind_to_dec Nx Ny kx ky i)) (fun _ => 0)

/-- Embedding of `_diag_components`/`H_z_matrix`: the `n × n` diagonal
sparse matrix (`n = len(_bloch_states(...))`, the count of retained
orbits) rendered as a function vanishing outside the shape. -/
noncomputable def H_z_matrix (Nx Ny : ℕ) (kx ky : ℤ) (l : ℕ) : ℕ → ℕ → ℂ :=
  fun i j =>
    if i < (nonzero_states Nx Ny kx ky).length ∧ j = i
    then ((H_z_elements Nx Ny kx ky i l : ℝ) : ℂ) else 0

/-- Embedding of `_offdiag_components`: the `n × n` sparse matrix whose
row `i` holds the `j_element` dictionary of `func`, rendered as a
function vanishing outside the shape. -/
noncomputable def _offdiag_components (Nx Ny : ℕ) (kx ky : ℤ) (l : ℕ)
    (func : ℕ → ℕ → ℤ → ℤ → ℕ → ℕ → ℕ → ℂ) : ℕ → ℕ → ℂ :=
  fun i j =>
    if i < (nonzero_states Nx Ny kx ky).length ∧
        j < (nonzero_states Nx Ny kx ky).length
    then func Nx Ny kx ky i l j else 0

/-- Embedding of `H_pm_matrix`. -/
noncomputable def H_pm_matrix (Nx Ny : ℕ) (kx ky : ℤ) (l : ℕ) : ℕ → ℕ → ℂ :=
  _offdiag_components Nx Ny kx ky l H_pm_elements

/-- Embedding of `H_ppmm_matrix` (fixed at range `l = 1`). -/
noncomputable def H_ppmm_matrix (Nx Ny : ℕ) (kx ky : ℤ) : ℕ → ℕ → ℂ :=
  _offdiag_components Nx Ny kx ky 1 H_ppmm_elements

/-- Embedding of `H_pmz_matrix` (fixed at range `l = 1`, with the
overall factor `1j`). -/
noncomputable def H_pmz_matrix (Nx Ny : ℕ) (kx ky : ℤ) : ℕ → ℕ → ℂ :=
  fun i j => Complex.I * _offdiag_components Nx Ny kx ky 1 H_pmz_elements i j

open scoped Classical in
/-- Python scalar division, raising `ZeroDivisionError` on a zero
divisor. -/
noncomputable def safeDiv (a b : ℝ) : Except String ℝ :=
  if b = 0 then Except.error "ZeroDivisionError" else Except.ok (a / b)

open scoped Classical in
/-- Embedding of `hamiltonian_consv_k`: nearest-neighbor terms always,
second/third-neighbor terms only when `J2`/`J3` is nonzero, with the
ratio `J_z / J_pm` evaluated inside those branches (the memo clearing
of `_find_leading_state.cache_clear()` is modelled by the stateful
variant below). -/
noncomputable def hamiltonian_consv_k (Nx Ny : ℕ) (kx ky : ℤ)
    (J_pm J_z J_ppmm J_pmz J2 J3 : ℝ) : Except String (ℕ → ℕ → ℂ) := do
  let nearest : ℕ → ℕ → ℂ := fun i j =>
    (J_pm : ℂ) * H_pm_matrix Nx Ny kx ky 1 i j
      + (J_z : ℂ) * H_z_matrix Nx Ny kx ky 1 i j
      + (J_ppmm : ℂ) * H_ppmm_matrix Nx Ny kx ky i j
      + (J_pmz : ℂ) * H_pmz_matrix Nx Ny kx ky i j
  let second : ℕ → ℕ → ℂ ←
    if J2 = 0 then pure (fun _ _ => 0)
    else do
      let ratio ← safeDiv J_z J_pm
      pure (fun i j => (J2 : ℂ) * (H_pm_matrix Nx Ny kx ky 2 i j
        + (ratio : ℂ) * H_z_matrix Nx Ny kx ky 2 i j))
  let third : ℕ → ℕ → ℂ ←
    if J3 = 0 then pure (fun _ _ => 0)
    else do
      let ratio ← safeDiv J_z J_pm
      pure (fun i j => (J3 : ℂ) * (H_pm_matrix Nx Ny kx ky 3 i j
        + (ratio : ℂ) * H_z_matrix Nx Ny kx ky 3 i j))
  pure fun i j => nearest i j + second i j + third i j

/-! ### The `lru_cache` memo on `_find_leading_state`.

`functools.lru_cache(maxsize=None)` keeps, per momentum sector, an
association from already-seen `dec` arguments to the value returned;
an exceptional exit (`NotFoundError`) caches nothing.  The cached
variants below thread that table explicitly through the same
computations; `hamiltonian_consv_k` ends with
`_find_leading_state.cache_clear()`, rendered as returning the empty
table (except on the exceptional path, which bypasses the clearing). -/

/-- The memo table of the `lru_cache` on `_find_leading_state` at a
fixed momentum sector. -/
abbrev Memo := List (ℕ × (BlochFunc × ℂ))

/-- Agreement of a memo table with `_find_leading_state`: every cached
entry holds the value the function returns. -/
def MemoGood (Nx Ny : ℕ) (kx ky : ℤ) (m : Memo) : Prop :=
  ∀ e ∈ m, _find_leading_state Nx Ny kx ky e.1 = some e.2

/-- Memoised `_find_leading_state`: a hit returns the cached value, a
miss computes it, caching only a successful return. -/
noncomputable def flsMemo (Nx Ny : ℕ) (kx ky : ℤ) (m : Memo) (dec : ℕ) :
    Option (BlochFunc × ℂ) × Memo :=
  match m.find? (fun e => e.1 == dec) with
  | some e => (some e.2, m)
  | none =>
      match _find_leading_state Nx Ny kx ky dec with
      | none => (none, m)
      | some r => (some r, (dec, r) :: m)

/-- Memoised `H_pm_elements` loop iteration. -/
noncomputable def H_pm_stepM (Nx Ny : ℕ) (kx ky : ℤ) (orig : BlochFunc)
    (a : (ℕ → ℂ) × Memo) (p : ℕ × ℕ) : (ℕ → ℂ) × Memo :=
  let updown := (_exchange_spin_flips orig.lead p.1 p.2).1
  let downup := (_exchange_spin_flips orig.lead p.1 p.2).2
  if updown || downup then
    let new_dec := if updown then orig.lead - p.1 + p.2 else orig.lead + p.1 - p.2
    let r := flsMemo Nx Ny kx ky a.2 new_dec
    match r.1 with
    | none => (a.1, r.2)
    | some (cntd, phase) =>
        (addEntry a.1 (dec_to_ind Nx Ny kx ky cntd.lead)
          (phase * (_coeff Nx Ny kx ky orig cntd : ℂ)), r.2)
  else a

/-- Memoised `H_pm_elements`. -/
noncomputable def H_pm_elementsM (Nx Ny : ℕ) (kx ky : ℤ) (i l : ℕ)
    (m : Memo) : (ℕ → ℂ) × Memo :=
  (_interacting_sites Nx Ny l).foldl
    (H_pm_stepM Nx Ny kx ky (ind_to_dec Nx Ny kx ky i)) ((fun _ => 0), m)

/-- Memoised `H_ppmm_elements` loop iteration. -/
noncomputable def H_ppmm_stepM (Nx Ny : ℕ) (kx ky : ℤ) (orig : BlochFunc)
    (a : (ℕ → ℂ) × Memo) (p : ℕ × ℕ) : (ℕ → ℂ) × Memo :=
  let upup := (_repeated_spins orig.lead p.1 p.2).1
  let downdown := (_repeated_spins orig.lead p.1 p.2).2
  if upup || downdown then
    let new_dec := if upup then orig.lead - p.1 - p.2 else orig.lead + p.1 + p.2
    let γ : ℂ := if upup then (starRingEnd ℂ) (_gamma Nx Ny p.1 p.2)
      else _gamma Nx Ny p.1 p.2
    let r := flsMemo Nx Ny kx ky a.2 new_dec
    match r.1 with
    | none => (a.1, r.2)
    | some (cntd, phase) =>
        (addEntry a.1 (dec_to_ind Nx Ny kx ky cntd.lead)
          ((phase * (_coeff Nx Ny kx ky orig cntd : ℂ)) * γ), r.2)
  else a

/-- Memoised `H_ppmm_elements`. -/
noncomputable def H_ppmm_elementsM (Nx Ny : ℕ) (kx ky : ℤ) (i l : ℕ)
    (m : Memo) : (ℕ → ℂ) × Memo :=
  (_interacting_sites Nx Ny l).foldl
    (H_ppmm_stepM Nx Ny kx ky (ind_to_dec Nx Ny kx ky i)) ((fun _ => 0), m)

/-- Memoised `H_pmz_elements` loop iteration. -/
noncomputable def H_pmz_stepM (Nx Ny : ℕ) (kx ky : ℤ) (orig : BlochFunc)
    (a : (ℕ → ℂ) × Memo) (p : ℕ × ℕ) : (ℕ → ℂ) × Memo :=
  let z_contrib : ℝ := if (orig.lead ||| p.1 == orig.lead) then 0.5 else -0.5
  let s2set := (orig.lead ||| p.2 == orig.lead)
  let new_dec := if s2set then orig.lead - p.2 else orig.lead + p.2
  let γ : ℂ := if s2set then (starRingEnd ℂ) (_gamma Nx Ny p.1 p.2)
    else -(_gamma Nx Ny p.1 p.2)
  let r := flsMemo Nx Ny kx ky a.2 new_dec
  match r.1 with
  | none => (a.1, r.2)
  | some (cntd, phase) =>
      (addEntry a.1 (dec_to_ind Nx Ny kx ky cntd.lead)
        ((z_contrib : ℂ) * γ * (phase * (_coeff Nx Ny kx ky orig cntd : ℂ))), r.2)

/-- Memoised `H_pmz_elements`. -/
noncomputable def H_pmz_elementsM (Nx Ny : ℕ) (kx ky : ℤ) (i l : ℕ)
    (m : Memo) : (ℕ → ℂ) × Memo :=
  ((_interacting_sites Nx Ny l).bind fun p => [(p.1, p.2), (p.2, p.1)]).foldl
    (H_pmz_stepM Nx Ny kx ky (ind_to_dec Nx Ny kx ky i)) ((fun _ => 0), m)

/-- The memo state after the first `n` rows of a matrix loop. -/
noncomputable def memoAfterRows (elemM : ℕ → Memo → (ℕ → ℂ) × Memo)
    (n : ℕ) (m : Memo) : Memo :=
  (List.range n).foldl (fun mm i => (elemM i mm).2) m

/-- Memoised `_offdiag_components`: row `i` is computed with the memo
state left by the previous rows (the sequential loop of the source),
and the final memo state is returned alongside the matrix. -/
noncomputable def _offdiag_componentsM (Nx Ny : ℕ) (kx ky : ℤ)
    (elemM : ℕ → Memo → (ℕ → ℂ) × Memo) (m : Memo) :
    (ℕ → ℕ → ℂ) × Memo :=
  let n := (nonzero_states Nx Ny kx ky).length
  ((fun i j => if i < n ∧ j < n
      then (elemM i (memoAfterRows elemM i m)).1 j else 0),
   memoAfterRows elemM n m)

open scoped Classical in
/-- Memoised `hamiltonian_consv_k`: the same assembly with the
`lru_cache` table threaded through the matrix loops; on normal return
the table is cleared (`_find_leading_state.cache_clear()`), while the
`ZeroDivisionError` path propagates before reaching the clearing. -/
noncomputable def hamiltonian_consv_k_cached (Nx Ny : ℕ) (kx ky : ℤ)
    (J_pm J_z J_ppmm J_pmz J2 J3 : ℝ) (m0 : Memo) :
    Except String (ℕ → ℕ → ℂ) × Memo :=
  let pm1 := _offdiag_componentsM Nx Ny kx ky
    (fun i => H_pm_elementsM Nx Ny kx ky i 1) m0
  let ppmm := _offdiag_componentsM Nx Ny kx ky
    (fun i => H_ppmm_elementsM Nx Ny kx ky i 1) pm1.2
  let pmz := _offdiag_componentsM Nx Ny kx ky
    (fun i => H_pmz_elementsM Nx Ny kx ky i 1) ppmm.2
  let nearest : ℕ → ℕ → ℂ := fun i j =>
    (J_pm : ℂ) * pm1.1 i j + (J_z : ℂ) * H_z_matrix Nx Ny kx ky 1 i j
      + (J_ppmm : ℂ) * ppmm.1 i j + (J_pmz : ℂ) * (Complex.I * pmz.1 i j)
  let secondR : Except String (ℕ → ℕ → ℂ) × Memo :=
    if J2 = 0 then (Except.ok (fun _ _ => 0), pmz.2)
    else
      let pm2 := _offdiag_componentsM Nx Ny kx ky
        (fun i => H_pm_elementsM Nx Ny kx ky i 2) pmz.2
      match safeDiv J_z J_pm with
      | Except.error e => (Except.error e, pm2.2)
      | Except.ok ratio =>
          (Except.ok (fun i j => (J2 : ℂ) * (pm2.1 i j
            + (ratio : ℂ) * H_z_matrix Nx Ny kx ky 2 i j)), pm2.2)
  match secondR with
  | (Except.error e, m) => (Except.error e, m)
  | (Except.ok second, m2) =>
    let thirdR : Except String (ℕ → ℕ → ℂ) × Memo :=
      if J3 = 0 then (Except.ok (fun _ _ => 0), m2)
      else
        let pm3 := _offdiag_componentsM Nx Ny kx ky
          (fun i => H_pm_elementsM Nx Ny kx ky i 3) m2
        match safeDiv J_z J_pm with
        | Except.error e => (Except.error e, pm3.2)
        | Except.ok ratio =>
            (Except.ok (fun i j => (J3 : ℂ) * (pm3.1 i j
              + (ratio : ℂ) * H_z_matrix Nx Ny kx ky 3 i j)), pm3.2)
    match thirdR with
    | (Except.error e, m) => (Except.error e, m)
    | (Except.ok third, _) =>
        (Except.ok (fun i j => nearest i j + second i j + third i j), [])

/-! ### The brute-force tensor-product builder (`hamiltonian_dp`).

The operator-algebra provider (`constructors.raising/lowering/sigmaz`,
`half.full_matrix`) lives outside this repository; the definitions
below are modelled from the specification: 2×2 single-site matrices in
the per-site basis (index 1 = spin up, index 0 = spin down, matching
the core's set-bit-is-up convention), embedded at site `k` of the
`N`-site tensor-product space, where site `k` reads bit `k` of the
basis-state integer. -/

/-- Bit `k` of `x` (`0` or `1`). -/
def bitAt (k x : ℕ) : ℕ := x / 2 ^ k % 2

/-- Bit `k` of `x` as an index into a 2×2 matrix. -/
def bitF (k x : ℕ) : Fin 2 := ⟨bitAt k x, Nat.mod_lt _ (by norm_num)⟩

/-- Modelled from the spec: the raising operator `σ+` (2×2). -/
def raising : Fin 2 → Fin 2 → ℂ := fun r c => if r = 1 ∧ c = 0 then 1 else 0

/-- Modelled from the spec: the lowering operator `σ-` (2×2). -/
def lowering : Fin 2 → Fin 2 → ℂ := fun r c => if r = 0 ∧ c = 1 then 1 else 0

/-- Modelled from the spec: the `S_z` operator (2×2), with
eigenvalues `±1/2` as used by the matrix-element engine. -/
noncomputable def sigmaz : Fin 2 → Fin 2 → ℂ :=
  fun r c => if r = c then (if r = 1 then ((0.5 : ℝ) : ℂ) else ((-0.5 : ℝ) : ℂ)) else 0

/-- Modelled from the spec (`half.full_matrix`): embed a single-site
2×2 operator at site `k` of the `N`-site space; entries vanish
outside the `2^N × 2^N` shape and between states differing at any
other site. -/
noncomputable def full_matrix (σ : Fin 2 → Fin 2 → ℂ) (k N : ℕ) : ℕ → ℕ → ℂ :=
  fun x y =>
    if x < 2 ^ N ∧ y < 2 ^ N ∧ ∀ t < N, t ≠ k → bitAt t x = bitAt t y
    then σ (bitF k x) (bitF k y) else 0

/-- Matrix product over the `n`-dimensional index range. -/
noncomputable def matMul (n : ℕ) (A B : ℕ → ℕ → ℂ) : ℕ → ℕ → ℂ :=
  fun x y => ∑ z ∈ Finset.range n, A x z * B z y

/-- The γ factor of the brute-force builder: `exp(i·angle)` computed
directly from the bond's two lattice indices. -/
noncomputable def gammaB (Nx Ny : ℕ) (b : ℕ × ℕ) : ℂ :=
  Complex.exp (Complex.I * (angle_with Nx Ny b.1 b.2 : ℝ))

/-- Embedding of `_gen_z_pm_ops` (the `H_pm` component): the sum of
`σ+_i σ-_j + σ-_i σ+_j` over the bonds at range `l`. -/
noncomputable def H_pm_dp (Nx Ny l : ℕ) : ℕ → ℕ → ℂ :=
  ((_generate_bonds Nx Ny l).map fun b =>
    matMul (2 ^ (Nx * Ny)) (full_matrix raising b.1 (Nx * Ny))
        (full_matrix lowering b.2 (Nx * Ny))
      + matMul (2 ^ (Nx * Ny)) (full_matrix lowering b.1 (Nx * Ny))
        (full_matrix raising b.2 (Nx * Ny))).sum

/-- Embedding of `_gen_z_pm_ops` (the `H_z` component): the sum of
`Sz_i Sz_j` over the bonds at range `l`. -/
noncomputable def H_z_dp (Nx Ny l : ℕ) : ℕ → ℕ → ℂ :=
  ((_generate_bonds Nx Ny l).map fun b =>
    matMul (2 ^ (Nx * Ny)) (full_matrix sigmaz b.1 (Nx * Ny))
      (full_matrix sigmaz b.2 (Nx * Ny))).sum

/-- Embedding of the `H_ppmm` component of
`hamiltonian_dp_components`: `γ σ+σ+ + γ* σ-σ-` over nearest bonds. -/
noncomputable def H_ppmm_dp (Nx Ny : ℕ) : ℕ → ℕ → ℂ :=
  ((_generate_bonds Nx Ny 1).map fun b => fun x y =>
    gammaB Nx Ny b * matMul (2 ^ (Nx * Ny)) (full_matrix raising b.1 (Nx * Ny))
        (full_matrix raising b.2 (Nx * Ny)) x y
      + (starRingEnd ℂ) (gammaB Nx Ny b)
        * matMul (2 ^ (Nx * Ny)) (full_matrix lowering b.1 (Nx * Ny))
          (full_matrix lowering b.2 (Nx * Ny)) x y).sum

/-- Embedding of the `H_pmz` component of
`hamiltonian_dp_components`: `1j(γ* z σ+ − γ z σ- + γ* σ+ z − γ σ- z)`
over nearest bonds. -/
noncomputable def H_pmz_dp (Nx Ny : ℕ) : ℕ → ℕ → ℂ :=
  ((_generate_bonds Nx Ny 1).map fun b => fun x y =>
    Complex.I * ((starRingEnd ℂ) (gammaB Nx Ny b)
        * matMul (2 ^ (Nx * Ny)) (full_matrix sigmaz b.1 (Nx * Ny))
          (full_matrix raising b.2 (Nx * Ny)) x y
      - gammaB Nx Ny b
        * matMul (2 ^ (Nx * Ny)) (full_matrix sigmaz b.1 (Nx * Ny))
          (full_matrix lowering b.2 (Nx * Ny)) x y
      + (starRingEnd ℂ) (gammaB Nx Ny b)
        * matMul (2 ^ (Nx * Ny)) (full_matrix raising b.1 (Nx * Ny))
          (full_matrix sigmaz b.2 (Nx * Ny)) x y
      - gammaB Nx Ny b
        * matMul (2 ^ (Nx * Ny)) (full_matrix lowering b.1 (Nx * Ny))
          (full_matrix sigmaz b.2 (Nx * Ny)) x y)).sum

open scoped Classical in
/-- Embedding of `hamiltonian_dp`: the brute-force assembly, with the
same second/third-neighbor coupling branches (and the same
`J_z / J_pm` ratio inside them) as the reduced assembly. -/
noncomputable def hamiltonian_dp (Nx Ny : ℕ)
    (J_pm J_z J_ppmm J_pmz J2 J3 : ℝ) : Except String (ℕ → ℕ → ℂ) := do
  let nearest : ℕ → ℕ → ℂ := fun x y =>
    (J_pm : ℂ) * H_pm_dp Nx Ny 1 x y + (J_z : ℂ) * H_z_dp Nx Ny 1 x y
      + (J_ppmm : ℂ) * H_ppmm_dp Nx Ny x y + (J_pmz : ℂ) * H_pmz_dp Nx Ny x y
  let second : ℕ → ℕ → ℂ ←
    if J2 = 0 then pure (fun _ _ => 0)
    else do
      let ratio ← safeDiv J_z J_pm
      pure (fun x y => (J2 : ℂ) * (H_pm_dp Nx Ny 2 x y
        + (ratio : ℂ) * H_z_dp Nx Ny 2 x y))
  let third : ℕ → ℕ → ℂ ←
    if J3 = 0 then pure (fun _ _ => 0)
    else do
      let ratio ← safeDiv J_z J_pm
      pure (fun x y => (J3 : ℂ) * (H_pm_dp Nx Ny 3 x y
        + (ratio : ℂ) * H_z_dp Nx Ny 3 x y))
  pure fun x y => nearest x y + second x y + third x y

/-- Relabeling of lattice sites by a periodic coordinate shift of `u`
columns and `v` rows: the site permutation induced on bit positions by
the translation operators. -/
def siteShift (Nx Ny u v k : ℕ) : ℕ :=
  (k % Nx + u) % Nx + Nx * ((k / Nx + v) % Ny)

/-- The index box of all lattice translations `(row, col)`. -/
def transBox (Nx Ny : ℕ) : Finset (ℕ × ℕ) := Finset.range Ny ×ˢ Finset.range Nx

open scoped Classical in
/-- The character-weighted count of translations carrying `lead` to `d`:
the coset sum behind the phase returned by `_find_leading_state`. -/
noncomputable def phaseSum (Nx Ny : ℕ) (kx ky : ℤ) (lead d : ℕ) : ℂ :=
  ∑ g ∈ transBox Nx Ny, (starRingEnd ℂ) (phaseAt Nx Ny kx ky g) *
    (if act Nx Ny g lead = d then 1 else 0)

open scoped Classical in
/-- The `S^+S^-` hop amplitude between two Ising configurations: the sum
over bonds of the exchange-flip indicators of `H_pm_elements`. -/
noncomputable def amp_pm (Nx Ny l x y : ℕ) : ℂ :=
  ((_interacting_sites Nx Ny l).map fun p =>
    (if (_exchange_spin_flips x p.1 p.2).1 = true ∧ x - p.1 + p.2 = y
      then (1 : ℂ) else 0) +
    (if (_exchange_spin_flips x p.1 p.2).2 = true ∧ x + p.1 - p.2 = y
      then (1 : ℂ) else 0)).sum

open scoped Classical in
/-- The `S^+S^+` / `S^-S^-` amplitude between two Ising configurations,
with the bond phases `γ` of `H_ppmm_elements`. -/
noncomputable def amp_ppmm (Nx Ny x y : ℕ) : ℂ :=
  ((_interacting_sites Nx Ny 1).map fun p =>
    (if (_repeated_spins x p.1 p.2).1 = true ∧ x - p.1 - p.2 = y
      then (starRingEnd ℂ) (_gamma Nx Ny p.1 p.2) else 0) +
    (if (_repeated_spins x p.1 p.2).2 = true ∧ x + p.1 + p.2 = y
      then _gamma Nx Ny p.1 p.2 else 0)).sum

open scoped Classical in
/-- The `S^z S^±` amplitude between two Ising configurations, with the
signed bond phases of `H_pmz_elements` (each bond in both orders). -/
noncomputable def amp_pmz (Nx Ny x y : ℕ) : ℂ :=
  (((_interacting_sites Nx Ny 1).bind fun p => [(p.1, p.2), (p.2, p.1)]).map fun q =>
    (((if x ||| q.1 == x then (0.5 : ℝ) else -0.5) : ℝ) : ℂ) *
    (if x ||| q.2 == x then
      (if x - q.2 = y then (starRingEnd ℂ) (_gamma Nx Ny q.1 q.2) else 0)
    else
      (if x + q.2 = y then -(_gamma Nx Ny q.1 q.2) else 0))).sum

/-- The column-`j` contribution of one `_find_leading_state` call with
weight `w`, as added by the element loops. -/
noncomputable def flsTerm (Nx Ny : ℕ) (kx ky : ℤ) (orig : BlochFunc) (w : ℂ)
    (d j : ℕ) : ℂ :=
  match _find_leading_state Nx Ny kx ky d with
  | none => 0
  | some (cntd, phase) =>
      if j = dec_to_ind Nx Ny kx ky cntd.lead then
        w * (phase * (_coeff Nx Ny kx ky orig cntd : ℂ))
      else 0

end Spinsys

namespace Spinsys

/-! ## Arithmetic lemmas for the codec -/

lemma mod_mul_decomp (a x y : ℕ) : a % (x * y) = a % x + x * (a / x % y) := by
  rcases Nat.eq_zero_or_pos x with hx | hx
  · subst hx; simp
  rcases Nat.eq_zero_or_pos y with hy | hy
  · subst hy; simp [Nat.mod_add_div]
  have h1 : a = x * y * (a / x / y) + (a % x + x * (a / x % y)) := by
    conv_lhs => rw [← Nat.mod_add_div a x, ← Nat.mod_add_div (a / x) y]
    ring
  have h2 : a % x + x * (a / x % y) < x * y := by
    have hax : a % x < x := Nat.mod_lt _ hx
    have hay : a / x % y ≤ y - 1 := Nat.le_sub_one_of_lt (Nat.mod_lt _ hy)
    have : x * (a / x % y) ≤ x * (y - 1) := Nat.mul_le_mul_left _ hay
    have hxy : x * (y - 1) + x = x * y := by
      cases y with
      | zero => omega
      | succ y => simp [Nat.mul_succ]
    omega
  calc a % (x * y) = (x * y * (a / x / y) + (a % x + x * (a / x % y))) % (x * y) := by
        rw [← h1]
    _ = (a % x + x * (a / x % y)) % (x * y) := by
        rw [Nat.mul_add_mod]
    _ = a % x + x * (a / x % y) := Nat.mod_eq_of_lt h2

lemma toRow_lt (Nx dec r : ℕ) : toRow Nx dec r < 2 ^ Nx :=
  Nat.mod_lt _ (Nat.pos_pow_of_pos _ (by norm_num))

lemma rot_eq (Nx s : ℕ) (hNx : 0 < Nx) (hs : s < 2 ^ Nx) :
    rot Nx s = 2 * (s % 2 ^ (Nx - 1)) + s / 2 ^ (Nx - 1) := by
  have hpow : 2 ^ (Nx - 1) * 2 = 2 ^ Nx := by
    rw [← pow_succ]
    congr 1
    omega
  have hdecomp : s * 2 = 2 * (s % 2 ^ (Nx - 1)) + 2 ^ Nx * (s / 2 ^ (Nx - 1)) := by
    conv_lhs => rw [← Nat.mod_add_div s (2 ^ (Nx - 1))]
    rw [← hpow]; ring
  have hlt : 2 * (s % 2 ^ (Nx - 1)) < 2 ^ Nx := by
    have hm : s % 2 ^ (Nx - 1) < 2 ^ (Nx - 1) :=
      Nat.mod_lt s (Nat.pos_pow_of_pos _ (by norm_num))
    omega
  unfold rot
  rw [hdecomp, Nat.add_mul_mod_self_left, Nat.mod_eq_of_lt hlt]

lemma rot_lt (Nx s : ℕ) (hNx : 0 < Nx) (hs : s < 2 ^ Nx) : rot Nx s < 2 ^ Nx := by
  rw [rot_eq Nx s hNx hs]
  have hpow : 2 ^ (Nx - 1) * 2 = 2 ^ Nx := by
    rw [← pow_succ]; congr 1; omega
  have h1 : s % 2 ^ (Nx - 1) < 2 ^ (Nx - 1) :=
    Nat.mod_lt _ (Nat.pos_pow_of_pos _ (by norm_num))
  have h2 : s / 2 ^ (Nx - 1) < 2 := by
    apply Nat.div_lt_of_lt_mul
    omega
  omega

/-- `translate_x` in terms of row decomposition. -/
lemma translate_x_eq (dec Nx Ny : ℕ) :
    translate_x dec Nx Ny = ofRows Nx Ny (fun r => rot Nx (toRow Nx dec r)) := by
  unfold translate_x ofRows rot toRow
  apply Finset.sum_congr rfl
  intro r _
  have h : dec % 2 ^ (r * Nx + Nx) / 2 ^ (r * Nx) = dec / 2 ^ (r * Nx) % 2 ^ Nx := by
    rw [pow_add]
    exact Nat.mod_mul_right_div_self dec _ _
  rw [h]

lemma digits_sum_lt (b n : ℕ) (f : ℕ → ℕ) (hb : 0 < b) (hf : ∀ r < n, f r < b) :
    (∑ r ∈ Finset.range n, b ^ r * f r) < b ^ n := by
  induction n generalizing f with
  | zero => simpa using hb
  | succ n ih =>
    rw [Finset.sum_range_succ']
    have hS : (∑ r ∈ Finset.range n, b ^ (r + 1) * f (r + 1)) =
        b * ∑ r ∈ Finset.range n, b ^ r * f (r + 1) := by
      rw [Finset.mul_sum]
      apply Finset.sum_congr rfl
      intro r _
      ring
    rw [hS]
    simp only [pow_zero, one_mul]
    have h0 : f 0 < b := hf 0 (Nat.succ_pos n)
    have hI : (∑ r ∈ Finset.range n, b ^ r * f (r + 1)) < b ^ n := by
      apply ih
      intro r hr
      exact hf (r + 1) (by omega)
    have hmul : b * ((∑ r ∈ Finset.range n, b ^ r * f (r + 1)) + 1) ≤ b * b ^ n :=
      Nat.mul_le_mul_left _ hI
    have hexp : b * ((∑ r ∈ Finset.range n, b ^ r * f (r + 1)) + 1)
        = b * (∑ r ∈ Finset.range n, b ^ r * f (r + 1)) + b := by ring
    have hcomm : b ^ (n + 1) = b ^ n * b := pow_succ b n
    have hcomm2 : b * b ^ n = b ^ n * b := Nat.mul_comm _ _
    omega

lemma digits_sum_extract (b n : ℕ) (f : ℕ → ℕ) (hb : 0 < b) (hf : ∀ r < n, f r < b)
    (j : ℕ) (hj : j < n) :
    (∑ r ∈ Finset.range n, b ^ r * f r) / b ^ j % b = f j := by
  induction n generalizing f j with
  | zero => omega
  | succ n ih =>
    rw [Finset.sum_range_succ']
    have hS : (∑ r ∈ Finset.range n, b ^ (r + 1) * f (r + 1)) =
        b * ∑ r ∈ Finset.range n, b ^ r * f (r + 1) := by
      rw [Finset.mul_sum]
      apply Finset.sum_congr rfl
      intro r _
      ring
    rw [hS]
    simp only [pow_zero, one_mul]
    have h0 : f 0 < b := hf 0 (Nat.succ_pos n)
    have hkey : (b * (∑ r ∈ Finset.range n, b ^ r * f (r + 1)) + f 0) / b
        = ∑ r ∈ Finset.range n, b ^ r * f (r + 1) := by
      rw [add_comm, Nat.add_mul_div_left _ _ hb, Nat.div_eq_of_lt h0, zero_add]
    cases j with
    | zero =>
      simp only [pow_zero, Nat.div_one]
      rw [Nat.mul_add_mod, Nat.mod_eq_of_lt h0]
    | succ j =>
      have hdiv : (b * (∑ r ∈ Finset.range n, b ^ r * f (r + 1)) + f 0) / b ^ (j + 1)
          = (∑ r ∈ Finset.range n, b ^ r * f (r + 1)) / b ^ j := by
        rw [pow_succ', ← Nat.div_div_eq_div_mul, hkey]
      rw [hdiv]
      exact ih (fun r => f (r + 1)) (fun r hr => hf (r + 1) (by omega)) j (by omega)

lemma digits_sum_reconstruct (b n dec : ℕ) (hb : 0 < b) (hdec : dec < b ^ n) :
    (∑ r ∈ Finset.range n, b ^ r * (dec / b ^ r % b)) = dec := by
  induction n generalizing dec with
  | zero =>
    have h0 : dec = 0 := by simpa using hdec
    simp [h0]
  | succ n ih =>
    rw [Finset.sum_range_succ']
    have hS : (∑ r ∈ Finset.range n, b ^ (r + 1) * (dec / b ^ (r + 1) % b)) =
        b * ∑ r ∈ Finset.range n, b ^ r * ((dec / b) / b ^ r % b) := by
      rw [Finset.mul_sum]
      apply Finset.sum_congr rfl
      intro r _
      rw [pow_succ', ← Nat.div_div_eq_div_mul]
      ring
    rw [hS]
    have hq : dec / b < b ^ n := by
      apply Nat.div_lt_of_lt_mul
      rw [← pow_succ']
      exact hdec
    rw [ih (dec / b) hq]
    simp only [pow_zero, one_mul, Nat.div_one]
    exact Nat.div_add_mod dec b

lemma ofRows_toRow (Nx Ny dec : ℕ) (hdec : dec < 2 ^ (Nx * Ny)) :
    ofRows Nx Ny (toRow Nx dec) = dec := by
  unfold ofRows toRow
  have hb : 0 < 2 ^ Nx := Nat.pos_pow_of_pos _ (by norm_num)
  have hdec2 : dec < (2 ^ Nx) ^ Ny := by
    rw [← pow_mul]
    exact hdec
  have := digits_sum_reconstruct (2 ^ Nx) Ny dec hb hdec2
  calc (∑ r ∈ Finset.range Ny, 2 ^ (r * Nx) * (dec / 2 ^ (r * Nx) % 2 ^ Nx))
      = ∑ r ∈ Finset.range Ny, (2 ^ Nx) ^ r * (dec / (2 ^ Nx) ^ r % 2 ^ Nx) := by
        apply Finset.sum_congr rfl
        intro r _
        rw [← pow_mul, mul_comm Nx r]
    _ = dec := this

lemma toRow_ofRows (Nx Ny : ℕ) (f : ℕ → ℕ) (hf : ∀ r < Ny, f r < 2 ^ Nx)
    (j : ℕ) (hj : j < Ny) :
    toRow Nx (ofRows Nx Ny f) j = f j := by
  unfold ofRows toRow
  have hb : (0:ℕ) < 2 ^ Nx := Nat.pos_pow_of_pos _ (by norm_num)
  have := digits_sum_extract (2 ^ Nx) Ny f hb hf j hj
  calc (∑ r ∈ Finset.range Ny, 2 ^ (r * Nx) * f r) / 2 ^ (j * Nx) % 2 ^ Nx
      = (∑ r ∈ Finset.range Ny, (2 ^ Nx) ^ r * f r) / (2 ^ Nx) ^ j % 2 ^ Nx := by
        rw [← pow_mul, mul_comm Nx j]
        congr 2
        apply Finset.sum_congr rfl
        intro r _
        rw [← pow_mul, mul_comm Nx r]
    _ = f j := this

lemma ofRows_lt (Nx Ny : ℕ) (f : ℕ → ℕ) (hf : ∀ r < Ny, f r < 2 ^ Nx) :
    ofRows Nx Ny f < 2 ^ (Nx * Ny) := by
  unfold ofRows
  have hb : (0:ℕ) < 2 ^ Nx := Nat.pos_pow_of_pos _ (by norm_num)
  have := digits_sum_lt (2 ^ Nx) Ny f hb hf
  calc (∑ r ∈ Finset.range Ny, 2 ^ (r * Nx) * f r)
      = ∑ r ∈ Finset.range Ny, (2 ^ Nx) ^ r * f r := by
        apply Finset.sum_congr rfl
        intro r _
        rw [← pow_mul, mul_comm Nx r]
    _ < (2 ^ Nx) ^ Ny := this
    _ = 2 ^ (Nx * Ny) := by rw [← pow_mul]

lemma translate_x_lt (dec Nx Ny : ℕ) (hNx : 0 < Nx) (hdec : dec < 2 ^ (Nx * Ny)) :
    translate_x dec Nx Ny < 2 ^ (Nx * Ny) := by
  rw [translate_x_eq]
  exact ofRows_lt _ _ _ (fun r _ => rot_lt Nx _ hNx (toRow_lt Nx dec r))

lemma translate_y_lt (dec Nx Ny : ℕ) (hNy : 0 < Ny) (hdec : dec < 2 ^ (Nx * Ny)) :
    translate_y dec Nx Ny < 2 ^ (Nx * Ny) := by
  unfold translate_y
  have hb : (0:ℕ) < 2 ^ Nx := Nat.pos_pow_of_pos _ (by norm_num)
  have hsplit : 2 ^ (Nx * Ny) = 2 ^ Nx * 2 ^ (Nx * (Ny - 1)) := by
    rw [← pow_add]
    congr 1
    cases Ny with
    | zero => omega
    | succ n => simp [Nat.mul_succ, Nat.succ_sub_one]; ring
  have h1 : dec / 2 ^ Nx < 2 ^ (Nx * (Ny - 1)) := by
    apply Nat.div_lt_of_lt_mul
    rw [← hsplit]
    exact hdec
  have h2 : dec % 2 ^ Nx ≤ 2 ^ Nx - 1 := Nat.le_sub_one_of_lt (Nat.mod_lt _ hb)
  have h3 : (dec % 2 ^ Nx) * 2 ^ (Nx * (Ny - 1)) ≤ (2 ^ Nx - 1) * 2 ^ (Nx * (Ny - 1)) :=
    Nat.mul_le_mul_right _ h2
  have h4 : (2 ^ Nx - 1) * 2 ^ (Nx * (Ny - 1)) + 2 ^ (Nx * (Ny - 1))
      = 2 ^ Nx * 2 ^ (Nx * (Ny - 1)) := by
    rw [Nat.sub_mul, one_mul]
    have hP : 2 ^ (Nx * (Ny - 1)) ≤ 2 ^ Nx * 2 ^ (Nx * (Ny - 1)) :=
      Nat.le_mul_of_pos_left _ hb
    omega
  rw [hsplit]
  omega

lemma ofRows_congr (Nx Ny : ℕ) (f g : ℕ → ℕ) (h : ∀ r < Ny, f r = g r) :
    ofRows Nx Ny f = ofRows Nx Ny g := by
  unfold ofRows
  apply Finset.sum_congr rfl
  intro r hr
  rw [h r (Finset.mem_range.mp hr)]

lemma rot_iter_lt (Nx : ℕ) (hNx : 0 < Nx) (k s : ℕ) (hs : s < 2 ^ Nx) :
    (rot Nx)^[k] s < 2 ^ Nx := by
  induction k with
  | zero => simpa using hs
  | succ k ih =>
    rw [Function.iterate_succ_apply']
    exact rot_lt Nx _ hNx ih

lemma rot_iterate (Nx : ℕ) (hNx : 0 < Nx) (k : ℕ) (hk : k ≤ Nx) (s : ℕ) (hs : s < 2 ^ Nx) :
    (rot Nx)^[k] s = s % 2 ^ (Nx - k) * 2 ^ k + s / 2 ^ (Nx - k) := by
  induction k with
  | zero =>
    simp [Nat.mod_eq_of_lt hs, Nat.div_eq_of_lt hs]
  | succ k ih =>
    have hk1 : k ≤ Nx := by omega
    rw [Function.iterate_succ_apply', ih hk1]
    set m := Nx - (k + 1) with hm
    have hmk : Nx - k = m + 1 := by omega
    have hmk2 : m + k = Nx - 1 := by omega
    rw [hmk]
    set u := s % 2 ^ (m + 1) with hu
    set v := s / 2 ^ (m + 1) with hv
    set b' := s / 2 ^ m % 2 with hb'
    have hvlt : v < 2 ^ k := by
      apply Nat.div_lt_of_lt_mul
      rw [← pow_add]
      have : m + 1 + k = Nx := by omega
      rw [this]
      exact hs
    have hudecomp : u = s % 2 ^ m + 2 ^ m * b' := by
      rw [hu, hb']
      have : (2:ℕ) ^ (m + 1) = 2 ^ m * 2 := by rw [pow_succ]
      rw [this]
      exact mod_mul_decomp s (2 ^ m) 2
    have hb1 : b' ≤ 1 := by
      have : b' < 2 := Nat.mod_lt _ (by norm_num)
      omega
    have hexp : (2:ℕ) ^ m * 2 ^ k = 2 ^ (Nx - 1) := by
      rw [← pow_add, hmk2]
    have ht : u * 2 ^ k + v = (s % 2 ^ m * 2 ^ k + v) + b' * 2 ^ (Nx - 1) := by
      rw [hudecomp, ← hexp]
      ring
    have hmod1 : s % 2 ^ m < 2 ^ m := Nat.mod_lt s (Nat.pos_pow_of_pos _ (by norm_num))
    have hbound : s % 2 ^ m * 2 ^ k + v < 2 ^ (Nx - 1) := by
      have h1 : s % 2 ^ m * 2 ^ k ≤ (2 ^ m - 1) * 2 ^ k :=
        Nat.mul_le_mul_right _ (Nat.le_sub_one_of_lt hmod1)
      have h2 : (2 ^ m - 1) * 2 ^ k + 2 ^ k = 2 ^ m * 2 ^ k := by
        rw [Nat.sub_mul, one_mul]
        have : (2:ℕ) ^ k ≤ 2 ^ m * 2 ^ k := Nat.le_mul_of_pos_left _ (Nat.pos_pow_of_pos _ (by norm_num))
        omega
      rw [← hexp]
      omega
    have htlt : u * 2 ^ k + v < 2 ^ Nx := by
      have hsplit : (2:ℕ) ^ (Nx - 1) + 2 ^ (Nx - 1) = 2 ^ Nx := by
        have : (2:ℕ) ^ (Nx - 1) * 2 = 2 ^ Nx := by
          rw [← pow_succ]
          congr 1
          omega
        omega
      have : b' * 2 ^ (Nx - 1) ≤ 2 ^ (Nx - 1) := by
        rcases Nat.le_one_iff_eq_zero_or_eq_one.mp hb1 with h | h <;> simp [h]
      omega
    rw [rot_eq Nx _ hNx htlt, ht]
    have hmodNx : ((s % 2 ^ m * 2 ^ k + v) + b' * 2 ^ (Nx - 1)) % 2 ^ (Nx - 1)
        = s % 2 ^ m * 2 ^ k + v := by
      rw [Nat.add_mul_mod_self_right]
      exact Nat.mod_eq_of_lt hbound
    have hdivNx : ((s % 2 ^ m * 2 ^ k + v) + b' * 2 ^ (Nx - 1)) / 2 ^ (Nx - 1) = b' := by
      rw [Nat.add_mul_div_right _ _ (Nat.pos_pow_of_pos _ (by norm_num)),
        Nat.div_eq_of_lt hbound, zero_add]
    rw [hmodNx, hdivNx]
    have hsm : s / 2 ^ m = 2 * v + b' := by
      rw [hv, hb']
      have h2 : s / 2 ^ (m + 1) = s / 2 ^ m / 2 := by
        rw [pow_succ, Nat.div_div_eq_div_mul]
      rw [h2]
      omega
    rw [hsm]
    ring

lemma rot_nx_id (Nx : ℕ) (s : ℕ) (hs : s < 2 ^ Nx) : (rot Nx)^[Nx] s = s := by
  rcases Nat.eq_zero_or_pos Nx with h | h
  · subst h
    rfl
  · rw [rot_iterate Nx h Nx le_rfl s hs]
    simp [Nat.mod_one]

lemma tx_iterate_eq (Nx Ny : ℕ) (hNx : 0 < Nx) (k dec : ℕ) (hdec : dec < 2 ^ (Nx * Ny)) :
    (tx Nx Ny)^[k] dec = ofRows Nx Ny (fun r => (rot Nx)^[k] (toRow Nx dec r)) := by
  induction k with
  | zero =>
    simpa using (ofRows_toRow Nx Ny dec hdec).symm
  | succ k ih =>
    rw [Function.iterate_succ_apply', ih]
    show translate_x (ofRows Nx Ny fun r => (rot Nx)^[k] (toRow Nx dec r)) Nx Ny = _
    rw [translate_x_eq]
    apply ofRows_congr
    intro r hr
    rw [toRow_ofRows Nx Ny _ (fun j hj => rot_iter_lt Nx hNx k _ (toRow_lt Nx dec j)) r hr]
    exact (Function.iterate_succ_apply' _ _ _).symm

lemma tx_closure (Nx Ny dec : ℕ) (hNx : 0 < Nx) (hdec : dec < 2 ^ (Nx * Ny)) :
    (tx Nx Ny)^[Nx] dec = dec := by
  rw [tx_iterate_eq Nx Ny hNx Nx dec hdec]
  have h : ofRows Nx Ny (fun r => (rot Nx)^[Nx] (toRow Nx dec r)) = ofRows Nx Ny (toRow Nx dec) := by
    apply ofRows_congr
    intro r _
    exact rot_nx_id Nx _ (toRow_lt Nx dec r)
  rw [h, ofRows_toRow Nx Ny dec hdec]

lemma ty_iterate (Nx Ny : ℕ) (k : ℕ) (hk : k ≤ Ny) (dec : ℕ) (hdec : dec < 2 ^ (Nx * Ny)) :
    (ty Nx Ny)^[k] dec = dec / 2 ^ (Nx * k) + (dec % 2 ^ (Nx * k)) * 2 ^ (Nx * (Ny - k)) := by
  induction k with
  | zero =>
    simp [Nat.mod_one]
  | succ k ih =>
    have hk1 : k ≤ Ny := by omega
    rw [Function.iterate_succ_apply', ih hk1]
    show translate_y _ Nx Ny = _
    unfold translate_y
    have hNyk : Ny - k = (Ny - (k + 1)) + 1 := by omega
    have hsplit : (2:ℕ) ^ (Nx * (Ny - k)) = 2 ^ Nx * 2 ^ (Nx * (Ny - (k + 1))) := by
      rw [← pow_add]
      congr 1
      rw [hNyk]
      ring
    have hstep : dec / 2 ^ (Nx * k) + dec % 2 ^ (Nx * k) * 2 ^ (Nx * (Ny - k))
        = dec / 2 ^ (Nx * k) + (dec % 2 ^ (Nx * k) * 2 ^ (Nx * (Ny - (k + 1)))) * 2 ^ Nx := by
      rw [hsplit]
      ring
    rw [hstep]
    have hb : (0:ℕ) < 2 ^ Nx := Nat.pos_pow_of_pos _ (by norm_num)
    rw [Nat.add_mul_div_right _ _ hb, Nat.add_mul_mod_self_right]
    have hdd : dec / 2 ^ (Nx * k) / 2 ^ Nx = dec / 2 ^ (Nx * (k + 1)) := by
      rw [Nat.div_div_eq_div_mul, ← pow_add, Nat.mul_succ]
    rw [hdd]
    have hmm : dec % 2 ^ (Nx * (k + 1))
        = dec % 2 ^ (Nx * k) + 2 ^ (Nx * k) * (dec / 2 ^ (Nx * k) % 2 ^ Nx) := by
      have h1 : (2:ℕ) ^ (Nx * (k + 1)) = 2 ^ (Nx * k) * 2 ^ Nx := by
        rw [← pow_add, Nat.mul_succ]
      rw [h1]
      exact mod_mul_decomp dec _ _
    rw [hmm]
    have hexp2 : (2:ℕ) ^ (Nx * k) * 2 ^ (Nx * (Ny - (k + 1))) = 2 ^ (Nx * (Ny - 1)) := by
      rw [← pow_add]
      congr 1
      have : k + (Ny - (k + 1)) = Ny - 1 := by omega
      calc Nx * k + Nx * (Ny - (k + 1)) = Nx * (k + (Ny - (k + 1))) := by ring
        _ = Nx * (Ny - 1) := by rw [this]
    calc dec / 2 ^ (Nx * (k + 1)) + dec % 2 ^ (Nx * k) * 2 ^ (Nx * (Ny - (k + 1)))
          + dec / 2 ^ (Nx * k) % 2 ^ Nx * 2 ^ (Nx * (Ny - 1))
        = dec / 2 ^ (Nx * (k + 1)) + dec % 2 ^ (Nx * k) * 2 ^ (Nx * (Ny - (k + 1)))
          + dec / 2 ^ (Nx * k) % 2 ^ Nx * (2 ^ (Nx * k) * 2 ^ (Nx * (Ny - (k + 1)))) := by
          rw [hexp2]
      _ = dec / 2 ^ (Nx * (k + 1)) +
          (dec % 2 ^ (Nx * k) + 2 ^ (Nx * k) * (dec / 2 ^ (Nx * k) % 2 ^ Nx)) *
            2 ^ (Nx * (Ny - (k + 1))) := by ring

lemma ty_closure (Nx Ny dec : ℕ) (hNy : 0 < Ny) (hdec : dec < 2 ^ (Nx * Ny)) :
    (ty Nx Ny)^[Ny] dec = dec := by
  rw [ty_iterate Nx Ny Ny le_rfl dec hdec]
  rw [Nat.div_eq_of_lt hdec, Nat.mod_eq_of_lt hdec]
  simp

lemma toRow_tx (Nx Ny dec j : ℕ) (hNx : 0 < Nx) (hj : j < Ny) :
    toRow Nx (tx Nx Ny dec) j = rot Nx (toRow Nx dec j) := by
  show toRow Nx (translate_x dec Nx Ny) j = _
  rw [translate_x_eq]
  exact toRow_ofRows Nx Ny _ (fun r _ => rot_lt Nx _ hNx (toRow_lt Nx dec r)) j hj

lemma toRow_ty (Nx Ny dec j : ℕ) (hNy : 0 < Ny) (hdec : dec < 2 ^ (Nx * Ny)) (hj : j < Ny) :
    toRow Nx (ty Nx Ny dec) j = toRow Nx dec ((j + 1) % Ny) := by
  show toRow Nx (translate_y dec Nx Ny) j = _
  unfold translate_y toRow
  have hb : (0:ℕ) < 2 ^ (j * Nx) := Nat.pos_pow_of_pos _ (by norm_num)
  rcases Nat.lt_or_ge (j + 1) Ny with hj1 | hj1
  · rw [Nat.mod_eq_of_lt hj1]
    have hsplit : (2:ℕ) ^ (Nx * (Ny - 1)) = 2 ^ (j * Nx) * 2 ^ (Nx * (Ny - 1 - j)) := by
      rw [← pow_add]
      congr 1
      have : Nx * (Ny - 1) = Nx * j + Nx * (Ny - 1 - j) := by
        rw [← Nat.mul_add]
        congr 1
        omega
      rw [this]
      ring
    have hstep : dec / 2 ^ Nx + dec % 2 ^ Nx * 2 ^ (Nx * (Ny - 1))
        = dec / 2 ^ Nx + (dec % 2 ^ Nx * 2 ^ (Nx * (Ny - 1 - j))) * 2 ^ (j * Nx) := by
      rw [hsplit]
      ring
    rw [hstep, Nat.add_mul_div_right _ _ hb]
    have hdd : dec / 2 ^ Nx / 2 ^ (j * Nx) = dec / 2 ^ ((j + 1) * Nx) := by
      rw [Nat.div_div_eq_div_mul, ← pow_add]
      congr 1
      ring
    rw [hdd]
    have hfac : dec % 2 ^ Nx * 2 ^ (Nx * (Ny - 1 - j))
        = (dec % 2 ^ Nx * 2 ^ (Nx * (Ny - 1 - j) - Nx)) * 2 ^ Nx := by
      have h3 : Nx ≤ Nx * (Ny - 1 - j) := by
        have h4 : 1 ≤ Ny - 1 - j := by omega
        calc Nx = Nx * 1 := by ring
          _ ≤ Nx * (Ny - 1 - j) := Nat.mul_le_mul_left _ h4
      have h2 : Nx * (Ny - 1 - j) = (Nx * (Ny - 1 - j) - Nx) + Nx := by omega
      calc dec % 2 ^ Nx * 2 ^ (Nx * (Ny - 1 - j))
          = dec % 2 ^ Nx * (2 ^ (Nx * (Ny - 1 - j) - Nx) * 2 ^ Nx) := by
            rw [← pow_add, ← h2]
        _ = (dec % 2 ^ Nx * 2 ^ (Nx * (Ny - 1 - j) - Nx)) * 2 ^ Nx := by ring
    rw [hfac, Nat.add_mul_mod_self_right]
  · have hjNy : j = Ny - 1 := by omega
    have hmod0 : (j + 1) % Ny = 0 := by
      have h6 : j + 1 = Ny := by omega
      simp [h6]
    rw [hmod0]
    have hNy1 : Nx * (Ny - 1) = j * Nx := by rw [hjNy]; ring
    rw [hNy1, Nat.add_mul_div_right _ _ hb]
    have hdd : dec / 2 ^ Nx / 2 ^ (j * Nx) = 0 := by
      apply Nat.div_eq_of_lt
      apply Nat.div_lt_of_lt_mul
      have hexp : Nx * Ny = Nx + j * Nx := by
        rw [hjNy]
        have h5 : Ny = 1 + (Ny - 1) := by omega
        conv_lhs => rw [h5]
        ring
      calc dec < 2 ^ (Nx * Ny) := hdec
        _ = 2 ^ Nx * 2 ^ (j * Nx) := by rw [← pow_add, hexp]
    rw [hdd, zero_add]
    rw [Nat.mod_mod_of_dvd _ dvd_rfl]
    norm_num

lemma tx_mem (Nx Ny dec : ℕ) (hNx : 0 < Nx) (hdec : dec < 2 ^ (Nx * Ny)) :
    tx Nx Ny dec < 2 ^ (Nx * Ny) := translate_x_lt dec Nx Ny hNx hdec

lemma ty_mem (Nx Ny dec : ℕ) (hNy : 0 < Ny) (hdec : dec < 2 ^ (Nx * Ny)) :
    ty Nx Ny dec < 2 ^ (Nx * Ny) := translate_y_lt dec Nx Ny hNy hdec

lemma tx_ty_comm (Nx Ny dec : ℕ) (hNx : 0 < Nx) (hNy : 0 < Ny)
    (hdec : dec < 2 ^ (Nx * Ny)) :
    tx Nx Ny (ty Nx Ny dec) = ty Nx Ny (tx Nx Ny dec) := by
  have h1 : ty Nx Ny dec < 2 ^ (Nx * Ny) := ty_mem Nx Ny dec hNy hdec
  have h2 : tx Nx Ny dec < 2 ^ (Nx * Ny) := tx_mem Nx Ny dec hNx hdec
  have h3 : tx Nx Ny (ty Nx Ny dec) < 2 ^ (Nx * Ny) := tx_mem Nx Ny _ hNx h1
  have h4 : ty Nx Ny (tx Nx Ny dec) < 2 ^ (Nx * Ny) := ty_mem Nx Ny _ hNy h2
  have hrow : ∀ j < Ny, toRow Nx (tx Nx Ny (ty Nx Ny dec)) j
      = toRow Nx (ty Nx Ny (tx Nx Ny dec)) j := by
    intro j hj
    rw [toRow_tx Nx Ny _ j hNx hj, toRow_ty Nx Ny dec j hNy hdec hj,
      toRow_ty Nx Ny _ j hNy h2 hj, toRow_tx Nx Ny dec _ hNx (Nat.mod_lt _ hNy)]
  calc tx Nx Ny (ty Nx Ny dec) = ofRows Nx Ny (toRow Nx (tx Nx Ny (ty Nx Ny dec))) :=
        (ofRows_toRow Nx Ny _ h3).symm
    _ = ofRows Nx Ny (toRow Nx (ty Nx Ny (tx Nx Ny dec))) := ofRows_congr _ _ _ _ hrow
    _ = ty Nx Ny (tx Nx Ny dec) := ofRows_toRow Nx Ny _ h4

lemma tx_iter_mem (Nx Ny : ℕ) (hNx : 0 < Nx) (m dec : ℕ) (hdec : dec < 2 ^ (Nx * Ny)) :
    (tx Nx Ny)^[m] dec < 2 ^ (Nx * Ny) := by
  induction m with
  | zero => simpa using hdec
  | succ m ih =>
    rw [Function.iterate_succ_apply']
    exact tx_mem Nx Ny _ hNx ih

lemma ty_iter_mem (Nx Ny : ℕ) (hNy : 0 < Ny) (n dec : ℕ) (hdec : dec < 2 ^ (Nx * Ny)) :
    (ty Nx Ny)^[n] dec < 2 ^ (Nx * Ny) := by
  induction n with
  | zero => simpa using hdec
  | succ n ih =>
    rw [Function.iterate_succ_apply']
    exact ty_mem Nx Ny _ hNy ih

lemma ty_tx_iter_comm (Nx Ny : ℕ) (hNx : 0 < Nx) (hNy : 0 < Ny) (m dec : ℕ)
    (hdec : dec < 2 ^ (Nx * Ny)) :
    ty Nx Ny ((tx Nx Ny)^[m] dec) = (tx Nx Ny)^[m] (ty Nx Ny dec) := by
  induction m with
  | zero => rfl
  | succ m ih =>
    rw [Function.iterate_succ_apply', Function.iterate_succ_apply',
      ← tx_ty_comm Nx Ny _ hNx hNy (tx_iter_mem Nx Ny hNx m dec hdec), ih]

lemma ty_iter_tx_iter_comm (Nx Ny : ℕ) (hNx : 0 < Nx) (hNy : 0 < Ny) (n m dec : ℕ)
    (hdec : dec < 2 ^ (Nx * Ny)) :
    (ty Nx Ny)^[n] ((tx Nx Ny)^[m] dec) = (tx Nx Ny)^[m] ((ty Nx Ny)^[n] dec) := by
  induction n with
  | zero => rfl
  | succ n ih =>
    rw [Function.iterate_succ_apply', Function.iterate_succ_apply', ih,
      ty_tx_iter_comm Nx Ny hNx hNy m _ (ty_iter_mem Nx Ny hNy n dec hdec)]

lemma tx_iter_cycle (Nx Ny : ℕ) (hNx : 0 < Nx) (q dec : ℕ) (hdec : dec < 2 ^ (Nx * Ny)) :
    (tx Nx Ny)^[Nx * q] dec = dec := by
  induction q with
  | zero => rfl
  | succ q ih =>
    have : Nx * (q + 1) = Nx * q + Nx := by ring
    rw [this, Function.iterate_add_apply, tx_closure Nx Ny dec hNx hdec, ih]

lemma ty_iter_cycle (Nx Ny : ℕ) (hNy : 0 < Ny) (q dec : ℕ) (hdec : dec < 2 ^ (Nx * Ny)) :
    (ty Nx Ny)^[Ny * q] dec = dec := by
  induction q with
  | zero => rfl
  | succ q ih =>
    have : Ny * (q + 1) = Ny * q + Ny := by ring
    rw [this, Function.iterate_add_apply, ty_closure Nx Ny dec hNy hdec, ih]

lemma tx_iter_mod (Nx Ny : ℕ) (hNx : 0 < Nx) (m dec : ℕ) (hdec : dec < 2 ^ (Nx * Ny)) :
    (tx Nx Ny)^[m] dec = (tx Nx Ny)^[m % Nx] dec := by
  conv_lhs => rw [← Nat.mod_add_div m Nx]
  rw [Function.iterate_add_apply, tx_iter_cycle Nx Ny hNx _ dec hdec]

lemma ty_iter_mod (Nx Ny : ℕ) (hNy : 0 < Ny) (n dec : ℕ) (hdec : dec < 2 ^ (Nx * Ny)) :
    (ty Nx Ny)^[n] dec = (ty Nx Ny)^[n % Ny] dec := by
  conv_lhs => rw [← Nat.mod_add_div n Ny]
  rw [Function.iterate_add_apply, ty_iter_cycle Nx Ny hNy _ dec hdec]

/-! ## Popcount lemmas -/

lemma popcount_unfold (n : ℕ) : popcount n = popcount (n / 2) + n % 2 := by
  cases n with
  | zero => simp [popcount]
  | succ n => simp only [popcount]

lemma popcount_add_mul_pow (k u v : ℕ) (hu : u < 2 ^ k) :
    popcount (u + v * 2 ^ k) = popcount u + popcount v := by
  induction k generalizing u v with
  | zero =>
    have h0 : u = 0 := by omega
    subst h0
    simp [popcount]
  | succ k ih =>
    rw [popcount_unfold (u + v * 2 ^ (k + 1))]
    have hdiv : (u + v * 2 ^ (k + 1)) / 2 = u / 2 + v * 2 ^ k := by
      have : u + v * 2 ^ (k + 1) = u + (v * 2 ^ k) * 2 := by
        rw [pow_succ]
        ring
      rw [this, Nat.add_mul_div_right _ _ (by norm_num : (0:ℕ) < 2)]
    have hmod : (u + v * 2 ^ (k + 1)) % 2 = u % 2 := by
      have : u + v * 2 ^ (k + 1) = u + (v * 2 ^ k) * 2 := by
        rw [pow_succ]
        ring
      rw [this, Nat.add_mul_mod_self_right]
    rw [hdiv, hmod]
    have hu2 : u / 2 < 2 ^ k := by
      apply Nat.div_lt_of_lt_mul
      rw [← pow_succ']
      exact hu
    rw [ih _ _ hu2]
    rw [popcount_unfold u]
    ring

lemma popcount_rot (Nx s : ℕ) (hNx : 0 < Nx) (hs : s < 2 ^ Nx) :
    popcount (rot Nx s) = popcount s := by
  rw [rot_eq Nx s hNx hs]
  have hmod : s % 2 ^ (Nx - 1) < 2 ^ (Nx - 1) :=
    Nat.mod_lt s (Nat.pos_pow_of_pos _ (by norm_num))
  have hdiv : s / 2 ^ (Nx - 1) < 2 := by
    apply Nat.div_lt_of_lt_mul
    have : (2:ℕ) ^ (Nx - 1) * 2 = 2 ^ Nx := by
      rw [← pow_succ]
      congr 1
      omega
    omega
  have h1 : 2 * (s % 2 ^ (Nx - 1)) + s / 2 ^ (Nx - 1)
      = s / 2 ^ (Nx - 1) + (s % 2 ^ (Nx - 1)) * 2 ^ 1 := by ring
  rw [h1, popcount_add_mul_pow 1 _ _ (by simpa using hdiv)]
  have h2 : s = s % 2 ^ (Nx - 1) + (s / 2 ^ (Nx - 1)) * 2 ^ (Nx - 1) := by
    rw [mul_comm]
    exact (Nat.mod_add_div s (2 ^ (Nx - 1))).symm
  conv_rhs => rw [h2]
  rw [popcount_add_mul_pow _ _ _ hmod]
  ring

lemma popcount_ofRows (Nx Ny : ℕ) (f : ℕ → ℕ) (hf : ∀ r < Ny, f r < 2 ^ Nx) :
    popcount (ofRows Nx Ny f) = ∑ r ∈ Finset.range Ny, popcount (f r) := by
  induction Ny generalizing f with
  | zero => simp [ofRows, popcount]
  | succ n ih =>
    unfold ofRows
    rw [Finset.sum_range_succ']
    have hS : (∑ r ∈ Finset.range n, 2 ^ ((r + 1) * Nx) * f (r + 1)) =
        (∑ r ∈ Finset.range n, 2 ^ (r * Nx) * f (r + 1)) * 2 ^ Nx := by
      rw [Finset.sum_mul]
      apply Finset.sum_congr rfl
      intro r _
      rw [add_mul, one_mul, pow_add]
      ring
    rw [hS]
    simp only [pow_zero, zero_mul, one_mul]
    rw [add_comm]
    rw [popcount_add_mul_pow Nx _ _ (hf 0 (Nat.succ_pos n))]
    have := ih (fun r => f (r + 1)) (fun r hr => hf (r + 1) (by omega))
    unfold ofRows at this
    rw [this, Finset.sum_range_succ']
    ring

lemma popcount_tx (Nx Ny dec : ℕ) (hNx : 0 < Nx) (hdec : dec < 2 ^ (Nx * Ny)) :
    popcount (translate_x dec Nx Ny) = popcount dec := by
  rw [translate_x_eq]
  rw [popcount_ofRows Nx Ny _ (fun r _ => rot_lt Nx _ hNx (toRow_lt Nx dec r))]
  have h1 : (∑ r ∈ Finset.range Ny, popcount (rot Nx (toRow Nx dec r)))
      = ∑ r ∈ Finset.range Ny, popcount (toRow Nx dec r) := by
    apply Finset.sum_congr rfl
    intro r _
    exact popcount_rot Nx _ hNx (toRow_lt Nx dec r)
  rw [h1, ← popcount_ofRows Nx Ny _ (fun r _ => toRow_lt Nx dec r),
    ofRows_toRow Nx Ny dec hdec]

/-! ## Orbit sweep lemmas -/

lemma rowStart_eq (Nx Ny dec : ℕ) (hNx : 0 < Nx) (hNy : 0 < Ny)
    (hdec : dec < 2 ^ (Nx * Ny)) (n : ℕ) :
    rowStart Nx Ny dec n = (ty Nx Ny)^[n] dec := by
  induction n with
  | zero => rfl
  | succ n ih =>
    show ty Nx Ny ((tx Nx Ny)^[Nx] (rowStart Nx Ny dec n)) = _
    rw [ih, tx_closure Nx Ny _ hNx (ty_iter_mem Nx Ny hNy n dec hdec)]
    exact (Function.iterate_succ_apply' _ _ _).symm

lemma mem_visits (Nx Ny dec : ℕ) (hNx : 0 < Nx) (hNy : 0 < Ny)
    (hdec : dec < 2 ^ (Nx * Ny)) (d n m : ℕ) :
    (d, n, m) ∈ (find_T_invariant_set Nx Ny dec).visits ↔
      n < Ny ∧ m < Nx ∧ d = (tx Nx Ny)^[m] ((ty Nx Ny)^[n] dec) := by
  show (d, n, m) ∈ (List.range Ny).bind _ ↔ _
  simp only [List.mem_bind, List.mem_map, List.mem_range, Prod.mk.injEq]
  constructor
  · rintro ⟨n1, hn1, m1, hm1, heq, hn, hm⟩
    subst hn
    subst hm
    exact ⟨hn1, hm1, by rw [← heq, rowStart_eq Nx Ny dec hNx hNy hdec]⟩
  · rintro ⟨hn, hm, hd⟩
    exact ⟨n, hn, m, hm, by rw [rowStart_eq Nx Ny dec hNx hNy hdec, ← hd], rfl, rfl⟩

lemma hasDec_find_iff (Nx Ny dec d : ℕ) (hNx : 0 < Nx) (hNy : 0 < Ny)
    (hdec : dec < 2 ^ (Nx * Ny)) :
    (find_T_invariant_set Nx Ny dec).hasDec d = true ↔
      ∃ n < Ny, ∃ m < Nx, d = (tx Nx Ny)^[m] ((ty Nx Ny)^[n] dec) := by
  unfold BlochFunc.hasDec
  rw [List.any_eq_true]
  constructor
  · rintro ⟨⟨d1, n1, m1⟩, hv, hbeq⟩
    have hd1 : d1 = d := by simpa using hbeq
    subst hd1
    obtain ⟨hn, hm, hd⟩ := (mem_visits Nx Ny dec hNx hNy hdec d1 n1 m1).mp hv
    exact ⟨n1, hn, m1, hm, hd⟩
  · rintro ⟨n, hn, m, hm, hd⟩
    exact ⟨(d, n, m), (mem_visits Nx Ny dec hNx hNy hdec d n m).mpr ⟨hn, hm, hd⟩,
      by simp⟩

/-! ## The translation equivalence relation -/

lemma transRel_refl (Nx Ny a : ℕ) : TransRel Nx Ny a a := ⟨0, 0, rfl⟩

lemma transRel_mem (Nx Ny a b : ℕ) (hNx : 0 < Nx) (hNy : 0 < Ny)
    (ha : a < 2 ^ (Nx * Ny)) (h : TransRel Nx Ny a b) : b < 2 ^ (Nx * Ny) := by
  obtain ⟨m, n, rfl⟩ := h
  exact tx_iter_mem Nx Ny hNx m _ (ty_iter_mem Nx Ny hNy n a ha)

lemma transRel_trans (Nx Ny a b c : ℕ) (hNx : 0 < Nx) (hNy : 0 < Ny)
    (ha : a < 2 ^ (Nx * Ny)) (h1 : TransRel Nx Ny a b) (h2 : TransRel Nx Ny b c) :
    TransRel Nx Ny a c := by
  obtain ⟨m, n, rfl⟩ := h1
  obtain ⟨m1, n1, rfl⟩ := h2
  refine ⟨m1 + m, n1 + n, ?_⟩
  rw [Function.iterate_add_apply, Function.iterate_add_apply]
  congr 1
  exact (ty_iter_tx_iter_comm Nx Ny hNx hNy n1 m _ (ty_iter_mem Nx Ny hNy n a ha)).symm

lemma transRel_norm (Nx Ny a b : ℕ) (hNx : 0 < Nx) (hNy : 0 < Ny)
    (ha : a < 2 ^ (Nx * Ny)) (h : TransRel Nx Ny a b) :
    ∃ n < Ny, ∃ m < Nx, (tx Nx Ny)^[m] ((ty Nx Ny)^[n] a) = b := by
  obtain ⟨m, n, rfl⟩ := h
  refine ⟨n % Ny, Nat.mod_lt _ hNy, m % Nx, Nat.mod_lt _ hNx, ?_⟩
  rw [← ty_iter_mod Nx Ny hNy n a ha]
  rw [← tx_iter_mod Nx Ny hNx m _ (ty_iter_mem Nx Ny hNy n a ha)]

lemma transRel_symm (Nx Ny a b : ℕ) (hNx : 0 < Nx) (hNy : 0 < Ny)
    (ha : a < 2 ^ (Nx * Ny)) (h : TransRel Nx Ny a b) : TransRel Nx Ny b a := by
  obtain ⟨n, hn, m, hm, rfl⟩ := transRel_norm Nx Ny a b hNx hNy ha h
  refine ⟨Nx - m, Ny - n, ?_⟩
  rw [ty_iter_tx_iter_comm Nx Ny hNx hNy (Ny - n) m _ (ty_iter_mem Nx Ny hNy n a ha),
    ← Function.iterate_add_apply, ← Function.iterate_add_apply]
  have h1 : Nx - m + m = Nx := by omega
  have h2 : Ny - n + n = Ny := by omega
  rw [h1, h2, ty_closure Nx Ny a hNy ha, tx_closure Nx Ny a hNx ha]

lemma hasDec_iff_transRel (Nx Ny dec d : ℕ) (hNx : 0 < Nx) (hNy : 0 < Ny)
    (hdec : dec < 2 ^ (Nx * Ny)) :
    (find_T_invariant_set Nx Ny dec).hasDec d = true ↔ TransRel Nx Ny dec d := by
  rw [hasDec_find_iff Nx Ny dec d hNx hNy hdec]
  constructor
  · rintro ⟨n, _, m, _, rfl⟩
    exact ⟨m, n, rfl⟩
  · intro h
    obtain ⟨n, hn, m, hm, hd⟩ := transRel_norm Nx Ny dec d hNx hNy hdec h
    exact ⟨n, hn, m, hm, hd.symm⟩

lemma popcount_ty (Nx Ny dec : ℕ) (hNy : 0 < Ny) (hdec : dec < 2 ^ (Nx * Ny)) :
    popcount (translate_y dec Nx Ny) = popcount dec := by
  unfold translate_y
  have hb : (0:ℕ) < 2 ^ Nx := Nat.pos_pow_of_pos _ (by norm_num)
  have hsplit : (2:ℕ) ^ (Nx * Ny) = 2 ^ Nx * 2 ^ (Nx * (Ny - 1)) := by
    rw [← pow_add]
    congr 1
    have : Ny = 1 + (Ny - 1) := by omega
    conv_lhs => rw [this]
    ring
  have hq : dec / 2 ^ Nx < 2 ^ (Nx * (Ny - 1)) := by
    apply Nat.div_lt_of_lt_mul
    rw [← hsplit]
    exact hdec
  rw [popcount_add_mul_pow _ _ _ hq]
  conv_rhs => rw [← Nat.mod_add_div dec (2 ^ Nx)]
  rw [mul_comm (2 ^ Nx) (dec / 2 ^ Nx),
    popcount_add_mul_pow Nx _ _ (Nat.mod_lt _ hb)]
  ring

lemma popcount_transRel (Nx Ny a b : ℕ) (hNx : 0 < Nx) (hNy : 0 < Ny)
    (ha : a < 2 ^ (Nx * Ny)) (h : TransRel Nx Ny a b) : popcount b = popcount a := by
  obtain ⟨m, n, rfl⟩ := h
  have hy : ∀ k, popcount ((ty Nx Ny)^[k] a) = popcount a := by
    intro k
    induction k with
    | zero => rfl
    | succ k ih =>
      rw [Function.iterate_succ_apply']
      rw [show ty Nx Ny ((ty Nx Ny)^[k] a) = translate_y ((ty Nx Ny)^[k] a) Nx Ny from rfl]
      rw [popcount_ty Nx Ny _ hNy (ty_iter_mem Nx Ny hNy k a ha), ih]
  have hx : ∀ k, popcount ((tx Nx Ny)^[k] ((ty Nx Ny)^[n] a))
      = popcount ((ty Nx Ny)^[n] a) := by
    intro k
    induction k with
    | zero => rfl
    | succ k ih =>
      rw [Function.iterate_succ_apply']
      rw [show tx Nx Ny ((tx Nx Ny)^[k] ((ty Nx Ny)^[n] a))
        = translate_x ((tx Nx Ny)^[k] ((ty Nx Ny)^[n] a)) Nx Ny from rfl]
      rw [popcount_tx Nx Ny _ hNx
        (tx_iter_mem Nx Ny hNx k _ (ty_iter_mem Nx Ny hNy n a ha)), ih]
  rw [hx m, hy n]

/-! ## The sieve fold invariant -/

lemma zmsAux_succ (Nx Ny T : ℕ) :
    zmsAux Nx Ny (T + 1) = zmsStep Nx Ny (zmsAux Nx Ny T) T := by
  unfold zmsAux
  rw [List.range_succ, List.foldl_append]
  rfl

lemma zmsAux_invariant (Nx Ny : ℕ) (hNx : 0 < Nx) (hNy : 0 < Ny) (T : ℕ)
    (hT : T ≤ 2 ^ (Nx * Ny)) :
    (∀ o ∈ zmsAux Nx Ny T, o = find_T_invariant_set Nx Ny o.lead ∧ o.lead < T) ∧
    List.Pairwise
      (fun a b => ¬ TransRel Nx Ny a.lead b.lead ∧ ¬ TransRel Nx Ny b.lead a.lead)
      (zmsAux Nx Ny T) ∧
    (∀ d, d < T → ∃ o ∈ zmsAux Nx Ny T, o.hasDec d = true) ∧
    (∀ o ∈ zmsAux Nx Ny T, ∀ x, TransRel Nx Ny o.lead x → o.lead ≤ x) := by
  induction T with
  | zero => simp [zmsAux]
  | succ T ih =>
    have hT1 : T ≤ 2 ^ (Nx * Ny) := by omega
    obtain ⟨h1, h2, h3, h4⟩ := ih hT1
    rw [zmsAux_succ]
    unfold zmsStep
    by_cases hcl : claimedB (zmsAux Nx Ny T) T = true
    · rw [if_pos hcl]
      refine ⟨fun o ho => ⟨(h1 o ho).1, by have := (h1 o ho).2; omega⟩, h2, ?_, h4⟩
      intro d hd
      rcases Nat.lt_or_ge d T with hdT | hdT
      · exact h3 d hdT
      · have hdeq : d = T := by omega
        subst hdeq
        unfold claimedB at hcl
        rw [List.any_eq_true] at hcl
        obtain ⟨o, ho, hdo⟩ := hcl
        exact ⟨o, ho, hdo⟩
    · rw [if_neg hcl]
      have hTlt : T < 2 ^ (Nx * Ny) := by omega
      have hnotcl : ∀ o ∈ zmsAux Nx Ny T, ¬ TransRel Nx Ny o.lead T := by
        intro o ho hrel
        apply hcl
        unfold claimedB
        rw [List.any_eq_true]
        refine ⟨o, ho, ?_⟩
        have hofind := (h1 o ho).1
        have holt : o.lead < 2 ^ (Nx * Ny) := by have := (h1 o ho).2; omega
        rw [hofind]
        exact (hasDec_iff_transRel Nx Ny o.lead T hNx hNy holt).mpr hrel
      have hnotcl2 : ∀ o ∈ zmsAux Nx Ny T, ¬ TransRel Nx Ny T o.lead := by
        intro o ho hrel
        exact hnotcl o ho (transRel_symm Nx Ny T o.lead hNx hNy hTlt hrel)
      refine ⟨?_, ?_, ?_, ?_⟩
      · intro o ho
        rcases List.mem_append.mp ho with ho1 | ho1
        · exact ⟨(h1 o ho1).1, by have := (h1 o ho1).2; omega⟩
        · have hoeq : o = find_T_invariant_set Nx Ny T := by simpa using ho1
          subst hoeq
          exact ⟨rfl, by show T < T + 1; omega⟩
      · rw [List.pairwise_append]
        refine ⟨h2, by simp, ?_⟩
        intro a ha b hb
        have hbeq : b = find_T_invariant_set Nx Ny T := by simpa using hb
        subst hbeq
        exact ⟨hnotcl a ha, hnotcl2 a ha⟩
      · intro d hd
        rcases Nat.lt_or_ge d T with hdT | hdT
        · obtain ⟨o, ho, hdo⟩ := h3 d hdT
          exact ⟨o, List.mem_append_left _ ho, hdo⟩
        · have hdeq : d = T := by omega
          subst hdeq
          refine ⟨find_T_invariant_set Nx Ny d, List.mem_append_right _ (by simp), ?_⟩
          exact (hasDec_iff_transRel Nx Ny d d hNx hNy (by omega)).mpr
            (transRel_refl Nx Ny d)
      · intro o ho x hx
        rcases List.mem_append.mp ho with ho1 | ho1
        · exact h4 o ho1 x hx
        · have hoeq : o = find_T_invariant_set Nx Ny T := by simpa using ho1
          subst hoeq
          show T ≤ x
          by_contra hlt
          push_neg at hlt
          obtain ⟨o1, ho2, hdo1⟩ := h3 x hlt
          have ho1find := (h1 o1 ho2).1
          have ho1lt : o1.lead < 2 ^ (Nx * Ny) := by have := (h1 o1 ho2).2; omega
          have hrel1 : TransRel Nx Ny o1.lead x := by
            rw [ho1find] at hdo1
            exact (hasDec_iff_transRel Nx Ny o1.lead x hNx hNy ho1lt).mp hdo1
          have hrel2 : TransRel Nx Ny x T := transRel_symm Nx Ny T x hNx hNy hTlt hx
          exact hnotcl o1 ho2
            (transRel_trans Nx Ny o1.lead x T hNx hNy ho1lt hrel1 hrel2)

lemma countP_eq_one_of {α : Type} (l : List α) (p : α → Bool)
    (hex : ∃ a ∈ l, p a = true)
    (huniq : List.Pairwise (fun a b => ¬(p a = true ∧ p b = true)) l) :
    l.countP p = 1 := by
  induction l with
  | nil => simp at hex
  | cons a l ih =>
    rw [List.pairwise_cons] at huniq
    obtain ⟨hab, hpl⟩ := huniq
    by_cases hpa : p a = true
    · rw [List.countP_cons_of_pos _ _ hpa]
      have hzero : l.countP p = 0 := by
        rw [List.countP_eq_zero]
        intro b hb hpb
        exact hab b hb ⟨hpa, hpb⟩
      rw [hzero]
    · rw [List.countP_cons_of_neg _ _ hpa]
      apply ih
      · obtain ⟨x, hx, hpx⟩ := hex
        rcases List.mem_cons.mp hx with heq | hx2
        · subst heq
          exact absurd hpx hpa
        · exact ⟨x, hx2, hpx⟩
      · exact hpl

lemma zms_orbit_facts (Nx Ny : ℕ) (hNx : 0 < Nx) (hNy : 0 < Ny) :
    ∀ o ∈ zero_momentum_states Nx Ny,
      o = find_T_invariant_set Nx Ny o.lead ∧ o.lead < 2 ^ (Nx * Ny) ∧
      (∀ x, TransRel Nx Ny o.lead x → o.lead ≤ x) := by
  intro o ho
  have hperm := List.perm_insertionSort leadLE (zmsAux Nx Ny (2 ^ (Nx * Ny)))
  have ho2 : o ∈ zmsAux Nx Ny (2 ^ (Nx * Ny)) := hperm.mem_iff.mp ho
  obtain ⟨h1, _, _, h4⟩ := zmsAux_invariant Nx Ny hNx hNy (2 ^ (Nx * Ny)) le_rfl
  exact ⟨(h1 o ho2).1, (h1 o ho2).2, h4 o ho2⟩

/-! ## The translation action as a group action -/

lemma act_mem (Nx Ny : ℕ) (g : ℕ × ℕ) (a : ℕ) (hNx : 0 < Nx) (hNy : 0 < Ny)
    (ha : a < 2 ^ (Nx * Ny)) : act Nx Ny g a < 2 ^ (Nx * Ny) :=
  tx_iter_mem Nx Ny hNx g.2 _ (ty_iter_mem Nx Ny hNy g.1 a ha)

lemma act_act (Nx Ny : ℕ) (g h : ℕ × ℕ) (a : ℕ) (hNx : 0 < Nx) (hNy : 0 < Ny)
    (ha : a < 2 ^ (Nx * Ny)) :
    act Nx Ny g (act Nx Ny h a) = act Nx Ny (g.1 + h.1, g.2 + h.2) a := by
  unfold act
  rw [ty_iter_tx_iter_comm Nx Ny hNx hNy g.1 h.2 _ (ty_iter_mem Nx Ny hNy h.1 a ha)]
  rw [← Function.iterate_add_apply, ← Function.iterate_add_apply]

lemma act_mod (Nx Ny : ℕ) (g : ℕ × ℕ) (a : ℕ) (hNx : 0 < Nx) (hNy : 0 < Ny)
    (ha : a < 2 ^ (Nx * Ny)) :
    act Nx Ny g a = act Nx Ny (g.1 % Ny, g.2 % Nx) a := by
  unfold act
  rw [ty_iter_mod Nx Ny hNy g.1 a ha]
  exact tx_iter_mod Nx Ny hNx g.2 _ (ty_iter_mem Nx Ny hNy _ a ha)

lemma act_full (Nx Ny : ℕ) (a : ℕ) (hNx : 0 < Nx) (hNy : 0 < Ny)
    (ha : a < 2 ^ (Nx * Ny)) : act Nx Ny (Ny, Nx) a = a := by
  unfold act
  rw [ty_closure Nx Ny a hNy ha, tx_closure Nx Ny a hNx ha]

lemma act_inv_cancel (Nx Ny gy gx a : ℕ) (hNx : 0 < Nx) (hNy : 0 < Ny)
    (h1 : gy ≤ Ny) (h2 : gx ≤ Nx) (ha : a < 2 ^ (Nx * Ny)) :
    act Nx Ny (Ny - gy, Nx - gx) (act Nx Ny (gy, gx) a) = a := by
  rw [act_act Nx Ny _ (gy, gx) a hNx hNy ha]
  have e1 : Ny - gy + gy = Ny := by omega
  have e2 : Nx - gx + gx = Nx := by omega
  calc act Nx Ny ((Ny - gy, Nx - gx).1 + (gy, gx).1, (Ny - gy, Nx - gx).2 + (gy, gx).2) a
      = act Nx Ny (Ny, Nx) a := by
        show act Nx Ny (Ny - gy + gy, Nx - gx + gx) a = _
        rw [e1, e2]
    _ = a := act_full Nx Ny a hNx hNy ha

lemma act_inj (Nx Ny : ℕ) (g : ℕ × ℕ) (a b : ℕ) (hNx : 0 < Nx) (hNy : 0 < Ny)
    (ha : a < 2 ^ (Nx * Ny)) (hb : b < 2 ^ (Nx * Ny))
    (h : act Nx Ny g a = act Nx Ny g b) : a = b := by
  rw [act_mod Nx Ny g a hNx hNy ha, act_mod Nx Ny g b hNx hNy hb] at h
  have hc := congrArg (act Nx Ny (Ny - g.1 % Ny, Nx - g.2 % Nx)) h
  rw [act_inv_cancel Nx Ny (g.1 % Ny) (g.2 % Nx) a hNx hNy
      (le_of_lt (Nat.mod_lt _ hNy)) (le_of_lt (Nat.mod_lt _ hNx)) ha,
    act_inv_cancel Nx Ny (g.1 % Ny) (g.2 % Nx) b hNx hNy
      (le_of_lt (Nat.mod_lt _ hNy)) (le_of_lt (Nat.mod_lt _ hNx)) hb] at hc
  exact hc

lemma mem_positions (Nx Ny lead d : ℕ) (hNx : 0 < Nx) (hNy : 0 < Ny)
    (hlead : lead < 2 ^ (Nx * Ny)) (n m : ℕ) :
    (n, m) ∈ (find_T_invariant_set Nx Ny lead).positions d ↔
      n < Ny ∧ m < Nx ∧ act Nx Ny (n, m) lead = d := by
  unfold BlochFunc.positions
  rw [List.mem_map]
  constructor
  · rintro ⟨v, hv, hv2⟩
    have hv3 := List.mem_filter.mp hv
    obtain ⟨hvis, hbeq⟩ := hv3
    have hd : v.1 = d := by simpa using hbeq
    have hveq : v = (d, n, m) := by
      obtain ⟨v1, v2, v3⟩ := v
      simp only [Prod.mk.injEq] at hv2 ⊢
      simp at hd
      exact ⟨hd, by simpa using hv2⟩
    subst hveq
    obtain ⟨hn, hm, hact⟩ := (mem_visits Nx Ny lead hNx hNy hlead d n m).mp hvis
    exact ⟨hn, hm, hact.symm⟩
  · rintro ⟨hn, hm, hact⟩
    refine ⟨(d, n, m), List.mem_filter.mpr ⟨?_, by simp⟩, rfl⟩
    exact (mem_visits Nx Ny lead hNx hNy hlead d n m).mpr ⟨hn, hm, hact.symm⟩

lemma visits_snd_nodup (Nx Ny lead : ℕ) :
    ((find_T_invariant_set Nx Ny lead).visits.map fun v => v.2).Nodup := by
  show (((List.range Ny).bind fun n =>
    (List.range Nx).map fun m => ((tx Nx Ny)^[m] (rowStart Nx Ny lead n), n, m)).map
      fun v => v.2).Nodup
  rw [List.map_bind, List.nodup_flatMap]
  constructor
  · intro n _
    rw [List.map_map]
    have hc : ((fun v : ℕ × ℕ × ℕ => v.2) ∘
        fun m => ((tx Nx Ny)^[m] (rowStart Nx Ny lead n), n, m)) = fun m => (n, m) := rfl
    rw [hc]
    exact List.Nodup.map (fun a b hab => by simpa using hab) (List.nodup_range Nx)
  · apply List.Pairwise.imp ?_ (List.pairwise_lt_range Ny)
    intro a b hab x hxa hxb
    simp only [List.map_map, List.mem_map] at hxa hxb
    obtain ⟨m1, _, hm1⟩ := hxa
    obtain ⟨m2, _, hm2⟩ := hxb
    have ha2 : (a, m1) = x := hm1
    have hb2 : (b, m2) = x := hm2
    have h3 : (a, m1) = (b, m2) := ha2.trans hb2.symm
    simp only [Prod.mk.injEq] at h3
    omega

lemma positions_nodup (Nx Ny lead d : ℕ) :
    ((find_T_invariant_set Nx Ny lead).positions d).Nodup := by
  unfold BlochFunc.positions
  have hsub : ((find_T_invariant_set Nx Ny lead).visits.filter fun v => v.1 == d).Sublist
      (find_T_invariant_set Nx Ny lead).visits := List.filter_sublist _
  exact (visits_snd_nodup Nx Ny lead).sublist (hsub.map fun v => v.2)

/-! ## Character lemmas -/

lemma phaseAt_eq (Nx Ny : ℕ) (kx ky : ℤ) (g : ℕ × ℕ) :
    phaseAt Nx Ny kx ky g = xchar Ny ky g.1 * xchar Nx kx g.2 := rfl

lemma xchar_zero (M : ℕ) (k : ℤ) : xchar M k 0 = 1 := by
  unfold xchar
  norm_num

lemma xchar_add (M : ℕ) (k : ℤ) (m1 m2 : ℕ) :
    xchar M k (m1 + m2) = xchar M k m1 * xchar M k m2 := by
  unfold xchar
  rw [← Complex.exp_add]
  congr 1
  push_cast
  ring

lemma xchar_cycle (M : ℕ) (hM : 0 < M) (k : ℤ) (q : ℕ) : xchar M k (M * q) = 1 := by
  unfold xchar
  have hM0 : (M : ℂ) ≠ 0 := Nat.cast_ne_zero.mpr (by omega)
  have harg : 2 * (Real.pi : ℂ) * Complex.I * (k : ℂ) * ((M * q : ℕ) : ℂ) / (M : ℂ)
      = ((k * q : ℤ) : ℂ) * (2 * (Real.pi : ℂ) * Complex.I) := by
    push_cast
    field_simp
    ring
  rw [harg]
  exact Complex.exp_int_mul_two_pi_mul_I (k * q)

lemma xchar_mod (M : ℕ) (hM : 0 < M) (k : ℤ) (m : ℕ) :
    xchar M k (m % M) = xchar M k m := by
  conv_rhs => rw [← Nat.mod_add_div m M]
  rw [xchar_add, xchar_cycle M hM, mul_one]

lemma xchar_abs (M : ℕ) (k : ℤ) (m : ℕ) : Complex.abs (xchar M k m) = 1 := by
  unfold xchar
  have harg : 2 * (Real.pi : ℂ) * Complex.I * (k : ℂ) * (m : ℂ) / (M : ℂ)
      = ((2 * Real.pi * (k : ℝ) * (m : ℝ) / (M : ℝ) : ℝ) : ℂ) * Complex.I := by
    push_cast
    ring
  rw [harg, Complex.abs_exp_ofReal_mul_I]

lemma phaseAt_abs (Nx Ny : ℕ) (kx ky : ℤ) (g : ℕ × ℕ) :
    Complex.abs (phaseAt Nx Ny kx ky g) = 1 := by
  rw [phaseAt_eq, map_mul, xchar_abs, xchar_abs, mul_one]

lemma phaseAt_add_mod (Nx Ny : ℕ) (hNx : 0 < Nx) (hNy : 0 < Ny) (kx ky : ℤ)
    (g h : ℕ × ℕ) :
    phaseAt Nx Ny kx ky ((g.1 + h.1) % Ny, (g.2 + h.2) % Nx)
      = phaseAt Nx Ny kx ky g * phaseAt Nx Ny kx ky h := by
  rw [phaseAt_eq, phaseAt_eq, phaseAt_eq]
  show xchar Ny ky ((g.1 + h.1) % Ny) * xchar Nx kx ((g.2 + h.2) % Nx) = _
  rw [xchar_mod Ny hNy, xchar_mod Nx hNx, xchar_add, xchar_add]
  ring

lemma xchar_one_of_ne (M : ℕ) (hM : 0 < M) (m : ℕ) (hm : m < M) (hm0 : m ≠ 0)
    (k : ℤ) (h : Complex.exp (2 * (Real.pi : ℂ) * Complex.I * (m : ℂ) / (M : ℂ)) = 1) :
    False := by
  rw [Complex.exp_eq_one_iff] at h
  obtain ⟨n, hn⟩ := h
  have hM0 : (M : ℂ) ≠ 0 := Nat.cast_ne_zero.mpr (by omega)
  have h2pi : (2 * (Real.pi : ℂ) * Complex.I) ≠ 0 := by
    apply mul_ne_zero
    apply mul_ne_zero
    · norm_num
    · exact_mod_cast Real.pi_ne_zero
    · exact Complex.I_ne_zero
  have hmn : (m : ℂ) = (n : ℂ) * M := by
    have h4 : 2 * (Real.pi : ℂ) * Complex.I * (m : ℂ)
        = 2 * (Real.pi : ℂ) * Complex.I * ((n : ℂ) * M) := by
      field_simp at hn
      linear_combination hn
    exact mul_left_cancel₀ h2pi h4
  have hmn2 : (m : ℤ) = n * M := by exact_mod_cast hmn
  have hdvd : (M : ℤ) ∣ (m : ℤ) := ⟨n, by rw [hmn2]; ring⟩
  have hdvd2 : M ∣ m := Int.ofNat_dvd.mp (by exact_mod_cast hdvd)
  have := Nat.eq_zero_of_dvd_of_lt hdvd2
  omega

lemma xchar_sum_over_k (M : ℕ) (hM : 0 < M) (m : ℕ) (hm : m < M) :
    ∑ k ∈ Finset.range M, xchar M (k : ℤ) m = if m = 0 then (M : ℂ) else 0 := by
  by_cases hm0 : m = 0
  · subst hm0
    simp [xchar_zero]
  · rw [if_neg hm0]
    set ω := Complex.exp (2 * (Real.pi : ℂ) * Complex.I * (m : ℂ) / (M : ℂ)) with hω
    have hterm : ∀ k : ℕ, xchar M (k : ℤ) m = ω ^ k := by
      intro k
      rw [hω, ← Complex.exp_nat_mul]
      unfold xchar
      congr 1
      push_cast
      ring
    have hne : ω ≠ 1 := fun hcon => xchar_one_of_ne M hM m hm hm0 0 (hω ▸ hcon)
    have hpow : ω ^ M = 1 := by
      rw [hω, ← Complex.exp_nat_mul]
      have hM0 : (M : ℂ) ≠ 0 := Nat.cast_ne_zero.mpr (by omega)
      have harg : (M : ℂ) * (2 * (Real.pi : ℂ) * Complex.I * (m : ℂ) / (M : ℂ))
          = ((m : ℤ) : ℂ) * (2 * (Real.pi : ℂ) * Complex.I) := by
        push_cast
        field_simp
        ring
      rw [harg]
      exact Complex.exp_int_mul_two_pi_mul_I (m : ℤ)
    calc (∑ k ∈ Finset.range M, xchar M (k : ℤ) m) = ∑ k ∈ Finset.range M, ω ^ k := by
          apply Finset.sum_congr rfl
          intro k _
          exact hterm k
      _ = (ω ^ M - 1) / (ω - 1) := geom_sum_eq hne M
      _ = 0 := by rw [hpow]; simp

/-! ## Coset structure of orbit positions -/

lemma act_mod2 (Nx Ny gy gx a : ℕ) (hNx : 0 < Nx) (hNy : 0 < Ny)
    (ha : a < 2 ^ (Nx * Ny)) :
    act Nx Ny (gy, gx) a = act Nx Ny (gy % Ny, gx % Nx) a :=
  act_mod Nx Ny (gy, gx) a hNx hNy ha

lemma act_act2 (Nx Ny gy gx hy hx a : ℕ) (hNx : 0 < Nx) (hNy : 0 < Ny)
    (ha : a < 2 ^ (Nx * Ny)) :
    act Nx Ny (gy, gx) (act Nx Ny (hy, hx) a) = act Nx Ny (gy + hy, gx + hx) a :=
  act_act Nx Ny (gy, gx) (hy, hx) a hNx hNy ha

lemma mod_sub_add (M a b : ℕ) (hM : 0 < M) (ha : a < M) (hb : b < M) :
    (a + (b + (M - a)) % M) % M = b := by
  rcases Nat.lt_or_ge b a with h | h
  · have h1 : b + (M - a) < M := by omega
    rw [Nat.mod_eq_of_lt h1]
    have h2 : a + (b + (M - a)) = b + M := by omega
    rw [h2, Nat.add_mod_right, Nat.mod_eq_of_lt hb]
  · have h1 : b + (M - a) = (b - a) + M := by omega
    rw [h1, Nat.add_mod_right, Nat.mod_eq_of_lt (by omega : b - a < M)]
    have h2 : a + (b - a) = b := by omega
    rw [h2, Nat.mod_eq_of_lt hb]

lemma mod_add_recover (M a s : ℕ) (hM : 0 < M) (ha : a < M) (hs : s < M) :
    ((a + s) % M + (M - a)) % M = s := by
  rcases Nat.lt_or_ge (a + s) M with h1 | h1
  · rw [Nat.mod_eq_of_lt h1]
    have h2 : a + s + (M - a) = s + M := by omega
    rw [h2, Nat.add_mod_right, Nat.mod_eq_of_lt hs]
  · have h2 : (a + s) % M = a + s - M := by
      conv_lhs => rw [show a + s = (a + s - M) + M by omega]
      rw [Nat.add_mod_right, Nat.mod_eq_of_lt (by omega : a + s - M < M)]
    rw [h2]
    have h4 : a + s - M + (M - a) = s := by omega
    rw [h4, Nat.mod_eq_of_lt hs]

lemma mod_add_left_cancel (M a s1 s2 : ℕ) (hM : 0 < M) (ha : a < M)
    (hs1 : s1 < M) (hs2 : s2 < M) (h : (a + s1) % M = (a + s2) % M) : s1 = s2 := by
  have k1 := mod_add_recover M a s1 hM ha hs1
  rw [h] at k1
  exact k1.symm.trans (mod_add_recover M a s2 hM ha hs2)

lemma mem_posSet (Nx Ny lead d : ℕ) (hNx : 0 < Nx) (hNy : 0 < Ny)
    (hlead : lead < 2 ^ (Nx * Ny)) (g : ℕ × ℕ) :
    g ∈ posSet Nx Ny lead d ↔ g.1 < Ny ∧ g.2 < Nx ∧ act Nx Ny g lead = d := by
  unfold posSet
  rw [List.mem_toFinset]
  obtain ⟨n, m⟩ := g
  exact mem_positions Nx Ny lead d hNx hNy hlead n m

lemma zero_mem_stab (Nx Ny lead : ℕ) (hNx : 0 < Nx) (hNy : 0 < Ny)
    (hlead : lead < 2 ^ (Nx * Ny)) : (0, 0) ∈ posSet Nx Ny lead lead :=
  (mem_posSet Nx Ny lead lead hNx hNy hlead (0, 0)).mpr ⟨hNy, hNx, rfl⟩

lemma stab_closed (Nx Ny lead : ℕ) (hNx : 0 < Nx) (hNy : 0 < Ny)
    (hlead : lead < 2 ^ (Nx * Ny)) (g h : ℕ × ℕ)
    (hg : g ∈ posSet Nx Ny lead lead) (hh : h ∈ posSet Nx Ny lead lead) :
    ((g.1 + h.1) % Ny, (g.2 + h.2) % Nx) ∈ posSet Nx Ny lead lead := by
  obtain ⟨gy, gx⟩ := g
  obtain ⟨hy, hx⟩ := h
  rw [mem_posSet Nx Ny lead lead hNx hNy hlead] at hg hh
  obtain ⟨_, _, hgact⟩ := hg
  obtain ⟨_, _, hhact⟩ := hh
  refine (mem_posSet Nx Ny lead lead hNx hNy hlead _).mpr
    ⟨Nat.mod_lt _ hNy, Nat.mod_lt _ hNx, ?_⟩
  show act Nx Ny ((gy + hy) % Ny, (gx + hx) % Nx) lead = lead
  rw [← act_mod2 Nx Ny (gy + hy) (gx + hx) lead hNx hNy hlead,
    ← act_act2 Nx Ny gy gx hy hx lead hNx hNy hlead, hhact, hgact]

lemma posSet_coset (Nx Ny lead d : ℕ) (hNx : 0 < Nx) (hNy : 0 < Ny)
    (hlead : lead < 2 ^ (Nx * Ny)) (g0y g0x : ℕ)
    (hg0 : (g0y, g0x) ∈ posSet Nx Ny lead d) :
    posSet Nx Ny lead d =
      (posSet Nx Ny lead lead).image
        (fun s => ((g0y + s.1) % Ny, (g0x + s.2) % Nx)) := by
  rw [mem_posSet Nx Ny lead d hNx hNy hlead] at hg0
  obtain ⟨hg0y, hg0x, hg0act⟩ := hg0
  apply Finset.ext
  intro g
  obtain ⟨gy, gx⟩ := g
  rw [mem_posSet Nx Ny lead d hNx hNy hlead, Finset.mem_image]
  constructor
  · rintro ⟨hgy, hgx, hact⟩
    refine ⟨((gy + (Ny - g0y)) % Ny, (gx + (Nx - g0x)) % Nx),
      (mem_posSet Nx Ny lead lead hNx hNy hlead _).mpr
        ⟨Nat.mod_lt _ hNy, Nat.mod_lt _ hNx, ?_⟩, ?_⟩
    · apply act_inj Nx Ny (g0y, g0x) _ lead hNx hNy
        (act_mem Nx Ny _ lead hNx hNy hlead) hlead
      show act Nx Ny (g0y, g0x)
        (act Nx Ny ((gy + (Ny - g0y)) % Ny, (gx + (Nx - g0x)) % Nx) lead)
        = act Nx Ny (g0y, g0x) lead
      rw [act_act2 Nx Ny g0y g0x _ _ lead hNx hNy hlead,
        act_mod2 Nx Ny _ _ lead hNx hNy hlead,
        mod_sub_add Ny g0y gy hNy hg0y hgy, mod_sub_add Nx g0x gx hNx hg0x hgx,
        hact, hg0act]
    · simp only [Prod.mk.injEq]
      exact ⟨mod_sub_add Ny g0y gy hNy hg0y hgy, mod_sub_add Nx g0x gx hNx hg0x hgx⟩
  · rintro ⟨⟨sy, sx⟩, hs, heq⟩
    rw [mem_posSet Nx Ny lead lead hNx hNy hlead] at hs
    obtain ⟨hsy, hsx, hsact⟩ := hs
    simp only [Prod.mk.injEq] at heq
    obtain ⟨h1, h2⟩ := heq
    subst h1
    subst h2
    refine ⟨Nat.mod_lt _ hNy, Nat.mod_lt _ hNx, ?_⟩
    show act Nx Ny ((g0y + sy) % Ny, (g0x + sx) % Nx) lead = d
    rw [← act_mod2 Nx Ny (g0y + sy) (g0x + sx) lead hNx hNy hlead,
      ← act_act2 Nx Ny g0y g0x sy sx lead hNx hNy hlead, hsact, hg0act]

lemma coset_injOn (Nx Ny lead : ℕ) (hNx : 0 < Nx) (hNy : 0 < Ny)
    (hlead : lead < 2 ^ (Nx * Ny)) (g0y g0x : ℕ) (hg0y : g0y < Ny) (hg0x : g0x < Nx) :
    Set.InjOn (fun s : ℕ × ℕ => ((g0y + s.1) % Ny, (g0x + s.2) % Nx))
      (posSet Nx Ny lead lead) := by
  rintro ⟨s1y, s1x⟩ hs1 ⟨s2y, s2x⟩ hs2 heq
  rw [Finset.mem_coe, mem_posSet Nx Ny lead lead hNx hNy hlead] at hs1 hs2
  simp only [Prod.mk.injEq] at heq ⊢
  obtain ⟨h1, h2⟩ := heq
  exact ⟨mod_add_left_cancel Ny g0y s1y s2y hNy hg0y hs1.1 hs2.1 h1,
    mod_add_left_cancel Nx g0x s1x s2x hNx hg0x hs1.2.1 hs2.2.1 h2⟩

lemma sum_phase_posSet (Nx Ny lead d : ℕ) (kx ky : ℤ) (hNx : 0 < Nx) (hNy : 0 < Ny)
    (hlead : lead < 2 ^ (Nx * Ny)) (g0y g0x : ℕ)
    (hg0 : (g0y, g0x) ∈ posSet Nx Ny lead d) :
    (∑ g ∈ posSet Nx Ny lead d, phaseAt Nx Ny kx ky g)
      = phaseAt Nx Ny kx ky (g0y, g0x) *
        ∑ s ∈ posSet Nx Ny lead lead, phaseAt Nx Ny kx ky s := by
  have hb := (mem_posSet Nx Ny lead d hNx hNy hlead _).mp hg0
  rw [posSet_coset Nx Ny lead d hNx hNy hlead g0y g0x hg0,
    Finset.sum_image (coset_injOn Nx Ny lead hNx hNy hlead g0y g0x hb.1 hb.2.1),
    Finset.mul_sum]
  apply Finset.sum_congr rfl
  intro s _
  exact phaseAt_add_mod Nx Ny hNx hNy kx ky (g0y, g0x) s

lemma card_posSet (Nx Ny lead d : ℕ) (hNx : 0 < Nx) (hNy : 0 < Ny)
    (hlead : lead < 2 ^ (Nx * Ny)) (g0y g0x : ℕ)
    (hg0 : (g0y, g0x) ∈ posSet Nx Ny lead d) :
    (posSet Nx Ny lead d).card = (posSet Nx Ny lead lead).card := by
  have hb := (mem_posSet Nx Ny lead d hNx hNy hlead _).mp hg0
  rw [posSet_coset Nx Ny lead d hNx hNy hlead g0y g0x hg0,
    Finset.card_image_of_injOn (coset_injOn Nx Ny lead hNx hNy hlead g0y g0x hb.1 hb.2.1)]

lemma stabSum_zero_of_nontrivial (Nx Ny lead : ℕ) (kx ky : ℤ) (hNx : 0 < Nx)
    (hNy : 0 < Ny) (hlead : lead < 2 ^ (Nx * Ny)) (s0y s0x : ℕ)
    (hs0 : (s0y, s0x) ∈ posSet Nx Ny lead lead)
    (hne : phaseAt Nx Ny kx ky (s0y, s0x) ≠ 1) :
    (∑ s ∈ posSet Nx Ny lead lead, phaseAt Nx Ny kx ky s) = 0 := by
  have hsum := sum_phase_posSet Nx Ny lead lead kx ky hNx hNy hlead s0y s0x hs0
  have hfac : (1 - phaseAt Nx Ny kx ky (s0y, s0x)) *
      (∑ s ∈ posSet Nx Ny lead lead, phaseAt Nx Ny kx ky s) = 0 := by
    rw [sub_mul, one_mul, ← hsum, sub_self]
  rcases mul_eq_zero.mp hfac with h | h
  · exact absurd (by linear_combination -h : phaseAt Nx Ny kx ky (s0y, s0x) = 1) hne
  · exact h

/-! ## Exact values of the momentum norms -/

lemma mem_keys_iff (o : BlochFunc) (d : ℕ) : d ∈ o.keys ↔ o.hasDec d = true := by
  unfold BlochFunc.keys BlochFunc.hasDec
  rw [List.mem_dedup, List.mem_map, List.any_eq_true]
  simp only [beq_iff_eq]

lemma keys_nodup (o : BlochFunc) : o.keys.Nodup := List.nodup_dedup _

lemma decPhase_eq (Nx Ny lead d : ℕ) (kx ky : ℤ) :
    decPhase Nx Ny kx ky (find_T_invariant_set Nx Ny lead) d
      = ∑ g ∈ posSet Nx Ny lead d, phaseAt Nx Ny kx ky g :=
  (List.sum_toFinset _ (positions_nodup Nx Ny lead d)).symm

lemma posSet_nonempty_of_hasDec (Nx Ny lead d : ℕ) (hNx : 0 < Nx) (hNy : 0 < Ny)
    (hlead : lead < 2 ^ (Nx * Ny))
    (hd : (find_T_invariant_set Nx Ny lead).hasDec d = true) :
    ∃ gy gx, (gy, gx) ∈ posSet Nx Ny lead d := by
  obtain ⟨n, hn, m, hm, hdd⟩ := (hasDec_find_iff Nx Ny lead d hNx hNy hlead).mp hd
  exact ⟨n, m, (mem_posSet Nx Ny lead d hNx hNy hlead (n, m)).mpr ⟨hn, hm, hdd.symm⟩⟩

lemma abs_decPhase (Nx Ny lead d : ℕ) (kx ky : ℤ) (hNx : 0 < Nx) (hNy : 0 < Ny)
    (hlead : lead < 2 ^ (Nx * Ny))
    (hd : (find_T_invariant_set Nx Ny lead).hasDec d = true) :
    Complex.abs (decPhase Nx Ny kx ky (find_T_invariant_set Nx Ny lead) d)
      = Complex.abs (∑ s ∈ posSet Nx Ny lead lead, phaseAt Nx Ny kx ky s) := by
  obtain ⟨gy, gx, hg⟩ := posSet_nonempty_of_hasDec Nx Ny lead d hNx hNy hlead hd
  rw [decPhase_eq, sum_phase_posSet Nx Ny lead d kx ky hNx hNy hlead gy gx hg,
    map_mul, phaseAt_abs, one_mul]

lemma norm_coeff_eq (Nx Ny lead : ℕ) (kx ky : ℤ) (hNx : 0 < Nx) (hNy : 0 < Ny)
    (hlead : lead < 2 ^ (Nx * Ny)) :
    _norm_coeff Nx Ny kx ky (find_T_invariant_set Nx Ny lead)
      = Real.sqrt (((find_T_invariant_set Nx Ny lead).keys.length : ℝ) *
          Complex.abs (∑ s ∈ posSet Nx Ny lead lead, phaseAt Nx Ny kx ky s) ^ 2) := by
  unfold _norm_coeff
  congr 1
  have hmap : (find_T_invariant_set Nx Ny lead).keys.map
        (fun d => Complex.abs (decPhase Nx Ny kx ky (find_T_invariant_set Nx Ny lead) d) ^ 2)
      = List.replicate (find_T_invariant_set Nx Ny lead).keys.length
          (Complex.abs (∑ s ∈ posSet Nx Ny lead lead, phaseAt Nx Ny kx ky s) ^ 2) := by
    have hmem : ∀ b ∈ (find_T_invariant_set Nx Ny lead).keys.map
        (fun d => Complex.abs (decPhase Nx Ny kx ky (find_T_invariant_set Nx Ny lead) d) ^ 2),
        b = Complex.abs (∑ s ∈ posSet Nx Ny lead lead, phaseAt Nx Ny kx ky s) ^ 2 := by
      intro b hb
      rw [List.mem_map] at hb
      obtain ⟨d, hd, rfl⟩ := hb
      rw [abs_decPhase Nx Ny lead d kx ky hNx hNy hlead ((mem_keys_iff _ d).mp hd)]
    have hrep := List.eq_replicate_of_mem hmem
    rw [hrep, List.length_map]
  rw [hmap, List.sum_replicate, nsmul_eq_mul]

lemma stabSum_of_trivial (Nx Ny lead : ℕ) (kx ky : ℤ)
    (htriv : ∀ s ∈ posSet Nx Ny lead lead, phaseAt Nx Ny kx ky s = 1) :
    (∑ s ∈ posSet Nx Ny lead lead, phaseAt Nx Ny kx ky s)
      = ((posSet Nx Ny lead lead).card : ℂ) := by
  rw [Finset.sum_congr rfl htriv, Finset.sum_const, nsmul_eq_mul, mul_one]

lemma keys_length_pos (Nx Ny lead : ℕ) (hNx : 0 < Nx) (hNy : 0 < Ny)
    (hlead : lead < 2 ^ (Nx * Ny)) :
    0 < (find_T_invariant_set Nx Ny lead).keys.length := by
  apply List.length_pos_of_mem
  exact (mem_keys_iff _ lead).mpr
    ((hasDec_iff_transRel Nx Ny lead lead hNx hNy hlead).mpr (transRel_refl Nx Ny lead))

lemma stab_card_pos (Nx Ny lead : ℕ) (hNx : 0 < Nx) (hNy : 0 < Ny)
    (hlead : lead < 2 ^ (Nx * Ny)) : 0 < (posSet Nx Ny lead lead).card :=
  Finset.card_pos.mpr ⟨(0, 0), zero_mem_stab Nx Ny lead hNx hNy hlead⟩

lemma norm_coeff_of_trivial (Nx Ny lead : ℕ) (kx ky : ℤ) (hNx : 0 < Nx) (hNy : 0 < Ny)
    (hlead : lead < 2 ^ (Nx * Ny))
    (htriv : ∀ s ∈ posSet Nx Ny lead lead, phaseAt Nx Ny kx ky s = 1) :
    1 ≤ _norm_coeff Nx Ny kx ky (find_T_invariant_set Nx Ny lead) := by
  rw [norm_coeff_eq Nx Ny lead kx ky hNx hNy hlead, stabSum_of_trivial Nx Ny lead kx ky htriv]
  have h1 : (1:ℝ) ≤ ((find_T_invariant_set Nx Ny lead).keys.length : ℝ) := by
    exact_mod_cast keys_length_pos Nx Ny lead hNx hNy hlead
  have h2 : (1:ℝ) ≤ Complex.abs (((posSet Nx Ny lead lead).card : ℂ)) ^ 2 := by
    rw [Complex.abs_natCast]
    have : (1:ℝ) ≤ ((posSet Nx Ny lead lead).card : ℝ) := by
      exact_mod_cast stab_card_pos Nx Ny lead hNx hNy hlead
    nlinarith
  have h3 : (1:ℝ) ≤ ((find_T_invariant_set Nx Ny lead).keys.length : ℝ) *
      Complex.abs (((posSet Nx Ny lead lead).card : ℂ)) ^ 2 := by nlinarith
  calc (1:ℝ) = Real.sqrt 1 := (Real.sqrt_one).symm
    _ ≤ _ := Real.sqrt_le_sqrt h3

lemma norm_coeff_of_nontrivial (Nx Ny lead : ℕ) (kx ky : ℤ) (hNx : 0 < Nx)
    (hNy : 0 < Ny) (hlead : lead < 2 ^ (Nx * Ny)) (s0y s0x : ℕ)
    (hs0 : (s0y, s0x) ∈ posSet Nx Ny lead lead)
    (hne : phaseAt Nx Ny kx ky (s0y, s0x) ≠ 1) :
    _norm_coeff Nx Ny kx ky (find_T_invariant_set Nx Ny lead) = 0 := by
  rw [norm_coeff_eq Nx Ny lead kx ky hNx hNy hlead,
    stabSum_zero_of_nontrivial Nx Ny lead kx ky hNx hNy hlead s0y s0x hs0 hne]
  simp

lemma survives_iff (Nx Ny lead : ℕ) (kx ky : ℤ) (hNx : 0 < Nx) (hNy : 0 < Ny)
    (hlead : lead < 2 ^ (Nx * Ny)) :
    ((1e-8 : ℝ) < _norm_coeff Nx Ny kx ky (find_T_invariant_set Nx Ny lead))
      ↔ ∀ s ∈ posSet Nx Ny lead lead, phaseAt Nx Ny kx ky s = 1 := by
  constructor
  · intro h
    by_contra hcon
    push_neg at hcon
    obtain ⟨⟨sy, sx⟩, hs, hne⟩ := hcon
    rw [norm_coeff_of_nontrivial Nx Ny lead kx ky hNx hNy hlead sy sx hs hne] at h
    norm_num at h
  · intro htriv
    calc (1e-8:ℝ) < 1 := by norm_num
      _ ≤ _ := norm_coeff_of_trivial Nx Ny lead kx ky hNx hNy hlead htriv

lemma below_tolerance_iff (Nx Ny lead : ℕ) (kx ky : ℤ) (hNx : 0 < Nx) (hNy : 0 < Ny)
    (hlead : lead < 2 ^ (Nx * Ny)) :
    (_norm_coeff Nx Ny kx ky (find_T_invariant_set Nx Ny lead) < (1e-8 : ℝ))
      ↔ ¬ ∀ s ∈ posSet Nx Ny lead lead, phaseAt Nx Ny kx ky s = 1 := by
  constructor
  · intro h htriv
    have := norm_coeff_of_trivial Nx Ny lead kx ky hNx hNy hlead htriv
    linarith
  · intro hcon
    push_neg at hcon
    obtain ⟨⟨sy, sx⟩, hs, hne⟩ := hcon
    rw [norm_coeff_of_nontrivial Nx Ny lead kx ky hNx hNy hlead sy sx hs hne]
    norm_num

lemma decPhase_ne_zero_of_trivial (Nx Ny lead d : ℕ) (kx ky : ℤ) (hNx : 0 < Nx)
    (hNy : 0 < Ny) (hlead : lead < 2 ^ (Nx * Ny))
    (hd : (find_T_invariant_set Nx Ny lead).hasDec d = true)
    (htriv : ∀ s ∈ posSet Nx Ny lead lead, phaseAt Nx Ny kx ky s = 1) :
    decPhase Nx Ny kx ky (find_T_invariant_set Nx Ny lead) d ≠ 0 := by
  intro h0
  have habs := abs_decPhase Nx Ny lead d kx ky hNx hNy hlead hd
  rw [h0, map_zero, stabSum_of_trivial Nx Ny lead kx ky htriv, Complex.abs_natCast] at habs
  have := stab_card_pos Nx Ny lead hNx hNy hlead
  have : (0:ℝ) < ((posSet Nx Ny lead lead).card : ℝ) := by exact_mod_cast this
  linarith

/-! ## Retained-basis ordering -/

lemma phaseAt_zero_sector (Nx Ny : ℕ) (g : ℕ × ℕ) : phaseAt Nx Ny 0 0 g = 1 := by
  unfold phaseAt
  norm_num

lemma nonzero_at_zero_eq (Nx Ny : ℕ) (hNx : 0 < Nx) (hNy : 0 < Ny) :
    nonzero_states Nx Ny 0 0 = zero_momentum_states Nx Ny := by
  unfold nonzero_states
  apply List.filter_eq_self.mpr
  intro o ho
  rw [decide_eq_true_eq]
  obtain ⟨hfind, hlt, _⟩ := zms_orbit_facts Nx Ny hNx hNy o ho
  have h1 : 1 ≤ _norm_coeff Nx Ny 0 0 (find_T_invariant_set Nx Ny o.lead) :=
    norm_coeff_of_trivial Nx Ny o.lead 0 0 hNx hNy hlt
      (fun s _ => phaseAt_zero_sector Nx Ny s)
  rw [← hfind] at h1
  linarith

lemma zms_pairwise_lt (Nx Ny : ℕ) (hNx : 0 < Nx) (hNy : 0 < Ny) :
    List.Pairwise (fun a b : BlochFunc => a.lead < b.lead) (zero_momentum_states Nx Ny) := by
  have hsorted : List.Pairwise leadLE (zero_momentum_states Nx Ny) :=
    List.sorted_insertionSort leadLE (zmsAux Nx Ny (2 ^ (Nx * Ny)))
  have hperm := List.perm_insertionSort leadLE (zmsAux Nx Ny (2 ^ (Nx * Ny)))
  obtain ⟨_, h2, _, _⟩ := zmsAux_invariant Nx Ny hNx hNy (2 ^ (Nx * Ny)) le_rfl
  have hne : List.Pairwise (fun a b : BlochFunc =>
      ¬ TransRel Nx Ny a.lead b.lead ∧ ¬ TransRel Nx Ny b.lead a.lead)
      (zero_momentum_states Nx Ny) :=
    (hperm.pairwise_iff fun h => ⟨h.2, h.1⟩).mpr h2
  have hand := hsorted.and hne
  apply hand.imp
  rintro a b ⟨hle, hrel, _⟩
  rcases Nat.lt_or_ge a.lead b.lead with h | h
  · exact h
  · have heq : a.lead = b.lead := Nat.le_antisymm hle h
    exact absurd (heq ▸ transRel_refl Nx Ny a.lead) hrel

lemma nonzero_pairwise_lt (Nx Ny : ℕ) (kx ky : ℤ) (hNx : 0 < Nx) (hNy : 0 < Ny) :
    List.Pairwise (fun a b : BlochFunc => a.lead < b.lead)
      (nonzero_states Nx Ny kx ky) := by
  unfold nonzero_states
  exact (zms_pairwise_lt Nx Ny hNx hNy).filter _

lemma zms_countP_eq_one (Nx Ny d : ℕ) (hNx : 0 < Nx) (hNy : 0 < Ny)
    (hd : d < 2 ^ (Nx * Ny)) :
    ((zero_momentum_states Nx Ny).countP fun o => o.hasDec d) = 1 := by
  unfold zero_momentum_states
  rw [(List.perm_insertionSort leadLE (zmsAux Nx Ny (2 ^ (Nx * Ny)))).countP_eq]
  obtain ⟨h1, h2, h3, _⟩ := zmsAux_invariant Nx Ny hNx hNy (2 ^ (Nx * Ny)) le_rfl
  apply countP_eq_one_of
  · exact h3 d hd
  · refine h2.imp_of_mem ?_
    intro a b ha hb hrel hcontra
    obtain ⟨hpa, hpb⟩ := hcontra
    have halt : a.lead < 2 ^ (Nx * Ny) := (h1 a ha).2
    have hblt : b.lead < 2 ^ (Nx * Ny) := (h1 b hb).2
    have hrela : TransRel Nx Ny a.lead d := by
      rw [(h1 a ha).1] at hpa
      exact (hasDec_iff_transRel Nx Ny a.lead d hNx hNy halt).mp hpa
    have hrelb : TransRel Nx Ny b.lead d := by
      rw [(h1 b hb).1] at hpb
      exact (hasDec_iff_transRel Nx Ny b.lead d hNx hNy hblt).mp hpb
    exact hrel.1 (transRel_trans Nx Ny a.lead d b.lead hNx hNy halt hrela
      (transRel_symm Nx Ny b.lead d hNx hNy hblt hrelb))

/-! ## Brillouin-zone counting -/

lemma orbitPeriod_eq_stab_card (Nx Ny lead : ℕ) :
    orbitPeriod (find_T_invariant_set Nx Ny lead) = (posSet Nx Ny lead lead).card := by
  unfold orbitPeriod posSet
  exact (List.toFinset_card_of_nodup (positions_nodup Nx Ny lead _)).symm

lemma keys_mul_stab (Nx Ny lead : ℕ) (hNx : 0 < Nx) (hNy : 0 < Ny)
    (hlead : lead < 2 ^ (Nx * Ny)) :
    (find_T_invariant_set Nx Ny lead).keys.length * (posSet Nx Ny lead lead).card
      = Nx * Ny := by
  have hKcard : (find_T_invariant_set Nx Ny lead).keys.toFinset.card
      = (find_T_invariant_set Nx Ny lead).keys.length :=
    List.toFinset_card_of_nodup (keys_nodup _)
  have hG : (Finset.range Ny ×ˢ Finset.range Nx)
      = (find_T_invariant_set Nx Ny lead).keys.toFinset.biUnion
          (fun d => posSet Nx Ny lead d) := by
    apply Finset.ext
    rintro ⟨gy, gx⟩
    rw [Finset.mem_product, Finset.mem_range, Finset.mem_range, Finset.mem_biUnion]
    constructor
    · rintro ⟨hy, hx⟩
      refine ⟨act Nx Ny (gy, gx) lead, ?_, ?_⟩
      · rw [List.mem_toFinset, mem_keys_iff]
        exact (hasDec_find_iff Nx Ny lead _ hNx hNy hlead).mpr ⟨gy, hy, gx, hx, rfl⟩
      · exact (mem_posSet Nx Ny lead _ hNx hNy hlead _).mpr ⟨hy, hx, rfl⟩
    · rintro ⟨d, _, hg⟩
      have hm := (mem_posSet Nx Ny lead d hNx hNy hlead _).mp hg
      exact ⟨hm.1, hm.2.1⟩
  have hdisj : ∀ d1 ∈ (find_T_invariant_set Nx Ny lead).keys.toFinset,
      ∀ d2 ∈ (find_T_invariant_set Nx Ny lead).keys.toFinset, d1 ≠ d2 →
      Disjoint (posSet Nx Ny lead d1) (posSet Nx Ny lead d2) := by
    intro d1 _ d2 _ hne
    rw [Finset.disjoint_left]
    intro g hg1 hg2
    have h1 := ((mem_posSet Nx Ny lead d1 hNx hNy hlead g).mp hg1).2.2
    have h2 := ((mem_posSet Nx Ny lead d2 hNx hNy hlead g).mp hg2).2.2
    exact hne (h1.symm.trans h2)
  have hcard : (Finset.range Ny ×ˢ Finset.range Nx).card = Ny * Nx := by
    rw [Finset.card_product, Finset.card_range, Finset.card_range]
  rw [hG, Finset.card_biUnion hdisj] at hcard
  have hsum : (∑ d ∈ (find_T_invariant_set Nx Ny lead).keys.toFinset,
      (posSet Nx Ny lead d).card)
      = (find_T_invariant_set Nx Ny lead).keys.toFinset.card *
          (posSet Nx Ny lead lead).card := by
    have hcongr : ∀ d ∈ (find_T_invariant_set Nx Ny lead).keys.toFinset,
        (posSet Nx Ny lead d).card = (posSet Nx Ny lead lead).card := by
      intro d hd
      obtain ⟨gy, gx, hg⟩ := posSet_nonempty_of_hasDec Nx Ny lead d hNx hNy hlead
        ((mem_keys_iff _ d).mp (List.mem_toFinset.mp hd))
      exact card_posSet Nx Ny lead d hNx hNy hlead gy gx hg
    rw [Finset.sum_congr rfl hcongr, Finset.sum_const, smul_eq_mul]
  rw [hsum, hKcard] at hcard
  rw [Nat.mul_comm Nx Ny]
  exact hcard

lemma char_sum_bz (Nx Ny : ℕ) (hNx : 0 < Nx) (hNy : 0 < Ny) (s : ℕ × ℕ)
    (hs1 : s.1 < Ny) (hs2 : s.2 < Nx) :
    (∑ kx ∈ Finset.range Nx, ∑ ky ∈ Finset.range Ny,
      phaseAt Nx Ny (kx : ℤ) (ky : ℤ) s)
      = if s = (0, 0) then ((Nx * Ny : ℕ) : ℂ) else 0 := by
  have hstep : (∑ kx ∈ Finset.range Nx, ∑ ky ∈ Finset.range Ny,
      phaseAt Nx Ny (kx : ℤ) (ky : ℤ) s)
      = (∑ kx ∈ Finset.range Nx, xchar Nx (kx : ℤ) s.2) *
        (∑ ky ∈ Finset.range Ny, xchar Ny (ky : ℤ) s.1) := by
    rw [Finset.sum_mul]
    apply Finset.sum_congr rfl
    intro kx _
    rw [Finset.mul_sum]
    apply Finset.sum_congr rfl
    intro ky _
    rw [phaseAt_eq]
    ring
  rw [hstep, xchar_sum_over_k Nx hNx s.2 hs2, xchar_sum_over_k Ny hNy s.1 hs1]
  obtain ⟨sy, sx⟩ := s
  simp only [Prod.mk.injEq]
  by_cases hx : sx = 0
  · by_cases hy : sy = 0
    · subst hy
      subst hx
      rw [if_pos rfl, if_pos rfl, if_pos (⟨rfl, rfl⟩ : (0:ℕ) = 0 ∧ (0:ℕ) = 0)]
      push_cast
      ring
    · rw [if_neg hy, mul_zero, if_neg (fun hcon => hy hcon.1)]
  · rw [if_neg hx, zero_mul, if_neg (fun hcon => hx hcon.2)]

lemma stab_bz_sum (Nx Ny lead : ℕ) (hNx : 0 < Nx) (hNy : 0 < Ny)
    (hlead : lead < 2 ^ (Nx * Ny)) :
    (∑ kx ∈ Finset.range Nx, ∑ ky ∈ Finset.range Ny,
      ∑ s ∈ posSet Nx Ny lead lead, phaseAt Nx Ny (kx : ℤ) (ky : ℤ) s)
      = ((Nx * Ny : ℕ) : ℂ) := by
  have hswap : (∑ kx ∈ Finset.range Nx, ∑ ky ∈ Finset.range Ny,
      ∑ s ∈ posSet Nx Ny lead lead, phaseAt Nx Ny (kx : ℤ) (ky : ℤ) s)
      = ∑ s ∈ posSet Nx Ny lead lead, ∑ kx ∈ Finset.range Nx,
          ∑ ky ∈ Finset.range Ny, phaseAt Nx Ny (kx : ℤ) (ky : ℤ) s :=
    calc (∑ kx ∈ Finset.range Nx, ∑ ky ∈ Finset.range Ny,
        ∑ s ∈ posSet Nx Ny lead lead, phaseAt Nx Ny (kx : ℤ) (ky : ℤ) s)
        = ∑ kx ∈ Finset.range Nx, ∑ s ∈ posSet Nx Ny lead lead,
            ∑ ky ∈ Finset.range Ny, phaseAt Nx Ny (kx : ℤ) (ky : ℤ) s :=
          Finset.sum_congr rfl (fun kx _ => Finset.sum_comm)
      _ = ∑ s ∈ posSet Nx Ny lead lead, ∑ kx ∈ Finset.range Nx,
            ∑ ky ∈ Finset.range Ny, phaseAt Nx Ny (kx : ℤ) (ky : ℤ) s :=
          Finset.sum_comm
  rw [hswap]
  have hterm : ∀ s ∈ posSet Nx Ny lead lead,
      (∑ kx ∈ Finset.range Nx, ∑ ky ∈ Finset.range Ny,
        phaseAt Nx Ny (kx : ℤ) (ky : ℤ) s)
      = if s = (0, 0) then ((Nx * Ny : ℕ) : ℂ) else 0 := by
    intro s hs
    have hm := (mem_posSet Nx Ny lead lead hNx hNy hlead s).mp hs
    exact char_sum_bz Nx Ny hNx hNy s hm.1 hm.2.1
  rw [Finset.sum_congr rfl hterm, Finset.sum_ite_eq',
    if_pos (zero_mem_stab Nx Ny lead hNx hNy hlead)]

open scoped Classical in
lemma surv_count (Nx Ny lead : ℕ) (hNx : 0 < Nx) (hNy : 0 < Ny)
    (hlead : lead < 2 ^ (Nx * Ny)) :
    (∑ kx ∈ Finset.range Nx, ∑ ky ∈ Finset.range Ny,
      (if (1e-8:ℝ) < _norm_coeff Nx Ny (kx : ℤ) (ky : ℤ) (find_T_invariant_set Nx Ny lead)
       then 1 else 0))
      = (find_T_invariant_set Nx Ny lead).keys.length := by
  have hsq : ∀ kx ky : ℤ, (∑ s ∈ posSet Nx Ny lead lead, phaseAt Nx Ny kx ky s)
      = (if (1e-8:ℝ) < _norm_coeff Nx Ny kx ky (find_T_invariant_set Nx Ny lead)
         then ((posSet Nx Ny lead lead).card : ℂ) else 0) := by
    intro kx ky
    by_cases htriv : ∀ s ∈ posSet Nx Ny lead lead, phaseAt Nx Ny kx ky s = 1
    · rw [if_pos ((survives_iff Nx Ny lead kx ky hNx hNy hlead).mpr htriv),
        stabSum_of_trivial Nx Ny lead kx ky htriv]
    · rw [if_neg (fun hcon => htriv ((survives_iff Nx Ny lead kx ky hNx hNy hlead).mp hcon))]
      have hcon2 := htriv
      push_neg at hcon2
      obtain ⟨⟨sy, sx⟩, hs, hne⟩ := hcon2
      exact stabSum_zero_of_nontrivial Nx Ny lead kx ky hNx hNy hlead sy sx hs hne
  have htotal0 := stab_bz_sum Nx Ny lead hNx hNy hlead
  have htotal : (∑ kx ∈ Finset.range Nx, ∑ ky ∈ Finset.range Ny,
      (if (1e-8:ℝ) < _norm_coeff Nx Ny (kx : ℤ) (ky : ℤ) (find_T_invariant_set Nx Ny lead)
       then ((posSet Nx Ny lead lead).card : ℂ) else 0)) = ((Nx * Ny : ℕ) : ℂ) := by
    rw [← htotal0]
    apply Finset.sum_congr rfl
    intro kx _
    apply Finset.sum_congr rfl
    intro ky _
    exact (hsq kx ky).symm
  have hcast : (∑ kx ∈ Finset.range Nx, ∑ ky ∈ Finset.range Ny,
      (if (1e-8:ℝ) < _norm_coeff Nx Ny (kx : ℤ) (ky : ℤ) (find_T_invariant_set Nx Ny lead)
       then ((posSet Nx Ny lead lead).card : ℂ) else 0))
      = (((∑ kx ∈ Finset.range Nx, ∑ ky ∈ Finset.range Ny,
          (if (1e-8:ℝ) < _norm_coeff Nx Ny (kx : ℤ) (ky : ℤ)
              (find_T_invariant_set Nx Ny lead)
           then (posSet Nx Ny lead lead).card else 0)) : ℕ) : ℂ) := by
    push_cast [apply_ite]
    rfl
  rw [hcast] at htotal
  have hnat : (∑ kx ∈ Finset.range Nx, ∑ ky ∈ Finset.range Ny,
      (if (1e-8:ℝ) < _norm_coeff Nx Ny (kx : ℤ) (ky : ℤ) (find_T_invariant_set Nx Ny lead)
       then (posSet Nx Ny lead lead).card else 0)) = Nx * Ny := by
    exact_mod_cast htotal
  have hfactor : (∑ kx ∈ Finset.range Nx, ∑ ky ∈ Finset.range Ny,
      (if (1e-8:ℝ) < _norm_coeff Nx Ny (kx : ℤ) (ky : ℤ) (find_T_invariant_set Nx Ny lead)
       then (posSet Nx Ny lead lead).card else 0))
      = (∑ kx ∈ Finset.range Nx, ∑ ky ∈ Finset.range Ny,
          (if (1e-8:ℝ) < _norm_coeff Nx Ny (kx : ℤ) (ky : ℤ)
              (find_T_invariant_set Nx Ny lead)
           then 1 else 0)) * (posSet Nx Ny lead lead).card := by
    rw [Finset.sum_mul]
    apply Finset.sum_congr rfl
    intro kx _
    rw [Finset.sum_mul]
    apply Finset.sum_congr rfl
    intro ky _
    rw [ite_mul, one_mul, zero_mul]
  rw [hfactor] at hnat
  have hkm := keys_mul_stab Nx Ny lead hNx hNy hlead
  have hpos := stab_card_pos Nx Ny lead hNx hNy hlead
  apply Nat.eq_of_mul_eq_mul_right hpos
  rw [hnat, ← hkm]

lemma list_map_finset_sum_comm {α β : Type} (l : List α) (s : Finset β)
    (f : α → β → ℕ) :
    (l.map fun o => ∑ d ∈ s, f o d).sum = ∑ d ∈ s, (l.map fun o => f o d).sum := by
  induction l with
  | nil => simp
  | cons a l ih =>
    simp only [List.map_cons, List.sum_cons, ih]
    rw [← Finset.sum_add_distrib]

lemma countP_eq_map_sum {α : Type} (l : List α) (p : α → Bool) :
    l.countP p = (l.map fun a => if p a = true then 1 else 0).sum := by
  induction l with
  | nil => rfl
  | cons a l ih =>
    rw [List.countP_cons, List.map_cons, List.sum_cons, ih]
    by_cases hpa : p a = true
    · simp [hpa, Nat.add_comm]
    · simp [hpa]

lemma zms_keys_sum (Nx Ny : ℕ) (hNx : 0 < Nx) (hNy : 0 < Ny) :
    ((zero_momentum_states Nx Ny).map fun o => o.keys.length).sum = 2 ^ (Nx * Ny) := by
  have hkey : ∀ o ∈ zero_momentum_states Nx Ny,
      o.keys.length = ∑ d ∈ Finset.range (2 ^ (Nx * Ny)),
        (if o.hasDec d = true then 1 else 0) := by
    intro o ho
    obtain ⟨hfind, hlt, _⟩ := zms_orbit_facts Nx Ny hNx hNy o ho
    have hset : o.keys.toFinset
        = (Finset.range (2 ^ (Nx * Ny))).filter (fun d => o.hasDec d = true) := by
      apply Finset.ext
      intro d
      rw [List.mem_toFinset, mem_keys_iff, Finset.mem_filter, Finset.mem_range]
      constructor
      · intro hd
        refine ⟨?_, hd⟩
        rw [hfind] at hd
        exact transRel_mem Nx Ny o.lead d hNx hNy hlt
          ((hasDec_iff_transRel Nx Ny o.lead d hNx hNy hlt).mp hd)
      · exact fun h => h.2
    rw [← List.toFinset_card_of_nodup (keys_nodup o), hset, Finset.card_filter]
  rw [List.map_congr_left hkey, list_map_finset_sum_comm]
  have hinner : ∀ d ∈ Finset.range (2 ^ (Nx * Ny)),
      ((zero_momentum_states Nx Ny).map fun o => if o.hasDec d = true then 1 else 0).sum
        = 1 := by
    intro d hd
    rw [← countP_eq_map_sum]
    exact zms_countP_eq_one Nx Ny d hNx hNy (Finset.mem_range.mp hd)
  rw [Finset.sum_congr rfl hinner, Finset.sum_const, smul_eq_mul, mul_one,
    Finset.card_range]

/-! ## Spin-pair classification -/

lemma spin_partition_count (dec s1 s2 : ℕ) :
    (if (_repeated_spins dec s1 s2).1 then (1:ℤ) else 0) +
      (if (_repeated_spins dec s1 s2).2 then (1:ℤ) else 0)
    = if ((_repeated_spins dec s1 s2).1 || (_repeated_spins dec s1 s2).2)
      then (1:ℤ) else 0 := by
  unfold _repeated_spins
  cases h1 : (dec ||| s1 == dec) <;> cases h2 : (dec ||| s2 == dec) <;> simp

lemma spin_partition_compl (dec s1 s2 : ℕ) :
    (!((_repeated_spins dec s1 s2).1 || (_repeated_spins dec s1 s2).2))
    = ((_exchange_spin_flips dec s1 s2).1 || (_exchange_spin_flips dec s1 s2).2) := by
  unfold _repeated_spins _exchange_spin_flips
  cases h1 : (dec ||| s1 == dec) <;> cases h2 : (dec ||| s2 == dec) <;> simp

lemma countP_eq_map_sum_int {α : Type} (l : List α) (p : α → Bool) :
    ((l.countP p : ℤ)) = (l.map fun a => if p a = true then (1:ℤ) else 0).sum := by
  induction l with
  | nil => rfl
  | cons a l ih =>
    rw [List.countP_cons, List.map_cons, List.sum_cons]
    by_cases hpa : p a = true
    · rw [if_pos hpa, if_pos hpa]
      push_cast
      rw [ih]
      ring
    · rw [if_neg hpa, if_neg hpa]
      push_cast
      rw [ih]
      ring

lemma countP_not_add {α : Type} (l : List α) (p : α → Bool) :
    l.countP (fun a => !(p a)) + l.countP p = l.length := by
  induction l with
  | nil => rfl
  | cons a l ih =>
    rw [List.countP_cons, List.countP_cons, List.length_cons]
    by_cases hpa : p a = true
    · rw [if_pos hpa, if_neg (by simp [hpa])]
      omega
    · rw [if_neg hpa, if_pos (by simp [hpa])]
      omega

/-! ## Claim theorems: codec and orbit partition -/

/-- Claim C3: for every lattice `(Nx, Ny)` and every product state
`dec < 2^(Nx*Ny)`, applying `translate_x` `Nx` times (with `Ny` held
fixed) returns `dec` unchanged, and applying `translate_y` `Ny` times
returns `dec` unchanged. -/
theorem C3_translation_closure (Nx Ny dec : ℕ) (hNx : 0 < Nx) (hNy : 0 < Ny)
    (hdec : dec < 2 ^ (Nx * Ny)) :
    (fun d => translate_x d Nx Ny)^[Nx] dec = dec ∧
    (fun d => translate_y d Nx Ny)^[Ny] dec = dec :=
  ⟨tx_closure Nx Ny dec hNx hdec, ty_closure Nx Ny dec hNy hdec⟩

/-- Witness for C3, at `Nx = 2`, `Ny = 2`, `dec = 6`. -/
theorem C3_translation_closure_witness :
    (0 < 2 ∧ 6 < 2 ^ (2 * 2)) ∧
      (fun d => translate_x d 2 2)^[2] 6 = 6 ∧
      (fun d => translate_y d 2 2)^[2] 6 = 6 :=
  ⟨⟨by norm_num, by norm_num⟩,
    C3_translation_closure 2 2 6 (by norm_num) (by norm_num) (by norm_num)⟩

/-- Claim C2: for every lattice, every integer `d` with
`0 ≤ d < 2^(Nx*Ny)` appears as a key in the `decs` mapping of exactly
one orbit of `zero_momentum_states`. -/
theorem C2_orbit_partition (Nx Ny d : ℕ) (hNx : 0 < Nx) (hNy : 0 < Ny)
    (hd : d < 2 ^ (Nx * Ny)) :
    ((zero_momentum_states Nx Ny).countP fun o => o.hasDec d) = 1 :=
  zms_countP_eq_one Nx Ny d hNx hNy hd

/-- Witness for C2, at `Nx = 2`, `Ny = 1`, `d = 2`. -/
theorem C2_orbit_partition_witness :
    (0 < 2 ∧ 0 < 1 ∧ 2 < 2 ^ (2 * 1)) ∧
      ((zero_momentum_states 2 1).countP fun o => o.hasDec 2) = 1 :=
  ⟨⟨by norm_num, by norm_num, by norm_num⟩,
    C2_orbit_partition 2 1 2 (by norm_num) (by norm_num) (by norm_num)⟩

/-- Claim C10: `translate_x` and `translate_y` preserve the number of
set bits, and consequently every state in a translation orbit has the
same number of up-spins as the orbit's leading state. -/
theorem C10_popcount_invariant (Nx Ny dec : ℕ) (hNx : 0 < Nx) (hNy : 0 < Ny)
    (hdec : dec < 2 ^ (Nx * Ny)) :
    popcount (translate_x dec Nx Ny) = popcount dec ∧
    popcount (translate_y dec Nx Ny) = popcount dec ∧
    (∀ o ∈ zero_momentum_states Nx Ny, ∀ d, o.hasDec d = true →
      popcount d = popcount o.lead) := by
  refine ⟨popcount_tx Nx Ny dec hNx hdec, popcount_ty Nx Ny dec hNy hdec, ?_⟩
  intro o ho d hd
  obtain ⟨hfind, hlt, _⟩ := zms_orbit_facts Nx Ny hNx hNy o ho
  have hrel : TransRel Nx Ny o.lead d := by
    rw [hfind] at hd
    exact (hasDec_iff_transRel Nx Ny o.lead d hNx hNy hlt).mp hd
  exact popcount_transRel Nx Ny o.lead d hNx hNy hlt hrel

/-- Claim C4: each orbit's `lead` equals the smallest integer among the
keys of its `decs` mapping, and for every momentum sector the
reduced-basis index assignment follows ascending lead order: `i < j`
implies `lead_i < lead_j` among retained orbits (in particular index 0
carries the smallest retained lead). -/
theorem C4_lead_min_and_index_order (Nx Ny : ℕ) (kx ky : ℤ) (hNx : 0 < Nx)
    (hNy : 0 < Ny) :
    (∀ o ∈ zero_momentum_states Nx Ny,
      o.lead ∈ o.keys ∧ ∀ d ∈ o.keys, o.lead ≤ d) ∧
    (∀ i j : ℕ, i < j → j < (nonzero_states Nx Ny kx ky).length →
      ((nonzero_states Nx Ny kx ky).getD i ⟨0, []⟩).lead
        < ((nonzero_states Nx Ny kx ky).getD j ⟨0, []⟩).lead) := by
  constructor
  · intro o ho
    obtain ⟨hfind, hlt, hmin⟩ := zms_orbit_facts Nx Ny hNx hNy o ho
    constructor
    · rw [mem_keys_iff, hfind]
      exact (hasDec_iff_transRel Nx Ny o.lead o.lead hNx hNy hlt).mpr
        (transRel_refl Nx Ny o.lead)
    · intro d hd
      rw [mem_keys_iff, hfind] at hd
      exact hmin d ((hasDec_iff_transRel Nx Ny o.lead d hNx hNy hlt).mp hd)
  · intro i j hij hj
    have hi : i < (nonzero_states Nx Ny kx ky).length := lt_trans hij hj
    have hpw := nonzero_pairwise_lt Nx Ny kx ky hNx hNy
    rw [List.pairwise_iff_get] at hpw
    have hone := hpw ⟨i, hi⟩ ⟨j, hj⟩ (by simpa using hij)
    rw [List.getD_eq_getElem _ _ hi, List.getD_eq_getElem _ _ hj]
    simpa using hone

/-- Witness for C4, at `Nx = 2`, `Ny = 1`, `kx = ky = 0`, indices
`i = 0 < j = 1` (the zero sector keeps all three orbits). -/
theorem C4_lead_min_and_index_order_witness :
    ((0:ℕ) < 2 ∧ (0:ℕ) < 1 ∧ (0:ℕ) < 1 ∧ 1 < (nonzero_states 2 1 0 0).length) ∧
      ((nonzero_states 2 1 0 0).getD 0 ⟨0, []⟩).lead
        < ((nonzero_states 2 1 0 0).getD 1 ⟨0, []⟩).lead := by
  have hlen : (nonzero_states 2 1 0 0).length = 3 := by
    rw [nonzero_at_zero_eq 2 1 (by norm_num) (by norm_num)]
    rfl
  refine ⟨⟨by norm_num, by norm_num, by norm_num, by rw [hlen]; norm_num⟩, ?_⟩
  exact (C4_lead_min_and_index_order 2 1 0 0 (by norm_num) (by norm_num)).2 0 1
    (by norm_num) (by rw [hlen]; norm_num)

/-- Claim C6: `_find_leading_state` fails (raises `NotFoundError`,
embedded as `none`) exactly when the orbit owning `dec` has
momentum-sector norm below the `1e-8` tolerance, and otherwise returns
that owning orbit together with the conjugated, normalized phase sum
over the positions of `dec`, which has unit modulus. -/
theorem C6_find_leading_state (Nx Ny : ℕ) (kx ky : ℤ) (dec : ℕ) (hNx : 0 < Nx)
    (hNy : 0 < Ny) (hdec : dec < 2 ^ (Nx * Ny)) :
    ∃ o, (zero_momentum_states Nx Ny).find? (fun s => s.hasDec dec) = some o ∧
      o.hasDec dec = true ∧
      (_find_leading_state Nx Ny kx ky dec = none ↔
        _norm_coeff Nx Ny kx ky o < (1e-8 : ℝ)) ∧
      (¬ _norm_coeff Nx Ny kx ky o < (1e-8 : ℝ) →
        _find_leading_state Nx Ny kx ky dec
          = some (o, (starRingEnd ℂ) (decPhase Nx Ny kx ky o dec) /
              (Complex.abs ((starRingEnd ℂ) (decPhase Nx Ny kx ky o dec)) : ℂ)) ∧
        Complex.abs ((starRingEnd ℂ) (decPhase Nx Ny kx ky o dec) /
          (Complex.abs ((starRingEnd ℂ) (decPhase Nx Ny kx ky o dec)) : ℂ)) = 1) := by
  have hex : ∃ s ∈ zero_momentum_states Nx Ny, s.hasDec dec = true := by
    obtain ⟨_, _, h3, _⟩ := zmsAux_invariant Nx Ny hNx hNy (2 ^ (Nx * Ny)) le_rfl
    obtain ⟨o, ho, hdo⟩ := h3 dec hdec
    exact ⟨o, (List.perm_insertionSort leadLE _).mem_iff.mpr ho, hdo⟩
  have hsome : ((zero_momentum_states Nx Ny).find? fun s => s.hasDec dec).isSome := by
    rw [List.find?_isSome]
    exact hex
  obtain ⟨o, hfound⟩ := Option.isSome_iff_exists.mp hsome
  have hmem : o ∈ zero_momentum_states Nx Ny := List.mem_of_find?_eq_some hfound
  have hpo : o.hasDec dec = true := by
    have hps := List.find?_some hfound
    simpa using hps
  obtain ⟨hfind, hlt, _⟩ := zms_orbit_facts Nx Ny hNx hNy o hmem
  have hred : _find_leading_state Nx Ny kx ky dec
      = if _norm_coeff Nx Ny kx ky o < (1e-8 : ℝ) then none
        else some (o, (starRingEnd ℂ) (decPhase Nx Ny kx ky o dec) /
          (Complex.abs ((starRingEnd ℂ) (decPhase Nx Ny kx ky o dec)) : ℂ)) := by
    unfold _find_leading_state
    rw [hfound, Option.some_bind]
  refine ⟨o, hfound, hpo, ?_, ?_⟩
  · rw [hred]
    by_cases hn : _norm_coeff Nx Ny kx ky o < (1e-8 : ℝ)
    · rw [if_pos hn]
      exact ⟨fun _ => hn, fun _ => rfl⟩
    · rw [if_neg hn]
      exact ⟨fun hcon => absurd hcon (by simp), fun hcon => absurd hcon hn⟩
  · intro hn
    constructor
    · rw [hred, if_neg hn]
    · have htriv : ∀ s ∈ posSet Nx Ny o.lead o.lead, phaseAt Nx Ny kx ky s = 1 := by
        by_contra hcon
        apply hn
        rw [hfind]
        exact (below_tolerance_iff Nx Ny o.lead kx ky hNx hNy hlt).mpr hcon
      have hz : decPhase Nx Ny kx ky o dec ≠ 0 := by
        rw [hfind]
        apply decPhase_ne_zero_of_trivial Nx Ny o.lead dec kx ky hNx hNy hlt
        · rw [hfind] at hpo
          exact hpo
        · exact htriv
      have hzc : (starRingEnd ℂ) (decPhase Nx Ny kx ky o dec) ≠ 0 := by
        simpa using hz
      rw [map_div₀, Complex.abs_ofReal, abs_of_nonneg (Complex.abs.nonneg _)]
      exact div_self (by simpa using hzc)

/-- Witness for C6, at `Nx = 2`, `Ny = 1`, `kx = ky = 0`, `dec = 1`. -/
theorem C6_find_leading_state_witness :
    ((0:ℕ) < 2 ∧ (0:ℕ) < 1 ∧ 1 < 2 ^ (2 * 1)) ∧
      ∃ o, (zero_momentum_states 2 1).find? (fun s => s.hasDec 1) = some o ∧
        o.hasDec 1 = true ∧
        (_find_leading_state 2 1 0 0 1 = none ↔
          _norm_coeff 2 1 0 0 o < (1e-8 : ℝ)) ∧
        (¬ _norm_coeff 2 1 0 0 o < (1e-8 : ℝ) →
          _find_leading_state 2 1 0 0 1
            = some (o, (starRingEnd ℂ) (decPhase 2 1 0 0 o 1) /
                (Complex.abs ((starRingEnd ℂ) (decPhase 2 1 0 0 o 1)) : ℂ)) ∧
          Complex.abs ((starRingEnd ℂ) (decPhase 2 1 0 0 o 1) /
            (Complex.abs ((starRingEnd ℂ) (decPhase 2 1 0 0 o 1)) : ℂ)) = 1) :=
  ⟨⟨by norm_num, by norm_num, by norm_num⟩,
    C6_find_leading_state 2 1 0 0 1 (by norm_num) (by norm_num) (by norm_num)⟩

/-- Claim C8: for fixed `(Nx, Ny)`, the reduced-basis sizes summed over
one full Brillouin zone equal the sum over all orbits of
`Nx*Ny / orbitPeriod` (the period being the multiplicity of the lead in
its own position list, i.e. the order of the orbit's translation
stabilizer, so that `Nx*Ny / period` is the number of distinct states
of the orbit), and this total reconstructs the full `2^(Nx*Ny)` state
count. -/
theorem C8_brillouin_sum (Nx Ny : ℕ) (hNx : 0 < Nx) (hNy : 0 < Ny) :
    (∑ kx ∈ Finset.range Nx, ∑ ky ∈ Finset.range Ny,
      (nonzero_states Nx Ny (kx : ℤ) (ky : ℤ)).length)
      = ((zero_momentum_states Nx Ny).map fun o => Nx * Ny / orbitPeriod o).sum ∧
    ((zero_momentum_states Nx Ny).map fun o => Nx * Ny / orbitPeriod o).sum
      = 2 ^ (Nx * Ny) := by
  have hdiv : ∀ o ∈ zero_momentum_states Nx Ny,
      Nx * Ny / orbitPeriod o = o.keys.length := by
    intro o ho
    obtain ⟨hfind, hlt, _⟩ := zms_orbit_facts Nx Ny hNx hNy o ho
    rw [hfind, orbitPeriod_eq_stab_card, ← keys_mul_stab Nx Ny o.lead hNx hNy hlt]
    exact Nat.mul_div_cancel _ (stab_card_pos Nx Ny o.lead hNx hNy hlt)
  have hB : ((zero_momentum_states Nx Ny).map fun o => Nx * Ny / orbitPeriod o).sum
      = ((zero_momentum_states Nx Ny).map fun o => o.keys.length).sum := by
    rw [List.map_congr_left hdiv]
  refine ⟨?_, by rw [hB]; exact zms_keys_sum Nx Ny hNx hNy⟩
  have hlen : ∀ kx ky : ℤ, (nonzero_states Nx Ny kx ky).length
      = ((zero_momentum_states Nx Ny).map fun o =>
          if (1e-8:ℝ) < _norm_coeff Nx Ny kx ky o then 1 else 0).sum := by
    intro kx ky
    unfold nonzero_states
    rw [← List.countP_eq_length_filter, countP_eq_map_sum]
    apply congrArg List.sum
    apply List.map_congr_left
    intro o _
    by_cases hP : (1e-8:ℝ) < _norm_coeff Nx Ny kx ky o
    · simp [hP]
    · simp [hP]
  calc (∑ kx ∈ Finset.range Nx, ∑ ky ∈ Finset.range Ny,
      (nonzero_states Nx Ny (kx : ℤ) (ky : ℤ)).length)
      = ∑ kx ∈ Finset.range Nx, ∑ ky ∈ Finset.range Ny,
          ((zero_momentum_states Nx Ny).map fun o =>
            if (1e-8:ℝ) < _norm_coeff Nx Ny (kx : ℤ) (ky : ℤ) o then 1 else 0).sum :=
        Finset.sum_congr rfl fun kx _ => Finset.sum_congr rfl fun ky _ => hlen kx ky
    _ = ∑ kx ∈ Finset.range Nx, ((zero_momentum_states Nx Ny).map fun o =>
          ∑ ky ∈ Finset.range Ny,
            if (1e-8:ℝ) < _norm_coeff Nx Ny (kx : ℤ) (ky : ℤ) o then 1 else 0).sum :=
        Finset.sum_congr rfl fun kx _ =>
          (list_map_finset_sum_comm (zero_momentum_states Nx Ny) (Finset.range Ny) _).symm
    _ = ((zero_momentum_states Nx Ny).map fun o => ∑ kx ∈ Finset.range Nx,
          ∑ ky ∈ Finset.range Ny,
            if (1e-8:ℝ) < _norm_coeff Nx Ny (kx : ℤ) (ky : ℤ) o then 1 else 0).sum :=
        (list_map_finset_sum_comm (zero_momentum_states Nx Ny) (Finset.range Nx) _).symm
    _ = ((zero_momentum_states Nx Ny).map fun o => o.keys.length).sum := by
        apply congrArg List.sum
        apply List.map_congr_left
        intro o ho
        obtain ⟨hfind, hlt, _⟩ := zms_orbit_facts Nx Ny hNx hNy o ho
        rw [hfind]
        exact surv_count Nx Ny o.lead hNx hNy hlt
    _ = ((zero_momentum_states Nx Ny).map fun o => Nx * Ny / orbitPeriod o).sum :=
        hB.symm

/-- Witness for C8, at `Nx = 2`, `Ny = 1`. -/
theorem C8_brillouin_sum_witness :
    ((0:ℕ) < 2 ∧ (0:ℕ) < 1) ∧
      ((∑ kx ∈ Finset.range 2, ∑ ky ∈ Finset.range 1,
        (nonzero_states 2 1 (kx : ℤ) (ky : ℤ)).length)
        = ((zero_momentum_states 2 1).map fun o => 2 * 1 / orbitPeriod o).sum ∧
      ((zero_momentum_states 2 1).map fun o => 2 * 1 / orbitPeriod o).sum
        = 2 ^ (2 * 1)) :=
  ⟨⟨by norm_num, by norm_num⟩, C8_brillouin_sum 2 1 (by norm_num) (by norm_num)⟩

/-- Witness for C10, at `Nx = 2`, `Ny = 2`, `dec = 6`. -/
theorem C10_popcount_invariant_witness :
    (0 < 2 ∧ 6 < 2 ^ (2 * 2)) ∧
      popcount (translate_x 6 2 2) = popcount 6 ∧
      popcount (translate_y 6 2 2) = popcount 6 ∧
      (∀ o ∈ zero_momentum_states 2 2, ∀ d, o.hasDec d = true →
        popcount d = popcount o.lead) :=
  ⟨⟨by norm_num, by norm_num⟩,
    C10_popcount_invariant 2 2 6 (by norm_num) (by norm_num) (by norm_num)⟩

/-- Claim C5: for every valid basis index `i` and interaction range
`l ∈ {1, 2, 3}`, `H_z_elements` returns exactly
`0.25 * (parallel pairs - antiparallel pairs)` counted over all bonds
at range `l` on the leading state of the orbit at basis index `i`. -/
theorem C5_H_z_elements (Nx Ny : ℕ) (kx ky : ℤ) (i l : ℕ) (hNx : 0 < Nx)
    (hNy : 0 < Ny) (hl : l = 1 ∨ l = 2 ∨ l = 3)
    (hi : i < (nonzero_states Nx Ny kx ky).length) :
    H_z_elements Nx Ny kx ky i l
      = 0.25 *
        ((((_interacting_sites Nx Ny l).countP fun p =>
            (_repeated_spins (ind_to_dec Nx Ny kx ky i).lead p.1 p.2).1 ||
            (_repeated_spins (ind_to_dec Nx Ny kx ky i).lead p.1 p.2).2 : ℕ) : ℝ)
          - (((_interacting_sites Nx Ny l).countP fun p =>
            (_exchange_spin_flips (ind_to_dec Nx Ny kx ky i).lead p.1 p.2).1 ||
            (_exchange_spin_flips (ind_to_dec Nx Ny kx ky i).lead p.1 p.2).2 : ℕ) : ℝ)) := by
  unfold H_z_elements
  dsimp only
  set lead := (ind_to_dec Nx Ny kx ky i).lead with hlead
  set pairs := _interacting_sites Nx Ny l with hpairs
  set P : ℕ := pairs.countP fun p =>
    (_repeated_spins lead p.1 p.2).1 || (_repeated_spins lead p.1 p.2).2 with hP
  set A : ℕ := pairs.countP fun p =>
    (_exchange_spin_flips lead p.1 p.2).1 || (_exchange_spin_flips lead p.1 p.2).2
    with hA
  have hsame : (pairs.map fun p =>
      (if (_repeated_spins lead p.1 p.2).1 then (1:ℤ) else 0) +
      (if (_repeated_spins lead p.1 p.2).2 then (1:ℤ) else 0)).sum = (P : ℤ) := by
    rw [hP, countP_eq_map_sum_int]
    apply congrArg List.sum
    apply List.map_congr_left
    intro p _
    exact spin_partition_count lead p.1 p.2
  have hcompl : A = pairs.length - P := by
    have hAeq : A = pairs.countP fun p =>
        !((_repeated_spins lead p.1 p.2).1 || (_repeated_spins lead p.1 p.2).2) := by
      rw [hA]
      apply List.countP_congr
      intro p _
      rw [spin_partition_compl]
    have hadd := countP_not_add pairs fun p =>
      (_repeated_spins lead p.1 p.2).1 || (_repeated_spins lead p.1 p.2).2
    rw [hAeq, ← hP] at *
    omega
  have hPle : P ≤ pairs.length := by
    rw [hP]
    exact List.countP_le_length _
  have hAcast : (A : ℝ) = (pairs.length : ℝ) - (P : ℝ) := by
    rw [hcompl]
    push_cast [hPle]
    ring
  rw [hsame, hAcast]
  push_cast
  ring

/-- Witness for C5, at `Nx = 2`, `Ny = 1`, the zero momentum sector,
basis index `i = 0` and range `l = 1`. -/
theorem C5_H_z_elements_witness :
    ((0:ℕ) < 2 ∧ (0:ℕ) < 1 ∧ ((1:ℕ) = 1 ∨ (1:ℕ) = 2 ∨ (1:ℕ) = 3) ∧
      0 < (nonzero_states 2 1 0 0).length) ∧
    H_z_elements 2 1 0 0 0 1
      = 0.25 *
        ((((_interacting_sites 2 1 1).countP fun p =>
            (_repeated_spins (ind_to_dec 2 1 0 0 0).lead p.1 p.2).1 ||
            (_repeated_spins (ind_to_dec 2 1 0 0 0).lead p.1 p.2).2 : ℕ) : ℝ)
          - (((_interacting_sites 2 1 1).countP fun p =>
            (_exchange_spin_flips (ind_to_dec 2 1 0 0 0).lead p.1 p.2).1 ||
            (_exchange_spin_flips (ind_to_dec 2 1 0 0 0).lead p.1 p.2).2 : ℕ) : ℝ)) := by
  have hlen : (nonzero_states 2 1 0 0).length = 3 := by
    rw [nonzero_at_zero_eq 2 1 (by norm_num) (by norm_num)]
    rfl
  refine ⟨⟨by norm_num, by norm_num, by norm_num, by rw [hlen]; norm_num⟩, ?_⟩
  exact C5_H_z_elements 2 1 0 0 0 1 (by norm_num) (by norm_num) (by norm_num)
    (by rw [hlen]; norm_num)

/-- Claim C7: when `J2 = 0` and `J3 = 0` the assembly includes only the
nearest-neighbor terms and returns normally for every `J_pm`, including
`J_pm = 0` — the ratio `J_z / J_pm` is evaluated only inside the
second/third-neighbor branches; conversely, entering the
second-neighbor branch (`J2 ≠ 0`) with `J_pm = 0` does divide by zero,
raising `ZeroDivisionError`. -/
theorem C7_coupling_guard (Nx Ny : ℕ) (kx ky : ℤ)
    (J_pm J_z J_ppmm J_pmz J2 J3 : ℝ) :
    (J2 = 0 → J3 = 0 →
      hamiltonian_consv_k Nx Ny kx ky J_pm J_z J_ppmm J_pmz J2 J3
        = Except.ok (fun i j =>
            (J_pm : ℂ) * H_pm_matrix Nx Ny kx ky 1 i j
              + (J_z : ℂ) * H_z_matrix Nx Ny kx ky 1 i j
              + (J_ppmm : ℂ) * H_ppmm_matrix Nx Ny kx ky i j
              + (J_pmz : ℂ) * H_pmz_matrix Nx Ny kx ky i j)) ∧
    (J_pm = 0 → J2 ≠ 0 →
      hamiltonian_consv_k Nx Ny kx ky J_pm J_z J_ppmm J_pmz J2 J3
        = Except.error "ZeroDivisionError") := by
  constructor
  · intro h2 h3
    subst h2
    subst h3
    unfold hamiltonian_consv_k
    simp only [if_pos]
    show Except.ok _ = _
    congr 1
    funext i j
    simp
  · intro hpm h2
    subst hpm
    unfold hamiltonian_consv_k safeDiv
    rw [if_neg h2]
    rw [if_pos rfl]
    rfl

/-- Witness for C7, at `Nx = 2`, `Ny = 1`, the zero momentum sector:
the guarded path with `J2 = J3 = 0` and `J_pm = 0` succeeds, while
`J2 = 1` with `J_pm = 0` divides by zero. -/
theorem C7_coupling_guard_witness :
    (hamiltonian_consv_k 2 1 0 0 0 1 1 1 0 0
      = Except.ok (fun i j =>
          ((0:ℝ) : ℂ) * H_pm_matrix 2 1 0 0 1 i j
            + ((1:ℝ) : ℂ) * H_z_matrix 2 1 0 0 1 i j
            + ((1:ℝ) : ℂ) * H_ppmm_matrix 2 1 0 0 i j
            + ((1:ℝ) : ℂ) * H_pmz_matrix 2 1 0 0 i j)) ∧
    (hamiltonian_consv_k 2 1 0 0 0 1 1 1 1 0
      = Except.error "ZeroDivisionError") :=
  ⟨(C7_coupling_guard 2 1 0 0 0 1 1 1 0 0).1 rfl rfl,
   (C7_coupling_guard 2 1 0 0 0 1 1 1 1 0).2 rfl (by norm_num)⟩

/-! ## The memoised assembly agrees with the pure assembly -/

lemma memoGood_nil (Nx Ny : ℕ) (kx ky : ℤ) : MemoGood Nx Ny kx ky [] := by
  intro e he
  exact absurd he (List.not_mem_nil e)

lemma flsMemo_good (Nx Ny : ℕ) (kx ky : ℤ) (m : Memo) (dec : ℕ)
    (hm : MemoGood Nx Ny kx ky m) :
    (flsMemo Nx Ny kx ky m dec).1 = _find_leading_state Nx Ny kx ky dec ∧
    MemoGood Nx Ny kx ky (flsMemo Nx Ny kx ky m dec).2 := by
  cases hfind : m.find? (fun e => e.1 == dec) with
  | some e =>
      have he : e ∈ m := List.mem_of_find?_eq_some hfind
      have heq : e.1 = dec := by
        have hps := List.find?_some hfind
        simpa using hps
      constructor
      · simp only [flsMemo, hfind]
        rw [← heq]
        exact (hm e he).symm
      · simp only [flsMemo, hfind]
        exact hm
  | none =>
      cases hfls : _find_leading_state Nx Ny kx ky dec with
      | none =>
          constructor
          · simp [flsMemo, hfind, hfls]
          · simp only [flsMemo, hfind, hfls]
            exact hm
      | some r =>
          constructor
          · simp [flsMemo, hfind, hfls]
          · simp only [flsMemo, hfind, hfls]
            intro e he
            rcases List.mem_cons.mp he with h | h
            · rw [h]
              exact hfls
            · exact hm e h

lemma foldl_memo_transport {β : Type} (Nx Ny : ℕ) (kx ky : ℤ)
    (pureStep : (ℕ → ℂ) → β → (ℕ → ℂ))
    (stepM : ((ℕ → ℂ) × Memo) → β → ((ℕ → ℂ) × Memo))
    (hstep : ∀ f m x, MemoGood Nx Ny kx ky m →
      (stepM (f, m) x).1 = pureStep f x ∧
      MemoGood Nx Ny kx ky (stepM (f, m) x).2)
    (l : List β) :
    ∀ f m, MemoGood Nx Ny kx ky m →
      (l.foldl stepM (f, m)).1 = l.foldl pureStep f ∧
      MemoGood Nx Ny kx ky (l.foldl stepM (f, m)).2 := by
  induction l with
  | nil => exact fun f m hm => ⟨rfl, hm⟩
  | cons x xs ih =>
      intro f m hm
      obtain ⟨h1, h2⟩ := hstep f m x hm
      rw [List.foldl_cons, List.foldl_cons]
      have hpair : stepM (f, m) x = (pureStep f x, (stepM (f, m) x).2) := by
        rw [← h1]
      rw [hpair] at h2 ⊢
      exact ih (pureStep f x) ((stepM (f, m) x).2) h2

lemma H_pm_stepM_transport (Nx Ny : ℕ) (kx ky : ℤ) (orig : BlochFunc)
    (f : ℕ → ℂ) (m : Memo) (p : ℕ × ℕ) (hm : MemoGood Nx Ny kx ky m) :
    (H_pm_stepM Nx Ny kx ky orig (f, m) p).1 = H_pm_step Nx Ny kx ky orig f p ∧
    MemoGood Nx Ny kx ky (H_pm_stepM Nx Ny kx ky orig (f, m) p).2 := by
  obtain ⟨h1, h2⟩ := flsMemo_good Nx Ny kx ky m
    (if (_exchange_spin_flips orig.lead p.1 p.2).1
      then orig.lead - p.1 + p.2 else orig.lead + p.1 - p.2) hm
  unfold H_pm_stepM H_pm_step
  dsimp only
  by_cases hud : ((_exchange_spin_flips orig.lead p.1 p.2).1 ||
      (_exchange_spin_flips orig.lead p.1 p.2).2) = true
  · rw [if_pos hud, if_pos hud]
    rw [h1]
    cases hfls : _find_leading_state Nx Ny kx ky
        (if (_exchange_spin_flips orig.lead p.1 p.2).1
          then orig.lead - p.1 + p.2 else orig.lead + p.1 - p.2) with
    | none => exact ⟨rfl, h2⟩
    | some r => exact ⟨rfl, h2⟩
  · rw [if_neg hud, if_neg hud]
    exact ⟨rfl, hm⟩

lemma H_ppmm_stepM_transport (Nx Ny : ℕ) (kx ky : ℤ) (orig : BlochFunc)
    (f : ℕ → ℂ) (m : Memo) (p : ℕ × ℕ) (hm : MemoGood Nx Ny kx ky m) :
    (H_ppmm_stepM Nx Ny kx ky orig (f, m) p).1
      = H_ppmm_step Nx Ny kx ky orig f p ∧
    MemoGood Nx Ny kx ky (H_ppmm_stepM Nx Ny kx ky orig (f, m) p).2 := by
  obtain ⟨h1, h2⟩ := flsMemo_good Nx Ny kx ky m
    (if (_repeated_spins orig.lead p.1 p.2).1
      then orig.lead - p.1 - p.2 else orig.lead + p.1 + p.2) hm
  unfold H_ppmm_stepM H_ppmm_step
  dsimp only
  by_cases hud : ((_repeated_spins orig.lead p.1 p.2).1 ||
      (_repeated_spins orig.lead p.1 p.2).2) = true
  · rw [if_pos hud, if_pos hud]
    rw [h1]
    cases hfls : _find_leading_state Nx Ny kx ky
        (if (_repeated_spins orig.lead p.1 p.2).1
          then orig.lead - p.1 - p.2 else orig.lead + p.1 + p.2) with
    | none => exact ⟨rfl, h2⟩
    | some r => exact ⟨rfl, h2⟩
  · rw [if_neg hud, if_neg hud]
    exact ⟨rfl, hm⟩

lemma H_pmz_stepM_transport (Nx Ny : ℕ) (kx ky : ℤ) (orig : BlochFunc)
    (f : ℕ → ℂ) (m : Memo) (p : ℕ × ℕ) (hm : MemoGood Nx Ny kx ky m) :
    (H_pmz_stepM Nx Ny kx ky orig (f, m) p).1
      = H_pmz_step Nx Ny kx ky orig f p ∧
    MemoGood Nx Ny kx ky (H_pmz_stepM Nx Ny kx ky orig (f, m) p).2 := by
  obtain ⟨h1, h2⟩ := flsMemo_good Nx Ny kx ky m
    (if (orig.lead ||| p.2 == orig.lead)
      then orig.lead - p.2 else orig.lead + p.2) hm
  unfold H_pmz_stepM H_pmz_step
  dsimp only
  rw [h1]
  cases hfls : _find_leading_state Nx Ny kx ky
      (if (orig.lead ||| p.2 == orig.lead)
        then orig.lead - p.2 else orig.lead + p.2) with
  | none => exact ⟨rfl, h2⟩
  | some r => exact ⟨rfl, h2⟩

lemma H_pm_elementsM_transport (Nx Ny : ℕ) (kx ky : ℤ) (i l : ℕ) (m : Memo)
    (hm : MemoGood Nx Ny kx ky m) :
    (H_pm_elementsM Nx Ny kx ky i l m).1 = H_pm_elements Nx Ny kx ky i l ∧
    MemoGood Nx Ny kx ky (H_pm_elementsM Nx Ny kx ky i l m).2 := by
  unfold H_pm_elementsM H_pm_elements
  exact foldl_memo_transport Nx Ny kx ky _ _
    (fun f mm p hmm => H_pm_stepM_transport Nx Ny kx ky _ f mm p hmm)
    (_interacting_sites Nx Ny l) (fun _ => 0) m hm

lemma H_ppmm_elementsM_transport (Nx Ny : ℕ) (kx ky : ℤ) (i l : ℕ) (m : Memo)
    (hm : MemoGood Nx Ny kx ky m) :
    (H_ppmm_elementsM Nx Ny kx ky i l m).1 = H_ppmm_elements Nx Ny kx ky i l ∧
    MemoGood Nx Ny kx ky (H_ppmm_elementsM Nx Ny kx ky i l m).2 := by
  unfold H_ppmm_elementsM H_ppmm_elements
  exact foldl_memo_transport Nx Ny kx ky _ _
    (fun f mm p hmm => H_ppmm_stepM_transport Nx Ny kx ky _ f mm p hmm)
    (_interacting_sites Nx Ny l) (fun _ => 0) m hm

lemma H_pmz_elementsM_transport (Nx Ny : ℕ) (kx ky : ℤ) (i l : ℕ) (m : Memo)
    (hm : MemoGood Nx Ny kx ky m) :
    (H_pmz_elementsM Nx Ny kx ky i l m).1 = H_pmz_elements Nx Ny kx ky i l ∧
    MemoGood Nx Ny kx ky (H_pmz_elementsM Nx Ny kx ky i l m).2 := by
  unfold H_pmz_elementsM H_pmz_elements
  exact foldl_memo_transport Nx Ny kx ky _ _
    (fun f mm p hmm => H_pmz_stepM_transport Nx Ny kx ky _ f mm p hmm)
    ((_interacting_sites Nx Ny l).bind fun p => [(p.1, p.2), (p.2, p.1)])
    (fun _ => 0) m hm

lemma offdiagM_transport (Nx Ny : ℕ) (kx ky : ℤ)
    (elemM : ℕ → Memo → (ℕ → ℂ) × Memo) (elem : ℕ → ℕ → ℂ)
    (htrans : ∀ i mm, MemoGood Nx Ny kx ky mm →
      (elemM i mm).1 = elem i ∧ MemoGood Nx Ny kx ky (elemM i mm).2)
    (m : Memo) (hm : MemoGood Nx Ny kx ky m) :
    (_offdiag_componentsM Nx Ny kx ky elemM m).1
      = (fun i j => if i < (nonzero_states Nx Ny kx ky).length ∧
          j < (nonzero_states Nx Ny kx ky).length then elem i j else 0) ∧
    MemoGood Nx Ny kx ky (_offdiag_componentsM Nx Ny kx ky elemM m).2 := by
  have hrows : ∀ n, MemoGood Nx Ny kx ky (memoAfterRows elemM n m) := by
    intro n
    induction n with
    | zero => simpa [memoAfterRows] using hm
    | succ k ih =>
        have hstepeq : memoAfterRows elemM (k + 1) m
            = (elemM k (memoAfterRows elemM k m)).2 := by
          unfold memoAfterRows
          rw [List.range_succ, List.foldl_append]
          rfl
        rw [hstepeq]
        exact (htrans k _ ih).2
  constructor
  · funext i j
    show (if i < (nonzero_states Nx Ny kx ky).length ∧
        j < (nonzero_states Nx Ny kx ky).length
      then (elemM i (memoAfterRows elemM i m)).1 j else 0) = _
    by_cases hij : i < (nonzero_states Nx Ny kx ky).length ∧
        j < (nonzero_states Nx Ny kx ky).length
    · rw [if_pos hij, if_pos hij, (htrans i _ (hrows i)).1]
    · rw [if_neg hij, if_neg hij]
  · exact hrows _

lemma pm_offdiagM_eq (Nx Ny : ℕ) (kx ky : ℤ) (l : ℕ) (m : Memo)
    (hm : MemoGood Nx Ny kx ky m) :
    (_offdiag_componentsM Nx Ny kx ky
        (fun i => H_pm_elementsM Nx Ny kx ky i l) m).1
      = H_pm_matrix Nx Ny kx ky l ∧
    MemoGood Nx Ny kx ky (_offdiag_componentsM Nx Ny kx ky
        (fun i => H_pm_elementsM Nx Ny kx ky i l) m).2 := by
  have h := offdiagM_transport Nx Ny kx ky
    (fun i => H_pm_elementsM Nx Ny kx ky i l)
    (fun i => H_pm_elements Nx Ny kx ky i l)
    (fun i mm hmm => H_pm_elementsM_transport Nx Ny kx ky i l mm hmm) m hm
  exact ⟨h.1, h.2⟩

lemma ppmm_offdiagM_eq (Nx Ny : ℕ) (kx ky : ℤ) (m : Memo)
    (hm : MemoGood Nx Ny kx ky m) :
    (_offdiag_componentsM Nx Ny kx ky
        (fun i => H_ppmm_elementsM Nx Ny kx ky i 1) m).1
      = H_ppmm_matrix Nx Ny kx ky ∧
    MemoGood Nx Ny kx ky (_offdiag_componentsM Nx Ny kx ky
        (fun i => H_ppmm_elementsM Nx Ny kx ky i 1) m).2 := by
  have h := offdiagM_transport Nx Ny kx ky
    (fun i => H_ppmm_elementsM Nx Ny kx ky i 1)
    (fun i => H_ppmm_elements Nx Ny kx ky i 1)
    (fun i mm hmm => H_ppmm_elementsM_transport Nx Ny kx ky i 1 mm hmm) m hm
  exact ⟨h.1, h.2⟩

lemma pmz_offdiagM_eq (Nx Ny : ℕ) (kx ky : ℤ) (m : Memo)
    (hm : MemoGood Nx Ny kx ky m) :
    (_offdiag_componentsM Nx Ny kx ky
        (fun i => H_pmz_elementsM Nx Ny kx ky i 1) m).1
      = _offdiag_components Nx Ny kx ky 1 H_pmz_elements ∧
    MemoGood Nx Ny kx ky (_offdiag_componentsM Nx Ny kx ky
        (fun i => H_pmz_elementsM Nx Ny kx ky i 1) m).2 := by
  have h := offdiagM_transport Nx Ny kx ky
    (fun i => H_pmz_elementsM Nx Ny kx ky i 1)
    (fun i => H_pmz_elements Nx Ny kx ky i 1)
    (fun i mm hmm => H_pmz_elementsM_transport Nx Ny kx ky i 1 mm hmm) m hm
  exact ⟨h.1, h.2⟩

lemma bindPure {ε α β : Type} (a : α) (f : α → Except ε β) :
    (Bind.bind (Pure.pure a) f : Except ε β) = f a := rfl

lemma bindOk {ε α β : Type} (a : α) (f : α → Except ε β) :
    (Bind.bind (Except.ok a) f : Except ε β) = f a := rfl

lemma bindErr {ε α β : Type} (e : ε) (f : α → Except ε β) :
    (Bind.bind (Except.error e) f : Except ε β) = Except.error e := rfl

lemma hck_cached_fst (Nx Ny : ℕ) (kx ky : ℤ)
    (J_pm J_z J_ppmm J_pmz J2 J3 : ℝ) (m : Memo)
    (hm : MemoGood Nx Ny kx ky m) :
    (hamiltonian_consv_k_cached Nx Ny kx ky J_pm J_z J_ppmm J_pmz J2 J3 m).1
      = hamiltonian_consv_k Nx Ny kx ky J_pm J_z J_ppmm J_pmz J2 J3 := by
  have hA := pm_offdiagM_eq Nx Ny kx ky 1 m hm
  have hB := ppmm_offdiagM_eq Nx Ny kx ky _ hA.2
  have hC := pmz_offdiagM_eq Nx Ny kx ky _ hB.2
  unfold hamiltonian_consv_k_cached hamiltonian_consv_k
  dsimp only
  by_cases hJ2 : J2 = 0
  · rw [if_pos hJ2, if_pos hJ2]
    simp only [bindPure]
    by_cases hJ3 : J3 = 0
    · rw [if_pos hJ3, if_pos hJ3]
      simp only [bindPure]
      congr 1
      funext i j
      rw [hA.1, hB.1, hC.1]
      simp only [H_pmz_matrix]
    · have hD := pm_offdiagM_eq Nx Ny kx ky 3 _ hC.2
      rw [if_neg hJ3, if_neg hJ3]
      by_cases hpm : J_pm = 0
      · have hsd : safeDiv J_z J_pm = Except.error "ZeroDivisionError" := by
          unfold safeDiv
          rw [if_pos hpm]
        rw [hsd]
        simp only [bindErr]
      · have hsd : safeDiv J_z J_pm = Except.ok (J_z / J_pm) := by
          unfold safeDiv
          rw [if_neg hpm]
        rw [hsd]
        simp only [bindOk, bindPure]
        congr 1
        funext i j
        rw [hA.1, hB.1, hC.1, hD.1]
        simp only [H_pmz_matrix]
  · have hD := pm_offdiagM_eq Nx Ny kx ky 2 _ hC.2
    rw [if_neg hJ2, if_neg hJ2]
    by_cases hpm : J_pm = 0
    · have hsd : safeDiv J_z J_pm = Except.error "ZeroDivisionError" := by
        unfold safeDiv
        rw [if_pos hpm]
      rw [hsd]
      simp only [bindErr]
    · have hsd : safeDiv J_z J_pm = Except.ok (J_z / J_pm) := by
        unfold safeDiv
        rw [if_neg hpm]
      rw [hsd]
      simp only [bindOk, bindPure]
      by_cases hJ3 : J3 = 0
      · rw [if_pos hJ3, if_pos hJ3]
        simp only [bindPure]
        congr 1
        funext i j
        rw [hA.1, hB.1, hC.1, hD.1]
        simp only [H_pmz_matrix]
      · have hE := pm_offdiagM_eq Nx Ny kx ky 3 _ hD.2
        rw [if_neg hJ3, if_neg hJ3]
        simp only [bindOk, bindPure]
        congr 1
        funext i j
        rw [hA.1, hB.1, hC.1, hD.1, hE.1]
        simp only [H_pmz_matrix]

lemma hck_cached_clears (Nx Ny : ℕ) (kx ky : ℤ)
    (J_pm J_z J_ppmm J_pmz J2 J3 : ℝ) (m : Memo) :
    ∀ M, (hamiltonian_consv_k_cached Nx Ny kx ky
        J_pm J_z J_ppmm J_pmz J2 J3 m).1 = Except.ok M →
      (hamiltonian_consv_k_cached Nx Ny kx ky
        J_pm J_z J_ppmm J_pmz J2 J3 m).2 = [] := by
  intro M
  unfold hamiltonian_consv_k_cached
  dsimp only
  split
  · intro h
    exact absurd h (by simp)
  · split
    · intro h
      exact absurd h (by simp)
    · intro h
      rfl

/-- Claim C9: running the assembly through the explicit
`lru_cache` memo, any two calls with identical arguments — whatever
consistent memo state each starts from — produce identical results,
both equal to the memo-free assembly; and on normal (`ok`) return the
memo is cleared, so no cached leading-state value leaks into a later
call. -/
theorem C9_idempotent_caching (Nx Ny : ℕ) (kx ky : ℤ)
    (J_pm J_z J_ppmm J_pmz J2 J3 : ℝ) (m1 m2 : Memo)
    (h1 : MemoGood Nx Ny kx ky m1) (h2 : MemoGood Nx Ny kx ky m2) :
    (hamiltonian_consv_k_cached Nx Ny kx ky J_pm J_z J_ppmm J_pmz J2 J3 m1).1
      = (hamiltonian_consv_k_cached Nx Ny kx ky J_pm J_z J_ppmm J_pmz J2 J3 m2).1 ∧
    (hamiltonian_consv_k_cached Nx Ny kx ky J_pm J_z J_ppmm J_pmz J2 J3 m1).1
      = hamiltonian_consv_k Nx Ny kx ky J_pm J_z J_ppmm J_pmz J2 J3 ∧
    (∀ M, (hamiltonian_consv_k_cached Nx Ny kx ky
        J_pm J_z J_ppmm J_pmz J2 J3 m1).1 = Except.ok M →
      (hamiltonian_consv_k_cached Nx Ny kx ky
        J_pm J_z J_ppmm J_pmz J2 J3 m1).2 = []) := by
  have e1 := hck_cached_fst Nx Ny kx ky J_pm J_z J_ppmm J_pmz J2 J3 m1 h1
  have e2 := hck_cached_fst Nx Ny kx ky J_pm J_z J_ppmm J_pmz J2 J3 m2 h2
  exact ⟨e1.trans e2.symm, e1,
    hck_cached_clears Nx Ny kx ky J_pm J_z J_ppmm J_pmz J2 J3 m1⟩

/-- Witness for C9, at `Nx = 2`, `Ny = 1`, the zero momentum sector,
both calls starting from the empty memo. -/
theorem C9_idempotent_caching_witness :
    (MemoGood 2 1 0 0 [] ∧ MemoGood 2 1 0 0 []) ∧
    ((hamiltonian_consv_k_cached 2 1 0 0 1 1 1 1 0 0 []).1
        = (hamiltonian_consv_k_cached 2 1 0 0 1 1 1 1 0 0 []).1 ∧
      (hamiltonian_consv_k_cached 2 1 0 0 1 1 1 1 0 0 []).1
        = hamiltonian_consv_k 2 1 0 0 1 1 1 1 0 0 ∧
      (∀ M, (hamiltonian_consv_k_cached 2 1 0 0 1 1 1 1 0 0 []).1
          = Except.ok M →
        (hamiltonian_consv_k_cached 2 1 0 0 1 1 1 1 0 0 []).2 = [])) :=
  ⟨⟨memoGood_nil 2 1 0 0, memoGood_nil 2 1 0 0⟩,
   C9_idempotent_caching 2 1 0 0 1 1 1 1 0 0 [] []
     (memoGood_nil 2 1 0 0) (memoGood_nil 2 1 0 0)⟩

/-! ## Bit-level infrastructure -/

lemma bitAt_lt_two (k x : ℕ) : bitAt k x < 2 := Nat.mod_lt _ (by norm_num)

lemma bitAt_le_one (k x : ℕ) : bitAt k x ≤ 1 :=
  Nat.lt_succ_iff.mp (bitAt_lt_two k x)

lemma bitAt_succ (k x : ℕ) : bitAt (k + 1) x = bitAt k (x / 2) := by
  unfold bitAt
  rw [pow_succ']
  rw [Nat.div_div_eq_div_mul]

lemma bitAt_zero (x : ℕ) : bitAt 0 x = x % 2 := by
  unfold bitAt
  rw [pow_zero, Nat.div_one]

lemma bits_eq_ext (N : ℕ) : ∀ x y : ℕ, x < 2 ^ N → y < 2 ^ N →
    (∀ t < N, bitAt t x = bitAt t y) → x = y := by
  induction N with
  | zero =>
      intro x y hx hy _
      simp only [pow_zero, Nat.lt_one_iff] at hx hy
      rw [hx, hy]
  | succ n ih =>
      intro x y hx hy h
      have hx2 : x / 2 < 2 ^ n := by
        have hx3 : x < 2 ^ n * 2 := by
          rw [← pow_succ]
          exact hx
        omega
      have hy2 : y / 2 < 2 ^ n := by
        have hy3 : y < 2 ^ n * 2 := by
          rw [← pow_succ]
          exact hy
        omega
      have hdiv : x / 2 = y / 2 := by
        apply ih _ _ hx2 hy2
        intro t ht
        have ht1 := h (t + 1) (by omega)
        rwa [bitAt_succ, bitAt_succ] at ht1
      have hbit0 := h 0 (by omega)
      rw [bitAt_zero, bitAt_zero] at hbit0
      omega

lemma bitAt_add_mul_pow (t k x c : ℕ) (ht : t < k) :
    bitAt t (x + c * 2 ^ k) = bitAt t x := by
  unfold bitAt
  have h2 : c * 2 ^ k = c * 2 ^ (k - t - 1) * 2 * 2 ^ t := by
    have hk : 2 ^ k = 2 ^ (t + 1) * 2 ^ (k - t - 1) := by
      rw [← pow_add]
      congr 1
      omega
    rw [hk, pow_succ]
    ring
  rw [h2, Nat.add_mul_div_right _ _ (Nat.pos_pow_of_pos t (by norm_num))]
  omega

lemma bitAt_small_add (t m s h : ℕ) (hs : s < 2 ^ m) (ht : m ≤ t) :
    bitAt t (s + h * 2 ^ m) = bitAt (t - m) h := by
  unfold bitAt
  have h1 : (s + h * 2 ^ m) / 2 ^ m = h := by
    rw [Nat.add_mul_div_right _ _ (Nat.pos_pow_of_pos m (by norm_num))]
    rw [Nat.div_eq_of_lt hs]
    omega
  have h2 : 2 ^ t = 2 ^ m * 2 ^ (t - m) := by
    rw [← pow_add]
    congr 1
    omega
  rw [h2, ← Nat.div_div_eq_div_mul, h1]

lemma bit_decomp (k x : ℕ) :
    x = x % 2 ^ k + bitAt k x * 2 ^ k + x / 2 ^ (k + 1) * 2 ^ (k + 1) := by
  unfold bitAt
  have h1 : x / 2 ^ (k + 1) = x / 2 ^ k / 2 := by
    rw [pow_succ, Nat.div_div_eq_div_mul]
  have h4 : 2 ^ (k + 1) = 2 ^ k * 2 := pow_succ 2 k
  rw [h1, h4]
  calc x = x % 2 ^ k + 2 ^ k * (x / 2 ^ k) := (Nat.mod_add_div x (2 ^ k)).symm
    _ = x % 2 ^ k + 2 ^ k * (x / 2 ^ k % 2 + 2 * (x / 2 ^ k / 2)) := by
        rw [Nat.mod_add_div (x / 2 ^ k) 2]
    _ = x % 2 ^ k + x / 2 ^ k % 2 * 2 ^ k + x / 2 ^ k / 2 * (2 ^ k * 2) := by ring

/-- Write bit `k` of `x` to `b`. -/
def updBit (k b x : ℕ) : ℕ :=
  x % 2 ^ k + b * 2 ^ k + x / 2 ^ (k + 1) * 2 ^ (k + 1)

lemma bitAt_updBit_self (k b x : ℕ) (hb : b ≤ 1) :
    bitAt k (updBit k b x) = b := by
  unfold updBit
  have hlo : x % 2 ^ k < 2 ^ k := Nat.mod_lt _ (Nat.pos_pow_of_pos k (by norm_num))
  unfold bitAt
  have heq : x % 2 ^ k + b * 2 ^ k + x / 2 ^ (k + 1) * 2 ^ (k + 1)
      = x % 2 ^ k + (b + x / 2 ^ (k + 1) * 2) * 2 ^ k := by
    rw [pow_succ]
    ring
  rw [heq, Nat.add_mul_div_right _ _ (Nat.pos_pow_of_pos k (by norm_num)),
    Nat.div_eq_of_lt hlo]
  omega

lemma bitAt_updBit_lt (k b x t : ℕ) (ht : t < k) :
    bitAt t (updBit k b x) = bitAt t x := by
  unfold updBit
  have heq : x % 2 ^ k + b * 2 ^ k + x / 2 ^ (k + 1) * 2 ^ (k + 1)
      = x % 2 ^ k + (b + x / 2 ^ (k + 1) * 2) * 2 ^ k := by
    rw [pow_succ]
    ring
  rw [heq, bitAt_add_mul_pow _ _ _ _ ht]
  have heq2 : x % 2 ^ k + bitAt k x * 2 ^ k + x / 2 ^ (k + 1) * 2 ^ (k + 1)
      = x % 2 ^ k + (bitAt k x + x / 2 ^ (k + 1) * 2) * 2 ^ k := by
    rw [pow_succ]
    ring
  conv_rhs => rw [bit_decomp k x, heq2]
  rw [bitAt_add_mul_pow _ _ _ _ ht]

lemma bitAt_updBit_gt (k b x t : ℕ) (hb : b ≤ 1) (ht : k < t) :
    bitAt t (updBit k b x) = bitAt t x := by
  unfold updBit
  have hlo : x % 2 ^ k < 2 ^ k := Nat.mod_lt _ (Nat.pos_pow_of_pos k (by norm_num))
  have hb2 : b * 2 ^ k ≤ 2 ^ k := by
    calc b * 2 ^ k ≤ 1 * 2 ^ k := Nat.mul_le_mul_right _ hb
    _ = 2 ^ k := one_mul _
  have hsmall : x % 2 ^ k + b * 2 ^ k < 2 ^ (k + 1) := by
    have h4 : 2 ^ (k + 1) = 2 ^ k * 2 := pow_succ 2 k
    omega
  have h1 : bitAt t (x % 2 ^ k + b * 2 ^ k + x / 2 ^ (k + 1) * 2 ^ (k + 1))
      = bitAt (t - (k + 1)) (x / 2 ^ (k + 1)) :=
    bitAt_small_add t (k + 1) _ _ hsmall (by omega)
  rw [h1]
  unfold bitAt
  rw [Nat.div_div_eq_div_mul, ← pow_add]
  have hexp : k + 1 + (t - (k + 1)) = t := by omega
  rw [hexp]

lemma updBit_lt (k b x N : ℕ) (hb : b ≤ 1) (hk : k < N) (hx : x < 2 ^ N) :
    updBit k b x < 2 ^ N := by
  unfold updBit
  have hlo : x % 2 ^ k < 2 ^ k := Nat.mod_lt _ (Nat.pos_pow_of_pos k (by norm_num))
  have hb2 : b * 2 ^ k ≤ 2 ^ k := by
    calc b * 2 ^ k ≤ 1 * 2 ^ k := Nat.mul_le_mul_right _ hb
    _ = 2 ^ k := one_mul _
  have hhi : x / 2 ^ (k + 1) < 2 ^ (N - k - 1) := by
    apply Nat.div_lt_of_lt_mul
    calc x < 2 ^ N := hx
    _ = 2 ^ (k + 1) * 2 ^ (N - k - 1) := by
        rw [← pow_add]
        congr 1
        omega
  have hhi2 : x / 2 ^ (k + 1) * 2 ^ (k + 1) ≤ (2 ^ (N - k - 1) - 1) * 2 ^ (k + 1) :=
    Nat.mul_le_mul_right _ (by omega)
  have hsmall : x % 2 ^ k + b * 2 ^ k < 2 ^ (k + 1) := by
    have h4 : 2 ^ (k + 1) = 2 ^ k * 2 := pow_succ 2 k
    omega
  have hfin : 2 ^ (k + 1) + (2 ^ (N - k - 1) - 1) * 2 ^ (k + 1) = 2 ^ N := by
    have hexp : (2 ^ (N - k - 1) - 1) * 2 ^ (k + 1)
        = 2 ^ (N - k - 1) * 2 ^ (k + 1) - 2 ^ (k + 1) := by
      rw [Nat.sub_mul, one_mul]
    have hpos : 1 ≤ 2 ^ (N - k - 1) := Nat.one_le_two_pow
    have hge : 2 ^ (k + 1) ≤ 2 ^ (N - k - 1) * 2 ^ (k + 1) := by
      calc 2 ^ (k + 1) = 1 * 2 ^ (k + 1) := (one_mul _).symm
      _ ≤ 2 ^ (N - k - 1) * 2 ^ (k + 1) := Nat.mul_le_mul_right _ hpos
    have hN : 2 ^ (N - k - 1) * 2 ^ (k + 1) = 2 ^ N := by
      rw [← pow_add]
      congr 1
      omega
    omega
  omega

lemma bitAt_updBit (k b x t : ℕ) (hb : b ≤ 1) :
    bitAt t (updBit k b x) = if t = k then b else bitAt t x := by
  rcases lt_trichotomy t k with h | h | h
  · rw [if_neg (by omega), bitAt_updBit_lt _ _ _ _ h]
  · rw [h, if_pos rfl, bitAt_updBit_self _ _ _ hb]
  · rw [if_neg (by omega), bitAt_updBit_gt _ _ _ _ hb h]

lemma bitF_eq_of_bitAt {k x m y : ℕ} (h : bitAt k x = bitAt m y) :
    bitF k x = bitF m y := by
  unfold bitF
  exact Fin.ext h

lemma matMul_full_full (N i j : ℕ) (σ τ : Fin 2 → Fin 2 → ℂ)
    (hij : i ≠ j) (hi : i < N) (hj : j < N) (x y : ℕ) :
    matMul (2 ^ N) (full_matrix σ i N) (full_matrix τ j N) x y
      = if x < 2 ^ N ∧ y < 2 ^ N ∧
            ∀ t < N, t ≠ i → t ≠ j → bitAt t x = bitAt t y
        then σ (bitF i x) (bitF i y) * τ (bitF j x) (bitF j y) else 0 := by
  unfold matMul
  by_cases hx : x < 2 ^ N
  case neg =>
    rw [if_neg (by tauto)]
    apply Finset.sum_eq_zero
    intro z hz
    have h1 : full_matrix σ i N x z = 0 := by
      unfold full_matrix
      rw [if_neg (by tauto)]
    rw [h1, zero_mul]
  case pos =>
  by_cases hy : y < 2 ^ N
  case neg =>
    rw [if_neg (by tauto)]
    apply Finset.sum_eq_zero
    intro z hz
    have h2 : full_matrix τ j N z y = 0 := by
      unfold full_matrix
      rw [if_neg (by tauto)]
    rw [h2, mul_zero]
  case pos =>
  by_cases hagree : ∀ t < N, t ≠ i → t ≠ j → bitAt t x = bitAt t y
  case neg =>
    rw [if_neg (by tauto)]
    apply Finset.sum_eq_zero
    intro z hz
    push_neg at hagree
    obtain ⟨t, htN, hti, htj, htneq⟩ := hagree
    by_cases h1 : full_matrix σ i N x z = 0
    · rw [h1, zero_mul]
    · have hg1 : x < 2 ^ N ∧ z < 2 ^ N ∧
          ∀ s < N, s ≠ i → bitAt s x = bitAt s z := by
        by_contra hcon
        apply h1
        unfold full_matrix
        rw [if_neg hcon]
      have h2 : full_matrix τ j N z y = 0 := by
        unfold full_matrix
        rw [if_neg]
        intro hg2
        exact htneq ((hg1.2.2 t htN hti).trans (hg2.2.2 t htN htj))
      rw [h2, mul_zero]
  case pos =>
  rw [if_pos ⟨hx, hy, hagree⟩]
  have hble : bitAt i y ≤ 1 := bitAt_le_one i y
  have hz0lt : updBit i (bitAt i y) x < 2 ^ N := updBit_lt _ _ _ _ hble hi hx
  have hmain : ∀ z ∈ Finset.range (2 ^ N), z ≠ updBit i (bitAt i y) x →
      full_matrix σ i N x z * full_matrix τ j N z y = 0 := by
    intro z hz hzne
    by_cases h1 : full_matrix σ i N x z = 0
    · rw [h1, zero_mul]
    · have hg1 : x < 2 ^ N ∧ z < 2 ^ N ∧
          ∀ s < N, s ≠ i → bitAt s x = bitAt s z := by
        by_contra hcon
        apply h1
        unfold full_matrix
        rw [if_neg hcon]
      by_cases h2 : full_matrix τ j N z y = 0
      · rw [h2, mul_zero]
      · have hg2 : z < 2 ^ N ∧ y < 2 ^ N ∧
            ∀ s < N, s ≠ j → bitAt s z = bitAt s y := by
          by_contra hcon
          apply h2
          unfold full_matrix
          rw [if_neg hcon]
        exfalso
        apply hzne
        apply bits_eq_ext N z (updBit i (bitAt i y) x) hg1.2.1 hz0lt
        intro t ht
        rw [bitAt_updBit _ _ _ _ hble]
        by_cases hti : t = i
        · rw [if_pos hti, hti]
          exact hg2.2.2 i hi hij
        · rw [if_neg hti]
          exact (hg1.2.2 t ht hti).symm
  have hout : updBit i (bitAt i y) x ∉ Finset.range (2 ^ N) →
      full_matrix σ i N x (updBit i (bitAt i y) x)
        * full_matrix τ j N (updBit i (bitAt i y) x) y = 0 := by
    intro hmem
    exact absurd (Finset.mem_range.mpr hz0lt) hmem
  rw [Finset.sum_eq_single (updBit i (bitAt i y) x) hmain hout]
  have hguardA : ∀ s < N, s ≠ i → bitAt s x = bitAt s (updBit i (bitAt i y) x) := by
    intro s hs hsi
    rw [bitAt_updBit _ _ _ _ hble, if_neg hsi]
  have hguardB : ∀ s < N, s ≠ j → bitAt s (updBit i (bitAt i y) x) = bitAt s y := by
    intro s hs hsj
    rw [bitAt_updBit _ _ _ _ hble]
    by_cases hsi : s = i
    · rw [if_pos hsi, hsi]
    · rw [if_neg hsi]
      exact hagree s hs hsi hsj
  have hgA : full_matrix σ i N x (updBit i (bitAt i y) x)
      = σ (bitF i x) (bitF i y) := by
    unfold full_matrix
    rw [if_pos ⟨hx, hz0lt, hguardA⟩]
    congr 1
    apply bitF_eq_of_bitAt
    rw [bitAt_updBit _ _ _ _ hble, if_pos rfl]
  have hgB : full_matrix τ j N (updBit i (bitAt i y) x) y
      = τ (bitF j x) (bitF j y) := by
    unfold full_matrix
    rw [if_pos ⟨hz0lt, hy, hguardB⟩]
    congr 1
    apply bitF_eq_of_bitAt
    rw [bitAt_updBit _ _ _ _ hble, if_neg (by omega)]
  rw [hgA, hgB]

lemma matMul_full_comm (N i j : ℕ) (σ τ : Fin 2 → Fin 2 → ℂ)
    (hij : i ≠ j) (hi : i < N) (hj : j < N) (x y : ℕ) :
    matMul (2 ^ N) (full_matrix σ i N) (full_matrix τ j N) x y
      = matMul (2 ^ N) (full_matrix τ j N) (full_matrix σ i N) x y := by
  rw [matMul_full_full N i j σ τ hij hi hj x y,
    matMul_full_full N j i τ σ (by omega) hj hi x y]
  by_cases h : x < 2 ^ N ∧ y < 2 ^ N ∧
      ∀ t < N, t ≠ i → t ≠ j → bitAt t x = bitAt t y
  · rw [if_pos h, if_pos ⟨h.1, h.2.1, fun t ht htj hti => h.2.2 t ht hti htj⟩]
    ring
  · rw [if_neg h,
      if_neg (fun hc => h ⟨hc.1, hc.2.1, fun t ht hti htj => hc.2.2 t ht htj hti⟩)]

lemma conj_matMul (n : ℕ) (A B : ℕ → ℕ → ℂ) (x y : ℕ) :
    (starRingEnd ℂ) (matMul n A B y x)
      = matMul n (fun a b => (starRingEnd ℂ) (B b a))
          (fun a b => (starRingEnd ℂ) (A b a)) x y := by
  unfold matMul
  rw [map_sum]
  apply Finset.sum_congr rfl
  intro z hz
  rw [map_mul]
  ring

lemma conj_full (σ : Fin 2 → Fin 2 → ℂ) (k N x y : ℕ) :
    (fun a b => (starRingEnd ℂ) (full_matrix σ k N b a)) x y
      = full_matrix (fun r c => (starRingEnd ℂ) (σ c r)) k N x y := by
  show (starRingEnd ℂ) (full_matrix σ k N y x) = _
  unfold full_matrix
  by_cases hg : y < 2 ^ N ∧ x < 2 ^ N ∧ ∀ t < N, t ≠ k → bitAt t y = bitAt t x
  · rw [if_pos hg,
      if_pos ⟨hg.2.1, hg.1, fun t ht htk => (hg.2.2 t ht htk).symm⟩]
  · rw [if_neg hg,
      if_neg (fun hc => hg ⟨hc.2.1, hc.1, fun t ht htk => (hc.2.2 t ht htk).symm⟩),
      map_zero]

lemma raising_adj : (fun r c => (starRingEnd ℂ) (raising c r)) = lowering := by
  funext r c
  fin_cases r <;> fin_cases c <;> simp [raising, lowering]

lemma lowering_adj : (fun r c => (starRingEnd ℂ) (lowering c r)) = raising := by
  funext r c
  fin_cases r <;> fin_cases c <;> simp [raising, lowering]

lemma sigmaz_adj : (fun r c => (starRingEnd ℂ) (sigmaz c r)) = sigmaz := by
  funext r c
  fin_cases r <;> fin_cases c <;> simp [sigmaz]

lemma list_sum_apply2 (l : List (ℕ → ℕ → ℂ)) (x y : ℕ) :
    l.sum x y = (l.map fun f => f x y).sum := by
  induction l with
  | nil => rfl
  | cons f fs ih =>
      rw [List.sum_cons, List.map_cons, List.sum_cons, ← ih]
      rfl

/-! ## Geometry facts: bonds join two distinct in-range sites -/

lemma wrapSite_lt (Nx Ny : ℕ) (hNx : 0 < Nx) (hNy : 0 < Ny) (x y : ℤ) :
    (wrapSite Nx Ny x y).1 < Nx ∧ (wrapSite Nx Ny x y).2 < Ny := by
  unfold wrapSite
  have hx1 : x % (Nx : ℤ) < (Nx : ℤ) :=
    Int.emod_lt_of_pos x (by exact_mod_cast hNx)
  have hx2 : 0 ≤ x % (Nx : ℤ) :=
    Int.emod_nonneg x (Int.natCast_ne_zero.mpr hNx.ne')
  have hy1 : y % (Ny : ℤ) < (Ny : ℤ) :=
    Int.emod_lt_of_pos y (by exact_mod_cast hNy)
  have hy2 : 0 ≤ y % (Ny : ℤ) :=
    Int.emod_nonneg y (Int.natCast_ne_zero.mpr hNy.ne')
  constructor
  · show (x % (Nx : ℤ)).toNat < Nx
    omega
  · show (y % (Ny : ℤ)).toNat < Ny
    omega

lemma lattice_index_mod (Nx : ℕ) (hNx : 0 < Nx) (s : ℕ × ℕ) (hs : s.1 < Nx) :
    lattice_index Nx s % Nx = s.1 ∧ lattice_index Nx s / Nx = s.2 := by
  unfold lattice_index
  constructor
  · rw [Nat.add_mul_mod_self_left]
    exact Nat.mod_eq_of_lt hs
  · rw [Nat.add_mul_div_left _ _ hNx, Nat.div_eq_of_lt hs, zero_add]

lemma lattice_index_lt (Nx Ny : ℕ) (s : ℕ × ℕ) (h1 : s.1 < Nx) (h2 : s.2 < Ny) :
    lattice_index Nx s < Nx * Ny := by
  unfold lattice_index
  calc s.1 + Nx * s.2 < Nx + Nx * s.2 := by omega
    _ = Nx * (s.2 + 1) := by ring
    _ ≤ Nx * Ny := Nat.mul_le_mul_left _ (by omega)

lemma lattice_index_inj (Nx : ℕ) (hNx : 0 < Nx) (s t : ℕ × ℕ)
    (hs : s.1 < Nx) (ht : t.1 < Nx)
    (h : lattice_index Nx s = lattice_index Nx t) : s = t := by
  have h1 := lattice_index_mod Nx hNx s hs
  have h2 := lattice_index_mod Nx hNx t ht
  have hx : s.1 = t.1 := by rw [← h1.1, ← h2.1, h]
  have hy : s.2 = t.2 := by rw [← h1.2, ← h2.2, h]
  exact Prod.ext hx hy

lemma hopChecked_facts (Nx Ny : ℕ) (hNx : 0 < Nx) (hNy : 0 < Ny) (s : ℕ × ℕ)
    (dx dy : ℤ) (t : ℕ × ℕ) (h : hopChecked Nx Ny s dx dy = some t) :
    (t.1 < Nx ∧ t.2 < Ny) ∧ t ≠ s := by
  unfold hopChecked at h
  dsimp only at h
  by_cases heq : wrapSite Nx Ny ((s.1 : ℤ) + dx) ((s.2 : ℤ) + dy) = s
  · rw [if_pos heq] at h
    cases h
  · rw [if_neg heq] at h
    have ht : t = wrapSite Nx Ny ((s.1 : ℤ) + dx) ((s.2 : ℤ) + dy) :=
      (Option.some.injEq _ _ ▸ h).symm
    constructor
    · rw [ht]
      exact wrapSite_lt Nx Ny hNx hNy _ _
    · rw [ht]
      exact heq

lemma b3_hop_facts (Nx Ny : ℕ) (hNx : 0 < Nx) (hNy : 0 < Ny) (s : ℕ × ℕ)
    (stride : ℤ) (u : ℕ × ℕ) (h : b3_hop Nx Ny s stride = some u) :
    (u.1 < Nx ∧ u.2 < Ny) ∧ u ≠ s := by
  unfold b3_hop at h
  cases hb1 : b1_hop Nx Ny s (-stride) with
  | none =>
      rw [hb1] at h
      cases h
  | some t1 =>
      rw [hb1, Option.some_bind] at h
      cases hb2 : b2_hop Nx Ny t1 (-stride) with
      | none =>
          rw [hb2] at h
          cases h
      | some t2 =>
          rw [hb2, Option.some_bind] at h
          by_cases hus : t2 = s
          · rw [if_pos hus] at h
            cases h
          · rw [if_neg hus] at h
            have ht : u = t2 := (Option.some.injEq _ _ ▸ h).symm
            subst ht
            refine ⟨(hopChecked_facts Nx Ny hNx hNy t1 _ _ u hb2).1, hus⟩

lemma neighborSites_facts (Nx Ny i l : ℕ) (hNx : 0 < Nx) (hNy : 0 < Ny)
    (hi : i < Nx * Ny) :
    ∀ j ∈ neighborSites Nx Ny i l, j < Nx * Ny ∧ j ≠ i := by
  intro j hj
  unfold neighborSites at hj
  simp only [List.mem_map, List.mem_filterMap, id] at hj
  obtain ⟨t, ⟨o, ho, hot⟩, hjt⟩ := hj
  have hsfst : (i % Nx, i / Nx).1 < Nx := Nat.mod_lt _ hNx
  have hssnd : (i % Nx, i / Nx).2 < Ny := by
    show i / Nx < Ny
    apply Nat.div_lt_of_lt_mul
    exact hi
  have hself : lattice_index Nx (i % Nx, i / Nx) = i := by
    unfold lattice_index
    exact Nat.mod_add_div i Nx
  have hfacts : (t.1 < Nx ∧ t.2 < Ny) ∧ t ≠ (i % Nx, i / Nx) := by
    subst hot
    by_cases hl1 : l = 1
    · rw [if_pos hl1] at ho
      simp only [List.mem_cons, List.not_mem_nil, or_false] at ho
      rcases ho with h | h | h
      · exact hopChecked_facts Nx Ny hNx hNy _ _ _ t h.symm
      · exact hopChecked_facts Nx Ny hNx hNy _ _ _ t h.symm
      · exact hopChecked_facts Nx Ny hNx hNy _ _ _ t h.symm
    · rw [if_neg hl1] at ho
      by_cases hl2 : l = 2
      · rw [if_pos hl2] at ho
        simp only [List.mem_cons, List.not_mem_nil, or_false] at ho
        rcases ho with h | h | h
        · exact hopChecked_facts Nx Ny hNx hNy _ _ _ t h.symm
        · exact hopChecked_facts Nx Ny hNx hNy _ _ _ t h.symm
        · exact b3_hop_facts Nx Ny hNx hNy _ _ t h.symm
      · rw [if_neg hl2] at ho
        simp only [List.mem_cons, List.not_mem_nil, or_false] at ho
        rcases ho with h | h | h
        · exact hopChecked_facts Nx Ny hNx hNy _ _ _ t h.symm
        · exact hopChecked_facts Nx Ny hNx hNy _ _ _ t h.symm
        · exact hopChecked_facts Nx Ny hNx hNy _ _ _ t h.symm
  constructor
  · rw [← hjt]
    exact lattice_index_lt Nx Ny t hfacts.1.1 hfacts.1.2
  · rw [← hjt]
    intro hcon
    apply hfacts.2
    apply lattice_index_inj Nx hNx t _ hfacts.1.1 hsfst
    rw [hcon, hself]

lemma generate_bonds_facts (Nx Ny l : ℕ) (hNx : 0 < Nx) (hNy : 0 < Ny) :
    ∀ b ∈ _generate_bonds Nx Ny l, b.1 < b.2 ∧ b.2 < Nx * Ny := by
  intro b hb
  unfold _generate_bonds at hb
  rw [List.mem_dedup, List.mem_bind] at hb
  obtain ⟨i, hi, hmem⟩ := hb
  rw [List.mem_map] at hmem
  obtain ⟨j, hj, hbj⟩ := hmem
  have hif := neighborSites_facts Nx Ny i l hNx hNy (List.mem_range.mp hi) j hj
  have hiN := List.mem_range.mp hi
  subst hbj
  have h1 := hif.1
  have h2 := hif.2
  refine ⟨?_, ?_⟩
  · show min i j < max i j
    omega
  · show max i j < Nx * Ny
    omega

/-! ## Hermiticity of the brute-force components -/

lemma conj_full_fun (σ : Fin 2 → Fin 2 → ℂ) (k N : ℕ) :
    (fun a b => (starRingEnd ℂ) (full_matrix σ k N b a))
      = full_matrix (fun r c => (starRingEnd ℂ) (σ c r)) k N := by
  funext a b
  exact conj_full σ k N a b

lemma conj_full_raising (k N : ℕ) :
    (fun a b => (starRingEnd ℂ) (full_matrix raising k N b a))
      = full_matrix lowering k N := by
  rw [conj_full_fun, raising_adj]

lemma conj_full_lowering (k N : ℕ) :
    (fun a b => (starRingEnd ℂ) (full_matrix lowering k N b a))
      = full_matrix raising k N := by
  rw [conj_full_fun, lowering_adj]

lemma conj_full_sigmaz (k N : ℕ) :
    (fun a b => (starRingEnd ℂ) (full_matrix sigmaz k N b a))
      = full_matrix sigmaz k N := by
  rw [conj_full_fun, sigmaz_adj]

lemma herm_list_sum (L : List (ℕ × ℕ)) (f : ℕ × ℕ → ℕ → ℕ → ℂ) (x y : ℕ)
    (h : ∀ b ∈ L, (starRingEnd ℂ) (f b y x) = f b x y) :
    (starRingEnd ℂ) ((L.map f).sum y x) = (L.map f).sum x y := by
  rw [list_sum_apply2, list_sum_apply2, List.map_map, List.map_map, map_list_sum,
    List.map_map]
  apply congrArg List.sum
  apply List.map_congr_left
  intro b hb
  exact h b hb

lemma H_pm_dp_herm (Nx Ny l : ℕ) (hNx : 0 < Nx) (hNy : 0 < Ny) (x y : ℕ) :
    (starRingEnd ℂ) (H_pm_dp Nx Ny l y x) = H_pm_dp Nx Ny l x y := by
  unfold H_pm_dp
  apply herm_list_sum
  intro b hb
  obtain ⟨h12, h2N⟩ := generate_bonds_facts Nx Ny l hNx hNy b hb
  have hb1 : b.1 < Nx * Ny := by omega
  have e1 : (starRingEnd ℂ) (matMul (2 ^ (Nx * Ny))
      (full_matrix raising b.1 (Nx * Ny)) (full_matrix lowering b.2 (Nx * Ny)) y x)
      = matMul (2 ^ (Nx * Ny)) (full_matrix lowering b.1 (Nx * Ny))
          (full_matrix raising b.2 (Nx * Ny)) x y := by
    rw [conj_matMul, conj_full_lowering, conj_full_raising]
    exact matMul_full_comm _ _ _ _ _ (by omega) h2N hb1 x y
  have e2 : (starRingEnd ℂ) (matMul (2 ^ (Nx * Ny))
      (full_matrix lowering b.1 (Nx * Ny)) (full_matrix raising b.2 (Nx * Ny)) y x)
      = matMul (2 ^ (Nx * Ny)) (full_matrix raising b.1 (Nx * Ny))
          (full_matrix lowering b.2 (Nx * Ny)) x y := by
    rw [conj_matMul, conj_full_raising, conj_full_lowering]
    exact matMul_full_comm _ _ _ _ _ (by omega) h2N hb1 x y
  show (starRingEnd ℂ) ((matMul _ _ _ + matMul _ _ _) y x)
      = (matMul _ _ _ + matMul _ _ _) x y
  rw [Pi.add_apply, Pi.add_apply, Pi.add_apply, Pi.add_apply, map_add, e1, e2]
  ring

lemma H_z_dp_herm (Nx Ny l : ℕ) (hNx : 0 < Nx) (hNy : 0 < Ny) (x y : ℕ) :
    (starRingEnd ℂ) (H_z_dp Nx Ny l y x) = H_z_dp Nx Ny l x y := by
  unfold H_z_dp
  apply herm_list_sum
  intro b hb
  obtain ⟨h12, h2N⟩ := generate_bonds_facts Nx Ny l hNx hNy b hb
  have hb1 : b.1 < Nx * Ny := by omega
  rw [conj_matMul, conj_full_sigmaz, conj_full_sigmaz]
  exact matMul_full_comm _ _ _ _ _ (by omega) h2N hb1 x y

lemma H_ppmm_dp_herm (Nx Ny : ℕ) (hNx : 0 < Nx) (hNy : 0 < Ny) (x y : ℕ) :
    (starRingEnd ℂ) (H_ppmm_dp Nx Ny y x) = H_ppmm_dp Nx Ny x y := by
  unfold H_ppmm_dp
  apply herm_list_sum
  intro b hb
  obtain ⟨h12, h2N⟩ := generate_bonds_facts Nx Ny 1 hNx hNy b hb
  have hb1 : b.1 < Nx * Ny := by omega
  have e1 : (starRingEnd ℂ) (matMul (2 ^ (Nx * Ny))
      (full_matrix raising b.1 (Nx * Ny)) (full_matrix raising b.2 (Nx * Ny)) y x)
      = matMul (2 ^ (Nx * Ny)) (full_matrix lowering b.1 (Nx * Ny))
          (full_matrix lowering b.2 (Nx * Ny)) x y := by
    rw [conj_matMul, conj_full_raising, conj_full_raising]
    exact matMul_full_comm _ _ _ _ _ (by omega) h2N hb1 x y
  have e2 : (starRingEnd ℂ) (matMul (2 ^ (Nx * Ny))
      (full_matrix lowering b.1 (Nx * Ny)) (full_matrix lowering b.2 (Nx * Ny)) y x)
      = matMul (2 ^ (Nx * Ny)) (full_matrix raising b.1 (Nx * Ny))
          (full_matrix raising b.2 (Nx * Ny)) x y := by
    rw [conj_matMul, conj_full_lowering, conj_full_lowering]
    exact matMul_full_comm _ _ _ _ _ (by omega) h2N hb1 x y
  rw [map_add, map_mul, map_mul, Complex.conj_conj, e1, e2]
  ring

lemma H_pmz_dp_herm (Nx Ny : ℕ) (hNx : 0 < Nx) (hNy : 0 < Ny) (x y : ℕ) :
    (starRingEnd ℂ) (H_pmz_dp Nx Ny y x) = H_pmz_dp Nx Ny x y := by
  unfold H_pmz_dp
  apply herm_list_sum
  intro b hb
  obtain ⟨h12, h2N⟩ := generate_bonds_facts Nx Ny 1 hNx hNy b hb
  have hb1 : b.1 < Nx * Ny := by omega
  have eA : (starRingEnd ℂ) (matMul (2 ^ (Nx * Ny))
      (full_matrix sigmaz b.1 (Nx * Ny)) (full_matrix raising b.2 (Nx * Ny)) y x)
      = matMul (2 ^ (Nx * Ny)) (full_matrix sigmaz b.1 (Nx * Ny))
          (full_matrix lowering b.2 (Nx * Ny)) x y := by
    rw [conj_matMul, conj_full_raising, conj_full_sigmaz]
    exact matMul_full_comm _ _ _ _ _ (by omega) h2N hb1 x y
  have eB : (starRingEnd ℂ) (matMul (2 ^ (Nx * Ny))
      (full_matrix sigmaz b.1 (Nx * Ny)) (full_matrix lowering b.2 (Nx * Ny)) y x)
      = matMul (2 ^ (Nx * Ny)) (full_matrix sigmaz b.1 (Nx * Ny))
          (full_matrix raising b.2 (Nx * Ny)) x y := by
    rw [conj_matMul, conj_full_lowering, conj_full_sigmaz]
    exact matMul_full_comm _ _ _ _ _ (by omega) h2N hb1 x y
  have eC : (starRingEnd ℂ) (matMul (2 ^ (Nx * Ny))
      (full_matrix raising b.1 (Nx * Ny)) (full_matrix sigmaz b.2 (Nx * Ny)) y x)
      = matMul (2 ^ (Nx * Ny)) (full_matrix lowering b.1 (Nx * Ny))
          (full_matrix sigmaz b.2 (Nx * Ny)) x y := by
    rw [conj_matMul, conj_full_sigmaz, conj_full_raising]
    exact matMul_full_comm _ _ _ _ _ (by omega) h2N hb1 x y
  have eD : (starRingEnd ℂ) (matMul (2 ^ (Nx * Ny))
      (full_matrix lowering b.1 (Nx * Ny)) (full_matrix sigmaz b.2 (Nx * Ny)) y x)
      = matMul (2 ^ (Nx * Ny)) (full_matrix raising b.1 (Nx * Ny))
          (full_matrix sigmaz b.2 (Nx * Ny)) x y := by
    rw [conj_matMul, conj_full_sigmaz, conj_full_lowering]
    exact matMul_full_comm _ _ _ _ _ (by omega) h2N hb1 x y
  simp only [map_mul, Complex.conj_I, map_add, map_sub, Complex.conj_conj]
  rw [eA, eB, eC, eD]
  ring

lemma hamiltonian_dp_herm (Nx Ny : ℕ) (J_pm J_z J_ppmm J_pmz J2 J3 : ℝ)
    (hNx : 0 < Nx) (hNy : 0 < Ny) :
    ∀ M, hamiltonian_dp Nx Ny J_pm J_z J_ppmm J_pmz J2 J3 = Except.ok M →
      ∀ x y, (starRingEnd ℂ) (M y x) = M x y := by
  intro M hM x y
  unfold hamiltonian_dp at hM
  dsimp only at hM
  by_cases hJ2 : J2 = 0
  · rw [if_pos hJ2] at hM
    rw [bindPure] at hM
    by_cases hJ3 : J3 = 0
    · rw [if_pos hJ3] at hM
      rw [bindPure] at hM
      have hMeq := (Except.ok.inj hM).symm
      subst hMeq
      simp only [map_add, map_mul, map_zero, Complex.conj_ofReal]
      rw [H_pm_dp_herm Nx Ny 1 hNx hNy x y, H_z_dp_herm Nx Ny 1 hNx hNy x y,
        H_ppmm_dp_herm Nx Ny hNx hNy x y, H_pmz_dp_herm Nx Ny hNx hNy x y]
    · rw [if_neg hJ3] at hM
      by_cases hpm : J_pm = 0
      · have hsd : safeDiv J_z J_pm = Except.error "ZeroDivisionError" := by
          unfold safeDiv
          rw [if_pos hpm]
        rw [hsd] at hM
        rw [bindErr] at hM
        exact absurd hM (by simp)
      · have hsd : safeDiv J_z J_pm = Except.ok (J_z / J_pm) := by
          unfold safeDiv
          rw [if_neg hpm]
        rw [hsd] at hM
        rw [bindOk] at hM
        dsimp only at hM
        rw [bindPure] at hM
        have hMeq := (Except.ok.inj hM).symm
        subst hMeq
        simp only [map_add, map_mul, map_zero, Complex.conj_ofReal]
        rw [H_pm_dp_herm Nx Ny 1 hNx hNy x y, H_z_dp_herm Nx Ny 1 hNx hNy x y,
          H_ppmm_dp_herm Nx Ny hNx hNy x y, H_pmz_dp_herm Nx Ny hNx hNy x y,
          H_pm_dp_herm Nx Ny 3 hNx hNy x y, H_z_dp_herm Nx Ny 3 hNx hNy x y]
  · rw [if_neg hJ2] at hM
    by_cases hpm : J_pm = 0
    · have hsd : safeDiv J_z J_pm = Except.error "ZeroDivisionError" := by
        unfold safeDiv
        rw [if_pos hpm]
      rw [hsd] at hM
      rw [bindErr] at hM
      exact absurd hM (by simp)
    · have hsd : safeDiv J_z J_pm = Except.ok (J_z / J_pm) := by
        unfold safeDiv
        rw [if_neg hpm]
      rw [hsd] at hM
      rw [bindOk] at hM
      rw [bindPure] at hM
      by_cases hJ3 : J3 = 0
      · rw [if_pos hJ3] at hM
        rw [bindPure] at hM
        have hMeq := (Except.ok.inj hM).symm
        subst hMeq
        simp only [map_add, map_mul, map_zero, Complex.conj_ofReal]
        rw [H_pm_dp_herm Nx Ny 1 hNx hNy x y, H_z_dp_herm Nx Ny 1 hNx hNy x y,
          H_ppmm_dp_herm Nx Ny hNx hNy x y, H_pmz_dp_herm Nx Ny hNx hNy x y,
          H_pm_dp_herm Nx Ny 2 hNx hNy x y, H_z_dp_herm Nx Ny 2 hNx hNy x y]
      · rw [if_neg hJ3] at hM
        rw [bindOk] at hM
        dsimp only at hM
        rw [bindPure] at hM
        have hMeq := (Except.ok.inj hM).symm
        subst hMeq
        simp only [map_add, map_mul, map_zero, Complex.conj_ofReal]
        rw [H_pm_dp_herm Nx Ny 1 hNx hNy x y, H_z_dp_herm Nx Ny 1 hNx hNy x y,
          H_ppmm_dp_herm Nx Ny hNx hNy x y, H_pmz_dp_herm Nx Ny hNx hNy x y,
          H_pm_dp_herm Nx Ny 2 hNx hNy x y, H_z_dp_herm Nx Ny 2 hNx hNy x y,
          H_pm_dp_herm Nx Ny 3 hNx hNy x y, H_z_dp_herm Nx Ny 3 hNx hNy x y]

/-! ## Bits under the translation action -/

lemma testBit_eq_bitAt (x k : ℕ) : x.testBit k = decide (bitAt k x = 1) := by
  rw [Nat.testBit_to_div_mod]
  rfl

lemma lor_mask (x a : ℕ) : x ||| 2 ^ a = x ↔ bitAt a x = 1 := by
  constructor
  · intro h
    have ht := congrArg (fun z => z.testBit a) h
    simp only [Nat.testBit_lor] at ht
    rw [Nat.testBit_two_pow_self] at ht
    rw [testBit_eq_bitAt] at ht
    simp only [Bool.or_true] at ht
    exact of_decide_eq_true ht.symm
  · intro h
    apply Nat.eq_of_testBit_eq
    intro i
    simp only [Nat.testBit_lor]
    by_cases hia : i = a
    · subst hia
      rw [testBit_eq_bitAt, h]
      simp
    · rw [Nat.testBit_two_pow_of_ne (fun hc => hia hc.symm)]
      simp

lemma lor_mask_beq (x a : ℕ) : (x ||| 2 ^ a == x) = true ↔ bitAt a x = 1 := by
  rw [beq_iff_eq]
  exact lor_mask x a

lemma lor_mask_beq_false (x a : ℕ) : (x ||| 2 ^ a == x) = false ↔ bitAt a x = 0 := by
  have h2 := bitAt_lt_two a x
  constructor
  · intro h
    by_contra hcon
    have h1 : bitAt a x = 1 := by omega
    have := (lor_mask_beq x a).mpr h1
    rw [this] at h
    cases h
  · intro h
    by_contra hcon
    have h1 : (x ||| 2 ^ a == x) = true := by
      cases hb : (x ||| 2 ^ a == x)
      · exact absurd hb hcon
      · rfl
    have := (lor_mask_beq x a).mp h1
    omega

lemma sub_pow_eq_updBit (a x : ℕ) (h1 : bitAt a x = 1) : x - 2 ^ a = updBit a 0 x := by
  have hd := bit_decomp a x
  rw [h1] at hd
  unfold updBit
  omega

lemma add_pow_eq_updBit (b x : ℕ) (h2 : bitAt b x = 0) : x + 2 ^ b = updBit b 1 x := by
  have hd := bit_decomp b x
  rw [h2] at hd
  unfold updBit
  omega

lemma bitAt_mod_row (x u Nx : ℕ) (hx : x < Nx) :
    bitAt x (u % 2 ^ Nx) = bitAt x u := by
  conv_rhs => rw [← Nat.mod_add_div u (2 ^ Nx)]
  rw [show u % 2 ^ Nx + 2 ^ Nx * (u / 2 ^ Nx)
      = u % 2 ^ Nx + (u / 2 ^ Nx) * 2 ^ Nx from by ring]
  rw [bitAt_add_mul_pow _ _ _ _ hx]

lemma bitAt_row (Nx x r dec : ℕ) (hx : x < Nx) :
    bitAt (x + Nx * r) dec = bitAt x (toRow Nx dec r) := by
  unfold toRow
  rw [bitAt_mod_row _ _ _ hx]
  unfold bitAt
  rw [Nat.div_div_eq_div_mul, ← pow_add]
  congr 2
  ring

lemma bitAt_double_add (t u v : ℕ) (hv : v < 2) :
    bitAt (t + 1) (2 * u + v) = bitAt t u := by
  rw [bitAt_succ]
  congr 1
  omega

lemma bitAt_double_zero (u v : ℕ) (hv : v < 2) : bitAt 0 (2 * u + v) = v := by
  rw [bitAt_zero]
  omega

lemma bitAt_rot (Nx s x : ℕ) (hNx : 0 < Nx) (hs : s < 2 ^ Nx) (hx : x < Nx) :
    bitAt x (rot Nx s) = bitAt ((x + (Nx - 1)) % Nx) s := by
  rw [rot_eq Nx s hNx hs]
  cases x with
  | zero =>
      rw [bitAt_double_zero _ _ (Nat.div_lt_of_lt_mul (by
        rw [show 2 ^ (Nx - 1) * 2 = 2 ^ Nx from by
          rw [← pow_succ]
          congr 1
          omega]
        exact hs))]
      rw [Nat.zero_add, Nat.mod_eq_of_lt (by omega)]
      unfold bitAt
      exact (Nat.mod_eq_of_lt (Nat.div_lt_of_lt_mul (by
        rw [show 2 ^ (Nx - 1) * 2 = 2 ^ Nx from by
          rw [← pow_succ]
          congr 1
          omega]
        exact hs))).symm
  | succ t =>
      rw [bitAt_double_add _ _ _ (Nat.div_lt_of_lt_mul (by
        rw [show 2 ^ (Nx - 1) * 2 = 2 ^ Nx from by
          rw [← pow_succ]
          congr 1
          omega]
        exact hs))]
      have ht : t < Nx - 1 := by omega
      have hmod : (t + 1 + (Nx - 1)) % Nx = t := by
        have hsum : t + 1 + (Nx - 1) = t + Nx := by omega
        rw [hsum, Nat.add_mod_right, Nat.mod_eq_of_lt (by omega)]
      rw [hmod]
      have hcut : bitAt t (s % 2 ^ (Nx - 1)) = bitAt t s := bitAt_mod_row t s (Nx - 1) ht
      exact hcut

lemma bitAt_tx (Nx Ny dec x r : ℕ) (hNx : 0 < Nx) (hx : x < Nx) (hr : r < Ny) :
    bitAt (x + Nx * r) (tx Nx Ny dec) = bitAt ((x + (Nx - 1)) % Nx + Nx * r) dec := by
  rw [bitAt_row Nx x r _ hx, toRow_tx Nx Ny dec r hNx hr,
    bitAt_rot Nx _ x hNx (toRow_lt Nx dec r) hx,
    ← bitAt_row Nx _ r dec (Nat.mod_lt _ hNx)]

lemma bitAt_ty (Nx Ny dec x r : ℕ) (hNx : 0 < Nx) (hNy : 0 < Ny)
    (hdec : dec < 2 ^ (Nx * Ny)) (hx : x < Nx) (hr : r < Ny) :
    bitAt (x + Nx * r) (ty Nx Ny dec) = bitAt (x + Nx * ((r + 1) % Ny)) dec := by
  rw [bitAt_row Nx x r _ hx, toRow_ty Nx Ny dec r hNy hdec hr,
    ← bitAt_row Nx x _ dec hx]

lemma bitAt_tx_iter (Nx Ny : ℕ) (hNx : 0 < Nx) (hNy : 0 < Ny) (m : ℕ) :
    ∀ dec x r, x < Nx → r < Ny →
    bitAt (x + Nx * r) ((tx Nx Ny)^[m] dec)
      = bitAt ((x + m * (Nx - 1)) % Nx + Nx * r) dec := by
  induction m with
  | zero =>
      intro dec x r hx hr
      rw [Function.iterate_zero_apply, Nat.zero_mul, Nat.add_zero,
        Nat.mod_eq_of_lt hx]
  | succ k ih =>
      intro dec x r hx hr
      rw [Function.iterate_succ_apply']
      rw [bitAt_tx Nx Ny _ x r hNx hx hr]
      rw [ih dec _ r (Nat.mod_lt _ hNx) hr]
      congr 2
      rw [Nat.mod_add_mod]
      congr 1
      ring

lemma bitAt_ty_iter (Nx Ny : ℕ) (hNx : 0 < Nx) (hNy : 0 < Ny) (nn : ℕ) :
    ∀ dec x r, dec < 2 ^ (Nx * Ny) → x < Nx → r < Ny →
    bitAt (x + Nx * r) ((ty Nx Ny)^[nn] dec)
      = bitAt (x + Nx * ((r + nn) % Ny)) dec := by
  induction nn with
  | zero =>
      intro dec x r hdec hx hr
      rw [Function.iterate_zero_apply, Nat.add_zero, Nat.mod_eq_of_lt hr]
  | succ k ih =>
      intro dec x r hdec hx hr
      rw [Function.iterate_succ_apply']
      rw [bitAt_ty Nx Ny _ x r hNx hNy (ty_iter_mem Nx Ny hNy k dec hdec) hx hr]
      rw [ih dec x _ hdec hx (Nat.mod_lt _ hNy)]
      congr 2
      rw [Nat.mod_add_mod]
      congr 1
      ring

lemma bitAt_act (Nx Ny : ℕ) (hNx : 0 < Nx) (hNy : 0 < Ny) (g : ℕ × ℕ) (dec k : ℕ)
    (hdec : dec < 2 ^ (Nx * Ny)) (hk : k < Nx * Ny) :
    bitAt k (act Nx Ny g dec)
      = bitAt (siteShift Nx Ny (g.2 * (Nx - 1)) g.1 k) dec := by
  have hx : k % Nx < Nx := Nat.mod_lt _ hNx
  have hr : k / Nx < Ny := Nat.div_lt_of_lt_mul hk
  have hk2 : k = k % Nx + Nx * (k / Nx) := (Nat.mod_add_div k Nx).symm
  unfold act siteShift
  conv_lhs => rw [hk2]
  rw [bitAt_tx_iter Nx Ny hNx hNy g.2 _ _ _ hx hr]
  rw [bitAt_ty_iter Nx Ny hNx hNy g.1 dec _ _ hdec (Nat.mod_lt _ hNx) hr]

lemma siteShift_lt (Nx Ny u v k : ℕ) (hNx : 0 < Nx) (hNy : 0 < Ny) :
    siteShift Nx Ny u v k < Nx * Ny := by
  unfold siteShift
  exact lattice_index_lt Nx Ny ((k % Nx + u) % Nx, (k / Nx + v) % Ny)
    (Nat.mod_lt _ hNx) (Nat.mod_lt _ hNy)

lemma siteShift_mod_div (Nx Ny u v k : ℕ) (hNx : 0 < Nx) (hNy : 0 < Ny) :
    siteShift Nx Ny u v k % Nx = (k % Nx + u) % Nx ∧
    siteShift Nx Ny u v k / Nx = (k / Nx + v) % Ny := by
  unfold siteShift
  exact lattice_index_mod Nx hNx ((k % Nx + u) % Nx, (k / Nx + v) % Ny)
    (Nat.mod_lt _ hNx)

lemma siteShift_comp (Nx Ny u1 v1 u2 v2 k : ℕ) (hNx : 0 < Nx) (hNy : 0 < Ny) :
    siteShift Nx Ny u2 v2 (siteShift Nx Ny u1 v1 k)
      = siteShift Nx Ny (u1 + u2) (v1 + v2) k := by
  obtain ⟨hm, hd⟩ := siteShift_mod_div Nx Ny u1 v1 k hNx hNy
  show (siteShift Nx Ny u1 v1 k % Nx + u2) % Nx
      + Nx * ((siteShift Nx Ny u1 v1 k / Nx + v2) % Ny) = _
  rw [hm, hd]
  unfold siteShift
  congr 1
  · rw [Nat.mod_add_mod, Nat.add_assoc]
  · congr 1
    rw [Nat.mod_add_mod, Nat.add_assoc]

lemma siteShift_cancel (Nx Ny w z k : ℕ) (hNx : 0 < Nx) (hNy : 0 < Ny)
    (hw : w % Nx = 0) (hz : z % Ny = 0) (hk : k < Nx * Ny) :
    siteShift Nx Ny w z k = k := by
  have hw2 : w / Nx * Nx = w := Nat.div_mul_cancel (Nat.dvd_of_mod_eq_zero hw)
  have hz2 : z / Ny * Ny = z := Nat.div_mul_cancel (Nat.dvd_of_mod_eq_zero hz)
  have h1 : (k % Nx + w) % Nx = k % Nx := by
    conv_lhs => rw [← hw2]
    rw [Nat.add_mul_mod_self_right]
    exact Nat.mod_mod_of_dvd k (dvd_refl Nx)
  have h2 : (k / Nx + z) % Ny = k / Nx := by
    conv_lhs => rw [← hz2]
    rw [Nat.add_mul_mod_self_right]
    exact Nat.mod_eq_of_lt (Nat.div_lt_of_lt_mul hk)
  unfold siteShift
  rw [h1, h2]
  exact Nat.mod_add_div k Nx

lemma siteShift_inv_left (Nx Ny u v k : ℕ) (hNx : 0 < Nx) (hNy : 0 < Ny)
    (hk : k < Nx * Ny) :
    siteShift Nx Ny (Nx - u % Nx) (Ny - v % Ny) (siteShift Nx Ny u v k) = k := by
  rw [siteShift_comp Nx Ny u v _ _ k hNx hNy]
  apply siteShift_cancel Nx Ny _ _ k hNx hNy ?_ ?_ hk
  · have h3 : u + (Nx - u % Nx) = Nx * (u / Nx) + Nx := by
      have h4 := Nat.mod_add_div u Nx
      have h5 : u % Nx < Nx := Nat.mod_lt _ hNx
      omega
    rw [h3]
    rw [show Nx * (u / Nx) + Nx = (u / Nx + 1) * Nx from by ring]
    exact Nat.mul_mod_left _ _
  · have h3 : v + (Ny - v % Ny) = Ny * (v / Ny) + Ny := by
      have h4 := Nat.mod_add_div v Ny
      have h5 : v % Ny < Ny := Nat.mod_lt _ hNy
      omega
    rw [h3]
    rw [show Ny * (v / Ny) + Ny = (v / Ny + 1) * Ny from by ring]
    exact Nat.mul_mod_left _ _

lemma siteShift_inv_right (Nx Ny u v k : ℕ) (hNx : 0 < Nx) (hNy : 0 < Ny)
    (hk : k < Nx * Ny) :
    siteShift Nx Ny u v (siteShift Nx Ny (Nx - u % Nx) (Ny - v % Ny) k) = k := by
  rw [siteShift_comp Nx Ny _ _ u v k hNx hNy]
  apply siteShift_cancel Nx Ny _ _ k hNx hNy ?_ ?_ hk
  · have h3 : Nx - u % Nx + u = Nx * (u / Nx) + Nx := by
      have h4 := Nat.mod_add_div u Nx
      have h5 : u % Nx < Nx := Nat.mod_lt _ hNx
      omega
    rw [h3]
    rw [show Nx * (u / Nx) + Nx = (u / Nx + 1) * Nx from by ring]
    exact Nat.mul_mod_left _ _
  · have h3 : Ny - v % Ny + v = Ny * (v / Ny) + Ny := by
      have h4 := Nat.mod_add_div v Ny
      have h5 : v % Ny < Ny := Nat.mod_lt _ hNy
      omega
    rw [h3]
    rw [show Ny * (v / Ny) + Ny = (v / Ny + 1) * Ny from by ring]
    exact Nat.mul_mod_left _ _

lemma act_updBit (Nx Ny : ℕ) (hNx : 0 < Nx) (hNy : 0 < Ny) (g : ℕ × ℕ)
    (b bbit x : ℕ) (hx : x < 2 ^ (Nx * Ny)) (hb : b < Nx * Ny) (hbit : bbit ≤ 1) :
    act Nx Ny g (updBit b bbit x)
      = updBit (siteShift Nx Ny (Nx - g.2 * (Nx - 1) % Nx) (Ny - g.1 % Ny) b)
          bbit (act Nx Ny g x) := by
  have hupd : updBit b bbit x < 2 ^ (Nx * Ny) := updBit_lt _ _ _ _ hbit hb hx
  have hD : siteShift Nx Ny (Nx - g.2 * (Nx - 1) % Nx) (Ny - g.1 % Ny) b < Nx * Ny :=
    siteShift_lt Nx Ny _ _ b hNx hNy
  apply bits_eq_ext (Nx * Ny) _ _
    (act_mem Nx Ny g _ hNx hNy hupd)
    (updBit_lt _ _ _ _ hbit hD (act_mem Nx Ny g x hNx hNy hx))
  intro k hk
  rw [bitAt_act Nx Ny hNx hNy g _ k hupd hk]
  rw [bitAt_updBit _ _ _ _ hbit, bitAt_updBit _ _ _ _ hbit]
  have hS : siteShift Nx Ny (g.2 * (Nx - 1)) g.1 k = b
      ↔ k = siteShift Nx Ny (Nx - g.2 * (Nx - 1) % Nx) (Ny - g.1 % Ny) b := by
    constructor
    · intro h
      rw [← h, siteShift_inv_left Nx Ny _ _ k hNx hNy hk]
    · intro h
      rw [h, siteShift_inv_right Nx Ny _ _ b hNx hNy hb]
  by_cases hcase : siteShift Nx Ny (g.2 * (Nx - 1)) g.1 k = b
  · rw [if_pos hcase, if_pos (hS.mp hcase)]
  · rw [if_neg hcase, if_neg (fun hc => hcase (hS.mpr hc))]
    exact (bitAt_act Nx Ny hNx hNy g x k hx hk).symm

/-! ## Geometry equivariance under lattice translations -/

lemma wrapSite_cast (Nx Ny : ℕ) (hNx : 0 < Nx) (hNy : 0 < Ny) (x y : ℤ) :
    ((wrapSite Nx Ny x y).1 : ℤ) = x % (Nx : ℤ) ∧
    ((wrapSite Nx Ny x y).2 : ℤ) = y % (Ny : ℤ) := by
  unfold wrapSite
  constructor
  · exact Int.toNat_of_nonneg (Int.emod_nonneg x (Int.natCast_ne_zero.mpr hNx.ne'))
  · exact Int.toNat_of_nonneg (Int.emod_nonneg y (Int.natCast_ne_zero.mpr hNy.ne'))

lemma int_mod_absorb (n a b : ℤ) : (a % n + b) % n = (a + b) % n := by
  conv_rhs => rw [Int.add_emod]
  rw [Int.add_emod (a % n) b, Int.emod_emod_of_dvd a (dvd_refl n)]

lemma mod_add_cancel_right (M a s1 s2 : ℕ) (hM : 0 < M) (hs1 : s1 < M)
    (hs2 : s2 < M) (h : (s1 + a) % M = (s2 + a) % M) : s1 = s2 := by
  apply mod_add_left_cancel M (a % M) s1 s2 hM (Nat.mod_lt _ hM) hs1 hs2
  have e : ∀ t, (a % M + t) % M = (t + a) % M := by
    intro t
    rw [Nat.mod_add_mod, Nat.add_comm]
  rw [e s1, e s2]
  exact h

lemma shift_pair_inj (Nx Ny u v : ℕ) (hNx : 0 < Nx) (hNy : 0 < Ny)
    (t s : ℕ × ℕ) (ht1 : t.1 < Nx) (ht2 : t.2 < Ny) (hs1 : s.1 < Nx)
    (hs2 : s.2 < Ny)
    (h : ((t.1 + u) % Nx, (t.2 + v) % Ny) = ((s.1 + u) % Nx, (s.2 + v) % Ny)) :
    t = s := by
  have h1 : (t.1 + u) % Nx = (s.1 + u) % Nx := congrArg Prod.fst h
  have h2 : (t.2 + v) % Ny = (s.2 + v) % Ny := congrArg Prod.snd h
  exact Prod.ext (mod_add_cancel_right Nx u t.1 s.1 hNx ht1 hs1 h1)
    (mod_add_cancel_right Ny v t.2 s.2 hNy ht2 hs2 h2)

lemma wrapSite_shift (Nx Ny : ℕ) (hNx : 0 < Nx) (hNy : 0 < Ny)
    (a b u v : ℕ) (dx dy : ℤ) :
    wrapSite Nx Ny ((((a + u) % Nx : ℕ) : ℤ) + dx) ((((b + v) % Ny : ℕ) : ℤ) + dy)
      = (((wrapSite Nx Ny ((a : ℤ) + dx) ((b : ℤ) + dy)).1 + u) % Nx,
         ((wrapSite Nx Ny ((a : ℤ) + dx) ((b : ℤ) + dy)).2 + v) % Ny) := by
  obtain ⟨hc1, hc2⟩ := wrapSite_cast Nx Ny hNx hNy
    ((((a + u) % Nx : ℕ) : ℤ) + dx) ((((b + v) % Ny : ℕ) : ℤ) + dy)
  obtain ⟨hd1, hd2⟩ := wrapSite_cast Nx Ny hNx hNy ((a : ℤ) + dx) ((b : ℤ) + dy)
  apply Prod.ext
  · have hz : ((wrapSite Nx Ny ((((a + u) % Nx : ℕ) : ℤ) + dx)
        ((((b + v) % Ny : ℕ) : ℤ) + dy)).1 : ℤ)
        = ((((wrapSite Nx Ny ((a : ℤ) + dx) ((b : ℤ) + dy)).1 + u) % Nx : ℕ) : ℤ) := by
      rw [hc1]
      push_cast
      rw [hd1]
      rw [int_mod_absorb, int_mod_absorb]
      congr 1
      ring
    exact_mod_cast hz
  · have hz : ((wrapSite Nx Ny ((((a + u) % Nx : ℕ) : ℤ) + dx)
        ((((b + v) % Ny : ℕ) : ℤ) + dy)).2 : ℤ)
        = ((((wrapSite Nx Ny ((a : ℤ) + dx) ((b : ℤ) + dy)).2 + v) % Ny : ℕ) : ℤ) := by
      rw [hc2]
      push_cast
      rw [hd2]
      rw [int_mod_absorb, int_mod_absorb]
      congr 1
      ring
    exact_mod_cast hz

lemma hopChecked_shift (Nx Ny : ℕ) (hNx : 0 < Nx) (hNy : 0 < Ny)
    (s : ℕ × ℕ) (hs1 : s.1 < Nx) (hs2 : s.2 < Ny) (u v : ℕ) (dx dy : ℤ) :
    hopChecked Nx Ny ((s.1 + u) % Nx, (s.2 + v) % Ny) dx dy
      = (hopChecked Nx Ny s dx dy).map
          (fun t => ((t.1 + u) % Nx, (t.2 + v) % Ny)) := by
  unfold hopChecked
  dsimp only
  rw [wrapSite_shift Nx Ny hNx hNy s.1 s.2 u v dx dy]
  have ht0b := wrapSite_lt Nx Ny hNx hNy ((s.1 : ℤ) + dx) ((s.2 : ℤ) + dy)
  by_cases heq : wrapSite Nx Ny ((s.1 : ℤ) + dx) ((s.2 : ℤ) + dy) = s
  · rw [if_pos (by rw [heq]), if_pos heq]
    rfl
  · rw [if_neg ?_, if_neg heq]
    · rfl
    · intro hc
      exact heq (shift_pair_inj Nx Ny u v hNx hNy _ s ht0b.1 ht0b.2 hs1 hs2 hc)

lemma b3_hop_shift (Nx Ny : ℕ) (hNx : 0 < Nx) (hNy : 0 < Ny)
    (s : ℕ × ℕ) (hs1 : s.1 < Nx) (hs2 : s.2 < Ny) (u v : ℕ) (stride : ℤ) :
    b3_hop Nx Ny ((s.1 + u) % Nx, (s.2 + v) % Ny) stride
      = (b3_hop Nx Ny s stride).map
          (fun t => ((t.1 + u) % Nx, (t.2 + v) % Ny)) := by
  unfold b3_hop b1_hop b2_hop
  rw [hopChecked_shift Nx Ny hNx hNy s hs1 hs2 u v _ _]
  cases h1 : hopChecked Nx Ny s (-stride) (-stride) with
  | none => rfl
  | some t1 =>
      have ht1 := hopChecked_facts Nx Ny hNx hNy s _ _ t1 h1
      rw [Option.map_some', Option.some_bind, Option.some_bind]
      rw [hopChecked_shift Nx Ny hNx hNy t1 ht1.1.1 ht1.1.2 u v _ _]
      cases h2 : hopChecked Nx Ny t1 (-2 * -stride) (-stride) with
      | none => rfl
      | some t2 =>
          have ht2 := hopChecked_facts Nx Ny hNx hNy t1 _ _ t2 h2
          rw [Option.map_some', Option.some_bind, Option.some_bind]
          by_cases hts : t2 = s
          · rw [if_pos (by rw [hts]), if_pos hts]
            rfl
          · rw [if_neg ?_, if_neg hts]
            · rfl
            · intro hc
              exact hts (shift_pair_inj Nx Ny u v hNx hNy t2 s
                ht2.1.1 ht2.1.2 hs1 hs2 hc)

lemma lattice_index_shiftPair (Nx Ny u v : ℕ) (hNx : 0 < Nx) (t : ℕ × ℕ)
    (ht : t.1 < Nx) :
    lattice_index Nx ((t.1 + u) % Nx, (t.2 + v) % Ny)
      = siteShift Nx Ny u v (lattice_index Nx t) := by
  obtain ⟨hm, hd⟩ := lattice_index_mod Nx hNx t ht
  unfold siteShift
  rw [hm, hd]
  rfl

lemma filterMap_map_shift (Nx Ny u v : ℕ) (hNx : 0 < Nx)
    (L : List (Option (ℕ × ℕ)))
    (hb : ∀ t : ℕ × ℕ, some t ∈ L → t.1 < Nx) :
    ((L.map (Option.map fun t => ((t.1 + u) % Nx, (t.2 + v) % Ny))).filterMap
        id).map (lattice_index Nx)
      = ((L.filterMap id).map (lattice_index Nx)).map (siteShift Nx Ny u v) := by
  induction L with
  | nil => rfl
  | cons o T ih =>
      have hT : ∀ t : ℕ × ℕ, some t ∈ T → t.1 < Nx :=
        fun t ht => hb t (List.mem_cons_of_mem _ ht)
      cases o with
      | none =>
          simpa using ih hT
      | some t =>
          have ht1 : t.1 < Nx := hb t (List.mem_cons_self _ _)
          simp only [List.map_cons, Option.map_some', List.filterMap_cons, id]
          rw [ih hT, lattice_index_shiftPair Nx Ny u v hNx t ht1]

lemma neighborSites_shift (Nx Ny l u v i : ℕ) (hNx : 0 < Nx) (hNy : 0 < Ny)
    (hi : i < Nx * Ny) :
    neighborSites Nx Ny (siteShift Nx Ny u v i) l
      = (neighborSites Nx Ny i l).map (siteShift Nx Ny u v) := by
  obtain ⟨hm, hd⟩ := siteShift_mod_div Nx Ny u v i hNx hNy
  have hs1 : (i % Nx, i / Nx).1 < Nx := Nat.mod_lt _ hNx
  have hs2 : (i % Nx, i / Nx).2 < Ny := Nat.div_lt_of_lt_mul hi
  unfold neighborSites
  dsimp only
  rw [hm, hd]
  by_cases hl1 : l = 1
  · rw [if_pos hl1, if_pos hl1]
    unfold a1_hop a2_hop a3_hop
    have e1 := hopChecked_shift Nx Ny hNx hNy (i % Nx, i / Nx) hs1 hs2 u v 1 0
    have e2 := hopChecked_shift Nx Ny hNx hNy (i % Nx, i / Nx) hs1 hs2 u v (-1) 1
    have e3 := hopChecked_shift Nx Ny hNx hNy (i % Nx, i / Nx) hs1 hs2 u v 0 (-1)
    dsimp only at e1 e2 e3
    rw [e1, e2, e3]
    refine filterMap_map_shift Nx Ny u v hNx
      [hopChecked Nx Ny (i % Nx, i / Nx) 1 0,
       hopChecked Nx Ny (i % Nx, i / Nx) (-1) 1,
       hopChecked Nx Ny (i % Nx, i / Nx) 0 (-1)] ?_
    intro t ht
    simp only [List.mem_cons, List.not_mem_nil, or_false] at ht
    rcases ht with h | h | h
    · exact (hopChecked_facts Nx Ny hNx hNy _ _ _ t h.symm).1.1
    · exact (hopChecked_facts Nx Ny hNx hNy _ _ _ t h.symm).1.1
    · exact (hopChecked_facts Nx Ny hNx hNy _ _ _ t h.symm).1.1
  · rw [if_neg hl1, if_neg hl1]
    by_cases hl2 : l = 2
    · rw [if_pos hl2, if_pos hl2]
      unfold b1_hop b2_hop
      have e1 := hopChecked_shift Nx Ny hNx hNy (i % Nx, i / Nx) hs1 hs2 u v 1 1
      have e2 := hopChecked_shift Nx Ny hNx hNy (i % Nx, i / Nx) hs1 hs2 u v
        (-2 * 1) 1
      have e3 := b3_hop_shift Nx Ny hNx hNy (i % Nx, i / Nx) hs1 hs2 u v 1
      dsimp only at e1 e2 e3
      rw [e1, e2, e3]
      refine filterMap_map_shift Nx Ny u v hNx
        [hopChecked Nx Ny (i % Nx, i / Nx) 1 1,
         hopChecked Nx Ny (i % Nx, i / Nx) (-2 * 1) 1,
         b3_hop Nx Ny (i % Nx, i / Nx) 1] ?_
      intro t ht
      simp only [List.mem_cons, List.not_mem_nil, or_false] at ht
      rcases ht with h | h | h
      · exact (hopChecked_facts Nx Ny hNx hNy _ _ _ t h.symm).1.1
      · exact (hopChecked_facts Nx Ny hNx hNy _ _ _ t h.symm).1.1
      · exact (b3_hop_facts Nx Ny hNx hNy _ _ t h.symm).1.1
    · rw [if_neg hl2, if_neg hl2]
      unfold a1_hop a2_hop a3_hop
      have e1 := hopChecked_shift Nx Ny hNx hNy (i % Nx, i / Nx) hs1 hs2 u v 2 0
      have e2 := hopChecked_shift Nx Ny hNx hNy (i % Nx, i / Nx) hs1 hs2 u v (-2) 2
      have e3 := hopChecked_shift Nx Ny hNx hNy (i % Nx, i / Nx) hs1 hs2 u v 0 (-2)
      dsimp only at e1 e2 e3
      rw [e1, e2, e3]
      refine filterMap_map_shift Nx Ny u v hNx
        [hopChecked Nx Ny (i % Nx, i / Nx) 2 0,
         hopChecked Nx Ny (i % Nx, i / Nx) (-2) 2,
         hopChecked Nx Ny (i % Nx, i / Nx) 0 (-2)] ?_
      intro t ht
      simp only [List.mem_cons, List.not_mem_nil, or_false] at ht
      rcases ht with h | h | h
      · exact (hopChecked_facts Nx Ny hNx hNy _ _ _ t h.symm).1.1
      · exact (hopChecked_facts Nx Ny hNx hNy _ _ _ t h.symm).1.1
      · exact (hopChecked_facts Nx Ny hNx hNy _ _ _ t h.symm).1.1

lemma bonds_shift_mem (Nx Ny l u v : ℕ) (hNx : 0 < Nx) (hNy : 0 < Ny)
    (b : ℕ × ℕ) (hb : b ∈ _generate_bonds Nx Ny l) :
    (min (siteShift Nx Ny u v b.1) (siteShift Nx Ny u v b.2),
     max (siteShift Nx Ny u v b.1) (siteShift Nx Ny u v b.2))
      ∈ _generate_bonds Nx Ny l := by
  unfold _generate_bonds at hb ⊢
  rw [List.mem_dedup, List.mem_bind] at hb ⊢
  obtain ⟨i, hi, hmem⟩ := hb
  rw [List.mem_map] at hmem
  obtain ⟨j, hj, hbj⟩ := hmem
  have hiN := List.mem_range.mp hi
  refine ⟨siteShift Nx Ny u v i,
    List.mem_range.mpr (siteShift_lt Nx Ny u v i hNx hNy), ?_⟩
  rw [List.mem_map]
  refine ⟨siteShift Nx Ny u v j, ?_, ?_⟩
  · rw [neighborSites_shift Nx Ny l u v i hNx hNy hiN]
    exact List.mem_map.mpr ⟨j, hj, rfl⟩
  · subst hbj
    rcases le_total i j with hle | hle
    · rw [min_eq_left hle, max_eq_right hle]
    · rw [min_eq_right hle, max_eq_left hle, min_comm, max_comm]

/-! ## Basis bookkeeping: the retained orbits and their indices -/

lemma countP_one_unique {α : Type} (l : List α) (p : α → Bool)
    (h : l.countP p = 1) (a b : α) (ha : a ∈ l) (hb : b ∈ l)
    (hpa : p a = true) (hpb : p b = true) : a = b := by
  have hflen : (l.filter p).length = 1 := by
    rw [← l.countP_eq_length_filter p]
    exact h
  obtain ⟨x, hx⟩ := List.length_eq_one.mp hflen
  have ha2 : a ∈ l.filter p := List.mem_filter.mpr ⟨ha, hpa⟩
  have hb2 : b ∈ l.filter p := List.mem_filter.mpr ⟨hb, hpb⟩
  rw [hx, List.mem_singleton] at ha2 hb2
  rw [ha2, hb2]

lemma zms_find_eq_some_iff (Nx Ny d : ℕ) (hNx : 0 < Nx) (hNy : 0 < Ny)
    (hd : d < 2 ^ (Nx * Ny)) (o : BlochFunc) :
    (zero_momentum_states Nx Ny).find? (fun s => s.hasDec d) = some o
      ↔ o ∈ zero_momentum_states Nx Ny ∧ o.hasDec d = true := by
  constructor
  · intro h
    have hp := List.find?_some h
    exact ⟨List.mem_of_find?_eq_some h, hp⟩
  · rintro ⟨hmem, hdec⟩
    have hsome : ((zero_momentum_states Nx Ny).find? (fun s => s.hasDec d)).isSome :=
      List.find?_isSome.mpr ⟨o, hmem, hdec⟩
    obtain ⟨o2, ho2⟩ := Option.isSome_iff_exists.mp hsome
    have hp2 := List.find?_some ho2
    have hcount := zms_countP_eq_one Nx Ny d hNx hNy hd
    have heq := countP_one_unique _ _ hcount o2 o (List.mem_of_find?_eq_some ho2)
      hmem hp2 hdec
    rw [ho2, heq]

lemma mem_nonzero_iff (Nx Ny : ℕ) (kx ky : ℤ) (o : BlochFunc) :
    o ∈ nonzero_states Nx Ny kx ky ↔
      o ∈ zero_momentum_states Nx Ny ∧ (1e-8 : ℝ) < _norm_coeff Nx Ny kx ky o := by
  unfold nonzero_states
  rw [List.mem_filter, decide_eq_true_eq]

lemma ind_to_dec_get (Nx Ny : ℕ) (kx ky : ℤ) (i : ℕ)
    (hi : i < (nonzero_states Nx Ny kx ky).length) :
    ind_to_dec Nx Ny kx ky i = (nonzero_states Nx Ny kx ky)[i] := by
  unfold ind_to_dec
  exact List.getD_eq_getElem _ _ hi

lemma ind_to_dec_mem (Nx Ny : ℕ) (kx ky : ℤ) (i : ℕ)
    (hi : i < (nonzero_states Nx Ny kx ky).length) :
    ind_to_dec Nx Ny kx ky i ∈ nonzero_states Nx Ny kx ky := by
  rw [ind_to_dec_get Nx Ny kx ky i hi]
  exact List.getElem_mem hi

lemma dec_to_ind_getElem (Nx Ny : ℕ) (kx ky : ℤ) (hNx : 0 < Nx) (hNy : 0 < Ny)
    (i : ℕ) (hi : i < (nonzero_states Nx Ny kx ky).length) :
    dec_to_ind Nx Ny kx ky ((nonzero_states Nx Ny kx ky)[i]).lead = i := by
  unfold dec_to_ind
  rw [List.findIdx_eq hi]
  constructor
  · simp
  · intro j hj
    have hlt := (List.pairwise_iff_getElem.mp
      (nonzero_pairwise_lt Nx Ny kx ky hNx hNy)) j i (by omega) hi hj
    simp only [beq_eq_false_iff_ne, ne_eq]
    intro hc
    omega

lemma dec_to_ind_ind_to_dec (Nx Ny : ℕ) (kx ky : ℤ) (hNx : 0 < Nx) (hNy : 0 < Ny)
    (i : ℕ) (hi : i < (nonzero_states Nx Ny kx ky).length) :
    dec_to_ind Nx Ny kx ky (ind_to_dec Nx Ny kx ky i).lead = i := by
  rw [ind_to_dec_get Nx Ny kx ky i hi]
  exact dec_to_ind_getElem Nx Ny kx ky hNx hNy i hi

lemma mem_nonzero_index (Nx Ny : ℕ) (kx ky : ℤ) (o : BlochFunc)
    (ho : o ∈ nonzero_states Nx Ny kx ky) :
    ∃ i, ∃ hi : i < (nonzero_states Nx Ny kx ky).length,
      (nonzero_states Nx Ny kx ky)[i] = o := by
  obtain ⟨i, hi, h⟩ := List.getElem_of_mem ho
  exact ⟨i, hi, h⟩

/-! ## Exact values of `_find_leading_state` -/

lemma fls_eq (Nx Ny : ℕ) (kx ky : ℤ) (hNx : 0 < Nx) (hNy : 0 < Ny) (d : ℕ)
    (hd : d < 2 ^ (Nx * Ny)) (o : BlochFunc)
    (ho : o ∈ zero_momentum_states Nx Ny) (hdec : o.hasDec d = true)
    (hsurv : (1e-8 : ℝ) < _norm_coeff Nx Ny kx ky o) :
    _find_leading_state Nx Ny kx ky d
      = some (o, (starRingEnd ℂ) (decPhase Nx Ny kx ky o d) /
          (Complex.abs ((starRingEnd ℂ) (decPhase Nx Ny kx ky o d)) : ℂ)) := by
  unfold _find_leading_state
  rw [(zms_find_eq_some_iff Nx Ny d hNx hNy hd o).mpr ⟨ho, hdec⟩, Option.some_bind]
  rw [if_neg (by linarith)]

lemma fls_of_act (Nx Ny : ℕ) (kx ky : ℤ) (hNx : 0 < Nx) (hNy : 0 < Ny)
    (o : BlochFunc) (ho : o ∈ nonzero_states Nx Ny kx ky)
    (g : ℕ × ℕ) (hg1 : g.1 < Ny) (hg2 : g.2 < Nx) :
    _find_leading_state Nx Ny kx ky (act Nx Ny g o.lead)
      = some (o, (starRingEnd ℂ) (phaseAt Nx Ny kx ky g)) := by
  obtain ⟨hzms, hsurv⟩ := (mem_nonzero_iff Nx Ny kx ky o).mp ho
  obtain ⟨horb, hlt, _⟩ := zms_orbit_facts Nx Ny hNx hNy o hzms
  have hd : act Nx Ny g o.lead < 2 ^ (Nx * Ny) := act_mem Nx Ny g o.lead hNx hNy hlt
  have hdec : o.hasDec (act Nx Ny g o.lead) = true := by
    rw [horb]
    exact (hasDec_find_iff Nx Ny o.lead _ hNx hNy hlt).mpr ⟨g.1, hg1, g.2, hg2, rfl⟩
  rw [fls_eq Nx Ny kx ky hNx hNy _ hd o hzms hdec hsurv]
  have hsurv2 : (1e-8 : ℝ) < _norm_coeff Nx Ny kx ky (find_T_invariant_set Nx Ny o.lead) := by
    rw [← horb]
    exact hsurv
  have htriv := (survives_iff Nx Ny o.lead kx ky hNx hNy hlt).mp hsurv2
  have hg0 : (g.1, g.2) ∈ posSet Nx Ny o.lead (act Nx Ny g o.lead) :=
    (mem_posSet Nx Ny o.lead _ hNx hNy hlt (g.1, g.2)).mpr ⟨hg1, hg2, rfl⟩
  have hdp : decPhase Nx Ny kx ky o (act Nx Ny g o.lead)
      = phaseAt Nx Ny kx ky g * ((posSet Nx Ny o.lead o.lead).card : ℂ) := by
    calc decPhase Nx Ny kx ky o (act Nx Ny g o.lead)
        = decPhase Nx Ny kx ky (find_T_invariant_set Nx Ny o.lead)
            (act Nx Ny g o.lead) := by rw [← horb]
      _ = ∑ s ∈ posSet Nx Ny o.lead (act Nx Ny g o.lead), phaseAt Nx Ny kx ky s :=
          decPhase_eq Nx Ny o.lead _ kx ky
      _ = phaseAt Nx Ny kx ky (g.1, g.2) *
            ∑ s ∈ posSet Nx Ny o.lead o.lead, phaseAt Nx Ny kx ky s :=
          sum_phase_posSet Nx Ny o.lead _ kx ky hNx hNy hlt g.1 g.2 hg0
      _ = phaseAt Nx Ny kx ky g * ((posSet Nx Ny o.lead o.lead).card : ℂ) := by
          rw [stabSum_of_trivial Nx Ny o.lead kx ky htriv]
  rw [hdp]
  have hcard : (0 : ℝ) < ((posSet Nx Ny o.lead o.lead).card : ℝ) := by
    exact_mod_cast stab_card_pos Nx Ny o.lead hNx hNy hlt
  congr 1
  rw [map_mul, Complex.conj_natCast, map_mul, Complex.abs_conj, phaseAt_abs, one_mul,
    Complex.abs_natCast]
  rw [mul_div_assoc,
    show (((posSet Nx Ny o.lead o.lead).card : ℝ) : ℂ)
      = ((posSet Nx Ny o.lead o.lead).card : ℂ) from by norm_cast,
    div_self (by exact_mod_cast hcard.ne'), mul_one]

lemma fls_some_facts (Nx Ny : ℕ) (kx ky : ℤ) (hNx : 0 < Nx) (hNy : 0 < Ny)
    (d : ℕ) (hd : d < 2 ^ (Nx * Ny)) (o : BlochFunc) (φ : ℂ)
    (h : _find_leading_state Nx Ny kx ky d = some (o, φ)) :
    o ∈ nonzero_states Nx Ny kx ky ∧ o.hasDec d = true := by
  unfold _find_leading_state at h
  cases hfind : (zero_momentum_states Nx Ny).find? (fun s => s.hasDec d) with
  | none =>
      rw [hfind] at h
      cases h
  | some o2 =>
      rw [hfind, Option.some_bind] at h
      obtain ⟨hmem, hdec⟩ := (zms_find_eq_some_iff Nx Ny d hNx hNy hd o2).mp hfind
      by_cases hlow : _norm_coeff Nx Ny kx ky o2 < (1e-8 : ℝ)
      · rw [if_pos hlow] at h
        cases h
      · rw [if_neg hlow] at h
        have ho2 : o2 = o := congrArg Prod.fst (Option.some.inj h)
        subst ho2
        obtain ⟨horb, hlt, _⟩ := zms_orbit_facts Nx Ny hNx hNy o2 hmem
        have hsurv : (1e-8 : ℝ) < _norm_coeff Nx Ny kx ky o2 := by
          rcases lt_trichotomy (_norm_coeff Nx Ny kx ky o2) (1e-8 : ℝ) with h1 | h1 | h1
          · exact absurd h1 hlow
          · exfalso
            have hb := (below_tolerance_iff Nx Ny o2.lead kx ky hNx hNy hlt)
            rw [← horb] at hb
            rcases Classical.em (∀ s ∈ posSet Nx Ny o2.lead o2.lead,
                phaseAt Nx Ny kx ky s = 1) with ht | ht
            · have := norm_coeff_of_trivial Nx Ny o2.lead kx ky hNx hNy hlt ht
              rw [← horb] at this
              linarith
            · exact hlow (hb.mpr ht)
          · exact h1
        exact ⟨(mem_nonzero_iff Nx Ny kx ky o2).mpr ⟨hmem, hsurv⟩, hdec⟩

/-! ## The element loops as explicit sums -/

lemma list_map_finset_sum_commC {α β : Type} (l : List α) (s : Finset β)
    (f : α → β → ℂ) :
    (l.map fun o => ∑ d ∈ s, f o d).sum = ∑ d ∈ s, (l.map fun o => f o d).sum := by
  induction l with
  | nil => simp
  | cons a l ih =>
    simp only [List.map_cons, List.sum_cons, ih]
    rw [← Finset.sum_add_distrib]

lemma addEntry_apply (f : ℕ → ℂ) (jt : ℕ) (c : ℂ) (j : ℕ) :
    addEntry f jt c j = f j + if j = jt then c else 0 := by
  unfold addEntry
  by_cases h : j = jt
  · rw [if_pos h, if_pos h]
  · rw [if_neg h, if_neg h, add_zero]

lemma foldl_step_sum {α : Type} (step : (ℕ → ℂ) → α → (ℕ → ℂ)) (val : α → ℕ → ℂ)
    (hstep : ∀ f p j2, step f p j2 = f j2 + val p j2) (L : List α) (j : ℕ) :
    ∀ f0 : ℕ → ℂ, (L.foldl step f0) j = f0 j + (L.map (fun p => val p j)).sum := by
  induction L with
  | nil =>
      intro f0
      simp
  | cons p T ih =>
      intro f0
      rw [List.foldl_cons, ih (step f0 p), List.map_cons, List.sum_cons, hstep f0 p j]
      ring

lemma exchange_exclusive (dec s1 s2 : ℕ) :
    ¬((_exchange_spin_flips dec s1 s2).1 = true ∧
      (_exchange_spin_flips dec s1 s2).2 = true) := by
  unfold _exchange_spin_flips
  cases h1 : (dec ||| s1 == dec) <;> cases h2 : (dec ||| s2 == dec) <;> simp [h1, h2]

lemma repeated_exclusive (dec s1 s2 : ℕ) :
    ¬((_repeated_spins dec s1 s2).1 = true ∧
      (_repeated_spins dec s1 s2).2 = true) := by
  unfold _repeated_spins
  cases h1 : (dec ||| s1 == dec) <;> cases h2 : (dec ||| s2 == dec) <;> simp [h1, h2]

lemma H_pm_step_val (Nx Ny : ℕ) (kx ky : ℤ) (orig : BlochFunc) (f : ℕ → ℂ)
    (p : ℕ × ℕ) (j : ℕ) :
    H_pm_step Nx Ny kx ky orig f p j
      = f j +
        ((if (_exchange_spin_flips orig.lead p.1 p.2).1 = true
            then flsTerm Nx Ny kx ky orig 1 (orig.lead - p.1 + p.2) j else 0) +
         (if (_exchange_spin_flips orig.lead p.1 p.2).2 = true
            then flsTerm Nx Ny kx ky orig 1 (orig.lead + p.1 - p.2) j else 0)) := by
  unfold H_pm_step
  dsimp only
  by_cases h1 : (_exchange_spin_flips orig.lead p.1 p.2).1 = true
  · have h2 : ¬(_exchange_spin_flips orig.lead p.1 p.2).2 = true :=
      fun hc => exchange_exclusive orig.lead p.1 p.2 ⟨h1, hc⟩
    rw [if_pos (by simp [h1]), if_pos h1, if_pos h1, if_neg h2, add_zero]
    unfold flsTerm
    cases hfls : _find_leading_state Nx Ny kx ky (orig.lead - p.1 + p.2) with
    | none => rw [add_zero]
    | some pr =>
        obtain ⟨cntd, phase⟩ := pr
        simp only [addEntry_apply]
        simp only [one_mul]
  · by_cases h2 : (_exchange_spin_flips orig.lead p.1 p.2).2 = true
    · rw [if_pos (by simp [h2]), if_neg h1, if_neg h1, if_pos h2, zero_add]
      unfold flsTerm
      cases hfls : _find_leading_state Nx Ny kx ky (orig.lead + p.1 - p.2) with
      | none => rw [add_zero]
      | some pr =>
          obtain ⟨cntd, phase⟩ := pr
          simp only [addEntry_apply]
          simp only [one_mul]
    · rw [if_neg (by simp [h1, h2]), if_neg h1, if_neg h2, add_zero, add_zero]

lemma H_ppmm_step_val (Nx Ny : ℕ) (kx ky : ℤ) (orig : BlochFunc) (f : ℕ → ℂ)
    (p : ℕ × ℕ) (j : ℕ) :
    H_ppmm_step Nx Ny kx ky orig f p j
      = f j +
        ((if (_repeated_spins orig.lead p.1 p.2).1 = true
            then flsTerm Nx Ny kx ky orig ((starRingEnd ℂ) (_gamma Nx Ny p.1 p.2))
              (orig.lead - p.1 - p.2) j else 0) +
         (if (_repeated_spins orig.lead p.1 p.2).2 = true
            then flsTerm Nx Ny kx ky orig (_gamma Nx Ny p.1 p.2)
              (orig.lead + p.1 + p.2) j else 0)) := by
  unfold H_ppmm_step
  dsimp only
  by_cases h1 : (_repeated_spins orig.lead p.1 p.2).1 = true
  · have h2 : ¬(_repeated_spins orig.lead p.1 p.2).2 = true :=
      fun hc => repeated_exclusive orig.lead p.1 p.2 ⟨h1, hc⟩
    rw [if_pos (by simp [h1]), if_pos h1, if_pos h1, if_pos h1, if_neg h2, add_zero]
    unfold flsTerm
    cases hfls : _find_leading_state Nx Ny kx ky (orig.lead - p.1 - p.2) with
    | none => rw [add_zero]
    | some pr =>
        obtain ⟨cntd, phase⟩ := pr
        simp only [addEntry_apply]
        congr 1
        split
        · ring
        · rfl
  · by_cases h2 : (_repeated_spins orig.lead p.1 p.2).2 = true
    · rw [if_pos (by simp [h2]), if_neg h1, if_neg h1, if_neg h1, if_pos h2, zero_add]
      unfold flsTerm
      cases hfls : _find_leading_state Nx Ny kx ky (orig.lead + p.1 + p.2) with
      | none => rw [add_zero]
      | some pr =>
          obtain ⟨cntd, phase⟩ := pr
          simp only [addEntry_apply]
          congr 1
          split
          · ring
          · rfl
    · rw [if_neg (by simp [h1, h2]), if_neg h1, if_neg h2, add_zero, add_zero]

lemma H_pmz_step_val (Nx Ny : ℕ) (kx ky : ℤ) (orig : BlochFunc) (f : ℕ → ℂ)
    (q : ℕ × ℕ) (j : ℕ) :
    H_pmz_step Nx Ny kx ky orig f q j
      = f j +
        (if (orig.lead ||| q.2 == orig.lead) = true
          then flsTerm Nx Ny kx ky orig
            ((((if (orig.lead ||| q.1 == orig.lead) = true
                then (0.5 : ℝ) else -0.5) : ℝ) : ℂ) *
              (starRingEnd ℂ) (_gamma Nx Ny q.1 q.2)) (orig.lead - q.2) j
          else flsTerm Nx Ny kx ky orig
            ((((if (orig.lead ||| q.1 == orig.lead) = true
                then (0.5 : ℝ) else -0.5) : ℝ) : ℂ) *
              (-(_gamma Nx Ny q.1 q.2))) (orig.lead + q.2) j) := by
  unfold H_pmz_step
  by_cases h2 : (orig.lead ||| q.2 == orig.lead) = true
  · rw [if_pos h2, if_pos h2, if_pos h2]
    unfold flsTerm
    cases hfls : _find_leading_state Nx Ny kx ky (orig.lead - q.2) with
    | none => rw [add_zero]
    | some pr =>
        obtain ⟨cntd, phase⟩ := pr
        simp only [addEntry_apply]
  · rw [if_neg h2, if_neg h2, if_neg h2]
    unfold flsTerm
    cases hfls : _find_leading_state Nx Ny kx ky (orig.lead + q.2) with
    | none => rw [add_zero]
    | some pr =>
        obtain ⟨cntd, phase⟩ := pr
        simp only [addEntry_apply]

lemma H_pm_elements_apply (Nx Ny : ℕ) (kx ky : ℤ) (i l j : ℕ) :
    H_pm_elements Nx Ny kx ky i l j
      = ((_interacting_sites Nx Ny l).map fun p =>
          (if (_exchange_spin_flips (ind_to_dec Nx Ny kx ky i).lead p.1 p.2).1 = true
            then flsTerm Nx Ny kx ky (ind_to_dec Nx Ny kx ky i) 1
              ((ind_to_dec Nx Ny kx ky i).lead - p.1 + p.2) j else 0) +
          (if (_exchange_spin_flips (ind_to_dec Nx Ny kx ky i).lead p.1 p.2).2 = true
            then flsTerm Nx Ny kx ky (ind_to_dec Nx Ny kx ky i) 1
              ((ind_to_dec Nx Ny kx ky i).lead + p.1 - p.2) j else 0)).sum := by
  unfold H_pm_elements
  rw [foldl_step_sum (H_pm_step Nx Ny kx ky (ind_to_dec Nx Ny kx ky i)) _
    (H_pm_step_val Nx Ny kx ky (ind_to_dec Nx Ny kx ky i)) _ j, zero_add]

lemma H_ppmm_elements_apply (Nx Ny : ℕ) (kx ky : ℤ) (i j : ℕ) :
    H_ppmm_elements Nx Ny kx ky i 1 j
      = ((_interacting_sites Nx Ny 1).map fun p =>
          (if (_repeated_spins (ind_to_dec Nx Ny kx ky i).lead p.1 p.2).1 = true
            then flsTerm Nx Ny kx ky (ind_to_dec Nx Ny kx ky i)
              ((starRingEnd ℂ) (_gamma Nx Ny p.1 p.2))
              ((ind_to_dec Nx Ny kx ky i).lead - p.1 - p.2) j else 0) +
          (if (_repeated_spins (ind_to_dec Nx Ny kx ky i).lead p.1 p.2).2 = true
            then flsTerm Nx Ny kx ky (ind_to_dec Nx Ny kx ky i)
              (_gamma Nx Ny p.1 p.2)
              ((ind_to_dec Nx Ny kx ky i).lead + p.1 + p.2) j else 0)).sum := by
  unfold H_ppmm_elements
  rw [foldl_step_sum (H_ppmm_step Nx Ny kx ky (ind_to_dec Nx Ny kx ky i)) _
    (H_ppmm_step_val Nx Ny kx ky (ind_to_dec Nx Ny kx ky i)) _ j, zero_add]

lemma H_pmz_elements_apply (Nx Ny : ℕ) (kx ky : ℤ) (i j : ℕ) :
    H_pmz_elements Nx Ny kx ky i 1 j
      = (((_interacting_sites Nx Ny 1).bind fun p => [(p.1, p.2), (p.2, p.1)]).map
          fun q =>
          (if ((ind_to_dec Nx Ny kx ky i).lead ||| q.2
                == (ind_to_dec Nx Ny kx ky i).lead) = true
            then flsTerm Nx Ny kx ky (ind_to_dec Nx Ny kx ky i)
              ((((if ((ind_to_dec Nx Ny kx ky i).lead ||| q.1
                    == (ind_to_dec Nx Ny kx ky i).lead) = true
                  then (0.5 : ℝ) else -0.5) : ℝ) : ℂ) *
                (starRingEnd ℂ) (_gamma Nx Ny q.1 q.2))
              ((ind_to_dec Nx Ny kx ky i).lead - q.2) j
            else flsTerm Nx Ny kx ky (ind_to_dec Nx Ny kx ky i)
              ((((if ((ind_to_dec Nx Ny kx ky i).lead ||| q.1
                    == (ind_to_dec Nx Ny kx ky i).lead) = true
                  then (0.5 : ℝ) else -0.5) : ℝ) : ℂ) *
                (-(_gamma Nx Ny q.1 q.2)))
              ((ind_to_dec Nx Ny kx ky i).lead + q.2) j)).sum := by
  unfold H_pmz_elements

  rw [foldl_step_sum (H_pmz_step Nx Ny kx ky (ind_to_dec Nx Ny kx ky i)) _
    (H_pmz_step_val Nx Ny kx ky (ind_to_dec Nx Ny kx ky i)) _ j, zero_add]

/-! ## The `_find_leading_state` phase as a coset character sum -/

lemma phaseSum_eq_posSet (Nx Ny : ℕ) (kx ky : ℤ) (hNx : 0 < Nx) (hNy : 0 < Ny)
    (lead d : ℕ) (hlead : lead < 2 ^ (Nx * Ny)) :
    phaseSum Nx Ny kx ky lead d
      = ∑ g ∈ posSet Nx Ny lead d, (starRingEnd ℂ) (phaseAt Nx Ny kx ky g) := by
  unfold phaseSum
  have h1 : ∀ g ∈ transBox Nx Ny, (starRingEnd ℂ) (phaseAt Nx Ny kx ky g) *
      (if act Nx Ny g lead = d then (1 : ℂ) else 0)
      = if act Nx Ny g lead = d
        then (starRingEnd ℂ) (phaseAt Nx Ny kx ky g) else 0 := by
    intro g _
    split
    · rw [mul_one]
    · rw [mul_zero]
  rw [Finset.sum_congr rfl h1, ← Finset.sum_filter]
  congr 1
  apply Finset.ext
  intro g
  rw [Finset.mem_filter, mem_posSet Nx Ny lead d hNx hNy hlead g]
  unfold transBox
  rw [Finset.mem_product, Finset.mem_range, Finset.mem_range]
  tauto

lemma phaseSum_of_no_visit (Nx Ny : ℕ) (kx ky : ℤ) (hNx : 0 < Nx) (hNy : 0 < Ny)
    (lead d : ℕ) (hlead : lead < 2 ^ (Nx * Ny))
    (h : (find_T_invariant_set Nx Ny lead).hasDec d = false) :
    phaseSum Nx Ny kx ky lead d = 0 := by
  rw [phaseSum_eq_posSet Nx Ny kx ky hNx hNy lead d hlead]
  have hempty : posSet Nx Ny lead d = ∅ := by
    apply Finset.eq_empty_of_forall_not_mem
    rintro ⟨gy, gx⟩ hg
    have hm := (mem_posSet Nx Ny lead d hNx hNy hlead _).mp hg
    have hdec : (find_T_invariant_set Nx Ny lead).hasDec d = true :=
      (hasDec_find_iff Nx Ny lead d hNx hNy hlead).mpr
        ⟨gy, hm.1, gx, hm.2.1, hm.2.2.symm⟩
    rw [h] at hdec
    cases hdec
  rw [hempty, Finset.sum_empty]

lemma phaseSum_of_fls (Nx Ny : ℕ) (kx ky : ℤ) (hNx : 0 < Nx) (hNy : 0 < Ny)
    (o : BlochFunc) (ho : o ∈ nonzero_states Nx Ny kx ky) (d : ℕ)
    (hd : d < 2 ^ (Nx * Ny)) (φ : ℂ)
    (h : _find_leading_state Nx Ny kx ky d = some (o, φ)) :
    phaseSum Nx Ny kx ky o.lead d
      = ((posSet Nx Ny o.lead o.lead).card : ℂ) * φ := by
  obtain ⟨hzms, hsurv⟩ := (mem_nonzero_iff Nx Ny kx ky o).mp ho
  obtain ⟨horb, hlt, _⟩ := zms_orbit_facts Nx Ny hNx hNy o hzms
  have hsurv2 : (1e-8 : ℝ)
      < _norm_coeff Nx Ny kx ky (find_T_invariant_set Nx Ny o.lead) := by
    rw [← horb]
    exact hsurv
  have htriv := (survives_iff Nx Ny o.lead kx ky hNx hNy hlt).mp hsurv2
  have hdec : (find_T_invariant_set Nx Ny o.lead).hasDec d = true := by
    rw [← horb]
    exact (fls_some_facts Nx Ny kx ky hNx hNy d hd o φ h).2
  obtain ⟨gy, gx, hg⟩ := posSet_nonempty_of_hasDec Nx Ny o.lead d hNx hNy hlt hdec
  have hm := (mem_posSet Nx Ny o.lead d hNx hNy hlt _).mp hg
  have hact := fls_of_act Nx Ny kx ky hNx hNy o ho (gy, gx) hm.1 hm.2.1
  rw [hm.2.2, h] at hact
  have hφ : φ = (starRingEnd ℂ) (phaseAt Nx Ny kx ky (gy, gx)) :=
    congrArg Prod.snd (Option.some.inj hact)
  rw [phaseSum_eq_posSet Nx Ny kx ky hNx hNy o.lead d hlt, ← map_sum,
    sum_phase_posSet Nx Ny o.lead d kx ky hNx hNy hlt gy gx hg,
    stabSum_of_trivial Nx Ny o.lead kx ky htriv, map_mul, Complex.conj_natCast, hφ]
  ring

lemma flsTerm_eq_phaseSum (Nx Ny : ℕ) (kx ky : ℤ) (hNx : 0 < Nx) (hNy : 0 < Ny)
    (i j : ℕ) (hi : i < (nonzero_states Nx Ny kx ky).length)
    (hj : j < (nonzero_states Nx Ny kx ky).length) (w : ℂ) (d : ℕ)
    (hd : d < 2 ^ (Nx * Ny)) :
    flsTerm Nx Ny kx ky (ind_to_dec Nx Ny kx ky i) w d j
      = w * ((_coeff Nx Ny kx ky (ind_to_dec Nx Ny kx ky i)
            (ind_to_dec Nx Ny kx ky j) : ℝ) : ℂ) /
          ((posSet Nx Ny (ind_to_dec Nx Ny kx ky j).lead
            (ind_to_dec Nx Ny kx ky j).lead).card : ℂ) *
          phaseSum Nx Ny kx ky (ind_to_dec Nx Ny kx ky j).lead d := by
  have hLj_mem : ind_to_dec Nx Ny kx ky j ∈ nonzero_states Nx Ny kx ky :=
    ind_to_dec_mem Nx Ny kx ky j hj
  obtain ⟨hzmsj, hsurvj⟩ := (mem_nonzero_iff Nx Ny kx ky _).mp hLj_mem
  obtain ⟨horbj, hltj, _⟩ := zms_orbit_facts Nx Ny hNx hNy _ hzmsj
  unfold flsTerm
  cases hfls : _find_leading_state Nx Ny kx ky d with
  | none =>
      suffices hps : phaseSum Nx Ny kx ky (ind_to_dec Nx Ny kx ky j).lead d = 0 by
        rw [hps, mul_zero]
      by_cases hdec : (find_T_invariant_set Nx Ny
          (ind_to_dec Nx Ny kx ky j).lead).hasDec d = true
      · exfalso
        obtain ⟨gy, gx, hg⟩ := posSet_nonempty_of_hasDec Nx Ny _ d hNx hNy hltj hdec
        have hm := (mem_posSet Nx Ny _ d hNx hNy hltj _).mp hg
        have h2 := fls_of_act Nx Ny kx ky hNx hNy _ hLj_mem (gy, gx) hm.1 hm.2.1
        rw [hm.2.2, hfls] at h2
        cases h2
      · exact phaseSum_of_no_visit Nx Ny kx ky hNx hNy _ d hltj
          (Bool.eq_false_iff.mpr hdec)
  | some pr =>
      obtain ⟨cntd, φ⟩ := pr
      have hfacts := fls_some_facts Nx Ny kx ky hNx hNy d hd cntd φ hfls
      obtain ⟨i2, hi2, hio⟩ := mem_nonzero_index Nx Ny kx ky cntd hfacts.1
      have hdec2 : dec_to_ind Nx Ny kx ky cntd.lead = i2 := by
        rw [← hio]
        exact dec_to_ind_getElem Nx Ny kx ky hNx hNy i2 hi2
      by_cases hjeq : j = dec_to_ind Nx Ny kx ky cntd.lead
      · simp only [if_pos hjeq]
        have hji2 : j = i2 := hjeq.trans hdec2
        have hcj : ind_to_dec Nx Ny kx ky j = cntd := by
          rw [ind_to_dec_get Nx Ny kx ky j hj]
          subst hji2
          exact hio
        have hps := phaseSum_of_fls Nx Ny kx ky hNx hNy _ hLj_mem d hd φ
          (by rw [hcj]; exact hfls)
        rw [hps, ← hcj]
        have hcard : (0 : ℝ) < (((posSet Nx Ny (ind_to_dec Nx Ny kx ky j).lead
            (ind_to_dec Nx Ny kx ky j).lead).card : ℕ) : ℝ) := by
          exact_mod_cast stab_card_pos Nx Ny _ hNx hNy hltj
        have hcardC : (((posSet Nx Ny (ind_to_dec Nx Ny kx ky j).lead
            (ind_to_dec Nx Ny kx ky j).lead).card : ℕ) : ℂ) ≠ 0 := by
          exact_mod_cast hcard.ne'
        field_simp
        ring
      · simp only [if_neg hjeq]
        suffices hps : phaseSum Nx Ny kx ky (ind_to_dec Nx Ny kx ky j).lead d = 0 by
          rw [hps, mul_zero]
        by_cases hdec : (find_T_invariant_set Nx Ny
            (ind_to_dec Nx Ny kx ky j).lead).hasDec d = true
        · exfalso
          obtain ⟨gy, gx, hg⟩ := posSet_nonempty_of_hasDec Nx Ny _ d hNx hNy hltj hdec
          have hm := (mem_posSet Nx Ny _ d hNx hNy hltj _).mp hg
          have h2 := fls_of_act Nx Ny kx ky hNx hNy _ hLj_mem (gy, gx) hm.1 hm.2.1
          rw [hm.2.2, hfls] at h2
          have hcv : cntd = ind_to_dec Nx Ny kx ky j :=
            congrArg Prod.fst (Option.some.inj h2)
          apply hjeq
          rw [hcv, dec_to_ind_ind_to_dec Nx Ny kx ky hNx hNy j hj]
        · exact phaseSum_of_no_visit Nx Ny kx ky hNx hNy _ d hltj
            (Bool.eq_false_iff.mpr hdec)

/-! ## Spin-flip arithmetic as bit updates -/

lemma pow_le_of_bitAt (a x : ℕ) (h : bitAt a x = 1) : 2 ^ a ≤ x := by
  by_contra hc
  push_neg at hc
  unfold bitAt at h
  rw [Nat.div_eq_of_lt hc] at h
  simp at h

lemma ud_flip_eq (x a b : ℕ) (hab : a ≠ b)
    (h : (_exchange_spin_flips x (2 ^ a) (2 ^ b)).1 = true) :
    x - 2 ^ a + 2 ^ b = updBit b 1 (updBit a 0 x) := by
  have h2 : ((x ||| 2 ^ a == x) && !(x ||| 2 ^ b == x)) = true := h
  rw [Bool.and_eq_true, Bool.not_eq_true'] at h2
  have hb1 : bitAt a x = 1 := (lor_mask_beq x a).mp h2.1
  have hb0 : bitAt b x = 0 := (lor_mask_beq_false x b).mp h2.2
  rw [sub_pow_eq_updBit a x hb1]
  apply add_pow_eq_updBit
  rw [bitAt_updBit a 0 x b (by norm_num), if_neg (fun hc => hab hc.symm)]
  exact hb0

lemma du_flip_eq (x a b : ℕ) (hab : a ≠ b)
    (h : (_exchange_spin_flips x (2 ^ a) (2 ^ b)).2 = true) :
    x + 2 ^ a - 2 ^ b = updBit a 1 (updBit b 0 x) := by
  have h2 : (!(x ||| 2 ^ a == x) && (x ||| 2 ^ b == x)) = true := h
  rw [Bool.and_eq_true, Bool.not_eq_true'] at h2
  have hb0 : bitAt a x = 0 := (lor_mask_beq_false x a).mp h2.1
  have hb1 : bitAt b x = 1 := (lor_mask_beq x b).mp h2.2
  have hle : 2 ^ b ≤ x := pow_le_of_bitAt b x hb1
  have hswap : x + 2 ^ a - 2 ^ b = x - 2 ^ b + 2 ^ a := Nat.sub_add_comm hle
  rw [hswap, sub_pow_eq_updBit b x hb1]
  apply add_pow_eq_updBit
  rw [bitAt_updBit b 0 x a (by norm_num), if_neg hab]
  exact hb0

lemma uu_flip_eq (x a b : ℕ) (hab : a ≠ b)
    (h : (_repeated_spins x (2 ^ a) (2 ^ b)).1 = true) :
    x - 2 ^ a - 2 ^ b = updBit b 0 (updBit a 0 x) := by
  have h2 : ((x ||| 2 ^ a == x) && (x ||| 2 ^ b == x)) = true := h
  rw [Bool.and_eq_true] at h2
  have ha1 : bitAt a x = 1 := (lor_mask_beq x a).mp h2.1
  have hb1 : bitAt b x = 1 := (lor_mask_beq x b).mp h2.2
  rw [sub_pow_eq_updBit a x ha1]
  apply sub_pow_eq_updBit
  rw [bitAt_updBit a 0 x b (by norm_num), if_neg (fun hc => hab hc.symm)]
  exact hb1

lemma dd_flip_eq (x a b : ℕ) (hab : a ≠ b)
    (h : (_repeated_spins x (2 ^ a) (2 ^ b)).2 = true) :
    x + 2 ^ a + 2 ^ b = updBit b 1 (updBit a 1 x) := by
  have h2 : (!(x ||| 2 ^ a == x) && !(x ||| 2 ^ b == x)) = true := h
  rw [Bool.and_eq_true, Bool.not_eq_true', Bool.not_eq_true'] at h2
  have ha0 : bitAt a x = 0 := (lor_mask_beq_false x a).mp h2.1
  have hb0 : bitAt b x = 0 := (lor_mask_beq_false x b).mp h2.2
  rw [add_pow_eq_updBit a x ha0]
  apply add_pow_eq_updBit
  rw [bitAt_updBit a 1 x b (by norm_num), if_neg (fun hc => hab hc.symm)]
  exact hb0

lemma zset_flip_eq (x e : ℕ) (h : (x ||| 2 ^ e == x) = true) :
    x - 2 ^ e = updBit e 0 x :=
  sub_pow_eq_updBit e x ((lor_mask_beq x e).mp h)

lemma zunset_flip_eq (x e : ℕ) (h : (x ||| 2 ^ e == x) = false) :
    x + 2 ^ e = updBit e 1 x :=
  add_pow_eq_updBit e x ((lor_mask_beq_false x e).mp h)

lemma interacting_mask (Nx Ny l : ℕ) (hNx : 0 < Nx) (hNy : 0 < Ny)
    (p : ℕ × ℕ) (hp : p ∈ _interacting_sites Nx Ny l) :
    ∃ a b : ℕ, a < b ∧ b < Nx * Ny ∧ p = (2 ^ a, 2 ^ b) := by
  unfold _interacting_sites at hp
  rw [List.mem_map] at hp
  obtain ⟨bnd, hbnd, hpb⟩ := hp
  have hf := generate_bonds_facts Nx Ny l hNx hNy bnd hbnd
  exact ⟨bnd.1, bnd.2, hf.1, hf.2, hpb.symm⟩

/-! ## Element entries as character sums over the translation box -/

lemma phaseSum_pull (Nx Ny : ℕ) (kx ky : ℤ) (lead d : ℕ) (w : ℂ) :
    w * phaseSum Nx Ny kx ky lead d
      = ∑ g ∈ transBox Nx Ny, (starRingEnd ℂ) (phaseAt Nx Ny kx ky g) *
          (if d = act Nx Ny g lead then w else 0) := by
  unfold phaseSum
  rw [Finset.mul_sum]
  apply Finset.sum_congr rfl
  intro g _
  by_cases h : act Nx Ny g lead = d
  · rw [if_pos h, if_pos h.symm, mul_one]
    ring
  · rw [if_neg h, if_neg (fun hc => h hc.symm), mul_zero, mul_zero]

lemma term_bridge (Nx Ny : ℕ) (kx ky : ℤ) (hNx : 0 < Nx) (hNy : 0 < Ny)
    (i j : ℕ) (hi : i < (nonzero_states Nx Ny kx ky).length)
    (hj : j < (nonzero_states Nx Ny kx ky).length) (w : ℂ) (cond : Prop)
    [Decidable cond] (d : ℕ) (hd : cond → d < 2 ^ (Nx * Ny)) :
    (if cond then flsTerm Nx Ny kx ky (ind_to_dec Nx Ny kx ky i) w d j else 0)
      = ((_coeff Nx Ny kx ky (ind_to_dec Nx Ny kx ky i)
            (ind_to_dec Nx Ny kx ky j) : ℝ) : ℂ) /
          ((posSet Nx Ny (ind_to_dec Nx Ny kx ky j).lead
            (ind_to_dec Nx Ny kx ky j).lead).card : ℂ) *
        ∑ g ∈ transBox Nx Ny, (starRingEnd ℂ) (phaseAt Nx Ny kx ky g) *
          (if cond ∧ d = act Nx Ny g (ind_to_dec Nx Ny kx ky j).lead
            then w else 0) := by
  by_cases hc : cond
  · rw [if_pos hc, flsTerm_eq_phaseSum Nx Ny kx ky hNx hNy i j hi hj w d (hd hc)]
    have hps := phaseSum_pull Nx Ny kx ky (ind_to_dec Nx Ny kx ky j).lead d w
    have hiff : ∀ g ∈ transBox Nx Ny,
        (starRingEnd ℂ) (phaseAt Nx Ny kx ky g) *
          (if d = act Nx Ny g (ind_to_dec Nx Ny kx ky j).lead then w else 0)
        = (starRingEnd ℂ) (phaseAt Nx Ny kx ky g) *
          (if cond ∧ d = act Nx Ny g (ind_to_dec Nx Ny kx ky j).lead
            then w else 0) := by
      intro g _
      congr 1
      by_cases h2 : d = act Nx Ny g (ind_to_dec Nx Ny kx ky j).lead
      · rw [if_pos h2, if_pos ⟨hc, h2⟩]
      · rw [if_neg h2, if_neg (fun hx => h2 hx.2)]
    rw [← Finset.sum_congr rfl hiff, ← hps]
    ring
  · rw [if_neg hc]
    have hzero : ∀ g ∈ transBox Nx Ny,
        (starRingEnd ℂ) (phaseAt Nx Ny kx ky g) *
          (if cond ∧ d = act Nx Ny g (ind_to_dec Nx Ny kx ky j).lead
            then w else 0) = 0 := by
      intro g _
      rw [if_neg (fun hx => hc hx.1), mul_zero]
    rw [Finset.sum_congr rfl hzero, Finset.sum_const_zero, mul_zero]

lemma ind_lead_lt (Nx Ny : ℕ) (kx ky : ℤ) (hNx : 0 < Nx) (hNy : 0 < Ny)
    (i : ℕ) (hi : i < (nonzero_states Nx Ny kx ky).length) :
    (ind_to_dec Nx Ny kx ky i).lead < 2 ^ (Nx * Ny) := by
  obtain ⟨hz, _⟩ := (mem_nonzero_iff Nx Ny kx ky _).mp
    (ind_to_dec_mem Nx Ny kx ky i hi)
  exact (zms_orbit_facts Nx Ny hNx hNy _ hz).2.1

lemma H_pm_entry (Nx Ny : ℕ) (kx ky : ℤ) (hNx : 0 < Nx) (hNy : 0 < Ny)
    (i l j : ℕ) (hi : i < (nonzero_states Nx Ny kx ky).length)
    (hj : j < (nonzero_states Nx Ny kx ky).length) :
    H_pm_elements Nx Ny kx ky i l j
      = ((_coeff Nx Ny kx ky (ind_to_dec Nx Ny kx ky i)
            (ind_to_dec Nx Ny kx ky j) : ℝ) : ℂ) /
          ((posSet Nx Ny (ind_to_dec Nx Ny kx ky j).lead
            (ind_to_dec Nx Ny kx ky j).lead).card : ℂ) *
        ∑ g ∈ transBox Nx Ny, (starRingEnd ℂ) (phaseAt Nx Ny kx ky g) *
          amp_pm Nx Ny l (ind_to_dec Nx Ny kx ky i).lead
            (act Nx Ny g (ind_to_dec Nx Ny kx ky j).lead) := by
  have hx := ind_lead_lt Nx Ny kx ky hNx hNy i hi
  rw [H_pm_elements_apply]
  have hA : ∀ p ∈ _interacting_sites Nx Ny l,
      ((if (_exchange_spin_flips (ind_to_dec Nx Ny kx ky i).lead p.1 p.2).1 = true
          then flsTerm Nx Ny kx ky (ind_to_dec Nx Ny kx ky i) 1
            ((ind_to_dec Nx Ny kx ky i).lead - p.1 + p.2) j else 0) +
       (if (_exchange_spin_flips (ind_to_dec Nx Ny kx ky i).lead p.1 p.2).2 = true
          then flsTerm Nx Ny kx ky (ind_to_dec Nx Ny kx ky i) 1
            ((ind_to_dec Nx Ny kx ky i).lead + p.1 - p.2) j else 0))
      = ((_coeff Nx Ny kx ky (ind_to_dec Nx Ny kx ky i)
            (ind_to_dec Nx Ny kx ky j) : ℝ) : ℂ) /
          ((posSet Nx Ny (ind_to_dec Nx Ny kx ky j).lead
            (ind_to_dec Nx Ny kx ky j).lead).card : ℂ) *
        ∑ g ∈ transBox Nx Ny, (starRingEnd ℂ) (phaseAt Nx Ny kx ky g) *
          ((if (_exchange_spin_flips (ind_to_dec Nx Ny kx ky i).lead p.1 p.2).1 = true
              ∧ (ind_to_dec Nx Ny kx ky i).lead - p.1 + p.2
                = act Nx Ny g (ind_to_dec Nx Ny kx ky j).lead
            then (1 : ℂ) else 0) +
           (if (_exchange_spin_flips (ind_to_dec Nx Ny kx ky i).lead p.1 p.2).2 = true
              ∧ (ind_to_dec Nx Ny kx ky i).lead + p.1 - p.2
                = act Nx Ny g (ind_to_dec Nx Ny kx ky j).lead
            then (1 : ℂ) else 0)) := by
    intro p hp
    obtain ⟨a, b, hab, hbN, hpe⟩ := interacting_mask Nx Ny l hNx hNy p hp
    subst hpe
    have hd1 : (_exchange_spin_flips (ind_to_dec Nx Ny kx ky i).lead
          ((2 ^ a, 2 ^ b) : ℕ × ℕ).1 ((2 ^ a, 2 ^ b) : ℕ × ℕ).2).1 = true →
        (ind_to_dec Nx Ny kx ky i).lead - ((2 ^ a, 2 ^ b) : ℕ × ℕ).1
          + ((2 ^ a, 2 ^ b) : ℕ × ℕ).2 < 2 ^ (Nx * Ny) := by
      intro hc
      show (ind_to_dec Nx Ny kx ky i).lead - 2 ^ a + 2 ^ b < 2 ^ (Nx * Ny)
      rw [ud_flip_eq _ a b (by omega) hc]
      exact updBit_lt _ _ _ _ (by norm_num) hbN
        (updBit_lt _ _ _ _ (by norm_num) (by omega) hx)
    have hd2 : (_exchange_spin_flips (ind_to_dec Nx Ny kx ky i).lead
          ((2 ^ a, 2 ^ b) : ℕ × ℕ).1 ((2 ^ a, 2 ^ b) : ℕ × ℕ).2).2 = true →
        (ind_to_dec Nx Ny kx ky i).lead + ((2 ^ a, 2 ^ b) : ℕ × ℕ).1
          - ((2 ^ a, 2 ^ b) : ℕ × ℕ).2 < 2 ^ (Nx * Ny) := by
      intro hc
      show (ind_to_dec Nx Ny kx ky i).lead + 2 ^ a - 2 ^ b < 2 ^ (Nx * Ny)
      rw [du_flip_eq _ a b (by omega) hc]
      exact updBit_lt _ _ _ _ (by norm_num) (by omega)
        (updBit_lt _ _ _ _ (by norm_num) hbN hx)
    rw [term_bridge Nx Ny kx ky hNx hNy i j hi hj 1 _ _ hd1,
      term_bridge Nx Ny kx ky hNx hNy i j hi hj 1 _ _ hd2,
      ← mul_add, ← Finset.sum_add_distrib]
    congr 1
    apply Finset.sum_congr rfl
    intro g _
    ring
  rw [List.map_congr_left hA, List.sum_map_mul_left, list_map_finset_sum_commC]
  congr 1
  apply Finset.sum_congr rfl
  intro g _
  rw [List.sum_map_mul_left]
  rfl

lemma H_ppmm_entry (Nx Ny : ℕ) (kx ky : ℤ) (hNx : 0 < Nx) (hNy : 0 < Ny)
    (i j : ℕ) (hi : i < (nonzero_states Nx Ny kx ky).length)
    (hj : j < (nonzero_states Nx Ny kx ky).length) :
    H_ppmm_elements Nx Ny kx ky i 1 j
      = ((_coeff Nx Ny kx ky (ind_to_dec Nx Ny kx ky i)
            (ind_to_dec Nx Ny kx ky j) : ℝ) : ℂ) /
          ((posSet Nx Ny (ind_to_dec Nx Ny kx ky j).lead
            (ind_to_dec Nx Ny kx ky j).lead).card : ℂ) *
        ∑ g ∈ transBox Nx Ny, (starRingEnd ℂ) (phaseAt Nx Ny kx ky g) *
          amp_ppmm Nx Ny (ind_to_dec Nx Ny kx ky i).lead
            (act Nx Ny g (ind_to_dec Nx Ny kx ky j).lead) := by
  have hx := ind_lead_lt Nx Ny kx ky hNx hNy i hi
  rw [H_ppmm_elements_apply]
  have hA : ∀ p ∈ _interacting_sites Nx Ny 1,
      ((if (_repeated_spins (ind_to_dec Nx Ny kx ky i).lead p.1 p.2).1 = true
          then flsTerm Nx Ny kx ky (ind_to_dec Nx Ny kx ky i)
            ((starRingEnd ℂ) (_gamma Nx Ny p.1 p.2))
            ((ind_to_dec Nx Ny kx ky i).lead - p.1 - p.2) j else 0) +
       (if (_repeated_spins (ind_to_dec Nx Ny kx ky i).lead p.1 p.2).2 = true
          then flsTerm Nx Ny kx ky (ind_to_dec Nx Ny kx ky i)
            (_gamma Nx Ny p.1 p.2)
            ((ind_to_dec Nx Ny kx ky i).lead + p.1 + p.2) j else 0))
      = ((_coeff Nx Ny kx ky (ind_to_dec Nx Ny kx ky i)
            (ind_to_dec Nx Ny kx ky j) : ℝ) : ℂ) /
          ((posSet Nx Ny (ind_to_dec Nx Ny kx ky j).lead
            (ind_to_dec Nx Ny kx ky j).lead).card : ℂ) *
        ∑ g ∈ transBox Nx Ny, (starRingEnd ℂ) (phaseAt Nx Ny kx ky g) *
          ((if (_repeated_spins (ind_to_dec Nx Ny kx ky i).lead p.1 p.2).1 = true
              ∧ (ind_to_dec Nx Ny kx ky i).lead - p.1 - p.2
                = act Nx Ny g (ind_to_dec Nx Ny kx ky j).lead
            then (starRingEnd ℂ) (_gamma Nx Ny p.1 p.2) else 0) +
           (if (_repeated_spins (ind_to_dec Nx Ny kx ky i).lead p.1 p.2).2 = true
              ∧ (ind_to_dec Nx Ny kx ky i).lead + p.1 + p.2
                = act Nx Ny g (ind_to_dec Nx Ny kx ky j).lead
            then _gamma Nx Ny p.1 p.2 else 0)) := by
    intro p hp
    obtain ⟨a, b, hab, hbN, hpe⟩ := interacting_mask Nx Ny 1 hNx hNy p hp
    subst hpe
    have hd1 : (_repeated_spins (ind_to_dec Nx Ny kx ky i).lead
          ((2 ^ a, 2 ^ b) : ℕ × ℕ).1 ((2 ^ a, 2 ^ b) : ℕ × ℕ).2).1 = true →
        (ind_to_dec Nx Ny kx ky i).lead - ((2 ^ a, 2 ^ b) : ℕ × ℕ).1
          - ((2 ^ a, 2 ^ b) : ℕ × ℕ).2 < 2 ^ (Nx * Ny) := by
      intro hc
      show (ind_to_dec Nx Ny kx ky i).lead - 2 ^ a - 2 ^ b < 2 ^ (Nx * Ny)
      rw [uu_flip_eq _ a b (by omega) hc]
      exact updBit_lt _ _ _ _ (by norm_num) hbN
        (updBit_lt _ _ _ _ (by norm_num) (by omega) hx)
    have hd2 : (_repeated_spins (ind_to_dec Nx Ny kx ky i).lead
          ((2 ^ a, 2 ^ b) : ℕ × ℕ).1 ((2 ^ a, 2 ^ b) : ℕ × ℕ).2).2 = true →
        (ind_to_dec Nx Ny kx ky i).lead + ((2 ^ a, 2 ^ b) : ℕ × ℕ).1
          + ((2 ^ a, 2 ^ b) : ℕ × ℕ).2 < 2 ^ (Nx * Ny) := by
      intro hc
      show (ind_to_dec Nx Ny kx ky i).lead + 2 ^ a + 2 ^ b < 2 ^ (Nx * Ny)
      rw [dd_flip_eq _ a b (by omega) hc]
      exact updBit_lt _ _ _ _ (by norm_num) hbN
        (updBit_lt _ _ _ _ (by norm_num) (by omega) hx)
    rw [term_bridge Nx Ny kx ky hNx hNy i j hi hj _ _ _ hd1,
      term_bridge Nx Ny kx ky hNx hNy i j hi hj _ _ _ hd2,
      ← mul_add, ← Finset.sum_add_distrib]
    congr 1
    apply Finset.sum_congr rfl
    intro g _
    ring
  rw [List.map_congr_left hA, List.sum_map_mul_left, list_map_finset_sum_commC]
  congr 1
  apply Finset.sum_congr rfl
  intro g _
  rw [List.sum_map_mul_left]
  rfl

lemma pmz_pair_mask (Nx Ny : ℕ) (hNx : 0 < Nx) (hNy : 0 < Ny) (q : ℕ × ℕ)
    (hq : q ∈ (_interacting_sites Nx Ny 1).bind fun p => [(p.1, p.2), (p.2, p.1)]) :
    ∃ c e : ℕ, c ≠ e ∧ c < Nx * Ny ∧ e < Nx * Ny ∧ q = (2 ^ c, 2 ^ e) := by
  rw [List.mem_bind] at hq
  obtain ⟨p, hp, hqm⟩ := hq
  obtain ⟨a, b, hab, hbN, hpe⟩ := interacting_mask Nx Ny 1 hNx hNy p hp
  subst hpe
  simp only [List.mem_cons, List.not_mem_nil, or_false] at hqm
  rcases hqm with h | h
  · exact ⟨a, b, by omega, by omega, hbN, h⟩
  · exact ⟨b, a, by omega, hbN, by omega, h⟩

lemma ite_eq_add {c : Prop} [Decidable c] (u v : ℂ) :
    (if c then u else v) = (if c then u else 0) + (if ¬c then v else 0) := by
  by_cases h : c
  · rw [if_pos h, if_pos h, if_neg (not_not_intro h), add_zero]
  · rw [if_neg h, if_neg h, if_pos h, zero_add]

lemma H_pmz_entry (Nx Ny : ℕ) (kx ky : ℤ) (hNx : 0 < Nx) (hNy : 0 < Ny)
    (i j : ℕ) (hi : i < (nonzero_states Nx Ny kx ky).length)
    (hj : j < (nonzero_states Nx Ny kx ky).length) :
    H_pmz_elements Nx Ny kx ky i 1 j
      = ((_coeff Nx Ny kx ky (ind_to_dec Nx Ny kx ky i)
            (ind_to_dec Nx Ny kx ky j) : ℝ) : ℂ) /
          ((posSet Nx Ny (ind_to_dec Nx Ny kx ky j).lead
            (ind_to_dec Nx Ny kx ky j).lead).card : ℂ) *
        ∑ g ∈ transBox Nx Ny, (starRingEnd ℂ) (phaseAt Nx Ny kx ky g) *
          amp_pmz Nx Ny (ind_to_dec Nx Ny kx ky i).lead
            (act Nx Ny g (ind_to_dec Nx Ny kx ky j).lead) := by
  have hx := ind_lead_lt Nx Ny kx ky hNx hNy i hi
  rw [H_pmz_elements_apply]
  have hA : ∀ q ∈ (_interacting_sites Nx Ny 1).bind fun p => [(p.1, p.2), (p.2, p.1)],
      (if ((ind_to_dec Nx Ny kx ky i).lead ||| q.2
            == (ind_to_dec Nx Ny kx ky i).lead) = true
        then flsTerm Nx Ny kx ky (ind_to_dec Nx Ny kx ky i)
          ((((if ((ind_to_dec Nx Ny kx ky i).lead ||| q.1
                == (ind_to_dec Nx Ny kx ky i).lead) = true
              then (0.5 : ℝ) else -0.5) : ℝ) : ℂ) *
            (starRingEnd ℂ) (_gamma Nx Ny q.1 q.2))
          ((ind_to_dec Nx Ny kx ky i).lead - q.2) j
        else flsTerm Nx Ny kx ky (ind_to_dec Nx Ny kx ky i)
          ((((if ((ind_to_dec Nx Ny kx ky i).lead ||| q.1
                == (ind_to_dec Nx Ny kx ky i).lead) = true
              then (0.5 : ℝ) else -0.5) : ℝ) : ℂ) *
            (-(_gamma Nx Ny q.1 q.2)))
          ((ind_to_dec Nx Ny kx ky i).lead + q.2) j)
      = ((_coeff Nx Ny kx ky (ind_to_dec Nx Ny kx ky i)
            (ind_to_dec Nx Ny kx ky j) : ℝ) : ℂ) /
          ((posSet Nx Ny (ind_to_dec Nx Ny kx ky j).lead
            (ind_to_dec Nx Ny kx ky j).lead).card : ℂ) *
        ∑ g ∈ transBox Nx Ny, (starRingEnd ℂ) (phaseAt Nx Ny kx ky g) *
          ((((if ((ind_to_dec Nx Ny kx ky i).lead ||| q.1
                == (ind_to_dec Nx Ny kx ky i).lead) = true
              then (0.5 : ℝ) else -0.5) : ℝ) : ℂ) *
            (if ((ind_to_dec Nx Ny kx ky i).lead ||| q.2
                  == (ind_to_dec Nx Ny kx ky i).lead) = true
              then (if (ind_to_dec Nx Ny kx ky i).lead - q.2
                  = act Nx Ny g (ind_to_dec Nx Ny kx ky j).lead
                then (starRingEnd ℂ) (_gamma Nx Ny q.1 q.2) else 0)
              else (if (ind_to_dec Nx Ny kx ky i).lead + q.2
                  = act Nx Ny g (ind_to_dec Nx Ny kx ky j).lead
                then -(_gamma Nx Ny q.1 q.2) else 0))) := by
    intro q hq
    obtain ⟨c, e, hce, hcN, heN, hqe⟩ := pmz_pair_mask Nx Ny hNx hNy q hq
    subst hqe
    have hd1 : ((ind_to_dec Nx Ny kx ky i).lead ||| ((2 ^ c, 2 ^ e) : ℕ × ℕ).2
          == (ind_to_dec Nx Ny kx ky i).lead) = true →
        (ind_to_dec Nx Ny kx ky i).lead - ((2 ^ c, 2 ^ e) : ℕ × ℕ).2
          < 2 ^ (Nx * Ny) := by
      intro hc2
      show (ind_to_dec Nx Ny kx ky i).lead - 2 ^ e < 2 ^ (Nx * Ny)
      rw [zset_flip_eq _ e hc2]
      exact updBit_lt _ _ _ _ (by norm_num) heN hx
    have hd2 : ¬((ind_to_dec Nx Ny kx ky i).lead ||| ((2 ^ c, 2 ^ e) : ℕ × ℕ).2
          == (ind_to_dec Nx Ny kx ky i).lead) = true →
        (ind_to_dec Nx Ny kx ky i).lead + ((2 ^ c, 2 ^ e) : ℕ × ℕ).2
          < 2 ^ (Nx * Ny) := by
      intro hc2
      show (ind_to_dec Nx Ny kx ky i).lead + 2 ^ e < 2 ^ (Nx * Ny)
      rw [zunset_flip_eq _ e (Bool.eq_false_iff.mpr hc2)]
      exact updBit_lt _ _ _ _ (by norm_num) heN hx
    rw [ite_eq_add,
      term_bridge Nx Ny kx ky hNx hNy i j hi hj _ _ _ hd1,
      term_bridge Nx Ny kx ky hNx hNy i j hi hj _ _ _ hd2,
      ← mul_add, ← Finset.sum_add_distrib]
    congr 1
    apply Finset.sum_congr rfl
    intro g _
    rw [← mul_add]
    congr 1
    by_cases hs : ((ind_to_dec Nx Ny kx ky i).lead ||| ((2 ^ c, 2 ^ e) : ℕ × ℕ).2
        == (ind_to_dec Nx Ny kx ky i).lead) = true
    · by_cases he2 : (ind_to_dec Nx Ny kx ky i).lead - ((2 ^ c, 2 ^ e) : ℕ × ℕ).2
          = act Nx Ny g (ind_to_dec Nx Ny kx ky j).lead
      · simp [hs, he2]
      · simp [hs, he2]
    · by_cases he2 : (ind_to_dec Nx Ny kx ky i).lead + ((2 ^ c, 2 ^ e) : ℕ × ℕ).2
          = act Nx Ny g (ind_to_dec Nx Ny kx ky j).lead
      · simp [hs, he2]
      · simp [hs, he2]
  rw [List.map_congr_left hA, List.sum_map_mul_left, list_map_finset_sum_commC]
  congr 1
  apply Finset.sum_congr rfl
  intro g _
  rw [List.sum_map_mul_left]
  rfl

/-! ## Bit-update algebra -/

lemma nat_eq_of_bitAt_eq (x y : ℕ) (h : ∀ t, bitAt t x = bitAt t y) : x = y := by
  apply Nat.eq_of_testBit_eq
  intro t
  rw [testBit_eq_bitAt, testBit_eq_bitAt, h t]

lemma updBit_overwrite (k b b' x : ℕ) (hb : b ≤ 1) (hb' : b' ≤ 1) :
    updBit k b (updBit k b' x) = updBit k b x := by
  apply nat_eq_of_bitAt_eq
  intro t
  rw [bitAt_updBit k b (updBit k b' x) t hb, bitAt_updBit k b' x t hb',
    bitAt_updBit k b x t hb]
  by_cases h : t = k
  · rw [if_pos h, if_pos h]
  · rw [if_neg h, if_neg h, if_neg h]

lemma updBit_comm2 (k k' b b' x : ℕ) (hkk : k ≠ k') (hb : b ≤ 1) (hb' : b' ≤ 1) :
    updBit k b (updBit k' b' x) = updBit k' b' (updBit k b x) := by
  apply nat_eq_of_bitAt_eq
  intro t
  rw [bitAt_updBit k b (updBit k' b' x) t hb, bitAt_updBit k' b' x t hb',
    bitAt_updBit k' b' (updBit k b x) t hb', bitAt_updBit k b x t hb]
  by_cases h1 : t = k <;> by_cases h2 : t = k'
  · exact absurd (h1.symm.trans h2) hkk
  · rw [if_pos h1, if_neg h2, if_pos h1]
  · rw [if_neg h1, if_pos h2, if_pos h2]
  · rw [if_neg h1, if_neg h2, if_neg h2, if_neg h1]

lemma updBit_noop (k x : ℕ) : updBit k (bitAt k x) x = x := by
  apply nat_eq_of_bitAt_eq
  intro t
  rw [bitAt_updBit k (bitAt k x) x t (by have := bitAt_lt_two k x; omega)]
  by_cases h : t = k
  · rw [if_pos h, h]
  · rw [if_neg h]

/-! ## Spin-flip conditions from bit values -/

lemma ud_bits (x a b : ℕ)
    (h : (_exchange_spin_flips x (2 ^ a) (2 ^ b)).1 = true) :
    bitAt a x = 1 ∧ bitAt b x = 0 := by
  have h2 : ((x ||| 2 ^ a == x) && !(x ||| 2 ^ b == x)) = true := h
  rw [Bool.and_eq_true, Bool.not_eq_true'] at h2
  exact ⟨(lor_mask_beq x a).mp h2.1, (lor_mask_beq_false x b).mp h2.2⟩

lemma du_bits (x a b : ℕ)
    (h : (_exchange_spin_flips x (2 ^ a) (2 ^ b)).2 = true) :
    bitAt a x = 0 ∧ bitAt b x = 1 := by
  have h2 : (!(x ||| 2 ^ a == x) && (x ||| 2 ^ b == x)) = true := h
  rw [Bool.and_eq_true, Bool.not_eq_true'] at h2
  exact ⟨(lor_mask_beq_false x a).mp h2.1, (lor_mask_beq x b).mp h2.2⟩

lemma uu_bits (x a b : ℕ)
    (h : (_repeated_spins x (2 ^ a) (2 ^ b)).1 = true) :
    bitAt a x = 1 ∧ bitAt b x = 1 := by
  have h2 : ((x ||| 2 ^ a == x) && (x ||| 2 ^ b == x)) = true := h
  rw [Bool.and_eq_true] at h2
  exact ⟨(lor_mask_beq x a).mp h2.1, (lor_mask_beq x b).mp h2.2⟩

lemma dd_bits (x a b : ℕ)
    (h : (_repeated_spins x (2 ^ a) (2 ^ b)).2 = true) :
    bitAt a x = 0 ∧ bitAt b x = 0 := by
  have h2 : (!(x ||| 2 ^ a == x) && !(x ||| 2 ^ b == x)) = true := h
  rw [Bool.and_eq_true, Bool.not_eq_true', Bool.not_eq_true'] at h2
  exact ⟨(lor_mask_beq_false x a).mp h2.1, (lor_mask_beq_false x b).mp h2.2⟩

lemma ud_mk (x a b : ℕ) (ha : bitAt a x = 1) (hb : bitAt b x = 0) :
    (_exchange_spin_flips x (2 ^ a) (2 ^ b)).1 = true := by
  show ((x ||| 2 ^ a == x) && !(x ||| 2 ^ b == x)) = true
  rw [Bool.and_eq_true, Bool.not_eq_true']
  exact ⟨(lor_mask_beq x a).mpr ha, (lor_mask_beq_false x b).mpr hb⟩

lemma du_mk (x a b : ℕ) (ha : bitAt a x = 0) (hb : bitAt b x = 1) :
    (_exchange_spin_flips x (2 ^ a) (2 ^ b)).2 = true := by
  show (!(x ||| 2 ^ a == x) && (x ||| 2 ^ b == x)) = true
  rw [Bool.and_eq_true, Bool.not_eq_true']
  exact ⟨(lor_mask_beq_false x a).mpr ha, (lor_mask_beq x b).mpr hb⟩

lemma uu_mk (x a b : ℕ) (ha : bitAt a x = 1) (hb : bitAt b x = 1) :
    (_repeated_spins x (2 ^ a) (2 ^ b)).1 = true := by
  show ((x ||| 2 ^ a == x) && (x ||| 2 ^ b == x)) = true
  rw [Bool.and_eq_true]
  exact ⟨(lor_mask_beq x a).mpr ha, (lor_mask_beq x b).mpr hb⟩

lemma dd_mk (x a b : ℕ) (ha : bitAt a x = 0) (hb : bitAt b x = 0) :
    (_repeated_spins x (2 ^ a) (2 ^ b)).2 = true := by
  show (!(x ||| 2 ^ a == x) && !(x ||| 2 ^ b == x)) = true
  rw [Bool.and_eq_true, Bool.not_eq_true', Bool.not_eq_true']
  exact ⟨(lor_mask_beq_false x a).mpr ha, (lor_mask_beq_false x b).mpr hb⟩

lemma lor_beq_congr (x y c : ℕ) (h : bitAt c x = bitAt c y) :
    (x ||| 2 ^ c == x) = (y ||| 2 ^ c == y) := by
  cases hc : (y ||| 2 ^ c == y) with
  | true => exact (lor_mask_beq x c).mpr (h.trans ((lor_mask_beq y c).mp hc))
  | false =>
      exact (lor_mask_beq_false x c).mpr (h.trans ((lor_mask_beq_false y c).mp hc))

/-! ## Flip reversibility -/

lemma ud_du_iff (x y a b : ℕ) (hab : a ≠ b) :
    ((_exchange_spin_flips x (2 ^ a) (2 ^ b)).1 = true ∧ x - 2 ^ a + 2 ^ b = y)
    ↔ ((_exchange_spin_flips y (2 ^ a) (2 ^ b)).2 = true ∧ y + 2 ^ a - 2 ^ b = x) := by
  constructor
  · rintro ⟨h, rfl⟩
    obtain ⟨ha1, hb0⟩ := ud_bits x a b h
    have hy : x - 2 ^ a + 2 ^ b = updBit b 1 (updBit a 0 x) := ud_flip_eq x a b hab h
    have hya : bitAt a (x - 2 ^ a + 2 ^ b) = 0 := by
      rw [hy, bitAt_updBit b 1 _ a (by norm_num), if_neg hab,
        bitAt_updBit a 0 x a (by norm_num), if_pos rfl]
    have hyb : bitAt b (x - 2 ^ a + 2 ^ b) = 1 := by
      rw [hy, bitAt_updBit b 1 _ b (by norm_num), if_pos rfl]
    refine ⟨du_mk _ a b hya hyb, ?_⟩
    rw [du_flip_eq _ a b hab (du_mk _ a b hya hyb), hy,
      updBit_overwrite b 0 1 _ (by norm_num) (by norm_num),
      updBit_comm2 b a 0 0 x (fun hc => hab hc.symm) (by norm_num) (by norm_num),
      updBit_overwrite a 1 0 _ (by norm_num) (by norm_num),
      show updBit b 0 x = x from by rw [← hb0]; exact updBit_noop b x,
      show updBit a 1 x = x from by rw [← ha1]; exact updBit_noop a x]
  · rintro ⟨h, rfl⟩
    obtain ⟨ha0, hb1⟩ := du_bits y a b h
    have hx : y + 2 ^ a - 2 ^ b = updBit a 1 (updBit b 0 y) := du_flip_eq y a b hab h
    have hxa : bitAt a (y + 2 ^ a - 2 ^ b) = 1 := by
      rw [hx, bitAt_updBit a 1 _ a (by norm_num), if_pos rfl]
    have hxb : bitAt b (y + 2 ^ a - 2 ^ b) = 0 := by
      rw [hx, bitAt_updBit a 1 _ b (by norm_num), if_neg (fun hc => hab hc.symm),
        bitAt_updBit b 0 y b (by norm_num), if_pos rfl]
    refine ⟨ud_mk _ a b hxa hxb, ?_⟩
    rw [ud_flip_eq _ a b hab (ud_mk _ a b hxa hxb), hx,
      updBit_overwrite a 0 1 _ (by norm_num) (by norm_num),
      updBit_comm2 a b 0 0 y hab (by norm_num) (by norm_num),
      updBit_overwrite b 1 0 _ (by norm_num) (by norm_num),
      show updBit a 0 y = y from by rw [← ha0]; exact updBit_noop a y,
      show updBit b 1 y = y from by rw [← hb1]; exact updBit_noop b y]

lemma uu_dd_iff (x y a b : ℕ) (hab : a ≠ b) :
    ((_repeated_spins x (2 ^ a) (2 ^ b)).1 = true ∧ x - 2 ^ a - 2 ^ b = y)
    ↔ ((_repeated_spins y (2 ^ a) (2 ^ b)).2 = true ∧ y + 2 ^ a + 2 ^ b = x) := by
  constructor
  · rintro ⟨h, rfl⟩
    obtain ⟨ha1, hb1⟩ := uu_bits x a b h
    have hy : x - 2 ^ a - 2 ^ b = updBit b 0 (updBit a 0 x) := uu_flip_eq x a b hab h
    have hya : bitAt a (x - 2 ^ a - 2 ^ b) = 0 := by
      rw [hy, bitAt_updBit b 0 _ a (by norm_num), if_neg hab,
        bitAt_updBit a 0 x a (by norm_num), if_pos rfl]
    have hyb : bitAt b (x - 2 ^ a - 2 ^ b) = 0 := by
      rw [hy, bitAt_updBit b 0 _ b (by norm_num), if_pos rfl]
    refine ⟨dd_mk _ a b hya hyb, ?_⟩
    rw [dd_flip_eq _ a b hab (dd_mk _ a b hya hyb), hy,
      updBit_comm2 a b 1 0 _ hab (by norm_num) (by norm_num),
      updBit_overwrite b 1 0 _ (by norm_num) (by norm_num),
      updBit_overwrite a 1 0 _ (by norm_num) (by norm_num),
      show updBit a 1 x = x from by rw [← ha1]; exact updBit_noop a x,
      show updBit b 1 x = x from by rw [← hb1]; exact updBit_noop b x]
  · rintro ⟨h, rfl⟩
    obtain ⟨ha0, hb0⟩ := dd_bits y a b h
    have hx : y + 2 ^ a + 2 ^ b = updBit b 1 (updBit a 1 y) := dd_flip_eq y a b hab h
    have hxa : bitAt a (y + 2 ^ a + 2 ^ b) = 1 := by
      rw [hx, bitAt_updBit b 1 _ a (by norm_num), if_neg hab,
        bitAt_updBit a 1 y a (by norm_num), if_pos rfl]
    have hxb : bitAt b (y + 2 ^ a + 2 ^ b) = 1 := by
      rw [hx, bitAt_updBit b 1 _ b (by norm_num), if_pos rfl]
    refine ⟨uu_mk _ a b hxa hxb, ?_⟩
    rw [uu_flip_eq _ a b hab (uu_mk _ a b hxa hxb), hx,
      updBit_comm2 a b 0 1 _ hab (by norm_num) (by norm_num),
      updBit_overwrite b 0 1 _ (by norm_num) (by norm_num),
      updBit_overwrite a 0 1 _ (by norm_num) (by norm_num),
      show updBit a 0 y = y from by rw [← ha0]; exact updBit_noop a y,
      show updBit b 0 y = y from by rw [← hb0]; exact updBit_noop b y]

lemma zflip_iff (x y e : ℕ) :
    ((x ||| 2 ^ e == x) = true ∧ x - 2 ^ e = y)
    ↔ ((y ||| 2 ^ e == y) = false ∧ y + 2 ^ e = x) := by
  constructor
  · rintro ⟨h, rfl⟩
    have hb1 : bitAt e x = 1 := (lor_mask_beq x e).mp h
    have hy : x - 2 ^ e = updBit e 0 x := zset_flip_eq x e h
    have hyb : bitAt e (x - 2 ^ e) = 0 := by
      rw [hy, bitAt_updBit e 0 x e (by norm_num), if_pos rfl]
    refine ⟨(lor_mask_beq_false _ e).mpr hyb, ?_⟩
    rw [zunset_flip_eq _ e ((lor_mask_beq_false _ e).mpr hyb), hy,
      updBit_overwrite e 1 0 x (by norm_num) (by norm_num),
      show updBit e 1 x = x from by rw [← hb1]; exact updBit_noop e x]
  · rintro ⟨h, rfl⟩
    have hb0 : bitAt e y = 0 := (lor_mask_beq_false y e).mp h
    have hx : y + 2 ^ e = updBit e 1 y := zunset_flip_eq y e h
    have hxb : bitAt e (y + 2 ^ e) = 1 := by
      rw [hx, bitAt_updBit e 1 y e (by norm_num), if_pos rfl]
    refine ⟨(lor_mask_beq _ e).mpr hxb, ?_⟩
    rw [zset_flip_eq _ e ((lor_mask_beq _ e).mpr hxb), hx,
      updBit_overwrite e 0 1 y (by norm_num) (by norm_num),
      show updBit e 0 y = y from by rw [← hb0]; exact updBit_noop e y]

/-! ## Conjugation symmetry of the amplitudes -/

lemma list_map_sum_neg {α : Type} (L : List α) (f : α → ℂ) :
    (L.map fun q => -(f q)).sum = -((L.map f).sum) := by
  induction L with
  | nil => simp
  | cons a T ih =>
      rw [List.map_cons, List.sum_cons, ih, List.map_cons, List.sum_cons, neg_add]

lemma amp_pm_conj (Nx Ny l : ℕ) (hNx : 0 < Nx) (hNy : 0 < Ny) (x y : ℕ) :
    (starRingEnd ℂ) (amp_pm Nx Ny l x y) = amp_pm Nx Ny l y x := by
  unfold amp_pm
  rw [map_list_sum, List.map_map]
  apply congrArg List.sum
  apply List.map_congr_left
  intro p hp
  obtain ⟨a, b, hab, hbN, hpe⟩ := interacting_mask Nx Ny l hNx hNy p hp
  subst hpe
  show (starRingEnd ℂ)
      ((if (_exchange_spin_flips x (2 ^ a) (2 ^ b)).1 = true
          ∧ x - 2 ^ a + 2 ^ b = y then (1 : ℂ) else 0) +
       (if (_exchange_spin_flips x (2 ^ a) (2 ^ b)).2 = true
          ∧ x + 2 ^ a - 2 ^ b = y then (1 : ℂ) else 0))
    = ((if (_exchange_spin_flips y (2 ^ a) (2 ^ b)).1 = true
          ∧ y - 2 ^ a + 2 ^ b = x then (1 : ℂ) else 0) +
       (if (_exchange_spin_flips y (2 ^ a) (2 ^ b)).2 = true
          ∧ y + 2 ^ a - 2 ^ b = x then (1 : ℂ) else 0))
  rw [map_add, apply_ite (starRingEnd ℂ), apply_ite (starRingEnd ℂ),
    map_one, map_zero]
  rw [if_congr (ud_du_iff x y a b (by omega)) rfl rfl,
    if_congr ((ud_du_iff y x a b (by omega)).symm) rfl rfl, add_comm]

lemma amp_ppmm_conj (Nx Ny : ℕ) (hNx : 0 < Nx) (hNy : 0 < Ny) (x y : ℕ) :
    (starRingEnd ℂ) (amp_ppmm Nx Ny x y) = amp_ppmm Nx Ny y x := by
  unfold amp_ppmm
  rw [map_list_sum, List.map_map]
  apply congrArg List.sum
  apply List.map_congr_left
  intro p hp
  obtain ⟨a, b, hab, hbN, hpe⟩ := interacting_mask Nx Ny 1 hNx hNy p hp
  subst hpe
  show (starRingEnd ℂ)
      ((if (_repeated_spins x (2 ^ a) (2 ^ b)).1 = true
          ∧ x - 2 ^ a - 2 ^ b = y
        then (starRingEnd ℂ) (_gamma Nx Ny (2 ^ a) (2 ^ b)) else 0) +
       (if (_repeated_spins x (2 ^ a) (2 ^ b)).2 = true
          ∧ x + 2 ^ a + 2 ^ b = y
        then _gamma Nx Ny (2 ^ a) (2 ^ b) else 0))
    = ((if (_repeated_spins y (2 ^ a) (2 ^ b)).1 = true
          ∧ y - 2 ^ a - 2 ^ b = x
        then (starRingEnd ℂ) (_gamma Nx Ny (2 ^ a) (2 ^ b)) else 0) +
       (if (_repeated_spins y (2 ^ a) (2 ^ b)).2 = true
          ∧ y + 2 ^ a + 2 ^ b = x
        then _gamma Nx Ny (2 ^ a) (2 ^ b) else 0))
  rw [map_add, apply_ite (starRingEnd ℂ), apply_ite (starRingEnd ℂ),
    map_zero, Complex.conj_conj]
  rw [if_congr (uu_dd_iff x y a b (by omega)) rfl rfl,
    if_congr ((uu_dd_iff y x a b (by omega)).symm) rfl rfl, add_comm]

lemma pmz_term_conj (Nx Ny x y c e : ℕ) (hce : c ≠ e) :
    (starRingEnd ℂ)
      ((((if x ||| 2 ^ c == x then (0.5 : ℝ) else -0.5) : ℝ) : ℂ) *
        (if x ||| 2 ^ e == x then
          (if x - 2 ^ e = y
            then (starRingEnd ℂ) (_gamma Nx Ny (2 ^ c) (2 ^ e)) else 0)
        else
          (if x + 2 ^ e = y then -(_gamma Nx Ny (2 ^ c) (2 ^ e)) else 0)))
    = -((((if y ||| 2 ^ c == y then (0.5 : ℝ) else -0.5) : ℝ) : ℂ) *
        (if y ||| 2 ^ e == y then
          (if y - 2 ^ e = x
            then (starRingEnd ℂ) (_gamma Nx Ny (2 ^ c) (2 ^ e)) else 0)
        else
          (if y + 2 ^ e = x then -(_gamma Nx Ny (2 ^ c) (2 ^ e)) else 0))) := by
  by_cases hs : (x ||| 2 ^ e == x) = true
  · rw [if_pos hs]
    by_cases he : x - 2 ^ e = y
    · obtain ⟨hyf, hyx⟩ := (zflip_iff x y e).mp ⟨hs, he⟩
      have hyn : ¬(y ||| 2 ^ e == y) = true := by
        rw [hyf]
        simp
      have hbit : bitAt c x = bitAt c y := by
        rw [← he, zset_flip_eq x e hs, bitAt_updBit e 0 x c (by norm_num),
          if_neg hce]
      have hz := lor_beq_congr x y c hbit
      rw [if_pos he, if_neg hyn, if_pos hyx, hz, map_mul, Complex.conj_ofReal,
        Complex.conj_conj]
      ring
    · rw [if_neg he, mul_zero, map_zero]
      by_cases hys : (y ||| 2 ^ e == y) = true
      · rw [if_pos hys]
        have hne : ¬y - 2 ^ e = x := by
          intro hc
          obtain ⟨hxf, _⟩ := (zflip_iff y x e).mp ⟨hys, hc⟩
          rw [hs] at hxf
          cases hxf
        rw [if_neg hne, mul_zero, neg_zero]
      · rw [if_neg hys]
        have hne : ¬y + 2 ^ e = x := by
          intro hc
          exact he ((zflip_iff x y e).mpr ⟨Bool.eq_false_iff.mpr hys, hc⟩).2
        rw [if_neg hne, mul_zero, neg_zero]
  · rw [if_neg hs]
    by_cases he : x + 2 ^ e = y
    · obtain ⟨hyt, hyx⟩ := (zflip_iff y x e).mpr ⟨Bool.eq_false_iff.mpr hs, he⟩
      have hbit : bitAt c x = bitAt c y := by
        rw [← he, zunset_flip_eq x e (Bool.eq_false_iff.mpr hs),
          bitAt_updBit e 1 x c (by norm_num), if_neg hce]
      have hz := lor_beq_congr x y c hbit
      rw [if_pos he, if_pos hyt, if_pos hyx, hz, map_mul, Complex.conj_ofReal,
        map_neg]
      ring
    · rw [if_neg he, mul_zero, map_zero]
      by_cases hys : (y ||| 2 ^ e == y) = true
      · rw [if_pos hys]
        have hne : ¬y - 2 ^ e = x := by
          intro hc
          exact he ((zflip_iff y x e).mp ⟨hys, hc⟩).2
        rw [if_neg hne, mul_zero, neg_zero]
      · rw [if_neg hys]
        have hne : ¬y + 2 ^ e = x := by
          intro hc
          exact hs ((zflip_iff x y e).mpr ⟨Bool.eq_false_iff.mpr hys, hc⟩).1
        rw [if_neg hne, mul_zero, neg_zero]

lemma amp_pmz_conj (Nx Ny : ℕ) (hNx : 0 < Nx) (hNy : 0 < Ny) (x y : ℕ) :
    (starRingEnd ℂ) (amp_pmz Nx Ny x y) = -amp_pmz Nx Ny y x := by
  unfold amp_pmz
  rw [map_list_sum, List.map_map, ← list_map_sum_neg]
  apply congrArg List.sum
  apply List.map_congr_left
  intro q hq
  obtain ⟨c, e, hce, hcN, heN, hqe⟩ := pmz_pair_mask Nx Ny hNx hNy q hq
  subst hqe
  show (starRingEnd ℂ)
      ((((if x ||| 2 ^ c == x then (0.5 : ℝ) else -0.5) : ℝ) : ℂ) *
        (if x ||| 2 ^ e == x then
          (if x - 2 ^ e = y
            then (starRingEnd ℂ) (_gamma Nx Ny (2 ^ c) (2 ^ e)) else 0)
        else
          (if x + 2 ^ e = y then -(_gamma Nx Ny (2 ^ c) (2 ^ e)) else 0)))
    = -((((if y ||| 2 ^ c == y then (0.5 : ℝ) else -0.5) : ℝ) : ℂ) *
        (if y ||| 2 ^ e == y then
          (if y - 2 ^ e = x
            then (starRingEnd ℂ) (_gamma Nx Ny (2 ^ c) (2 ^ e)) else 0)
        else
          (if y + 2 ^ e = x then -(_gamma Nx Ny (2 ^ c) (2 ^ e)) else 0)))
  exact pmz_term_conj Nx Ny x y c e hce

/-! ## Translation covariance of the amplitudes: site relabeling -/

lemma lor_beq_congr2 (X x a k : ℕ) (h : bitAt a X = bitAt k x) :
    (X ||| 2 ^ a == X) = (x ||| 2 ^ k == x) := by
  cases hc : (x ||| 2 ^ k == x) with
  | true => exact (lor_mask_beq X a).mpr (h.trans ((lor_mask_beq x k).mp hc))
  | false =>
      exact (lor_mask_beq_false X a).mpr (h.trans ((lor_mask_beq_false x k).mp hc))

lemma angle_with_symm (Nx Ny m n : ℕ) :
    angle_with Nx Ny m n = angle_with Nx Ny n m := by
  unfold angle_with
  have h1 : (((n % Nx : ℕ) : ℤ) - ((m % Nx : ℕ) : ℤ) = 0)
      ↔ (((m % Nx : ℕ) : ℤ) - ((n % Nx : ℕ) : ℤ) = 0) := by omega
  have h2 : (((n / Nx : ℕ) : ℤ) - ((m / Nx : ℕ) : ℤ) = 0)
      ↔ (((m / Nx : ℕ) : ℤ) - ((n / Nx : ℕ) : ℤ) = 0) := by omega
  rw [if_congr h1 (if_congr (not_congr h2) rfl rfl) (if_congr h2 rfl rfl)]

lemma angle_with_shift (Nx Ny u v : ℕ) (hNx : 0 < Nx) (hNy : 0 < Ny)
    (m n : ℕ) (hm : m < Nx * Ny) (hn : n < Nx * Ny) :
    angle_with Nx Ny (siteShift Nx Ny u v m) (siteShift Nx Ny u v n)
      = angle_with Nx Ny m n := by
  unfold angle_with
  obtain ⟨hm1, hm2⟩ := siteShift_mod_div Nx Ny u v m hNx hNy
  obtain ⟨hn1, hn2⟩ := siteShift_mod_div Nx Ny u v n hNx hNy
  rw [hm1, hm2, hn1, hn2]
  have hx1 : ((((n % Nx + u) % Nx : ℕ) : ℤ) - (((m % Nx + u) % Nx : ℕ) : ℤ) = 0)
      ↔ (((n % Nx : ℕ) : ℤ) - ((m % Nx : ℕ) : ℤ) = 0) := by
    constructor
    · intro h
      have heq : (n % Nx + u) % Nx = (m % Nx + u) % Nx := by omega
      have := mod_add_cancel_right Nx u (n % Nx) (m % Nx) hNx
        (Nat.mod_lt _ hNx) (Nat.mod_lt _ hNx) heq
      omega
    · intro h
      have heq : n % Nx = m % Nx := by omega
      rw [heq]
      omega
  have hy1 : ((((n / Nx + v) % Ny : ℕ) : ℤ) - (((m / Nx + v) % Ny : ℕ) : ℤ) = 0)
      ↔ (((n / Nx : ℕ) : ℤ) - ((m / Nx : ℕ) : ℤ) = 0) := by
    constructor
    · intro h
      have heq : (n / Nx + v) % Ny = (m / Nx + v) % Ny := by omega
      have := mod_add_cancel_right Ny v (n / Nx) (m / Nx) hNy
        (Nat.div_lt_of_lt_mul hn) (Nat.div_lt_of_lt_mul hm) heq
      omega
    · intro h
      have heq : n / Nx = m / Nx := by omega
      rw [heq]
      omega
  rw [if_congr hx1 (if_congr (not_congr hy1) rfl rfl) (if_congr hy1 rfl rfl)]

lemma gamma_symm (Nx Ny c e : ℕ) :
    _gamma Nx Ny (2 ^ c) (2 ^ e) = _gamma Nx Ny (2 ^ e) (2 ^ c) := by
  unfold _gamma
  rw [Nat.log2_two_pow, Nat.log2_two_pow, angle_with_symm]

lemma gamma_shift (Nx Ny u v : ℕ) (hNx : 0 < Nx) (hNy : 0 < Ny)
    (c e : ℕ) (hc : c < Nx * Ny) (he : e < Nx * Ny) :
    _gamma Nx Ny (2 ^ siteShift Nx Ny u v c) (2 ^ siteShift Nx Ny u v e)
      = _gamma Nx Ny (2 ^ c) (2 ^ e) := by
  unfold _gamma
  rw [Nat.log2_two_pow, Nat.log2_two_pow, Nat.log2_two_pow, Nat.log2_two_pow,
    angle_with_shift Nx Ny u v hNx hNy c e hc he]

lemma siteShift_inj_lt (Nx Ny u v a b : ℕ) (hNx : 0 < Nx) (hNy : 0 < Ny)
    (ha : a < Nx * Ny) (hb : b < Nx * Ny)
    (h : siteShift Nx Ny u v a = siteShift Nx Ny u v b) : a = b := by
  have h2 := congrArg (siteShift Nx Ny (Nx - u % Nx) (Ny - v % Ny)) h
  rw [siteShift_inv_left Nx Ny u v a hNx hNy ha,
    siteShift_inv_left Nx Ny u v b hNx hNy hb] at h2
  exact h2

lemma updBit_act (Nx Ny : ℕ) (hNx : 0 < Nx) (hNy : 0 < Ny) (g : ℕ × ℕ)
    (k β x : ℕ) (hx : x < 2 ^ (Nx * Ny)) (hk : k < Nx * Ny) (hβ : β ≤ 1) :
    updBit k β (act Nx Ny g x)
      = act Nx Ny g (updBit (siteShift Nx Ny (g.2 * (Nx - 1)) g.1 k) β x) := by
  rw [act_updBit Nx Ny hNx hNy g (siteShift Nx Ny (g.2 * (Nx - 1)) g.1 k) β x hx
    (siteShift_lt Nx Ny _ _ k hNx hNy) hβ,
    siteShift_inv_left Nx Ny (g.2 * (Nx - 1)) g.1 k hNx hNy hk]

lemma ud_term_shift (Nx Ny : ℕ) (hNx : 0 < Nx) (hNy : 0 < Ny) (g : ℕ × ℕ)
    (x y k1 k2 : ℕ) (hx : x < 2 ^ (Nx * Ny)) (hy : y < 2 ^ (Nx * Ny))
    (hk1 : k1 < Nx * Ny) (hk2 : k2 < Nx * Ny) (hkk : k1 ≠ k2) :
    ((_exchange_spin_flips (act Nx Ny g x) (2 ^ k1) (2 ^ k2)).1 = true ∧
      act Nx Ny g x - 2 ^ k1 + 2 ^ k2 = act Nx Ny g y)
    ↔ ((_exchange_spin_flips x
          (2 ^ siteShift Nx Ny (g.2 * (Nx - 1)) g.1 k1)
          (2 ^ siteShift Nx Ny (g.2 * (Nx - 1)) g.1 k2)).1 = true ∧
        x - 2 ^ siteShift Nx Ny (g.2 * (Nx - 1)) g.1 k1
          + 2 ^ siteShift Nx Ny (g.2 * (Nx - 1)) g.1 k2 = y) := by
  have hσ1 : siteShift Nx Ny (g.2 * (Nx - 1)) g.1 k1 < Nx * Ny :=
    siteShift_lt Nx Ny _ _ k1 hNx hNy
  have hσ2 : siteShift Nx Ny (g.2 * (Nx - 1)) g.1 k2 < Nx * Ny :=
    siteShift_lt Nx Ny _ _ k2 hNx hNy
  have hσne : siteShift Nx Ny (g.2 * (Nx - 1)) g.1 k1
      ≠ siteShift Nx Ny (g.2 * (Nx - 1)) g.1 k2 :=
    fun hc => hkk (siteShift_inj_lt Nx Ny _ _ k1 k2 hNx hNy hk1 hk2 hc)
  have hB1 : (act Nx Ny g x ||| 2 ^ k1 == act Nx Ny g x)
      = (x ||| 2 ^ siteShift Nx Ny (g.2 * (Nx - 1)) g.1 k1 == x) :=
    lor_beq_congr2 _ _ _ _ (bitAt_act Nx Ny hNx hNy g x k1 hx hk1)
  have hB2 : (act Nx Ny g x ||| 2 ^ k2 == act Nx Ny g x)
      = (x ||| 2 ^ siteShift Nx Ny (g.2 * (Nx - 1)) g.1 k2 == x) :=
    lor_beq_congr2 _ _ _ _ (bitAt_act Nx Ny hNx hNy g x k2 hx hk2)
  have hud : (_exchange_spin_flips (act Nx Ny g x) (2 ^ k1) (2 ^ k2)).1
      = (_exchange_spin_flips x
          (2 ^ siteShift Nx Ny (g.2 * (Nx - 1)) g.1 k1)
          (2 ^ siteShift Nx Ny (g.2 * (Nx - 1)) g.1 k2)).1 := by
    show ((act Nx Ny g x ||| 2 ^ k1 == act Nx Ny g x) &&
        !(act Nx Ny g x ||| 2 ^ k2 == act Nx Ny g x)) = _
    rw [hB1, hB2]
    rfl
  constructor
  · rintro ⟨h, heq⟩
    have hx2 : (_exchange_spin_flips x
        (2 ^ siteShift Nx Ny (g.2 * (Nx - 1)) g.1 k1)
        (2 ^ siteShift Nx Ny (g.2 * (Nx - 1)) g.1 k2)).1 = true := by
      rw [← hud]
      exact h
    refine ⟨hx2, ?_⟩
    rw [ud_flip_eq _ k1 k2 hkk h,
      updBit_act Nx Ny hNx hNy g k1 0 x hx hk1 (by norm_num),
      updBit_act Nx Ny hNx hNy g k2 1 _
        (updBit_lt _ _ _ _ (by norm_num) hσ1 hx) hk2 (by norm_num)] at heq
    have hinj := act_inj Nx Ny g _ y hNx hNy
      (updBit_lt _ _ _ _ (by norm_num) hσ2
        (updBit_lt _ _ _ _ (by norm_num) hσ1 hx)) hy heq
    rw [ud_flip_eq x _ _ hσne hx2]
    exact hinj
  · rintro ⟨h, heq⟩
    have hX2 : (_exchange_spin_flips (act Nx Ny g x) (2 ^ k1) (2 ^ k2)).1 = true := by
      rw [hud]
      exact h
    refine ⟨hX2, ?_⟩
    rw [ud_flip_eq _ k1 k2 hkk hX2,
      updBit_act Nx Ny hNx hNy g k1 0 x hx hk1 (by norm_num),
      updBit_act Nx Ny hNx hNy g k2 1 _
        (updBit_lt _ _ _ _ (by norm_num) hσ1 hx) hk2 (by norm_num),
      ← ud_flip_eq x _ _ hσne h, heq]

lemma uu_term_shift (Nx Ny : ℕ) (hNx : 0 < Nx) (hNy : 0 < Ny) (g : ℕ × ℕ)
    (x y k1 k2 : ℕ) (hx : x < 2 ^ (Nx * Ny)) (hy : y < 2 ^ (Nx * Ny))
    (hk1 : k1 < Nx * Ny) (hk2 : k2 < Nx * Ny) (hkk : k1 ≠ k2) :
    ((_repeated_spins (act Nx Ny g x) (2 ^ k1) (2 ^ k2)).1 = true ∧
      act Nx Ny g x - 2 ^ k1 - 2 ^ k2 = act Nx Ny g y)
    ↔ ((_repeated_spins x
          (2 ^ siteShift Nx Ny (g.2 * (Nx - 1)) g.1 k1)
          (2 ^ siteShift Nx Ny (g.2 * (Nx - 1)) g.1 k2)).1 = true ∧
        x - 2 ^ siteShift Nx Ny (g.2 * (Nx - 1)) g.1 k1
          - 2 ^ siteShift Nx Ny (g.2 * (Nx - 1)) g.1 k2 = y) := by
  have hσ1 : siteShift Nx Ny (g.2 * (Nx - 1)) g.1 k1 < Nx * Ny :=
    siteShift_lt Nx Ny _ _ k1 hNx hNy
  have hσ2 : siteShift Nx Ny (g.2 * (Nx - 1)) g.1 k2 < Nx * Ny :=
    siteShift_lt Nx Ny _ _ k2 hNx hNy
  have hσne : siteShift Nx Ny (g.2 * (Nx - 1)) g.1 k1
      ≠ siteShift Nx Ny (g.2 * (Nx - 1)) g.1 k2 :=
    fun hc => hkk (siteShift_inj_lt Nx Ny _ _ k1 k2 hNx hNy hk1 hk2 hc)
  have hB1 : (act Nx Ny g x ||| 2 ^ k1 == act Nx Ny g x)
      = (x ||| 2 ^ siteShift Nx Ny (g.2 * (Nx - 1)) g.1 k1 == x) :=
    lor_beq_congr2 _ _ _ _ (bitAt_act Nx Ny hNx hNy g x k1 hx hk1)
  have hB2 : (act Nx Ny g x ||| 2 ^ k2 == act Nx Ny g x)
      = (x ||| 2 ^ siteShift Nx Ny (g.2 * (Nx - 1)) g.1 k2 == x) :=
    lor_beq_congr2 _ _ _ _ (bitAt_act Nx Ny hNx hNy g x k2 hx hk2)
  have huu : (_repeated_spins (act Nx Ny g x) (2 ^ k1) (2 ^ k2)).1
      = (_repeated_spins x
          (2 ^ siteShift Nx Ny (g.2 * (Nx - 1)) g.1 k1)
          (2 ^ siteShift Nx Ny (g.2 * (Nx - 1)) g.1 k2)).1 := by
    show ((act Nx Ny g x ||| 2 ^ k1 == act Nx Ny g x) &&
        (act Nx Ny g x ||| 2 ^ k2 == act Nx Ny g x)) = _
    rw [hB1, hB2]
    rfl
  constructor
  · rintro ⟨h, heq⟩
    have hx2 : (_repeated_spins x
        (2 ^ siteShift Nx Ny (g.2 * (Nx - 1)) g.1 k1)
        (2 ^ siteShift Nx Ny (g.2 * (Nx - 1)) g.1 k2)).1 = true := by
      rw [← huu]
      exact h
    refine ⟨hx2, ?_⟩
    rw [uu_flip_eq _ k1 k2 hkk h,
      updBit_act Nx Ny hNx hNy g k1 0 x hx hk1 (by norm_num),
      updBit_act Nx Ny hNx hNy g k2 0 _
        (updBit_lt _ _ _ _ (by norm_num) hσ1 hx) hk2 (by norm_num)] at heq
    have hinj := act_inj Nx Ny g _ y hNx hNy
      (updBit_lt _ _ _ _ (by norm_num) hσ2
        (updBit_lt _ _ _ _ (by norm_num) hσ1 hx)) hy heq
    rw [uu_flip_eq x _ _ hσne hx2]
    exact hinj
  · rintro ⟨h, heq⟩
    have hX2 : (_repeated_spins (act Nx Ny g x) (2 ^ k1) (2 ^ k2)).1 = true := by
      rw [huu]
      exact h
    refine ⟨hX2, ?_⟩
    rw [uu_flip_eq _ k1 k2 hkk hX2,
      updBit_act Nx Ny hNx hNy g k1 0 x hx hk1 (by norm_num),
      updBit_act Nx Ny hNx hNy g k2 0 _
        (updBit_lt _ _ _ _ (by norm_num) hσ1 hx) hk2 (by norm_num),
      ← uu_flip_eq x _ _ hσne h, heq]

lemma zset_term_shift (Nx Ny : ℕ) (hNx : 0 < Nx) (hNy : 0 < Ny) (g : ℕ × ℕ)
    (x y k : ℕ) (hx : x < 2 ^ (Nx * Ny)) (hy : y < 2 ^ (Nx * Ny))
    (hk : k < Nx * Ny) :
    ((act Nx Ny g x ||| 2 ^ k == act Nx Ny g x) = true ∧
      act Nx Ny g x - 2 ^ k = act Nx Ny g y)
    ↔ ((x ||| 2 ^ siteShift Nx Ny (g.2 * (Nx - 1)) g.1 k == x) = true ∧
        x - 2 ^ siteShift Nx Ny (g.2 * (Nx - 1)) g.1 k = y) := by
  have hσ : siteShift Nx Ny (g.2 * (Nx - 1)) g.1 k < Nx * Ny :=
    siteShift_lt Nx Ny _ _ k hNx hNy
  have hB : (act Nx Ny g x ||| 2 ^ k == act Nx Ny g x)
      = (x ||| 2 ^ siteShift Nx Ny (g.2 * (Nx - 1)) g.1 k == x) :=
    lor_beq_congr2 _ _ _ _ (bitAt_act Nx Ny hNx hNy g x k hx hk)
  constructor
  · rintro ⟨h, heq⟩
    have hx2 : (x ||| 2 ^ siteShift Nx Ny (g.2 * (Nx - 1)) g.1 k == x) = true := by
      rw [← hB]
      exact h
    refine ⟨hx2, ?_⟩
    rw [zset_flip_eq _ k h,
      updBit_act Nx Ny hNx hNy g k 0 x hx hk (by norm_num)] at heq
    have hinj := act_inj Nx Ny g _ y hNx hNy
      (updBit_lt _ _ _ _ (by norm_num) hσ hx) hy heq
    rw [zset_flip_eq x _ hx2]
    exact hinj
  · rintro ⟨h, heq⟩
    have hX2 : (act Nx Ny g x ||| 2 ^ k == act Nx Ny g x) = true := by
      rw [hB]
      exact h
    refine ⟨hX2, ?_⟩
    rw [zset_flip_eq _ k hX2,
      updBit_act Nx Ny hNx hNy g k 0 x hx hk (by norm_num),
      ← zset_flip_eq x _ h, heq]

lemma du_term_shift (Nx Ny : ℕ) (hNx : 0 < Nx) (hNy : 0 < Ny) (g : ℕ × ℕ)
    (x y k1 k2 : ℕ) (hx : x < 2 ^ (Nx * Ny)) (hy : y < 2 ^ (Nx * Ny))
    (hk1 : k1 < Nx * Ny) (hk2 : k2 < Nx * Ny) (hkk : k1 ≠ k2) :
    ((_exchange_spin_flips (act Nx Ny g x) (2 ^ k1) (2 ^ k2)).2 = true ∧
      act Nx Ny g x + 2 ^ k1 - 2 ^ k2 = act Nx Ny g y)
    ↔ ((_exchange_spin_flips x
          (2 ^ siteShift Nx Ny (g.2 * (Nx - 1)) g.1 k1)
          (2 ^ siteShift Nx Ny (g.2 * (Nx - 1)) g.1 k2)).2 = true ∧
        x + 2 ^ siteShift Nx Ny (g.2 * (Nx - 1)) g.1 k1
          - 2 ^ siteShift Nx Ny (g.2 * (Nx - 1)) g.1 k2 = y) := by
  have hσne : siteShift Nx Ny (g.2 * (Nx - 1)) g.1 k1
      ≠ siteShift Nx Ny (g.2 * (Nx - 1)) g.1 k2 :=
    fun hc => hkk (siteShift_inj_lt Nx Ny _ _ k1 k2 hNx hNy hk1 hk2 hc)
  calc ((_exchange_spin_flips (act Nx Ny g x) (2 ^ k1) (2 ^ k2)).2 = true ∧
      act Nx Ny g x + 2 ^ k1 - 2 ^ k2 = act Nx Ny g y)
      ↔ ((_exchange_spin_flips (act Nx Ny g y) (2 ^ k1) (2 ^ k2)).1 = true ∧
          act Nx Ny g y - 2 ^ k1 + 2 ^ k2 = act Nx Ny g x) :=
        (ud_du_iff (act Nx Ny g y) (act Nx Ny g x) k1 k2 hkk).symm
    _ ↔ ((_exchange_spin_flips y
            (2 ^ siteShift Nx Ny (g.2 * (Nx - 1)) g.1 k1)
            (2 ^ siteShift Nx Ny (g.2 * (Nx - 1)) g.1 k2)).1 = true ∧
          y - 2 ^ siteShift Nx Ny (g.2 * (Nx - 1)) g.1 k1
            + 2 ^ siteShift Nx Ny (g.2 * (Nx - 1)) g.1 k2 = x) :=
        ud_term_shift Nx Ny hNx hNy g y x k1 k2 hy hx hk1 hk2 hkk
    _ ↔ _ := ud_du_iff y x _ _ hσne

lemma dd_term_shift (Nx Ny : ℕ) (hNx : 0 < Nx) (hNy : 0 < Ny) (g : ℕ × ℕ)
    (x y k1 k2 : ℕ) (hx : x < 2 ^ (Nx * Ny)) (hy : y < 2 ^ (Nx * Ny))
    (hk1 : k1 < Nx * Ny) (hk2 : k2 < Nx * Ny) (hkk : k1 ≠ k2) :
    ((_repeated_spins (act Nx Ny g x) (2 ^ k1) (2 ^ k2)).2 = true ∧
      act Nx Ny g x + 2 ^ k1 + 2 ^ k2 = act Nx Ny g y)
    ↔ ((_repeated_spins x
          (2 ^ siteShift Nx Ny (g.2 * (Nx - 1)) g.1 k1)
          (2 ^ siteShift Nx Ny (g.2 * (Nx - 1)) g.1 k2)).2 = true ∧
        x + 2 ^ siteShift Nx Ny (g.2 * (Nx - 1)) g.1 k1
          + 2 ^ siteShift Nx Ny (g.2 * (Nx - 1)) g.1 k2 = y) := by
  have hσne : siteShift Nx Ny (g.2 * (Nx - 1)) g.1 k1
      ≠ siteShift Nx Ny (g.2 * (Nx - 1)) g.1 k2 :=
    fun hc => hkk (siteShift_inj_lt Nx Ny _ _ k1 k2 hNx hNy hk1 hk2 hc)
  calc ((_repeated_spins (act Nx Ny g x) (2 ^ k1) (2 ^ k2)).2 = true ∧
      act Nx Ny g x + 2 ^ k1 + 2 ^ k2 = act Nx Ny g y)
      ↔ ((_repeated_spins (act Nx Ny g y) (2 ^ k1) (2 ^ k2)).1 = true ∧
          act Nx Ny g y - 2 ^ k1 - 2 ^ k2 = act Nx Ny g x) :=
        (uu_dd_iff (act Nx Ny g y) (act Nx Ny g x) k1 k2 hkk).symm
    _ ↔ ((_repeated_spins y
            (2 ^ siteShift Nx Ny (g.2 * (Nx - 1)) g.1 k1)
            (2 ^ siteShift Nx Ny (g.2 * (Nx - 1)) g.1 k2)).1 = true ∧
          y - 2 ^ siteShift Nx Ny (g.2 * (Nx - 1)) g.1 k1
            - 2 ^ siteShift Nx Ny (g.2 * (Nx - 1)) g.1 k2 = x) :=
        uu_term_shift Nx Ny hNx hNy g y x k1 k2 hy hx hk1 hk2 hkk
    _ ↔ _ := uu_dd_iff y x _ _ hσne

lemma zunset_term_shift (Nx Ny : ℕ) (hNx : 0 < Nx) (hNy : 0 < Ny) (g : ℕ × ℕ)
    (x y k : ℕ) (hx : x < 2 ^ (Nx * Ny)) (hy : y < 2 ^ (Nx * Ny))
    (hk : k < Nx * Ny) :
    ((act Nx Ny g x ||| 2 ^ k == act Nx Ny g x) = false ∧
      act Nx Ny g x + 2 ^ k = act Nx Ny g y)
    ↔ ((x ||| 2 ^ siteShift Nx Ny (g.2 * (Nx - 1)) g.1 k == x) = false ∧
        x + 2 ^ siteShift Nx Ny (g.2 * (Nx - 1)) g.1 k = y) := by
  calc ((act Nx Ny g x ||| 2 ^ k == act Nx Ny g x) = false ∧
      act Nx Ny g x + 2 ^ k = act Nx Ny g y)
      ↔ ((act Nx Ny g y ||| 2 ^ k == act Nx Ny g y) = true ∧
          act Nx Ny g y - 2 ^ k = act Nx Ny g x) :=
        (zflip_iff (act Nx Ny g y) (act Nx Ny g x) k).symm
    _ ↔ ((y ||| 2 ^ siteShift Nx Ny (g.2 * (Nx - 1)) g.1 k == y) = true ∧
          y - 2 ^ siteShift Nx Ny (g.2 * (Nx - 1)) g.1 k = x) :=
        zset_term_shift Nx Ny hNx hNy g y x k hy hx hk
    _ ↔ _ := zflip_iff y x _

/-! ## Bond-orientation symmetry and translation covariance of the sums -/

lemma pm_term_swap (x y c e : ℕ) :
    ((if (_exchange_spin_flips x (2 ^ c) (2 ^ e)).1 = true
        ∧ x - 2 ^ c + 2 ^ e = y then (1 : ℂ) else 0) +
     (if (_exchange_spin_flips x (2 ^ c) (2 ^ e)).2 = true
        ∧ x + 2 ^ c - 2 ^ e = y then (1 : ℂ) else 0))
    = ((if (_exchange_spin_flips x (2 ^ e) (2 ^ c)).1 = true
          ∧ x - 2 ^ e + 2 ^ c = y then (1 : ℂ) else 0) +
       (if (_exchange_spin_flips x (2 ^ e) (2 ^ c)).2 = true
          ∧ x + 2 ^ e - 2 ^ c = y then (1 : ℂ) else 0)) := by
  rw [add_comm]
  congr 1
  · apply if_congr ?_ rfl rfl
    constructor
    · rintro ⟨h, heq⟩
      obtain ⟨hc0, he1⟩ := du_bits x c e h
      refine ⟨ud_mk x e c he1 hc0, ?_⟩
      have hle := pow_le_of_bitAt e x he1
      have h2 : 2 ^ e ≤ x + 2 ^ c := le_trans hle (Nat.le_add_right x (2 ^ c))
      zify [hle, h2] at heq ⊢
      linarith
    · rintro ⟨h, heq⟩
      obtain ⟨he1, hc0⟩ := ud_bits x e c h
      refine ⟨du_mk x c e hc0 he1, ?_⟩
      have hle := pow_le_of_bitAt e x he1
      have h2 : 2 ^ e ≤ x + 2 ^ c := le_trans hle (Nat.le_add_right x (2 ^ c))
      zify [hle, h2] at heq ⊢
      linarith
  · apply if_congr ?_ rfl rfl
    constructor
    · rintro ⟨h, heq⟩
      obtain ⟨hc1, he0⟩ := ud_bits x c e h
      refine ⟨du_mk x e c he0 hc1, ?_⟩
      have hle := pow_le_of_bitAt c x hc1
      have h2 : 2 ^ c ≤ x + 2 ^ e := le_trans hle (Nat.le_add_right x (2 ^ e))
      zify [hle, h2] at heq ⊢
      linarith
    · rintro ⟨h, heq⟩
      obtain ⟨he0, hc1⟩ := du_bits x e c h
      refine ⟨ud_mk x c e hc1 he0, ?_⟩
      have hle := pow_le_of_bitAt c x hc1
      have h2 : 2 ^ c ≤ x + 2 ^ e := le_trans hle (Nat.le_add_right x (2 ^ e))
      zify [hle, h2] at heq ⊢
      linarith

lemma bonds_nodup (Nx Ny l : ℕ) : (_generate_bonds Nx Ny l).Nodup := by
  unfold _generate_bonds
  exact List.nodup_dedup _

lemma amp_pm_shift (Nx Ny l : ℕ) (hNx : 0 < Nx) (hNy : 0 < Ny) (g : ℕ × ℕ)
    (x y : ℕ) (hx : x < 2 ^ (Nx * Ny)) (hy : y < 2 ^ (Nx * Ny)) :
    amp_pm Nx Ny l (act Nx Ny g x) (act Nx Ny g y) = amp_pm Nx Ny l x y := by
  unfold amp_pm _interacting_sites
  rw [List.map_map, List.map_map,
    ← List.sum_toFinset _ (bonds_nodup Nx Ny l), ← List.sum_toFinset _ (bonds_nodup Nx Ny l)]
  apply Finset.sum_nbij'
    (fun b : ℕ × ℕ => (min (siteShift Nx Ny (g.2 * (Nx - 1)) g.1 b.1)
        (siteShift Nx Ny (g.2 * (Nx - 1)) g.1 b.2),
      max (siteShift Nx Ny (g.2 * (Nx - 1)) g.1 b.1)
        (siteShift Nx Ny (g.2 * (Nx - 1)) g.1 b.2)))
    (fun b : ℕ × ℕ => (min (siteShift Nx Ny (Nx - g.2 * (Nx - 1) % Nx)
          (Ny - g.1 % Ny) b.1)
        (siteShift Nx Ny (Nx - g.2 * (Nx - 1) % Nx) (Ny - g.1 % Ny) b.2),
      max (siteShift Nx Ny (Nx - g.2 * (Nx - 1) % Nx) (Ny - g.1 % Ny) b.1)
        (siteShift Nx Ny (Nx - g.2 * (Nx - 1) % Nx) (Ny - g.1 % Ny) b.2)))
  · intro b hb
    rw [List.mem_toFinset] at hb ⊢
    exact bonds_shift_mem Nx Ny l _ _ hNx hNy b hb
  · intro b hb
    rw [List.mem_toFinset] at hb ⊢
    exact bonds_shift_mem Nx Ny l _ _ hNx hNy b hb
  · intro b hb
    rw [List.mem_toFinset] at hb
    obtain ⟨h12, h2N⟩ := generate_bonds_facts Nx Ny l hNx hNy b hb
    have h1N : b.1 < Nx * Ny := by omega
    rcases le_total (siteShift Nx Ny (g.2 * (Nx - 1)) g.1 b.1)
        (siteShift Nx Ny (g.2 * (Nx - 1)) g.1 b.2) with hle | hle
    · rw [min_eq_left hle, max_eq_right hle]
      show (min _ _, max _ _) = b
      rw [siteShift_inv_left Nx Ny _ _ b.1 hNx hNy h1N,
        siteShift_inv_left Nx Ny _ _ b.2 hNx hNy h2N,
        min_eq_left (le_of_lt h12), max_eq_right (le_of_lt h12)]
    · rw [min_eq_right hle, max_eq_left hle]
      show (min _ _, max _ _) = b
      rw [siteShift_inv_left Nx Ny _ _ b.1 hNx hNy h1N,
        siteShift_inv_left Nx Ny _ _ b.2 hNx hNy h2N,
        min_comm, max_comm,
        min_eq_left (le_of_lt h12), max_eq_right (le_of_lt h12)]
  · intro b hb
    rw [List.mem_toFinset] at hb
    obtain ⟨h12, h2N⟩ := generate_bonds_facts Nx Ny l hNx hNy b hb
    have h1N : b.1 < Nx * Ny := by omega
    rcases le_total (siteShift Nx Ny (Nx - g.2 * (Nx - 1) % Nx) (Ny - g.1 % Ny) b.1)
        (siteShift Nx Ny (Nx - g.2 * (Nx - 1) % Nx) (Ny - g.1 % Ny) b.2) with hle | hle
    · rw [min_eq_left hle, max_eq_right hle]
      show (min _ _, max _ _) = b
      rw [siteShift_inv_right Nx Ny _ _ b.1 hNx hNy h1N,
        siteShift_inv_right Nx Ny _ _ b.2 hNx hNy h2N,
        min_eq_left (le_of_lt h12), max_eq_right (le_of_lt h12)]
    · rw [min_eq_right hle, max_eq_left hle]
      show (min _ _, max _ _) = b
      rw [siteShift_inv_right Nx Ny _ _ b.1 hNx hNy h1N,
        siteShift_inv_right Nx Ny _ _ b.2 hNx hNy h2N,
        min_comm, max_comm,
        min_eq_left (le_of_lt h12), max_eq_right (le_of_lt h12)]
  · intro b hb
    rw [List.mem_toFinset] at hb
    obtain ⟨h12, h2N⟩ := generate_bonds_facts Nx Ny l hNx hNy b hb
    have h1N : b.1 < Nx * Ny := by omega
    have hne : b.1 ≠ b.2 := by omega
    have htr1 := ud_term_shift Nx Ny hNx hNy g x y b.1 b.2 hx hy h1N h2N hne
    have htr2 := du_term_shift Nx Ny hNx hNy g x y b.1 b.2 hx hy h1N h2N hne
    rcases le_total (siteShift Nx Ny (g.2 * (Nx - 1)) g.1 b.1)
        (siteShift Nx Ny (g.2 * (Nx - 1)) g.1 b.2) with hle | hle
    · show ((if (_exchange_spin_flips (act Nx Ny g x) (2 ^ b.1) (2 ^ b.2)).1 = true
            ∧ act Nx Ny g x - 2 ^ b.1 + 2 ^ b.2 = act Nx Ny g y
          then (1 : ℂ) else 0) +
        (if (_exchange_spin_flips (act Nx Ny g x) (2 ^ b.1) (2 ^ b.2)).2 = true
            ∧ act Nx Ny g x + 2 ^ b.1 - 2 ^ b.2 = act Nx Ny g y
          then (1 : ℂ) else 0))
        = ((if (_exchange_spin_flips x
              (2 ^ min (siteShift Nx Ny (g.2 * (Nx - 1)) g.1 b.1)
                (siteShift Nx Ny (g.2 * (Nx - 1)) g.1 b.2))
              (2 ^ max (siteShift Nx Ny (g.2 * (Nx - 1)) g.1 b.1)
                (siteShift Nx Ny (g.2 * (Nx - 1)) g.1 b.2))).1 = true
            ∧ x - 2 ^ min (siteShift Nx Ny (g.2 * (Nx - 1)) g.1 b.1)
                (siteShift Nx Ny (g.2 * (Nx - 1)) g.1 b.2)
              + 2 ^ max (siteShift Nx Ny (g.2 * (Nx - 1)) g.1 b.1)
                (siteShift Nx Ny (g.2 * (Nx - 1)) g.1 b.2) = y
          then (1 : ℂ) else 0) +
        (if (_exchange_spin_flips x
              (2 ^ min (siteShift Nx Ny (g.2 * (Nx - 1)) g.1 b.1)
                (siteShift Nx Ny (g.2 * (Nx - 1)) g.1 b.2))
              (2 ^ max (siteShift Nx Ny (g.2 * (Nx - 1)) g.1 b.1)
                (siteShift Nx Ny (g.2 * (Nx - 1)) g.1 b.2))).2 = true
            ∧ x + 2 ^ min (siteShift Nx Ny (g.2 * (Nx - 1)) g.1 b.1)
                (siteShift Nx Ny (g.2 * (Nx - 1)) g.1 b.2)
              - 2 ^ max (siteShift Nx Ny (g.2 * (Nx - 1)) g.1 b.1)
                (siteShift Nx Ny (g.2 * (Nx - 1)) g.1 b.2) = y
          then (1 : ℂ) else 0))
      rw [min_eq_left hle, max_eq_right hle]
      rw [if_congr htr1 rfl rfl, if_congr htr2 rfl rfl]
    · show ((if (_exchange_spin_flips (act Nx Ny g x) (2 ^ b.1) (2 ^ b.2)).1 = true
            ∧ act Nx Ny g x - 2 ^ b.1 + 2 ^ b.2 = act Nx Ny g y
          then (1 : ℂ) else 0) +
        (if (_exchange_spin_flips (act Nx Ny g x) (2 ^ b.1) (2 ^ b.2)).2 = true
            ∧ act Nx Ny g x + 2 ^ b.1 - 2 ^ b.2 = act Nx Ny g y
          then (1 : ℂ) else 0))
        = ((if (_exchange_spin_flips x
              (2 ^ min (siteShift Nx Ny (g.2 * (Nx - 1)) g.1 b.1)
                (siteShift Nx Ny (g.2 * (Nx - 1)) g.1 b.2))
              (2 ^ max (siteShift Nx Ny (g.2 * (Nx - 1)) g.1 b.1)
                (siteShift Nx Ny (g.2 * (Nx - 1)) g.1 b.2))).1 = true
            ∧ x - 2 ^ min (siteShift Nx Ny (g.2 * (Nx - 1)) g.1 b.1)
                (siteShift Nx Ny (g.2 * (Nx - 1)) g.1 b.2)
              + 2 ^ max (siteShift Nx Ny (g.2 * (Nx - 1)) g.1 b.1)
                (siteShift Nx Ny (g.2 * (Nx - 1)) g.1 b.2) = y
          then (1 : ℂ) else 0) +
        (if (_exchange_spin_flips x
              (2 ^ min (siteShift Nx Ny (g.2 * (Nx - 1)) g.1 b.1)
                (siteShift Nx Ny (g.2 * (Nx - 1)) g.1 b.2))
              (2 ^ max (siteShift Nx Ny (g.2 * (Nx - 1)) g.1 b.1)
                (siteShift Nx Ny (g.2 * (Nx - 1)) g.1 b.2))).2 = true
            ∧ x + 2 ^ min (siteShift Nx Ny (g.2 * (Nx - 1)) g.1 b.1)
                (siteShift Nx Ny (g.2 * (Nx - 1)) g.1 b.2)
              - 2 ^ max (siteShift Nx Ny (g.2 * (Nx - 1)) g.1 b.1)
                (siteShift Nx Ny (g.2 * (Nx - 1)) g.1 b.2) = y
          then (1 : ℂ) else 0))
      have htr1s := ud_term_shift Nx Ny hNx hNy g x y b.2 b.1 hx hy h2N h1N
        (fun hc => hne hc.symm)
      have htr2s := du_term_shift Nx Ny hNx hNy g x y b.2 b.1 hx hy h2N h1N
        (fun hc => hne hc.symm)
      rw [min_eq_right hle, max_eq_left hle,
        pm_term_swap (act Nx Ny g x) (act Nx Ny g y) b.1 b.2]
      rw [if_congr htr1s rfl rfl, if_congr htr2s rfl rfl]

lemma ppmm_term_swap (Nx Ny x y c e : ℕ) :
    ((if (_repeated_spins x (2 ^ c) (2 ^ e)).1 = true
        ∧ x - 2 ^ c - 2 ^ e = y
      then (starRingEnd ℂ) (_gamma Nx Ny (2 ^ c) (2 ^ e)) else 0) +
     (if (_repeated_spins x (2 ^ c) (2 ^ e)).2 = true
        ∧ x + 2 ^ c + 2 ^ e = y
      then _gamma Nx Ny (2 ^ c) (2 ^ e) else 0))
    = ((if (_repeated_spins x (2 ^ e) (2 ^ c)).1 = true
          ∧ x - 2 ^ e - 2 ^ c = y
        then (starRingEnd ℂ) (_gamma Nx Ny (2 ^ e) (2 ^ c)) else 0) +
       (if (_repeated_spins x (2 ^ e) (2 ^ c)).2 = true
          ∧ x + 2 ^ e + 2 ^ c = y
        then _gamma Nx Ny (2 ^ e) (2 ^ c) else 0)) := by
  have hbool1 : (_repeated_spins x (2 ^ c) (2 ^ e)).1
      = (_repeated_spins x (2 ^ e) (2 ^ c)).1 := by
    show ((x ||| 2 ^ c == x) && (x ||| 2 ^ e == x)) = _
    exact Bool.and_comm _ _
  have hbool2 : (_repeated_spins x (2 ^ c) (2 ^ e)).2
      = (_repeated_spins x (2 ^ e) (2 ^ c)).2 := by
    show (!(x ||| 2 ^ c == x) && !(x ||| 2 ^ e == x)) = _
    exact Bool.and_comm _ _
  have harith1 : x - 2 ^ c - 2 ^ e = x - 2 ^ e - 2 ^ c := by
    rw [Nat.sub_sub, Nat.sub_sub, Nat.add_comm]
  have harith2 : x + 2 ^ c + 2 ^ e = x + 2 ^ e + 2 ^ c := Nat.add_right_comm _ _ _
  congr 1
  · exact if_congr (by rw [hbool1, harith1]) (by rw [gamma_symm]) rfl
  · exact if_congr (by rw [hbool2, harith2]) (by rw [gamma_symm]) rfl

lemma amp_ppmm_shift (Nx Ny : ℕ) (hNx : 0 < Nx) (hNy : 0 < Ny) (g : ℕ × ℕ)
    (x y : ℕ) (hx : x < 2 ^ (Nx * Ny)) (hy : y < 2 ^ (Nx * Ny)) :
    amp_ppmm Nx Ny (act Nx Ny g x) (act Nx Ny g y) = amp_ppmm Nx Ny x y := by
  unfold amp_ppmm _interacting_sites
  rw [List.map_map, List.map_map,
    ← List.sum_toFinset _ (bonds_nodup Nx Ny 1), ← List.sum_toFinset _ (bonds_nodup Nx Ny 1)]
  apply Finset.sum_nbij'
    (fun b : ℕ × ℕ => (min (siteShift Nx Ny (g.2 * (Nx - 1)) g.1 b.1)
        (siteShift Nx Ny (g.2 * (Nx - 1)) g.1 b.2),
      max (siteShift Nx Ny (g.2 * (Nx - 1)) g.1 b.1)
        (siteShift Nx Ny (g.2 * (Nx - 1)) g.1 b.2)))
    (fun b : ℕ × ℕ => (min (siteShift Nx Ny (Nx - g.2 * (Nx - 1) % Nx)
          (Ny - g.1 % Ny) b.1)
        (siteShift Nx Ny (Nx - g.2 * (Nx - 1) % Nx) (Ny - g.1 % Ny) b.2),
      max (siteShift Nx Ny (Nx - g.2 * (Nx - 1) % Nx) (Ny - g.1 % Ny) b.1)
        (siteShift Nx Ny (Nx - g.2 * (Nx - 1) % Nx) (Ny - g.1 % Ny) b.2)))
  · intro b hb
    rw [List.mem_toFinset] at hb ⊢
    exact bonds_shift_mem Nx Ny 1 _ _ hNx hNy b hb
  · intro b hb
    rw [List.mem_toFinset] at hb ⊢
    exact bonds_shift_mem Nx Ny 1 _ _ hNx hNy b hb
  · intro b hb
    rw [List.mem_toFinset] at hb
    obtain ⟨h12, h2N⟩ := generate_bonds_facts Nx Ny 1 hNx hNy b hb
    have h1N : b.1 < Nx * Ny := by omega
    rcases le_total (siteShift Nx Ny (g.2 * (Nx - 1)) g.1 b.1)
        (siteShift Nx Ny (g.2 * (Nx - 1)) g.1 b.2) with hle | hle
    · rw [min_eq_left hle, max_eq_right hle]
      show (min _ _, max _ _) = b
      rw [siteShift_inv_left Nx Ny _ _ b.1 hNx hNy h1N,
        siteShift_inv_left Nx Ny _ _ b.2 hNx hNy h2N,
        min_eq_left (le_of_lt h12), max_eq_right (le_of_lt h12)]
    · rw [min_eq_right hle, max_eq_left hle]
      show (min _ _, max _ _) = b
      rw [siteShift_inv_left Nx Ny _ _ b.1 hNx hNy h1N,
        siteShift_inv_left Nx Ny _ _ b.2 hNx hNy h2N,
        min_comm, max_comm,
        min_eq_left (le_of_lt h12), max_eq_right (le_of_lt h12)]
  · intro b hb
    rw [List.mem_toFinset] at hb
    obtain ⟨h12, h2N⟩ := generate_bonds_facts Nx Ny 1 hNx hNy b hb
    have h1N : b.1 < Nx * Ny := by omega
    rcases le_total (siteShift Nx Ny (Nx - g.2 * (Nx - 1) % Nx) (Ny - g.1 % Ny) b.1)
        (siteShift Nx Ny (Nx - g.2 * (Nx - 1) % Nx) (Ny - g.1 % Ny) b.2) with hle | hle
    · rw [min_eq_left hle, max_eq_right hle]
      show (min _ _, max _ _) = b
      rw [siteShift_inv_right Nx Ny _ _ b.1 hNx hNy h1N,
        siteShift_inv_right Nx Ny _ _ b.2 hNx hNy h2N,
        min_eq_left (le_of_lt h12), max_eq_right (le_of_lt h12)]
    · rw [min_eq_right hle, max_eq_left hle]
      show (min _ _, max _ _) = b
      rw [siteShift_inv_right Nx Ny _ _ b.1 hNx hNy h1N,
        siteShift_inv_right Nx Ny _ _ b.2 hNx hNy h2N,
        min_comm, max_comm,
        min_eq_left (le_of_lt h12), max_eq_right (le_of_lt h12)]
  · intro b hb
    rw [List.mem_toFinset] at hb
    obtain ⟨h12, h2N⟩ := generate_bonds_facts Nx Ny 1 hNx hNy b hb
    have h1N : b.1 < Nx * Ny := by omega
    have hne : b.1 ≠ b.2 := by omega
    have hγ := gamma_shift Nx Ny (g.2 * (Nx - 1)) g.1 hNx hNy b.1 b.2 h1N h2N
    rcases le_total (siteShift Nx Ny (g.2 * (Nx - 1)) g.1 b.1)
        (siteShift Nx Ny (g.2 * (Nx - 1)) g.1 b.2) with hle | hle
    · have htr1 := uu_term_shift Nx Ny hNx hNy g x y b.1 b.2 hx hy h1N h2N hne
      have htr2 := dd_term_shift Nx Ny hNx hNy g x y b.1 b.2 hx hy h1N h2N hne
      show ((if (_repeated_spins (act Nx Ny g x) (2 ^ b.1) (2 ^ b.2)).1 = true
            ∧ act Nx Ny g x - 2 ^ b.1 - 2 ^ b.2 = act Nx Ny g y
          then (starRingEnd ℂ) (_gamma Nx Ny (2 ^ b.1) (2 ^ b.2)) else 0) +
        (if (_repeated_spins (act Nx Ny g x) (2 ^ b.1) (2 ^ b.2)).2 = true
            ∧ act Nx Ny g x + 2 ^ b.1 + 2 ^ b.2 = act Nx Ny g y
          then _gamma Nx Ny (2 ^ b.1) (2 ^ b.2) else 0))
        = ((if (_repeated_spins x
              (2 ^ min (siteShift Nx Ny (g.2 * (Nx - 1)) g.1 b.1)
                (siteShift Nx Ny (g.2 * (Nx - 1)) g.1 b.2))
              (2 ^ max (siteShift Nx Ny (g.2 * (Nx - 1)) g.1 b.1)
                (siteShift Nx Ny (g.2 * (Nx - 1)) g.1 b.2))).1 = true
            ∧ x - 2 ^ min (siteShift Nx Ny (g.2 * (Nx - 1)) g.1 b.1)
                (siteShift Nx Ny (g.2 * (Nx - 1)) g.1 b.2)
              - 2 ^ max (siteShift Nx Ny (g.2 * (Nx - 1)) g.1 b.1)
                (siteShift Nx Ny (g.2 * (Nx - 1)) g.1 b.2) = y
          then (starRingEnd ℂ) (_gamma Nx Ny
            (2 ^ min (siteShift Nx Ny (g.2 * (Nx - 1)) g.1 b.1)
              (siteShift Nx Ny (g.2 * (Nx - 1)) g.1 b.2))
            (2 ^ max (siteShift Nx Ny (g.2 * (Nx - 1)) g.1 b.1)
              (siteShift Nx Ny (g.2 * (Nx - 1)) g.1 b.2))) else 0) +
        (if (_repeated_spins x
              (2 ^ min (siteShift Nx Ny (g.2 * (Nx - 1)) g.1 b.1)
                (siteShift Nx Ny (g.2 * (Nx - 1)) g.1 b.2))
              (2 ^ max (siteShift Nx Ny (g.2 * (Nx - 1)) g.1 b.1)
                (siteShift Nx Ny (g.2 * (Nx - 1)) g.1 b.2))).2 = true
            ∧ x + 2 ^ min (siteShift Nx Ny (g.2 * (Nx - 1)) g.1 b.1)
                (siteShift Nx Ny (g.2 * (Nx - 1)) g.1 b.2)
              + 2 ^ max (siteShift Nx Ny (g.2 * (Nx - 1)) g.1 b.1)
                (siteShift Nx Ny (g.2 * (Nx - 1)) g.1 b.2) = y
          then _gamma Nx Ny
            (2 ^ min (siteShift Nx Ny (g.2 * (Nx - 1)) g.1 b.1)
              (siteShift Nx Ny (g.2 * (Nx - 1)) g.1 b.2))
            (2 ^ max (siteShift Nx Ny (g.2 * (Nx - 1)) g.1 b.1)
              (siteShift Nx Ny (g.2 * (Nx - 1)) g.1 b.2)) else 0))
      rw [min_eq_left hle, max_eq_right hle]
      rw [if_congr htr1 (congrArg (starRingEnd ℂ) hγ.symm) rfl,
        if_congr htr2 hγ.symm rfl]
    · have htr1 := uu_term_shift Nx Ny hNx hNy g x y b.2 b.1 hx hy h2N h1N
        (fun hc => hne hc.symm)
      have htr2 := dd_term_shift Nx Ny hNx hNy g x y b.2 b.1 hx hy h2N h1N
        (fun hc => hne hc.symm)
      have hγs := gamma_shift Nx Ny (g.2 * (Nx - 1)) g.1 hNx hNy b.2 b.1 h2N h1N
      show ((if (_repeated_spins (act Nx Ny g x) (2 ^ b.1) (2 ^ b.2)).1 = true
            ∧ act Nx Ny g x - 2 ^ b.1 - 2 ^ b.2 = act Nx Ny g y
          then (starRingEnd ℂ) (_gamma Nx Ny (2 ^ b.1) (2 ^ b.2)) else 0) +
        (if (_repeated_spins (act Nx Ny g x) (2 ^ b.1) (2 ^ b.2)).2 = true
            ∧ act Nx Ny g x + 2 ^ b.1 + 2 ^ b.2 = act Nx Ny g y
          then _gamma Nx Ny (2 ^ b.1) (2 ^ b.2) else 0))
        = ((if (_repeated_spins x
              (2 ^ min (siteShift Nx Ny (g.2 * (Nx - 1)) g.1 b.1)
                (siteShift Nx Ny (g.2 * (Nx - 1)) g.1 b.2))
              (2 ^ max (siteShift Nx Ny (g.2 * (Nx - 1)) g.1 b.1)
                (siteShift Nx Ny (g.2 * (Nx - 1)) g.1 b.2))).1 = true
            ∧ x - 2 ^ min (siteShift Nx Ny (g.2 * (Nx - 1)) g.1 b.1)
                (siteShift Nx Ny (g.2 * (Nx - 1)) g.1 b.2)
              - 2 ^ max (siteShift Nx Ny (g.2 * (Nx - 1)) g.1 b.1)
                (siteShift Nx Ny (g.2 * (Nx - 1)) g.1 b.2) = y
          then (starRingEnd ℂ) (_gamma Nx Ny
            (2 ^ min (siteShift Nx Ny (g.2 * (Nx - 1)) g.1 b.1)
              (siteShift Nx Ny (g.2 * (Nx - 1)) g.1 b.2))
            (2 ^ max (siteShift Nx Ny (g.2 * (Nx - 1)) g.1 b.1)
              (siteShift Nx Ny (g.2 * (Nx - 1)) g.1 b.2))) else 0) +
        (if (_repeated_spins x
              (2 ^ min (siteShift Nx Ny (g.2 * (Nx - 1)) g.1 b.1)
                (siteShift Nx Ny (g.2 * (Nx - 1)) g.1 b.2))
              (2 ^ max (siteShift Nx Ny (g.2 * (Nx - 1)) g.1 b.1)
                (siteShift Nx Ny (g.2 * (Nx - 1)) g.1 b.2))).2 = true
            ∧ x + 2 ^ min (siteShift Nx Ny (g.2 * (Nx - 1)) g.1 b.1)
                (siteShift Nx Ny (g.2 * (Nx - 1)) g.1 b.2)
              + 2 ^ max (siteShift Nx Ny (g.2 * (Nx - 1)) g.1 b.1)
                (siteShift Nx Ny (g.2 * (Nx - 1)) g.1 b.2) = y
          then _gamma Nx Ny
            (2 ^ min (siteShift Nx Ny (g.2 * (Nx - 1)) g.1 b.1)
              (siteShift Nx Ny (g.2 * (Nx - 1)) g.1 b.2))
            (2 ^ max (siteShift Nx Ny (g.2 * (Nx - 1)) g.1 b.1)
              (siteShift Nx Ny (g.2 * (Nx - 1)) g.1 b.2)) else 0))
      rw [min_eq_right hle, max_eq_left hle,
        ppmm_term_swap Nx Ny (act Nx Ny g x) (act Nx Ny g y) b.1 b.2]
      rw [if_congr htr1 (congrArg (starRingEnd ℂ) hγs.symm) rfl,
        if_congr htr2 hγs.symm rfl]

lemma list_sum_bind {α : Type} (L : List α) (g : α → List ℂ) :
    (L.bind g).sum = (L.map fun a => (g a).sum).sum := by
  induction L with
  | nil => rfl
  | cons a T ih =>
      show ((g a ++ T.bind g).sum) = _
      rw [List.sum_append, ih, List.map_cons, List.sum_cons]

lemma amp_pmz_as_bonds (Nx Ny x y : ℕ) :
    amp_pmz Nx Ny x y
      = ((_generate_bonds Nx Ny 1).map fun b =>
          ((((if x ||| 2 ^ b.1 == x then (0.5 : ℝ) else -0.5) : ℝ) : ℂ) *
            (if x ||| 2 ^ b.2 == x then
              (if x - 2 ^ b.2 = y
                then (starRingEnd ℂ) (_gamma Nx Ny (2 ^ b.1) (2 ^ b.2)) else 0)
            else
              (if x + 2 ^ b.2 = y
                then -(_gamma Nx Ny (2 ^ b.1) (2 ^ b.2)) else 0))) +
          ((((if x ||| 2 ^ b.2 == x then (0.5 : ℝ) else -0.5) : ℝ) : ℂ) *
            (if x ||| 2 ^ b.1 == x then
              (if x - 2 ^ b.1 = y
                then (starRingEnd ℂ) (_gamma Nx Ny (2 ^ b.2) (2 ^ b.1)) else 0)
            else
              (if x + 2 ^ b.1 = y
                then -(_gamma Nx Ny (2 ^ b.2) (2 ^ b.1)) else 0)))).sum := by
  unfold amp_pmz _interacting_sites
  rw [List.map_bind, list_sum_bind, List.map_map]
  apply congrArg List.sum
  apply List.map_congr_left
  intro b hb
  simp only [Function.comp_apply, List.map_cons, List.map_nil, List.sum_cons,
    List.sum_nil, add_zero]

lemma pmz_term_shift (Nx Ny : ℕ) (hNx : 0 < Nx) (hNy : 0 < Ny) (g : ℕ × ℕ)
    (x y c e : ℕ) (hx : x < 2 ^ (Nx * Ny)) (hy : y < 2 ^ (Nx * Ny))
    (hc : c < Nx * Ny) (he : e < Nx * Ny) :
    (((if act Nx Ny g x ||| 2 ^ c == act Nx Ny g x
        then (0.5 : ℝ) else -0.5) : ℝ) : ℂ) *
      (if act Nx Ny g x ||| 2 ^ e == act Nx Ny g x then
        (if act Nx Ny g x - 2 ^ e = act Nx Ny g y
          then (starRingEnd ℂ) (_gamma Nx Ny (2 ^ c) (2 ^ e)) else 0)
      else
        (if act Nx Ny g x + 2 ^ e = act Nx Ny g y
          then -(_gamma Nx Ny (2 ^ c) (2 ^ e)) else 0))
    = (((if x ||| 2 ^ siteShift Nx Ny (g.2 * (Nx - 1)) g.1 c == x
          then (0.5 : ℝ) else -0.5) : ℝ) : ℂ) *
      (if x ||| 2 ^ siteShift Nx Ny (g.2 * (Nx - 1)) g.1 e == x then
        (if x - 2 ^ siteShift Nx Ny (g.2 * (Nx - 1)) g.1 e = y
          then (starRingEnd ℂ) (_gamma Nx Ny
            (2 ^ siteShift Nx Ny (g.2 * (Nx - 1)) g.1 c)
            (2 ^ siteShift Nx Ny (g.2 * (Nx - 1)) g.1 e)) else 0)
      else
        (if x + 2 ^ siteShift Nx Ny (g.2 * (Nx - 1)) g.1 e = y
          then -(_gamma Nx Ny
            (2 ^ siteShift Nx Ny (g.2 * (Nx - 1)) g.1 c)
            (2 ^ siteShift Nx Ny (g.2 * (Nx - 1)) g.1 e)) else 0)) := by
  have hBc : (act Nx Ny g x ||| 2 ^ c == act Nx Ny g x)
      = (x ||| 2 ^ siteShift Nx Ny (g.2 * (Nx - 1)) g.1 c == x) :=
    lor_beq_congr2 _ _ _ _ (bitAt_act Nx Ny hNx hNy g x c hx hc)
  have hBe : (act Nx Ny g x ||| 2 ^ e == act Nx Ny g x)
      = (x ||| 2 ^ siteShift Nx Ny (g.2 * (Nx - 1)) g.1 e == x) :=
    lor_beq_congr2 _ _ _ _ (bitAt_act Nx Ny hNx hNy g x e hx he)
  have hγ := gamma_shift Nx Ny (g.2 * (Nx - 1)) g.1 hNx hNy c e hc he
  rw [hBc, hBe]
  by_cases hs : (x ||| 2 ^ siteShift Nx Ny (g.2 * (Nx - 1)) g.1 e == x) = true
  · rw [if_pos hs, if_pos hs]
    congr 1
    have hXs : (act Nx Ny g x ||| 2 ^ e == act Nx Ny g x) = true := by
      rw [hBe]
      exact hs
    have hiff : act Nx Ny g x - 2 ^ e = act Nx Ny g y
        ↔ x - 2 ^ siteShift Nx Ny (g.2 * (Nx - 1)) g.1 e = y := by
      constructor
      · intro hA
        exact ((zset_term_shift Nx Ny hNx hNy g x y e hx hy he).mp ⟨hXs, hA⟩).2
      · intro hA
        exact ((zset_term_shift Nx Ny hNx hNy g x y e hx hy he).mpr ⟨hs, hA⟩).2
    exact if_congr hiff (congrArg (starRingEnd ℂ) hγ.symm) rfl
  · rw [if_neg hs, if_neg hs]
    congr 1
    have hsf : (x ||| 2 ^ siteShift Nx Ny (g.2 * (Nx - 1)) g.1 e == x) = false :=
      Bool.eq_false_iff.mpr hs
    have hXf : (act Nx Ny g x ||| 2 ^ e == act Nx Ny g x) = false := by
      rw [hBe]
      exact hsf
    have hiff : act Nx Ny g x + 2 ^ e = act Nx Ny g y
        ↔ x + 2 ^ siteShift Nx Ny (g.2 * (Nx - 1)) g.1 e = y := by
      constructor
      · intro hA
        exact ((zunset_term_shift Nx Ny hNx hNy g x y e hx hy he).mp ⟨hXf, hA⟩).2
      · intro hA
        exact ((zunset_term_shift Nx Ny hNx hNy g x y e hx hy he).mpr ⟨hsf, hA⟩).2
    exact if_congr hiff (congrArg Neg.neg hγ.symm) rfl

lemma amp_pmz_shift (Nx Ny : ℕ) (hNx : 0 < Nx) (hNy : 0 < Ny) (g : ℕ × ℕ)
    (x y : ℕ) (hx : x < 2 ^ (Nx * Ny)) (hy : y < 2 ^ (Nx * Ny)) :
    amp_pmz Nx Ny (act Nx Ny g x) (act Nx Ny g y) = amp_pmz Nx Ny x y := by
  rw [amp_pmz_as_bonds Nx Ny (act Nx Ny g x) (act Nx Ny g y),
    amp_pmz_as_bonds Nx Ny x y,
    ← List.sum_toFinset _ (bonds_nodup Nx Ny 1),
    ← List.sum_toFinset _ (bonds_nodup Nx Ny 1)]
  apply Finset.sum_nbij'
    (fun b : ℕ × ℕ => (min (siteShift Nx Ny (g.2 * (Nx - 1)) g.1 b.1)
        (siteShift Nx Ny (g.2 * (Nx - 1)) g.1 b.2),
      max (siteShift Nx Ny (g.2 * (Nx - 1)) g.1 b.1)
        (siteShift Nx Ny (g.2 * (Nx - 1)) g.1 b.2)))
    (fun b : ℕ × ℕ => (min (siteShift Nx Ny (Nx - g.2 * (Nx - 1) % Nx)
          (Ny - g.1 % Ny) b.1)
        (siteShift Nx Ny (Nx - g.2 * (Nx - 1) % Nx) (Ny - g.1 % Ny) b.2),
      max (siteShift Nx Ny (Nx - g.2 * (Nx - 1) % Nx) (Ny - g.1 % Ny) b.1)
        (siteShift Nx Ny (Nx - g.2 * (Nx - 1) % Nx) (Ny - g.1 % Ny) b.2)))
  · intro b hb
    rw [List.mem_toFinset] at hb ⊢
    exact bonds_shift_mem Nx Ny 1 _ _ hNx hNy b hb
  · intro b hb
    rw [List.mem_toFinset] at hb ⊢
    exact bonds_shift_mem Nx Ny 1 _ _ hNx hNy b hb
  · intro b hb
    rw [List.mem_toFinset] at hb
    obtain ⟨h12, h2N⟩ := generate_bonds_facts Nx Ny 1 hNx hNy b hb
    have h1N : b.1 < Nx * Ny := by omega
    rcases le_total (siteShift Nx Ny (g.2 * (Nx - 1)) g.1 b.1)
        (siteShift Nx Ny (g.2 * (Nx - 1)) g.1 b.2) with hle | hle
    · rw [min_eq_left hle, max_eq_right hle]
      show (min _ _, max _ _) = b
      rw [siteShift_inv_left Nx Ny _ _ b.1 hNx hNy h1N,
        siteShift_inv_left Nx Ny _ _ b.2 hNx hNy h2N,
        min_eq_left (le_of_lt h12), max_eq_right (le_of_lt h12)]
    · rw [min_eq_right hle, max_eq_left hle]
      show (min _ _, max _ _) = b
      rw [siteShift_inv_left Nx Ny _ _ b.1 hNx hNy h1N,
        siteShift_inv_left Nx Ny _ _ b.2 hNx hNy h2N,
        min_comm, max_comm,
        min_eq_left (le_of_lt h12), max_eq_right (le_of_lt h12)]
  · intro b hb
    rw [List.mem_toFinset] at hb
    obtain ⟨h12, h2N⟩ := generate_bonds_facts Nx Ny 1 hNx hNy b hb
    have h1N : b.1 < Nx * Ny := by omega
    rcases le_total (siteShift Nx Ny (Nx - g.2 * (Nx - 1) % Nx) (Ny - g.1 % Ny) b.1)
        (siteShift Nx Ny (Nx - g.2 * (Nx - 1) % Nx) (Ny - g.1 % Ny) b.2) with hle | hle
    · rw [min_eq_left hle, max_eq_right hle]
      show (min _ _, max _ _) = b
      rw [siteShift_inv_right Nx Ny _ _ b.1 hNx hNy h1N,
        siteShift_inv_right Nx Ny _ _ b.2 hNx hNy h2N,
        min_eq_left (le_of_lt h12), max_eq_right (le_of_lt h12)]
    · rw [min_eq_right hle, max_eq_left hle]
      show (min _ _, max _ _) = b
      rw [siteShift_inv_right Nx Ny _ _ b.1 hNx hNy h1N,
        siteShift_inv_right Nx Ny _ _ b.2 hNx hNy h2N,
        min_comm, max_comm,
        min_eq_left (le_of_lt h12), max_eq_right (le_of_lt h12)]
  · intro b hb
    rw [List.mem_toFinset] at hb
    obtain ⟨h12, h2N⟩ := generate_bonds_facts Nx Ny 1 hNx hNy b hb
    have h1N : b.1 < Nx * Ny := by omega
    dsimp only
    rcases le_total (siteShift Nx Ny (g.2 * (Nx - 1)) g.1 b.1)
        (siteShift Nx Ny (g.2 * (Nx - 1)) g.1 b.2) with hle | hle
    · rw [min_eq_left hle, max_eq_right hle,
        pmz_term_shift Nx Ny hNx hNy g x y b.1 b.2 hx hy h1N h2N,
        pmz_term_shift Nx Ny hNx hNy g x y b.2 b.1 hx hy h2N h1N]
    · rw [min_eq_right hle, max_eq_left hle,
        pmz_term_shift Nx Ny hNx hNy g x y b.1 b.2 hx hy h1N h2N,
        pmz_term_shift Nx Ny hNx hNy g x y b.2 b.1 hx hy h2N h1N]
      exact add_comm _ _

/-! ## The inverse translation and character conjugation -/

lemma mod_inv_inv (M m : ℕ) (hM : 0 < M) (hm : m < M) :
    (M - (M - m) % M) % M = m := by
  rcases Nat.eq_zero_or_pos m with h0 | hpos
  · subst h0
    rw [Nat.sub_zero, Nat.mod_self, Nat.sub_zero, Nat.mod_self]
  · have h1 : M - m < M := by omega
    rw [Nat.mod_eq_of_lt h1]
    have h2 : M - (M - m) = m := by omega
    rw [h2, Nat.mod_eq_of_lt hm]

lemma mod_add_inv (M m : ℕ) (hM : 0 < M) (hm : m < M) :
    (m + (M - m) % M) % M = 0 := by
  rcases Nat.eq_zero_or_pos m with h0 | hpos
  · subst h0
    rw [Nat.sub_zero, Nat.mod_self, Nat.add_zero, Nat.zero_mod]
  · have h1 : M - m < M := by omega
    rw [Nat.mod_eq_of_lt h1]
    have h2 : m + (M - m) = M := by omega
    rw [h2, Nat.mod_self]

lemma mem_transBox_iff (Nx Ny : ℕ) (g : ℕ × ℕ) :
    g ∈ transBox Nx Ny ↔ g.1 < Ny ∧ g.2 < Nx := by
  unfold transBox
  rw [Finset.mem_product, Finset.mem_range, Finset.mem_range]

lemma xchar_ne_zero (M : ℕ) (k : ℤ) (m : ℕ) : xchar M k m ≠ 0 := by
  intro h0
  have habs := xchar_abs M k m
  rw [h0] at habs
  simp at habs

lemma xchar_inv_conj (M : ℕ) (hM : 0 < M) (k : ℤ) (m : ℕ) (hm : m < M) :
    xchar M k ((M - m) % M) = (starRingEnd ℂ) (xchar M k m) := by
  have h1 : xchar M k ((M - m) % M) * xchar M k m = 1 := by
    rw [xchar_mod M hM k (M - m), ← xchar_add]
    have he : M - m + m = M := by omega
    have hcyc := xchar_cycle M hM k 1
    rw [Nat.mul_one] at hcyc
    rw [he, hcyc]
  have h2 : (starRingEnd ℂ) (xchar M k m) * xchar M k m = 1 := by
    rw [mul_comm, Complex.mul_conj]
    norm_cast
    rw [Complex.normSq_eq_abs, xchar_abs]
    norm_num
  have hz := xchar_ne_zero M k m
  calc xchar M k ((M - m) % M)
      = xchar M k ((M - m) % M) * (xchar M k m * (xchar M k m)⁻¹) := by
        rw [mul_inv_cancel₀ hz, mul_one]
    _ = (xchar M k ((M - m) % M) * xchar M k m) * (xchar M k m)⁻¹ := by ring
    _ = (xchar M k m)⁻¹ := by rw [h1, one_mul]
    _ = ((starRingEnd ℂ) (xchar M k m) * xchar M k m) * (xchar M k m)⁻¹ := by
        rw [h2, one_mul]
    _ = (starRingEnd ℂ) (xchar M k m) * (xchar M k m * (xchar M k m)⁻¹) := by ring
    _ = (starRingEnd ℂ) (xchar M k m) := by rw [mul_inv_cancel₀ hz, mul_one]

lemma phaseAt_inv (Nx Ny : ℕ) (kx ky : ℤ) (hNx : 0 < Nx) (hNy : 0 < Ny)
    (g : ℕ × ℕ) (hg1 : g.1 < Ny) (hg2 : g.2 < Nx) :
    phaseAt Nx Ny kx ky ((Ny - g.1) % Ny, (Nx - g.2) % Nx)
      = (starRingEnd ℂ) (phaseAt Nx Ny kx ky g) := by
  rw [phaseAt_eq, phaseAt_eq, map_mul]
  show xchar Ny ky ((Ny - g.1) % Ny) * xchar Nx kx ((Nx - g.2) % Nx) = _
  rw [xchar_inv_conj Ny hNy ky g.1 hg1, xchar_inv_conj Nx hNx kx g.2 hg2]

lemma act_g_inv_cancel (Nx Ny : ℕ) (hNx : 0 < Nx) (hNy : 0 < Ny) (g : ℕ × ℕ)
    (hg1 : g.1 < Ny) (hg2 : g.2 < Nx) (a : ℕ) (ha : a < 2 ^ (Nx * Ny)) :
    act Nx Ny g (act Nx Ny ((Ny - g.1) % Ny, (Nx - g.2) % Nx) a) = a := by
  rw [act_act Nx Ny g _ a hNx hNy ha]
  rw [act_mod Nx Ny _ a hNx hNy ha]
  have h1 : (g.1 + ((Ny - g.1) % Ny, (Nx - g.2) % Nx).1) % Ny = 0 := by
    show (g.1 + (Ny - g.1) % Ny) % Ny = 0
    exact mod_add_inv Ny g.1 hNy hg1
  have h2 : (g.2 + ((Ny - g.1) % Ny, (Nx - g.2) % Nx).2) % Nx = 0 := by
    show (g.2 + (Nx - g.2) % Nx) % Nx = 0
    exact mod_add_inv Nx g.2 hNx hg2
  rw [h1, h2]
  rfl

lemma box_sum_herm (Nx Ny : ℕ) (kx ky : ℤ) (hNx : 0 < Nx) (hNy : 0 < Ny)
    (A : ℕ → ℕ → ℂ) (ε : ℂ)
    (hconj : ∀ x y, (starRingEnd ℂ) (A x y) = ε * A y x)
    (hshift : ∀ g x y, x < 2 ^ (Nx * Ny) → y < 2 ^ (Nx * Ny) →
      A (act Nx Ny g x) (act Nx Ny g y) = A x y)
    (x y : ℕ) (hx : x < 2 ^ (Nx * Ny)) (hy : y < 2 ^ (Nx * Ny)) :
    (starRingEnd ℂ) (∑ g ∈ transBox Nx Ny,
        (starRingEnd ℂ) (phaseAt Nx Ny kx ky g) * A y (act Nx Ny g x))
      = ε * ∑ g ∈ transBox Nx Ny,
          (starRingEnd ℂ) (phaseAt Nx Ny kx ky g) * A x (act Nx Ny g y) := by
  rw [map_sum, Finset.mul_sum]
  apply Finset.sum_nbij'
    (fun g : ℕ × ℕ => ((Ny - g.1) % Ny, (Nx - g.2) % Nx))
    (fun g : ℕ × ℕ => ((Ny - g.1) % Ny, (Nx - g.2) % Nx))
  · intro g hg
    rw [mem_transBox_iff] at hg ⊢
    exact ⟨Nat.mod_lt _ hNy, Nat.mod_lt _ hNx⟩
  · intro g hg
    rw [mem_transBox_iff] at hg ⊢
    exact ⟨Nat.mod_lt _ hNy, Nat.mod_lt _ hNx⟩
  · intro g hg
    rw [mem_transBox_iff] at hg
    show ((Ny - (Ny - g.1) % Ny) % Ny, (Nx - (Nx - g.2) % Nx) % Nx) = g
    obtain ⟨h1, h2⟩ := hg
    have e1 : (Ny - (Ny - g.1) % Ny) % Ny = g.1 := mod_inv_inv Ny g.1 hNy h1
    have e2 : (Nx - (Nx - g.2) % Nx) % Nx = g.2 := mod_inv_inv Nx g.2 hNx h2
    rw [e1, e2]
  · intro g hg
    rw [mem_transBox_iff] at hg
    show ((Ny - (Ny - g.1) % Ny) % Ny, (Nx - (Nx - g.2) % Nx) % Nx) = g
    obtain ⟨h1, h2⟩ := hg
    have e1 : (Ny - (Ny - g.1) % Ny) % Ny = g.1 := mod_inv_inv Ny g.1 hNy h1
    have e2 : (Nx - (Nx - g.2) % Nx) % Nx = g.2 := mod_inv_inv Nx g.2 hNx h2
    rw [e1, e2]
  · intro g hg
    rw [mem_transBox_iff] at hg
    obtain ⟨h1, h2⟩ := hg
    have hYa : act Nx Ny ((Ny - g.1) % Ny, (Nx - g.2) % Nx) y < 2 ^ (Nx * Ny) :=
      act_mem Nx Ny _ y hNx hNy hy
    have hstep : A (act Nx Ny g x) y = A x (act Nx Ny ((Ny - g.1) % Ny, (Nx - g.2) % Nx) y) := by
      conv_lhs => rw [show y = act Nx Ny g (act Nx Ny ((Ny - g.1) % Ny, (Nx - g.2) % Nx) y)
        from (act_g_inv_cancel Nx Ny hNx hNy g h1 h2 y hy).symm]
      exact hshift g x _ hx hYa
    rw [map_mul, Complex.conj_conj, hconj y (act Nx Ny g x), hstep,
      phaseAt_inv Nx Ny kx ky hNx hNy g h1 h2, Complex.conj_conj]
    ring

/-! ## Symmetry of the normalization coefficients -/

lemma norm_sq_card (Nx Ny : ℕ) (kx ky : ℤ) (hNx : 0 < Nx) (hNy : 0 < Ny)
    (o : BlochFunc) (ho : o ∈ nonzero_states Nx Ny kx ky) :
    (o.keys.length : ℝ) * ((posSet Nx Ny o.lead o.lead).card : ℝ)
        = ((Nx * Ny : ℕ) : ℝ)
    ∧ _norm_coeff Nx Ny kx ky o ^ 2
        = (o.keys.length : ℝ) * ((posSet Nx Ny o.lead o.lead).card : ℝ) ^ 2 := by
  obtain ⟨hzms, hsurv⟩ := (mem_nonzero_iff Nx Ny kx ky o).mp ho
  obtain ⟨horb, hlt, _⟩ := zms_orbit_facts Nx Ny hNx hNy o hzms
  have hsurv2 : (1e-8 : ℝ)
      < _norm_coeff Nx Ny kx ky (find_T_invariant_set Nx Ny o.lead) := by
    rw [← horb]
    exact hsurv
  have htriv := (survives_iff Nx Ny o.lead kx ky hNx hNy hlt).mp hsurv2
  have hkeys : o.keys.length = (find_T_invariant_set Nx Ny o.lead).keys.length := by
    rw [← horb]
  constructor
  · rw [hkeys]
    exact_mod_cast congrArg (fun t : ℕ => (t : ℝ))
      (keys_mul_stab Nx Ny o.lead hNx hNy hlt)
  · have hN : _norm_coeff Nx Ny kx ky o
        = Real.sqrt (((find_T_invariant_set Nx Ny o.lead).keys.length : ℝ) *
            Complex.abs (∑ s ∈ posSet Nx Ny o.lead o.lead,
              phaseAt Nx Ny kx ky s) ^ 2) := by
      rw [horb]
      exact norm_coeff_eq Nx Ny o.lead kx ky hNx hNy hlt
    rw [hN, stabSum_of_trivial Nx Ny o.lead kx ky htriv, Complex.abs_natCast, hkeys]
    rw [Real.sq_sqrt (by positivity)]

lemma coeff_sym (Nx Ny : ℕ) (kx ky : ℤ) (hNx : 0 < Nx) (hNy : 0 < Ny)
    (i j : ℕ) (hi : i < (nonzero_states Nx Ny kx ky).length)
    (hj : j < (nonzero_states Nx Ny kx ky).length) :
    _coeff Nx Ny kx ky (ind_to_dec Nx Ny kx ky i) (ind_to_dec Nx Ny kx ky j)
        / ((posSet Nx Ny (ind_to_dec Nx Ny kx ky j).lead
            (ind_to_dec Nx Ny kx ky j).lead).card : ℝ)
      = _coeff Nx Ny kx ky (ind_to_dec Nx Ny kx ky j) (ind_to_dec Nx Ny kx ky i)
        / ((posSet Nx Ny (ind_to_dec Nx Ny kx ky i).lead
            (ind_to_dec Nx Ny kx ky i).lead).card : ℝ) := by
  have hoi := ind_to_dec_mem Nx Ny kx ky i hi
  have hoj := ind_to_dec_mem Nx Ny kx ky j hj
  have hNi : (0 : ℝ) < _norm_coeff Nx Ny kx ky (ind_to_dec Nx Ny kx ky i) := by
    have := ((mem_nonzero_iff Nx Ny kx ky _).mp hoi).2
    linarith
  have hNj : (0 : ℝ) < _norm_coeff Nx Ny kx ky (ind_to_dec Nx Ny kx ky j) := by
    have := ((mem_nonzero_iff Nx Ny kx ky _).mp hoj).2
    linarith
  have hci : (0 : ℝ) < ((posSet Nx Ny (ind_to_dec Nx Ny kx ky i).lead
      (ind_to_dec Nx Ny kx ky i).lead).card : ℝ) := by
    exact_mod_cast stab_card_pos Nx Ny _ hNx hNy
      (ind_lead_lt Nx Ny kx ky hNx hNy i hi)
  have hcj : (0 : ℝ) < ((posSet Nx Ny (ind_to_dec Nx Ny kx ky j).lead
      (ind_to_dec Nx Ny kx ky j).lead).card : ℝ) := by
    exact_mod_cast stab_card_pos Nx Ny _ hNx hNy
      (ind_lead_lt Nx Ny kx ky hNx hNy j hj)
  obtain ⟨hki, hsqi⟩ := norm_sq_card Nx Ny kx ky hNx hNy _ hoi
  obtain ⟨hkj, hsqj⟩ := norm_sq_card Nx Ny kx ky hNx hNy _ hoj
  have key : _norm_coeff Nx Ny kx ky (ind_to_dec Nx Ny kx ky j) ^ 2 *
        ((posSet Nx Ny (ind_to_dec Nx Ny kx ky i).lead
          (ind_to_dec Nx Ny kx ky i).lead).card : ℝ)
      = _norm_coeff Nx Ny kx ky (ind_to_dec Nx Ny kx ky i) ^ 2 *
        ((posSet Nx Ny (ind_to_dec Nx Ny kx ky j).lead
          (ind_to_dec Nx Ny kx ky j).lead).card : ℝ) := by
    rw [hsqj, hsqi]
    calc ((ind_to_dec Nx Ny kx ky j).keys.length : ℝ) *
          ((posSet Nx Ny (ind_to_dec Nx Ny kx ky j).lead
            (ind_to_dec Nx Ny kx ky j).lead).card : ℝ) ^ 2 *
          ((posSet Nx Ny (ind_to_dec Nx Ny kx ky i).lead
            (ind_to_dec Nx Ny kx ky i).lead).card : ℝ)
        = (((ind_to_dec Nx Ny kx ky j).keys.length : ℝ) *
            ((posSet Nx Ny (ind_to_dec Nx Ny kx ky j).lead
              (ind_to_dec Nx Ny kx ky j).lead).card : ℝ)) *
          (((posSet Nx Ny (ind_to_dec Nx Ny kx ky j).lead
              (ind_to_dec Nx Ny kx ky j).lead).card : ℝ) *
            ((posSet Nx Ny (ind_to_dec Nx Ny kx ky i).lead
              (ind_to_dec Nx Ny kx ky i).lead).card : ℝ)) := by ring
      _ = (((ind_to_dec Nx Ny kx ky i).keys.length : ℝ) *
            ((posSet Nx Ny (ind_to_dec Nx Ny kx ky i).lead
              (ind_to_dec Nx Ny kx ky i).lead).card : ℝ)) *
          (((posSet Nx Ny (ind_to_dec Nx Ny kx ky j).lead
              (ind_to_dec Nx Ny kx ky j).lead).card : ℝ) *
            ((posSet Nx Ny (ind_to_dec Nx Ny kx ky i).lead
              (ind_to_dec Nx Ny kx ky i).lead).card : ℝ)) := by rw [hkj, hki]
      _ = ((ind_to_dec Nx Ny kx ky i).keys.length : ℝ) *
          ((posSet Nx Ny (ind_to_dec Nx Ny kx ky i).lead
            (ind_to_dec Nx Ny kx ky i).lead).card : ℝ) ^ 2 *
          ((posSet Nx Ny (ind_to_dec Nx Ny kx ky j).lead
            (ind_to_dec Nx Ny kx ky j).lead).card : ℝ) := by ring
  unfold _coeff
  rw [div_div, div_div]
  rw [div_eq_div_iff (by positivity) (by positivity)]
  nlinarith [key]

lemma coeff_sym_C (Nx Ny : ℕ) (kx ky : ℤ) (hNx : 0 < Nx) (hNy : 0 < Ny)
    (i j : ℕ) (hi : i < (nonzero_states Nx Ny kx ky).length)
    (hj : j < (nonzero_states Nx Ny kx ky).length) :
    ((_coeff Nx Ny kx ky (ind_to_dec Nx Ny kx ky j)
        (ind_to_dec Nx Ny kx ky i) : ℝ) : ℂ) /
      ((posSet Nx Ny (ind_to_dec Nx Ny kx ky i).lead
        (ind_to_dec Nx Ny kx ky i).lead).card : ℂ)
    = ((_coeff Nx Ny kx ky (ind_to_dec Nx Ny kx ky i)
        (ind_to_dec Nx Ny kx ky j) : ℝ) : ℂ) /
      ((posSet Nx Ny (ind_to_dec Nx Ny kx ky j).lead
        (ind_to_dec Nx Ny kx ky j).lead).card : ℂ) := by
  have hr := coeff_sym Nx Ny kx ky hNx hNy i j hi hj
  have hrc := congrArg (fun t : ℝ => (t : ℂ)) hr
  push_cast at hrc
  exact hrc.symm

/-! ## Hermiticity of the reduced-basis component matrices -/

lemma H_z_matrix_herm (Nx Ny : ℕ) (kx ky : ℤ) (l i j : ℕ) :
    (starRingEnd ℂ) (H_z_matrix Nx Ny kx ky l j i) = H_z_matrix Nx Ny kx ky l i j := by
  unfold H_z_matrix
  by_cases h : i < (nonzero_states Nx Ny kx ky).length ∧ j = i
  · obtain ⟨hi, hji⟩ := h
    subst hji
    rw [if_pos ⟨hi, rfl⟩, Complex.conj_ofReal]
  · have hn : ¬(j < (nonzero_states Nx Ny kx ky).length ∧ i = j) := by
      intro hc
      exact h ⟨by rw [hc.2]; exact hc.1, hc.2.symm⟩
    rw [if_neg hn, if_neg h, map_zero]

lemma H_pm_matrix_herm (Nx Ny : ℕ) (kx ky : ℤ) (hNx : 0 < Nx) (hNy : 0 < Ny)
    (l i j : ℕ) :
    (starRingEnd ℂ) (H_pm_matrix Nx Ny kx ky l j i) = H_pm_matrix Nx Ny kx ky l i j := by
  unfold H_pm_matrix _offdiag_components
  by_cases h : i < (nonzero_states Nx Ny kx ky).length ∧
      j < (nonzero_states Nx Ny kx ky).length
  · rw [if_pos ⟨h.2, h.1⟩, if_pos h]
    obtain ⟨hi, hj⟩ := h
    rw [H_pm_entry Nx Ny kx ky hNx hNy j l i hj hi,
      H_pm_entry Nx Ny kx ky hNx hNy i l j hi hj, map_mul]
    have hbs := box_sum_herm Nx Ny kx ky hNx hNy (amp_pm Nx Ny l) 1
      (fun a b => by rw [amp_pm_conj Nx Ny l hNx hNy a b, one_mul])
      (fun g2 a b ha hb => amp_pm_shift Nx Ny l hNx hNy g2 a b ha hb)
      (ind_to_dec Nx Ny kx ky i).lead (ind_to_dec Nx Ny kx ky j).lead
      (ind_lead_lt Nx Ny kx ky hNx hNy i hi) (ind_lead_lt Nx Ny kx ky hNx hNy j hj)
    rw [hbs, one_mul]
    congr 1
    rw [map_div₀, Complex.conj_ofReal, Complex.conj_natCast]
    exact coeff_sym_C Nx Ny kx ky hNx hNy i j hi hj
  · rw [if_neg (fun hc => h ⟨hc.2, hc.1⟩), if_neg h, map_zero]

lemma H_ppmm_matrix_herm (Nx Ny : ℕ) (kx ky : ℤ) (hNx : 0 < Nx) (hNy : 0 < Ny)
    (i j : ℕ) :
    (starRingEnd ℂ) (H_ppmm_matrix Nx Ny kx ky j i) = H_ppmm_matrix Nx Ny kx ky i j := by
  unfold H_ppmm_matrix _offdiag_components
  by_cases h : i < (nonzero_states Nx Ny kx ky).length ∧
      j < (nonzero_states Nx Ny kx ky).length
  · rw [if_pos ⟨h.2, h.1⟩, if_pos h]
    obtain ⟨hi, hj⟩ := h
    rw [H_ppmm_entry Nx Ny kx ky hNx hNy j i hj hi,
      H_ppmm_entry Nx Ny kx ky hNx hNy i j hi hj, map_mul]
    have hbs := box_sum_herm Nx Ny kx ky hNx hNy (amp_ppmm Nx Ny) 1
      (fun a b => by rw [amp_ppmm_conj Nx Ny hNx hNy a b, one_mul])
      (fun g2 a b ha hb => amp_ppmm_shift Nx Ny hNx hNy g2 a b ha hb)
      (ind_to_dec Nx Ny kx ky i).lead (ind_to_dec Nx Ny kx ky j).lead
      (ind_lead_lt Nx Ny kx ky hNx hNy i hi) (ind_lead_lt Nx Ny kx ky hNx hNy j hj)
    rw [hbs, one_mul]
    congr 1
    rw [map_div₀, Complex.conj_ofReal, Complex.conj_natCast]
    exact coeff_sym_C Nx Ny kx ky hNx hNy i j hi hj
  · rw [if_neg (fun hc => h ⟨hc.2, hc.1⟩), if_neg h, map_zero]

lemma H_pmz_matrix_herm (Nx Ny : ℕ) (kx ky : ℤ) (hNx : 0 < Nx) (hNy : 0 < Ny)
    (i j : ℕ) :
    (starRingEnd ℂ) (H_pmz_matrix Nx Ny kx ky j i) = H_pmz_matrix Nx Ny kx ky i j := by
  unfold H_pmz_matrix _offdiag_components
  by_cases h : i < (nonzero_states Nx Ny kx ky).length ∧
      j < (nonzero_states Nx Ny kx ky).length
  · rw [if_pos ⟨h.2, h.1⟩, if_pos h]
    obtain ⟨hi, hj⟩ := h
    rw [H_pmz_entry Nx Ny kx ky hNx hNy j i hj hi,
      H_pmz_entry Nx Ny kx ky hNx hNy i j hi hj, map_mul, map_mul,
      Complex.conj_I]
    have hbs := box_sum_herm Nx Ny kx ky hNx hNy (amp_pmz Nx Ny) (-1)
      (fun a b => by rw [amp_pmz_conj Nx Ny hNx hNy a b, neg_one_mul])
      (fun g2 a b ha hb => amp_pmz_shift Nx Ny hNx hNy g2 a b ha hb)
      (ind_to_dec Nx Ny kx ky i).lead (ind_to_dec Nx Ny kx ky j).lead
      (ind_lead_lt Nx Ny kx ky hNx hNy i hi) (ind_lead_lt Nx Ny kx ky hNx hNy j hj)
    rw [hbs]
    rw [map_div₀, Complex.conj_ofReal, Complex.conj_natCast,
      coeff_sym_C Nx Ny kx ky hNx hNy i j hi hj]
    ring
  · rw [if_neg (fun hc => h ⟨hc.2, hc.1⟩), if_neg h, mul_zero, map_zero]

lemma hamiltonian_consv_k_herm (Nx Ny : ℕ) (kx ky : ℤ)
    (J_pm J_z J_ppmm J_pmz J2 J3 : ℝ) (hNx : 0 < Nx) (hNy : 0 < Ny) :
    ∀ M, hamiltonian_consv_k Nx Ny kx ky J_pm J_z J_ppmm J_pmz J2 J3
        = Except.ok M →
      ∀ i j, (starRingEnd ℂ) (M j i) = M i j := by
  intro M hM i j
  unfold hamiltonian_consv_k at hM
  dsimp only at hM
  by_cases hJ2 : J2 = 0
  · rw [if_pos hJ2] at hM
    rw [bindPure] at hM
    by_cases hJ3 : J3 = 0
    · rw [if_pos hJ3] at hM
      rw [bindPure] at hM
      have hMeq := (Except.ok.inj hM).symm
      subst hMeq
      simp only [map_add, map_mul, map_zero, Complex.conj_ofReal]
      rw [H_pm_matrix_herm Nx Ny kx ky hNx hNy 1 i j, H_z_matrix_herm Nx Ny kx ky 1 i j,
        H_ppmm_matrix_herm Nx Ny kx ky hNx hNy i j,
        H_pmz_matrix_herm Nx Ny kx ky hNx hNy i j]
    · rw [if_neg hJ3] at hM
      by_cases hpm : J_pm = 0
      · have hsd : safeDiv J_z J_pm = Except.error "ZeroDivisionError" := by
          unfold safeDiv
          rw [if_pos hpm]
        rw [hsd] at hM
        rw [bindErr] at hM
        exact absurd hM (by simp)
      · have hsd : safeDiv J_z J_pm = Except.ok (J_z / J_pm) := by
          unfold safeDiv
          rw [if_neg hpm]
        rw [hsd] at hM
        rw [bindOk] at hM
        dsimp only at hM
        rw [bindPure] at hM
        have hMeq := (Except.ok.inj hM).symm
        subst hMeq
        simp only [map_add, map_mul, map_zero, Complex.conj_ofReal]
        rw [H_pm_matrix_herm Nx Ny kx ky hNx hNy 1 i j, H_z_matrix_herm Nx Ny kx ky 1 i j,
          H_ppmm_matrix_herm Nx Ny kx ky hNx hNy i j,
          H_pmz_matrix_herm Nx Ny kx ky hNx hNy i j,
          H_pm_matrix_herm Nx Ny kx ky hNx hNy 3 i j, H_z_matrix_herm Nx Ny kx ky 3 i j]
  · rw [if_neg hJ2] at hM
    by_cases hpm : J_pm = 0
    · have hsd : safeDiv J_z J_pm = Except.error "ZeroDivisionError" := by
        unfold safeDiv
        rw [if_pos hpm]
      rw [hsd] at hM
      rw [bindErr] at hM
      exact absurd hM (by simp)
    · have hsd : safeDiv J_z J_pm = Except.ok (J_z / J_pm) := by
        unfold safeDiv
        rw [if_neg hpm]
      rw [hsd] at hM
      rw [bindOk] at hM
      rw [bindPure] at hM
      by_cases hJ3 : J3 = 0
      · rw [if_pos hJ3] at hM
        rw [bindPure] at hM
        have hMeq := (Except.ok.inj hM).symm
        subst hMeq
        simp only [map_add, map_mul, map_zero, Complex.conj_ofReal]
        rw [H_pm_matrix_herm Nx Ny kx ky hNx hNy 1 i j, H_z_matrix_herm Nx Ny kx ky 1 i j,
          H_ppmm_matrix_herm Nx Ny kx ky hNx hNy i j,
          H_pmz_matrix_herm Nx Ny kx ky hNx hNy i j,
          H_pm_matrix_herm Nx Ny kx ky hNx hNy 2 i j, H_z_matrix_herm Nx Ny kx ky 2 i j]
      · rw [if_neg hJ3] at hM
        rw [bindOk] at hM
        dsimp only at hM
        rw [bindPure] at hM
        have hMeq := (Except.ok.inj hM).symm
        subst hMeq
        simp only [map_add, map_mul, map_zero, Complex.conj_ofReal]
        rw [H_pm_matrix_herm Nx Ny kx ky hNx hNy 1 i j, H_z_matrix_herm Nx Ny kx ky 1 i j,
          H_ppmm_matrix_herm Nx Ny kx ky hNx hNy i j,
          H_pmz_matrix_herm Nx Ny kx ky hNx hNy i j,
          H_pm_matrix_herm Nx Ny kx ky hNx hNy 2 i j, H_z_matrix_herm Nx Ny kx ky 2 i j,
          H_pm_matrix_herm Nx Ny kx ky hNx hNy 3 i j, H_z_matrix_herm Nx Ny kx ky 3 i j]

/-- C1: for every lattice `(Nx, Ny)`, momentum sector `(kx, ky)` and
coupling constants not all zero, any Hamiltonian matrix returned
normally by `hamiltonian_consv_k` equals its own conjugate transpose,
and likewise for the brute-force `hamiltonian_dp` (here proved exactly,
entry by entry, rather than within floating tolerance). -/
theorem C1_hermiticity (Nx Ny : ℕ) (kx ky : ℤ)
    (J_pm J_z J_ppmm J_pmz J2 J3 : ℝ) (hNx : 0 < Nx) (hNy : 0 < Ny)
    (hnz : ¬(J_pm = 0 ∧ J_z = 0 ∧ J_ppmm = 0 ∧ J_pmz = 0 ∧ J2 = 0 ∧ J3 = 0)) :
    (∀ M, hamiltonian_consv_k Nx Ny kx ky J_pm J_z J_ppmm J_pmz J2 J3
        = Except.ok M → ∀ i j, (starRingEnd ℂ) (M j i) = M i j) ∧
    (∀ M, hamiltonian_dp Nx Ny J_pm J_z J_ppmm J_pmz J2 J3
        = Except.ok M → ∀ x y, (starRingEnd ℂ) (M y x) = M x y) :=
  ⟨hamiltonian_consv_k_herm Nx Ny kx ky J_pm J_z J_ppmm J_pmz J2 J3 hNx hNy,
   hamiltonian_dp_herm Nx Ny J_pm J_z J_ppmm J_pmz J2 J3 hNx hNy⟩

/-- Witness for C1 at the `2 × 2` lattice in the zero-momentum sector
with couplings `(1, 1, 1, 1, 0, 0)`. -/
theorem C1_hermiticity_witness :
    (∀ M, hamiltonian_consv_k 2 2 0 0 1 1 1 1 0 0
        = Except.ok M → ∀ i j, (starRingEnd ℂ) (M j i) = M i j) ∧
    (∀ M, hamiltonian_dp 2 2 1 1 1 1 0 0
        = Except.ok M → ∀ x y, (starRingEnd ℂ) (M y x) = M x y) :=
  C1_hermiticity 2 2 0 0 1 1 1 1 0 0 (by norm_num) (by norm_num) (by norm_num)

end Spinsys
